import Mathlib

/-!
# Fast Marching Method of `slsm`: a shallow embedding

The embedding follows `src/src/FastMarchingMethod.cpp` and `src/src/Mesh.h`.

* `double` values are elements of an arbitrary linear ordered field `α`
  (exact arithmetic); the square root and the two constants `maxDouble`,
  `doubleEpsilon` (declared in a header that is not part of the sources)
  are parameters, collected in `Numerics`.
* `std::vector` objects are total functions from indices.
* `unsigned int` neighbour entries of the mesh are natural numbers; the
  solver reads them into an `int`, which is `toInt`, and compares with `-1`.
* `exit(EXIT_FAILURE)` after a failed `check` is one of the outcomes
  `Outcome.noFrozenNodes`, `Outcome.divideByZero`; the main loop of `solve`
  takes a fuel argument and `Outcome.timeout` means the fuel ran out.
-/

namespace SLSM

/-! ## Numbers -/

/-- The numerical parameters of the solver: the square-root function and the
constants `maxDouble` and `doubleEpsilon` used by `FastMarchingMethod.cpp`. -/
structure Numerics (α : Type) where
  /-- The function `sqrt` of the C library. -/
  sqrt : α → α
  /-- The constant `maxDouble`. -/
  maxDouble : α
  /-- The constant `doubleEpsilon`. -/
  doubleEpsilon : α

/-- The square root is exact: on non-negative arguments it returns the
non-negative number whose square is the argument. -/
def Numerics.Exact {α : Type} [LinearOrderedField α] (C : Numerics α) : Prop :=
  ∀ x : α, 0 ≤ x → 0 ≤ C.sqrt x ∧ C.sqrt x * C.sqrt x = x

/-- Rational instance of the parameters: `Rat.sqrt` (exact on squares of
rationals), the largest finite binary64 number and the binary64 machine
epsilon. -/
def ratNumerics : Numerics ℚ where
  sqrt := Rat.sqrt
  maxDouble := (2 ^ 53 - 1) * 2 ^ 971
  doubleEpsilon := 1 / 2 ^ 52

/-! ## Machine integers -/

/-- The value of `int n = u` for an `unsigned int` value `u` (32 bits, two's
complement). -/
def toInt (u : Nat) : Int :=
  if u % 2 ^ 32 < 2 ^ 31 then ((u % 2 ^ 32 : Nat) : Int) else ((u % 2 ^ 32 : Nat) : Int) - 2 ^ 32

/-- The position addressed by `v[n]` for an `int` subscript `n` (conversion
to a 64-bit `size_t`). -/
def idx (n : Int) : Nat := (n % 2 ^ 64).toNat

/-- The value of an `unsigned int` parameter that receives the `int` value `n`. -/
def toUInt (n : Int) : Nat := (n % 2 ^ 32).toNat

/-- The bit pattern `(unsigned int) -1`, which `toInt` reads back as `-1`. -/
def noNeighbour : Nat := 4294967295

/-! ## Mesh -/

/-- The part of `Mesh` (Mesh.h) that the solver reads: the number of nodes and
`nodes[i].neighbours[j]`, ordered left, right, down, up. -/
structure Mesh where
  /-- The field `nNodes`. -/
  nNodes : Nat
  /-- The entry `nodes[i].neighbours[j]`. -/
  neighbours : Nat → Nat → Nat

/-- A mesh in the convention of `FastMarchingMethod.cpp`: every neighbour entry
of a node is the index of a node or the pattern that reads as `-1`. -/
def Mesh.Valid (m : Mesh) : Prop :=
  m.nNodes < 2 ^ 31 ∧
  ∀ i, i < m.nNodes → ∀ j, j < 4 → m.neighbours i j = noNeighbour ∨ m.neighbours i j < m.nNodes

/-! ## Node status -/

/-- Modelled from the spec: the enumeration `FMM_NodeStatus` is declared in
`FastMarchingMethod.h`, which is not part of the sources. The four values are
those of the spec (section 3). -/
inductive FMM_NodeStatus where
  | NONE
  | FROZEN
  | TRIAL
  | MASKED
  deriving DecidableEq, Repr

/-- Modelled from the spec: the bit patterns of the four status values
(section 9: a bit-flag enumeration); `NONE` is zero and the other three are
distinct single bits. -/
def FMM_NodeStatus.bits : FMM_NodeStatus → Nat
  | .NONE => 0
  | .FROZEN => 1
  | .TRIAL => 2
  | .MASKED => 4

/-- The test `status & flag` of the source, as a boolean. -/
def FMM_NodeStatus.test (s f : FMM_NodeStatus) : Bool :=
  (s.bits &&& f.bits) != 0

/-! ## Heap -/

/-- One entry of the heap: its handle, the node address and the key. -/
structure HeapEntry (α : Type) where
  /-- The handle returned by `push`. -/
  handle : Nat
  /-- The node index. -/
  address : Nat
  /-- The key (unsigned distance). -/
  key : α

/-- Modelled from the spec: the class `Heap` (Heap.h, Heap.cpp) is not part of
the sources. Section 4.2 describes a min-heap over (node index, key) pairs
with `push`, `peek`, `pop`, `set` by handle and `empty`. The model keeps the
live entries in insertion order; a handle is the number of pushes made before
the entry was inserted, so it is never reused. -/
structure Heap (α : Type) where
  /-- The maximum size given to the constructor. -/
  capacity : Nat
  /-- The live entries, oldest first. -/
  entries : List (HeapEntry α)
  /-- The number of pushes so far. -/
  nextHandle : Nat

/-- Modelled from the spec: the constructor `Heap(maxHeapSize, isTest)`. -/
def Heap.new {α : Type} (maxHeapSize : Nat) : Heap α :=
  { capacity := maxHeapSize, entries := [], nextHandle := 0 }

/-- Modelled from the spec: `empty() -> bool`. -/
def Heap.empty {α : Type} (h : Heap α) : Bool := h.entries.isEmpty

/-- Modelled from the spec: `push(node, key) -> handle`. -/
def Heap.push {α : Type} (h : Heap α) (address : Nat) (key : α) : Heap α × Nat :=
  ({ h with entries := h.entries ++ [⟨h.nextHandle, address, key⟩],
            nextHandle := h.nextHandle + 1 }, h.nextHandle)

/-- The first entry of smallest key among `e` and the entries of `l`. -/
def minEntry {α : Type} [LinearOrderedField α] (e : HeapEntry α) : List (HeapEntry α) → HeapEntry α
  | [] => e
  | x :: l => if x.key < e.key then minEntry x l else minEntry e l

/-- Modelled from the spec: the entry that `peek` and `pop` look at, an entry
of minimum key (the oldest one when several share the minimum). -/
def Heap.top {α : Type} [LinearOrderedField α] (h : Heap α) : Option (HeapEntry α) :=
  match h.entries with
  | [] => none
  | e :: l => some (minEntry e l)

/-- Modelled from the spec: `peek() -> key`, the minimum key without removal
(zero on an empty heap, where the spec leaves it undefined). -/
def Heap.peek {α : Type} [LinearOrderedField α] (h : Heap α) : α :=
  match h.top with
  | none => 0
  | some e => e.key

/-- Modelled from the spec: `pop() -> (node, key)`, remove and return the
minimum. On an empty heap nothing is removed. -/
def Heap.pop {α : Type} [LinearOrderedField α] (h : Heap α) : Heap α × Nat × α :=
  match h.top with
  | none => (h, 0, 0)
  | some e => ({ h with entries := h.entries.filter (fun x => x.handle != e.handle) },
               e.address, e.key)

/-- Modelled from the spec: `set(handle, newKey)`, update the key of the entry
with this handle in place. -/
def Heap.set {α : Type} (h : Heap α) (handle : Nat) (newKey : α) : Heap α :=
  { h with entries := h.entries.map (fun x => if x.handle = handle then { x with key := newKey } else x) }

/-! ## Solver state -/

/-- The data members of `FastMarchingMethod` together with the two caller
owned arrays it points to. `popLog` is a ghost record of the pops made by
`solve` (address and key, oldest first); the source has no such member. -/
structure FastMarchingMethod (α : Type) where
  /-- The flag `isVelocity`. -/
  isVelocity : Bool
  /-- The array `*signedDistance`. -/
  signedDistance : Nat → α
  /-- The array `*velocity`. -/
  velocity : Nat → α
  /-- The array `nodeStatus`. -/
  nodeStatus : Nat → FMM_NodeStatus
  /-- The array `signedDistanceCopy`. -/
  signedDistanceCopy : Nat → α
  /-- The array `velocityCopy`. -/
  velocityCopy : Nat → α
  /-- The object `*heap`. -/
  heap : Heap α
  /-- The array `heapPtr`. -/
  heapPtr : Nat → Nat
  /-- Ghost: the pops of `solve`, oldest first. -/
  popLog : List (Nat × α)

/-- The ways a call can end. -/
inductive Outcome (σ : Type) where
  /-- Normal return with the new state. -/
  | ok : σ → Outcome σ
  /-- The check "There are no frozen nodes!" failed. -/
  | noFrozenNodes : Outcome σ
  /-- The check "Divide by zero error." failed. -/
  | divideByZero : Outcome σ
  /-- The fuel of the main loop ran out. -/
  | timeout : Outcome σ

/-- Sequencing of calls that may end the process. -/
def Outcome.bind {σ τ : Type} : Outcome σ → (σ → Outcome τ) → Outcome τ
  | .ok s, f => f s
  | .noFrozenNodes, _ => .noFrozenNodes
  | .divideByZero, _ => .divideByZero
  | .timeout, _ => .timeout

section Solver

variable {α : Type} [LinearOrderedField α]

/-! ## updateNode and solveQuadratic -/

/-- The function `solveQuadratic`. -/
def solveQuadratic (C : Numerics α) (s : FastMarchingMethod α) (node : Nat) (a b c : α) : α :=
  let c := c - 1
  let det := b * b - 4 * a * c
  if det > 0 then
    let r0 := (-b + C.sqrt det) / (2 * a)
    let r1 := (-b - C.sqrt det) / (2 * a)
    if s.signedDistanceCopy node > C.doubleEpsilon then r0 else r1
  else 0

/-- One pass of the loop over directions in `updateNode` for the neighbour
slot `index`: `d` holds `dist1` and `dist2` before the pass, the result holds
them after it. -/
def updateDirection (mesh : Mesh) (s : FastMarchingMethod α) (node : Nat) (d : α × α)
    (index : Nat) : α × α :=
  let n1 := toInt (mesh.neighbours node index)
  if n1 ≠ -1 then
    if (s.nodeStatus (idx n1)).test .FROZEN then
      if s.signedDistance (idx n1) < d.1 then
        let dist1 := s.signedDistance (idx n1)
        let n2 := toInt (mesh.neighbours (idx n1) index)
        if n2 ≠ -1 then
          if (s.nodeStatus (idx n2)).test .FROZEN then
            if (s.signedDistance (idx n2) ≤ dist1 ∧ dist1 ≥ 0) ∨
                (s.signedDistance (idx n2) ≥ dist1 ∧ dist1 ≤ 0) then
              (dist1, s.signedDistance (idx n2))
            else (dist1, d.2)
          else (dist1, d.2)
        else (dist1, d.2)
      else d
    else d
  else d

/-- The values of `dist1` and `dist2` after the loop over the two directions
of dimension `i` in `updateNode`. -/
def axisDists (C : Numerics α) (mesh : Mesh) (s : FastMarchingMethod α) (node i : Nat) : α × α :=
  updateDirection mesh s node
    (updateDirection mesh s node (C.maxDouble, C.maxDouble) (2 * i)) (2 * i + 1)

/-- The update of the coefficients `a`, `b`, `c` at the end of one dimension
in `updateNode`, for the values `d` of `dist1` and `dist2`. -/
def addAxis (C : Numerics α) (abc : α × α × α) (d : α × α) : α × α × α :=
  if d.2 < C.maxDouble then
    let tp := (1 / 3) * (4 * d.1 - d.2)
    (abc.1 + 9 / 4, abc.2.1 - 2 * (9 / 4) * tp, abc.2.2 + (9 / 4) * tp * tp)
  else if d.1 < C.maxDouble then
    (abc.1 + 1, abc.2.1 - 2 * d.1, abc.2.2 + d.1 * d.1)
  else abc

/-- The coefficients `a`, `b`, `c` that `updateNode` passes to
`solveQuadratic`. -/
def stencilCoeffs (C : Numerics α) (mesh : Mesh) (s : FastMarchingMethod α) (node : Nat) :
    α × α × α :=
  addAxis C (addAxis C (0, 0, 0) (axisDists C mesh s node 0)) (axisDists C mesh s node 1)

/-- The function `updateNode`. -/
def updateNode (C : Numerics α) (mesh : Mesh) (s : FastMarchingMethod α) (node : Nat) : α :=
  let abc := stencilCoeffs C mesh s node
  solveQuadratic C s node abc.1 abc.2.1 abc.2.2

/-! ## initialiseFrozen -/

/-- The body of the first loop of `initialiseFrozen` for node `i`; the second
component is the counter `nFrozen`. -/
def zeroPassStep (sn : FastMarchingMethod α × Nat) (i : Nat) : FastMarchingMethod α × Nat :=
  let s := sn.1
  let s1 := { s with signedDistanceCopy := Function.update s.signedDistanceCopy i (s.signedDistance i) }
  let s2 := if s1.isVelocity then
      { s1 with velocityCopy := Function.update s1.velocityCopy i (s1.velocity i) }
    else s1
  if s2.nodeStatus i ≠ .MASKED then
    if s2.signedDistanceCopy i = 0 then
      ({ s2 with nodeStatus := Function.update s2.nodeStatus i .FROZEN }, sn.2 + 1)
    else (s2, sn.2)
  else (s2, sn.2)

/-- The first loop of `initialiseFrozen`. -/
def zeroPass (mesh : Mesh) (s : FastMarchingMethod α) : FastMarchingMethod α × Nat :=
  (List.range mesh.nNodes).foldl zeroPassStep (s, 0)

/-- The local variables `isBorder`, `dist[2]` and `vel[2]` of the second loop
of `initialiseFrozen`. -/
structure Crossing (α : Type) where
  /-- The flag `isBorder`. -/
  isBorder : Bool
  /-- The array `dist`. -/
  dist : Nat → α
  /-- The array `vel`. -/
  vel : Nat → α

/-- The body of the loop over the four neighbours in `initialiseFrozen`, for
node `i` and neighbour slot `j`. The product of the sign test and the quotient
`d` are those of the field `α` (exact arithmetic): the underflow of a binary64
product to zero and the rounding of a binary64 quotient to 0 or 1 have no
counterpart in this model. -/
def crossingStep (mesh : Mesh) (s : FastMarchingMethod α) (i : Nat) (c : Crossing α) (j : Nat) :
    Crossing α :=
  let neighbour := toInt (mesh.neighbours i j)
  if neighbour ≠ -1 then
    if s.signedDistanceCopy i * s.signedDistanceCopy (idx neighbour) < 0 then
      let d := s.signedDistanceCopy i / (s.signedDistanceCopy i - s.signedDistanceCopy (idx neighbour))
      let dim := if j < 2 then 0 else 1
      if c.dist dim = 0 ∨ c.dist dim > d then
        { isBorder := true
          dist := Function.update c.dist dim d
          vel := if s.isVelocity then
              Function.update c.vel dim
                (s.velocityCopy i + d * (s.velocityCopy (idx neighbour) - s.velocityCopy i))
            else c.vel }
      else { c with isBorder := true }
    else c
  else c

/-- The values of `isBorder`, `dist` and `vel` after the loop over the four
neighbours of node `i`. -/
def crossings (mesh : Mesh) (s : FastMarchingMethod α) (i : Nat) : Crossing α :=
  (List.range 4).foldl (crossingStep mesh s i) ⟨false, fun _ => 0, fun _ => 0⟩

/-- The value of `distSum` after the loop "Use Pythag. to calculate distance". -/
def distSum (c : Crossing α) : α :=
  (List.range 2).foldl (fun acc j => if c.dist j > 0 then acc + 1 / (c.dist j * c.dist j) else acc) 0

/-- The values of `numerator` and `denominator` in `initialiseFrozen`. -/
def crossingWeights (c : Crossing α) : α × α :=
  (List.range 2).foldl (fun nd j =>
    if c.dist j ≠ 0 then
      (nd.1 + c.vel j / (c.dist j * c.dist j), nd.2 + 1 / (c.dist j * c.dist j))
    else nd) (0, 0)

/-- The body of the second loop of `initialiseFrozen` for node `i`; the second
component is the counter `nFrozen`. -/
def borderStep (C : Numerics α) (mesh : Mesh) (sn : FastMarchingMethod α × Nat) (i : Nat) :
    Outcome (FastMarchingMethod α × Nat) :=
  let s := sn.1
  if s.nodeStatus i = .NONE then
    let c := crossings mesh s i
    if c.isBorder then
      let sum := distSum c
      let s1 := if s.signedDistanceCopy i < 0 then
          { s with signedDistance := Function.update s.signedDistance i (-C.sqrt (1 / sum)) }
        else { s with signedDistance := Function.update s.signedDistance i (C.sqrt (1 / sum)) }
      let s2 := { s1 with nodeStatus := Function.update s1.nodeStatus i .FROZEN }
      if s2.isVelocity then
        let nd := crossingWeights c
        if nd.2 ≠ 0 then
          .ok ({ s2 with velocity := Function.update s2.velocity i (nd.1 / nd.2) }, sn.2 + 1)
        else .divideByZero
      else .ok (s2, sn.2 + 1)
    else .ok sn
  else .ok sn

/-- A loop whose body may end the process. -/
def forM {σ : Type} (f : σ → Nat → Outcome σ) : List Nat → σ → Outcome σ
  | [], s => .ok s
  | i :: l, s => (f s i).bind (forM f l)

/-- The function `initialiseFrozen`. The counter `nFrozen` is not reduced
modulo `2 ^ 32`: it never exceeds `nNodes`, itself an `unsigned int`. -/
def initialiseFrozen (C : Numerics α) (mesh : Mesh) (s : FastMarchingMethod α) :
    Outcome (FastMarchingMethod α) :=
  (forM (borderStep C mesh) (List.range mesh.nNodes) (zeroPass mesh s)).bind fun sn =>
    if sn.2 > 0 then .ok sn.1 else .noFrozenNodes

/-! ## initialiseHeap and initialiseTrial -/

/-- The function `initialiseHeap`. -/
def initialiseHeap (mesh : Mesh) (s : FastMarchingMethod α) : FastMarchingMethod α :=
  let maxHeapSize := (List.range mesh.nNodes).foldl
    (fun n i => if s.nodeStatus i = .NONE then n + 1 else n) 0
  { s with heap := Heap.new maxHeapSize }

/-- The body of the loop over the neighbours in `initialiseTrial`, for node
`i` and neighbour slot `j`. -/
def trialStep (C : Numerics α) (mesh : Mesh) (i : Nat) (s : FastMarchingMethod α) (j : Nat) :
    FastMarchingMethod α :=
  let neighbour := toInt (mesh.neighbours i j)
  if neighbour ≠ -1 then
    if (s.nodeStatus (idx neighbour)).test .FROZEN then
      if s.nodeStatus i = .NONE then
        let s1 := { s with nodeStatus := Function.update s.nodeStatus i .TRIAL }
        let s2 := { s1 with signedDistance := Function.update s1.signedDistance i (updateNode C mesh s1 i) }
        let hp := s2.heap.push i |s2.signedDistance i|
        { s2 with heap := hp.1, heapPtr := Function.update s2.heapPtr i hp.2 }
      else s
    else s
  else s

/-- The body of the outer loop of `initialiseTrial` for node `i`. -/
def trialNode (C : Numerics α) (mesh : Mesh) (s : FastMarchingMethod α) (i : Nat) :
    FastMarchingMethod α :=
  if s.nodeStatus i = .NONE then (List.range 4).foldl (trialStep C mesh i) s else s

/-- The function `initialiseTrial`. -/
def initialiseTrial (C : Numerics α) (mesh : Mesh) (s : FastMarchingMethod α) :
    FastMarchingMethod α :=
  (List.range mesh.nNodes).foldl (trialNode C mesh) s

/-! ## finaliseVelocity -/

/-- The body of the loop over the neighbours in `finaliseVelocity`; the pair
holds the arrays `dist` and `vel`. -/
def velocityStep (mesh : Mesh) (s : FastMarchingMethod α) (node : Nat)
    (dv : (Nat → α) × (Nat → α)) (i : Nat) : (Nat → α) × (Nat → α) :=
  let dim := if i < 2 then 0 else 1
  let neighbour := toInt (mesh.neighbours node i)
  if neighbour ≠ -1 then
    if (s.nodeStatus (idx neighbour)).test .FROZEN then
      let d := s.signedDistance node - s.signedDistance (idx neighbour)
      if dv.1 dim = 0 ∨ dv.1 dim > d then
        (Function.update dv.1 dim d, Function.update dv.2 dim (s.velocity (idx neighbour)))
      else dv
    else dv
  else dv

/-- The function `finaliseVelocity`. -/
def finaliseVelocity (mesh : Mesh) (s : FastMarchingMethod α) (node : Nat) :
    Outcome (FastMarchingMethod α) :=
  let dv := (List.range 4).foldl (velocityStep mesh s node) (fun _ => 0, fun _ => 0)
  let nd := (List.range 2).foldl
    (fun nd i => (nd.1 + |dv.1 i| * dv.2 i, nd.2 + |dv.1 i|)) ((0 : α), (0 : α))
  if nd.2 ≠ 0 then
    .ok { s with velocity := Function.update s.velocity node (nd.1 / nd.2) }
  else .divideByZero

/-! ## solve -/

/-- The statements of `solve` that follow a pop of `(addr, value)`: mark the
node as frozen, set its final velocity, append it to `toFreeze`. -/
def freeze (mesh : Mesh) (s : FastMarchingMethod α) (toFreeze : List Nat) (addr : Nat) :
    Outcome (FastMarchingMethod α × List Nat) :=
  let s1 := { s with nodeStatus := Function.update s.nodeStatus addr .FROZEN }
  if s1.isVelocity then
    (finaliseVelocity mesh s1 addr).bind fun s2 => .ok (s2, toFreeze ++ [addr])
  else .ok (s1, toFreeze ++ [addr])

/-- The statement `heap->pop(addr, value)`, with the ghost record of the pop. -/
def popHeap (s : FastMarchingMethod α) : FastMarchingMethod α × Nat × α :=
  let r := s.heap.pop
  ({ s with heap := r.1, popLog := s.popLog ++ [(r.2.1, r.2.2)] }, r.2.1, r.2.2)

/-- The loop `while (!isDone)` of `solve`, which pops the entries whose key
equals `value`. The first argument bounds the number of passes; `solveRound`
calls it with the size of the heap, and every pass but the last pops an entry. -/
def popTies (mesh : Mesh) (value : α) :
    Nat → FastMarchingMethod α × List Nat → Outcome (FastMarchingMethod α × List Nat)
  | 0, st => .ok st
  | n + 1, st =>
    if !st.1.heap.empty && value == st.1.heap.peek then
      let p := popHeap st.1
      (freeze mesh p.1 st.2 p.2.1).bind (popTies mesh value n)
    else .ok st

/-- The body of the loop over the neighbours of a frozen node in `solve`, for
the frozen node `addr` and neighbour slot `j`. -/
def relax (C : Numerics α) (mesh : Mesh) (addr : Nat) (s : FastMarchingMethod α) (j : Nat) :
    FastMarchingMethod α :=
  let naddr := toInt (mesh.neighbours addr j)
  if naddr ≠ -1 then
    if s.nodeStatus (idx naddr) ≠ .FROZEN then
      let d := updateNode C mesh s (toUInt naddr)
      if d ≠ 0 then
        let s1 := { s with signedDistance := Function.update s.signedDistance (idx naddr) d }
        if (s1.nodeStatus (idx naddr)).test .TRIAL then
          { s1 with heap := s1.heap.set (s1.heapPtr (idx naddr)) |d| }
        else if s1.nodeStatus (idx naddr) = .NONE then
          let s2 := { s1 with nodeStatus := Function.update s1.nodeStatus (idx naddr) .TRIAL }
          let hp := s2.heap.push (toUInt naddr) |d|
          { s2 with heap := hp.1, heapPtr := Function.update s2.heapPtr (idx naddr) hp.2 }
        else s1
      else s
    else
      let naddr := toInt (mesh.neighbours (idx naddr) j)
      if naddr ≠ -1 then
        if (s.nodeStatus (idx naddr)).test .TRIAL then
          let d := updateNode C mesh s (toUInt naddr)
          if d ≠ 0 then
            let s1 := { s with signedDistance := Function.update s.signedDistance (idx naddr) d }
            { s1 with heap := s1.heap.set (s1.heapPtr (idx naddr)) |d| }
          else s
        else s
      else s
  else s

/-- The loop "over all frozen nodes" of `solve`. -/
def relaxAll (C : Numerics α) (mesh : Mesh) (toFreeze : List Nat) (s : FastMarchingMethod α) :
    FastMarchingMethod α :=
  toFreeze.foldl (fun s addr => (List.range 4).foldl (relax C mesh addr) s) s

/-- One pass of the main loop of `solve`, entered with a non-empty heap. -/
def solveRound (C : Numerics α) (mesh : Mesh) (s : FastMarchingMethod α) :
    Outcome (FastMarchingMethod α) :=
  let p := popHeap s
  ((freeze mesh p.1 [] p.2.1).bind (popTies mesh p.2.2 p.1.heap.entries.length)).bind
    fun st => .ok (relaxAll C mesh st.2 st.1)

/-- The function `solve`; the first argument bounds the number of passes of
the main loop. -/
def solve (C : Numerics α) (mesh : Mesh) : Nat → FastMarchingMethod α → Outcome (FastMarchingMethod α)
  | 0, s => if s.heap.empty then .ok s else .timeout
  | n + 1, s => if s.heap.empty then .ok s else (solveRound C mesh s).bind (solve C mesh n)

/-! ## march -/

/-- The four calls shared by the two overloads of `march`. -/
def marchBody (C : Numerics α) (mesh : Mesh) (fuel : Nat) (s : FastMarchingMethod α) :
    Outcome (FastMarchingMethod α) :=
  (initialiseFrozen C mesh s).bind fun s1 =>
    solve C mesh fuel (initialiseTrial C mesh (initialiseHeap mesh s1))

/-- The function `march(signedDistance_)`, called on the solver state `s`. -/
def march (C : Numerics α) (mesh : Mesh) (fuel : Nat) (s : FastMarchingMethod α)
    (signedDistance_ : Nat → α) : Outcome (FastMarchingMethod α) :=
  marchBody C mesh fuel
    { s with signedDistance := signedDistance_, isVelocity := false, popLog := [] }

/-- The function `march(signedDistance_, velocity_)`, called on the solver
state `s`. -/
def marchVelocity (C : Numerics α) (mesh : Mesh) (fuel : Nat) (s : FastMarchingMethod α)
    (signedDistance_ velocity_ : Nat → α) : Outcome (FastMarchingMethod α) :=
  marchBody C mesh fuel
    { s with signedDistance := signedDistance_, velocity := velocity_, isVelocity := true,
             popLog := [] }

/-- The state left by the constructor `FastMarchingMethod(mesh_, isTest_)`:
no heap yet, every status zero (`NONE`). The arrays it does not fill are
given zeros. -/
def FastMarchingMethod.new : FastMarchingMethod α where
  isVelocity := false
  signedDistance := fun _ => 0
  velocity := fun _ => 0
  nodeStatus := fun _ => .NONE
  signedDistanceCopy := fun _ => 0
  velocityCopy := fun _ => 0
  heap := Heap.new 0
  heapPtr := fun _ => 0
  popLog := []

end Solver

/-! ## Grids and concrete inputs -/

/-- Modelled from the spec: the constructor of `Mesh` (Mesh.cpp) is not part of
the sources. Section 4.1: `(width + 1) * (height + 1)` nodes, numbered row by
row from the bottom left, neighbours ordered left, right, down, up. `outside`
is the entry stored for a direction that leaves the domain: `Mesh.h` documents
`nNodes`, while `FastMarchingMethod.cpp` tests the entry against `-1`, which is
the entry `noNeighbour`. -/
def gridMesh (outside width height : Nat) : Mesh where
  nNodes := (width + 1) * (height + 1)
  neighbours := fun i j =>
    match j with
    | 0 => if i % (width + 1) = 0 then outside else i - 1
    | 1 => if i % (width + 1) = width then outside else i + 1
    | 2 => if i / (width + 1) = 0 then outside else i - (width + 1)
    | _ => if i / (width + 1) = height then outside else i + (width + 1)

/-- The array holding the listed values (zero past the end). -/
def fieldOf {α : Type} [Zero α] (l : List α) : Nat → α := fun i => l.getD i 0

/-- The call returned normally and the state it returned satisfies `p`. -/
def Outcome.holds {σ : Type} (p : σ → Prop) : Outcome σ → Prop
  | .ok s => p s
  | _ => False

instance Outcome.decidableHolds {σ : Type} (p : σ → Prop) [DecidablePred p] (o : Outcome σ) :
    Decidable (o.holds p) :=
  match o with
  | .ok s => (inferInstance : Decidable (p s))
  | .noFrozenNodes => isFalse id
  | .divideByZero => isFalse id
  | .timeout => isFalse id

/-! ## Definitions used to state the properties -/

section Statements

variable {α : Type} [LinearOrderedField α]

/-- The stencil of one dimension in the words of the specification: the
coefficient `k` and the centre `t` of the term `k * (r - t) ^ 2`, for the
values `d` of `dist1` and `dist2`. A dimension that uses `dist2` has
`k = 9 / 4` and `t = (4 * dist1 - dist2) / 3`; one that uses `dist1` alone has
`k = 1` and `t = dist1`; otherwise the dimension does not contribute. -/
def axisStencil (C : Numerics α) (d : α × α) : Option (α × α) :=
  if d.2 < C.maxDouble then some (9 / 4, (4 * d.1 - d.2) / 3)
  else if d.1 < C.maxDouble then some (1, d.1)
  else none

/-- The term that one dimension adds to the quadratic at the point `r`. -/
def axisTerm (C : Numerics α) (d : α × α) (r : α) : α :=
  match axisStencil C d with
  | none => 0
  | some kt => kt.1 * (r - kt.2) ^ 2

/-! ### Frozen neighbours of a node -/

/-- The distance of the neighbour of `node` in slot `index` when that
neighbour lies in the domain and is FROZEN. -/
def frozenDist (mesh : Mesh) (s : FastMarchingMethod α) (node index : Nat) : Option α :=
  if toInt (mesh.neighbours node index) ≠ -1 ∧
      s.nodeStatus (idx (toInt (mesh.neighbours node index))) = .FROZEN then
    some (s.signedDistance (idx (toInt (mesh.neighbours node index))))
  else none

/-- The distances of the FROZEN neighbours of `node` in dimension `i`: left
and right for the x dimension, down and up for the y dimension. -/
def frozenNeighbourDists (mesh : Mesh) (s : FastMarchingMethod α) (node i : Nat) : List α :=
  [2 * i, 2 * i + 1].filterMap (frozenDist mesh s node)

/-! ### The front and its neighbours -/

/-- What the first loop of `initialiseFrozen` leaves after its first `m` passes. -/
def ZeroPassed (s : FastMarchingMethod α) (m : Nat) (r : FastMarchingMethod α × Nat) : Prop :=
  r.1.signedDistance = s.signedDistance ∧ r.1.velocity = s.velocity ∧
  r.1.isVelocity = s.isVelocity ∧ r.1.heap = s.heap ∧ r.1.heapPtr = s.heapPtr ∧
  r.1.popLog = s.popLog ∧
  (∀ k, r.1.signedDistanceCopy k = if k < m then s.signedDistance k else s.signedDistanceCopy k) ∧
  (∀ k, r.1.velocityCopy k = if k < m ∧ s.isVelocity = true then s.velocity k else s.velocityCopy k) ∧
  (∀ k, r.1.nodeStatus k =
    if k < m ∧ s.nodeStatus k ≠ .MASKED ∧ s.signedDistance k = 0 then .FROZEN else s.nodeStatus k) ∧
  (r.2 = 0 ↔ ∀ k, k < m → ¬ (s.nodeStatus k ≠ .MASKED ∧ s.signedDistance k = 0))

/-- The two numbers have strictly opposite signs. -/
def OppositeSign (a b : α) : Prop := (a < 0 ∧ 0 < b) ∨ (0 < a ∧ b < 0)

instance OppositeSign.decidable (a b : α) : Decidable (OppositeSign a b) := by
  unfold OppositeSign; infer_instance

/-- The crossing fraction `phi_i / (phi_i - phi_j)` along the edge from node
`i` to its neighbour in slot `j`, when that neighbour lies in the domain and
the field `phi` has strictly opposite signs at the two nodes. -/
def crossingFraction (mesh : Mesh) (phi : Nat → α) (i j : Nat) : Option α :=
  if toInt (mesh.neighbours i j) ≠ -1 ∧
      OppositeSign (phi i) (phi (idx (toInt (mesh.neighbours i j)))) then
    some (phi i / (phi i - phi (idx (toInt (mesh.neighbours i j)))))
  else none

/-- The smallest element of a list, if there is one. -/
def smallest : List α → Option α
  | [] => none
  | x :: l => some (l.foldl min x)

/-- The smallest crossing fraction among the sign-crossing neighbours of node
`i` in dimension `axis` (slots `2 * axis` and `2 * axis + 1`). -/
def axisFraction (mesh : Mesh) (phi : Nat → α) (i axis : Nat) : Option α :=
  smallest ([2 * axis, 2 * axis + 1].filterMap (crossingFraction mesh phi i))

/-- The node `i` is frozen by the second loop of `initialiseFrozen` when the
loop reaches it in state `s`. -/
def IsBorder (mesh : Mesh) (s : FastMarchingMethod α) (i : Nat) : Prop :=
  s.nodeStatus i = .NONE ∧ (crossings mesh s i).isBorder = true

instance IsBorder.decidable (mesh : Mesh) (s : FastMarchingMethod α) (i : Nat) :
    Decidable (IsBorder mesh s i) := by
  unfold IsBorder; infer_instance

/-- The distance that the second loop of `initialiseFrozen` stores for a node
it freezes. -/
def borderDistance (C : Numerics α) (mesh : Mesh) (s : FastMarchingMethod α) (i : Nat) : α :=
  if s.signedDistanceCopy i < 0 then -C.sqrt (1 / distSum (crossings mesh s i))
  else C.sqrt (1 / distSum (crossings mesh s i))

/-- The velocity that the second loop of `initialiseFrozen` stores for a node
it freezes. -/
def borderVelocity (mesh : Mesh) (s : FastMarchingMethod α) (i : Nat) : α :=
  (crossingWeights (crossings mesh s i)).1 / (crossingWeights (crossings mesh s i)).2

/-- What the second loop of `initialiseFrozen` leaves after its first `m`
passes, when it starts in the state `s` with the counter at `n`. -/
def BorderPassed (C : Numerics α) (mesh : Mesh) (s : FastMarchingMethod α) (n m : Nat)
    (r : FastMarchingMethod α × Nat) : Prop :=
  r.1.isVelocity = s.isVelocity ∧ r.1.signedDistanceCopy = s.signedDistanceCopy ∧
  r.1.velocityCopy = s.velocityCopy ∧ r.1.heap = s.heap ∧ r.1.heapPtr = s.heapPtr ∧
  r.1.popLog = s.popLog ∧
  (∀ k, r.1.nodeStatus k = if k < m ∧ IsBorder mesh s k then .FROZEN else s.nodeStatus k) ∧
  (∀ k, r.1.signedDistance k =
    if k < m ∧ IsBorder mesh s k then borderDistance C mesh s k else s.signedDistance k) ∧
  (∀ k, r.1.velocity k =
    if k < m ∧ IsBorder mesh s k ∧ s.isVelocity = true then borderVelocity mesh s k
    else s.velocity k) ∧
  (r.2 = 0 ↔ n = 0 ∧ ∀ k, k < m → ¬ IsBorder mesh s k)

/-- The term `1 / d ^ 2` of a dimension with smallest crossing fraction `d`;
a dimension without crossing adds nothing. -/
def inverseSquare : Option α → α
  | none => 0
  | some d => 1 / d ^ 2

/-- The node `i` has a neighbour inside the domain at which the field `phi`
has the strictly opposite sign. -/
def HasCrossing (mesh : Mesh) (phi : Nat → α) (i : Nat) : Prop :=
  ∃ j, j < 4 ∧ toInt (mesh.neighbours i j) ≠ -1 ∧
    OppositeSign (phi i) (phi (idx (toInt (mesh.neighbours i j))))

/-- The snapshot `signedDistanceCopy` taken by the first loop of
`initialiseFrozen`. -/
def snapshot (mesh : Mesh) (s : FastMarchingMethod α) : Nat → α :=
  (zeroPass mesh s).1.signedDistanceCopy

/-- The distance of the specification for a node next to the front:
`s / sqrt (sum of 1 / d ^ 2)` over the dimensions with a crossing, `d` being the
smallest crossing fraction of the dimension and `s` the sign of `phi i`. -/
def frontDistance (C : Numerics α) (mesh : Mesh) (phi : Nat → α) (i : Nat) : α :=
  (if phi i < 0 then -1 else 1) /
    C.sqrt (inverseSquare (axisFraction mesh phi i 0) + inverseSquare (axisFraction mesh phi i 1))

/-! ### Concrete states used as witnesses -/

/-- A state on the grid of 4 x 2 nodes in which nodes 1 and 3 are FROZEN at
the distances `1/2` and `1/4`. -/
def rowState : FastMarchingMethod α :=
  { (FastMarchingMethod.new : FastMarchingMethod α) with
    nodeStatus := fun i => if i = 1 ∨ i = 3 then .FROZEN else .NONE
    signedDistance := fieldOf [0, 1 / 2, 0, 1 / 4] }

/-- The mesh of two nodes side by side: node 1 is the right neighbour of
node 0. -/
def pairMesh : Mesh where
  nNodes := 2
  neighbours := fun i j =>
    if i = 0 ∧ j = 1 then 1 else if i = 1 ∧ j = 0 then 0 else noNeighbour

/-! ### Invariants of the heap and of the statuses -/

/-- The heap and the status array agree: every entry of the heap belongs to a
node of the mesh whose status is TRIAL and whose `heapPtr` is the handle of
the entry, and no two entries share a node or a handle. -/
def HeapInv (mesh : Mesh) (s : FastMarchingMethod α) : Prop :=
  (∀ e ∈ s.heap.entries, e.address < mesh.nNodes ∧ s.nodeStatus e.address = .TRIAL ∧
      s.heapPtr e.address = e.handle ∧ e.handle < s.heap.nextHandle) ∧
  s.heap.entries.Pairwise (fun a b => a.address ≠ b.address ∧ a.handle ≠ b.handle)

/-- Every TRIAL node of the mesh has an entry in the heap. -/
def TrialInHeap (mesh : Mesh) (s : FastMarchingMethod α) : Prop :=
  ∀ i, i < mesh.nNodes → s.nodeStatus i = .TRIAL → ∃ e ∈ s.heap.entries, e.address = i

/-- The moves of a status that go forward along NONE, TRIAL, FROZEN (a status
may also stay as it is; MASKED only stays). -/
def FMM_NodeStatus.forward : FMM_NodeStatus → FMM_NodeStatus → Bool
  | .NONE, .NONE => true
  | .NONE, .TRIAL => true
  | .NONE, .FROZEN => true
  | .TRIAL, .TRIAL => true
  | .TRIAL, .FROZEN => true
  | .FROZEN, .FROZEN => true
  | .MASKED, .MASKED => true
  | _, _ => false

/-- From the state `s` to the state `t` every status has moved forward, and
every node that was FROZEN in `s` has kept its signed distance. -/
def Advances (s t : FastMarchingMethod α) : Prop :=
  ∀ i, (s.nodeStatus i).forward (t.nodeStatus i) = true ∧
    (s.nodeStatus i = .FROZEN → t.signedDistance i = s.signedDistance i)

/-- The number of nodes of the mesh that are NONE or TRIAL. -/
def activeCount (mesh : Mesh) (s : FastMarchingMethod α) : Nat :=
  (List.range mesh.nNodes).countP (fun i => s.nodeStatus i = .NONE ∨ s.nodeStatus i = .TRIAL)

/-- The call returned normally, or it ended on the check "Divide by zero
error." and velocities are tracked (`v`); the fuel did not run out. -/
def Outcome.clean {σ : Type} (v : Bool) : Outcome σ → Prop
  | .ok _ => True
  | .divideByZero => v = true
  | _ => False

/-- The properties that every step of `initialiseTrial` and `solve` keeps. -/
def Keeps (mesh : Mesh) (s t : FastMarchingMethod α) : Prop :=
  HeapInv mesh s →
    Advances s t ∧ HeapInv mesh t ∧ (TrialInHeap mesh s → TrialInHeap mesh t)

/-- The properties kept by the neighbour updates of `solve`: those of `Keeps`,
no pop, and no node becomes FROZEN. -/
def Relaxes (mesh : Mesh) (s t : FastMarchingMethod α) : Prop :=
  Keeps mesh s t ∧ t.popLog = s.popLog ∧
    (∀ i, t.nodeStatus i = .FROZEN → s.nodeStatus i = .FROZEN) ∧
    t.isVelocity = s.isVelocity

/-! ### Definitions for the quadratic and the first trial band -/

/-- A solver whose snapshot `signedDistanceCopy` has the value `x` at every
node. -/
def snapshotState (x : α) : FastMarchingMethod α :=
  { (FastMarchingMethod.new : FastMarchingMethod α) with signedDistanceCopy := fun _ => x }

/-! ### Velocities at the front -/

/-- The slot of the crossing that the loop over the neighbours of node `i` in
`initialiseFrozen` keeps for dimension `axis`: the slot with the smaller
crossing fraction, the first of the two when the fractions are equal. -/
def chosenSlot (mesh : Mesh) (phi : Nat → α) (i axis : Nat) : Option Nat :=
  match crossingFraction mesh phi i (2 * axis), crossingFraction mesh phi i (2 * axis + 1) with
  | none, none => none
  | some _, none => some (2 * axis)
  | none, some _ => some (2 * axis + 1)
  | some x, some y => if y < x then some (2 * axis + 1) else some (2 * axis)

/-- The velocity `v` interpolated linearly at the crossing point of the edge
from node `i` to its neighbour in slot `j`: `v_i + d * (v_j - v_i)` with `d` the
crossing fraction of the edge. -/
def crossingVelocity (mesh : Mesh) (phi v : Nat → α) (i j : Nat) : α :=
  v i + (crossingFraction mesh phi i j).getD 0 * (v (idx (toInt (mesh.neighbours i j))) - v i)

/-- The average over the dimensions with a crossing of the values `u j` at the
chosen slots `j`, weighted by `1 / d ^ 2` with `d` the crossing fraction chosen
for the dimension. -/
def crossingAverage (mesh : Mesh) (phi : Nat → α) (i : Nat) (u : Nat → α) : α :=
  (inverseSquare (axisFraction mesh phi i 0) * (chosenSlot mesh phi i 0).elim 0 u +
    inverseSquare (axisFraction mesh phi i 1) * (chosenSlot mesh phi i 1).elim 0 u) /
  (inverseSquare (axisFraction mesh phi i 0) + inverseSquare (axisFraction mesh phi i 1))

/-! ### The velocity of a popped node -/

/-- The distance difference `D = distance(node) - distance(neighbour)` and the
velocity of the neighbour of `node` in slot `index`, when that neighbour lies in
the domain and is FROZEN. -/
def frozenDifference (mesh : Mesh) (s : FastMarchingMethod α) (node index : Nat) :
    Option (α × α) :=
  if toInt (mesh.neighbours node index) ≠ -1 ∧
      s.nodeStatus (idx (toInt (mesh.neighbours node index))) = .FROZEN then
    some (s.signedDistance node - s.signedDistance (idx (toInt (mesh.neighbours node index))),
      s.velocity (idx (toInt (mesh.neighbours node index))))
  else none

/-- The pair (difference, velocity) that the scan of `finaliseVelocity` keeps
for a dimension whose two slots offer the candidates `p` and `q`: the second
candidate replaces the first when the first difference is zero or greater than
the second; a dimension without candidate keeps the initial zeros. -/
def scannedChoice : Option (α × α) → Option (α × α) → α × α
  | none, none => (0, 0)
  | some p, none => p
  | none, some q => q
  | some p, some q => if p.1 = 0 ∨ p.1 > q.1 then q else p

/-- The average of the velocities of two dimensions weighted by the absolute
differences. -/
def weightedVelocity (x y : α × α) : α := (|x.1| * x.2 + |y.1| * y.2) / (|x.1| + |y.1|)

/-- A fresh solver on the grid of 3 x 2 nodes in which the nodes of the right
column (2 and 5) are MASKED. -/
def maskedState : FastMarchingMethod α :=
  { (FastMarchingMethod.new : FastMarchingMethod α) with
    nodeStatus := fun i => if i = 2 ∨ i = 5 then .MASKED else .NONE }

/-! ### Nodes that the front does not reach -/

/-- From the state `s` to the state `t` no node has become NONE, and every node
that is NONE in `t` has the signed distance it had in `s`. -/
def NoneKept (s t : FastMarchingMethod α) : Prop :=
  ∀ i, t.nodeStatus i = .NONE → s.nodeStatus i = .NONE ∧ t.signedDistance i = s.signedDistance i

/-! ### The first trial band -/

/-- The node `i` has a neighbour in the domain that is FROZEN. -/
def HasFrozenNeighbour (mesh : Mesh) (s : FastMarchingMethod α) (i : Nat) : Prop :=
  ∃ j, j < 4 ∧ toInt (mesh.neighbours i j) ≠ -1 ∧
    s.nodeStatus (idx (toInt (mesh.neighbours i j))) = .FROZEN

instance HasFrozenNeighbour.decidable (mesh : Mesh) (s : FastMarchingMethod α) (i : Nat) :
    Decidable (HasFrozenNeighbour mesh s i) := by
  unfold HasFrozenNeighbour; infer_instance

/-- The statements of the innermost block of `initialiseTrial` for node `i`:
flag the node as TRIAL, store the result of `updateNode`, push the node. -/
def enterTrial (C : Numerics α) (mesh : Mesh) (s : FastMarchingMethod α) (i : Nat) :
    FastMarchingMethod α :=
  { s with
    nodeStatus := Function.update s.nodeStatus i .TRIAL
    signedDistance := Function.update s.signedDistance i
      (updateNode C mesh { s with nodeStatus := Function.update s.nodeStatus i .TRIAL } i)
    heap := (s.heap.push i
      |updateNode C mesh { s with nodeStatus := Function.update s.nodeStatus i .TRIAL } i|).1
    heapPtr := Function.update s.heapPtr i (s.heap.push i
      |updateNode C mesh { s with nodeStatus := Function.update s.nodeStatus i .TRIAL } i|).2 }

/-- The number of nodes of the mesh that are NONE. -/
def noneCount (mesh : Mesh) (s : FastMarchingMethod α) : Nat :=
  (List.range mesh.nNodes).countP (fun i => s.nodeStatus i = .NONE)

/-- What the outer loop of `initialiseTrial` leaves after its first `m` passes,
when it starts in the state `s` with an empty heap. -/
def TrialPassed (C : Numerics α) (mesh : Mesh) (s : FastMarchingMethod α) (m : Nat)
    (r : FastMarchingMethod α) : Prop :=
  r.signedDistanceCopy = s.signedDistanceCopy ∧ r.heap.capacity = s.heap.capacity ∧
  (∀ k, r.nodeStatus k =
    if k < m ∧ s.nodeStatus k = .NONE ∧ HasFrozenNeighbour mesh s k then .TRIAL
    else s.nodeStatus k) ∧
  (∀ k, r.signedDistance k =
    if k < m ∧ s.nodeStatus k = .NONE ∧ HasFrozenNeighbour mesh s k then updateNode C mesh s k
    else s.signedDistance k) ∧
  (∀ k, (r.heap.entries.filter (fun e => decide (e.address = k))).map (fun e => e.key) =
    if k < m ∧ s.nodeStatus k = .NONE ∧ HasFrozenNeighbour mesh s k then
      [|updateNode C mesh s k|]
    else [])

/-! ### A constant velocity on the front -/

/-- Velocities are tracked and every FROZEN node of the mesh has the velocity
`c`. -/
def FrozenVelocity (mesh : Mesh) (c : α) (s : FastMarchingMethod α) : Prop :=
  s.isVelocity = true ∧ ∀ k, k < mesh.nNodes → s.nodeStatus k = .FROZEN → s.velocity k = c

/-! ### The two overloads of `march` -/

/-- The two states agree on everything but the velocity data (`isVelocity`,
`velocity`, `velocityCopy`). -/
def SameDistances (a b : FastMarchingMethod α) : Prop :=
  a.signedDistance = b.signedDistance ∧ a.nodeStatus = b.nodeStatus ∧
  a.signedDistanceCopy = b.signedDistanceCopy ∧ a.heap = b.heap ∧ a.heapPtr = b.heapPtr ∧
  a.popLog = b.popLog

/-- The state `a` with its velocity data replaced. -/
def setVelocity (a : FastMarchingMethod α) (iv : Bool) (v vc : Nat → α) : FastMarchingMethod α :=
  { a with isVelocity := iv, velocity := v, velocityCopy := vc }

/-- The heap of the test scenario: three pushes with the keys 0.3, 0.1 and 0.1
for the nodes `a`, `b` and `c` on a new heap. -/
def threePushes {α : Type} [LinearOrderedField α] (maxHeapSize a b c : Nat) : Heap α :=
  ((((Heap.new maxHeapSize).push a (3 / 10)).1.push b (1 / 10)).1.push c (1 / 10)).1

/-- A fresh solver for the grid of 2 x 2 nodes in which the position one past
the end of the snapshot array `signedDistanceCopy`, position `4 = nNodes`,
reads `x`. -/
def sentinelState (x : α) : FastMarchingMethod α :=
  { (FastMarchingMethod.new : FastMarchingMethod α) with
    signedDistanceCopy := fun i => if i = 4 then x else 0 }

/-! ### The fixed-grid mesh -/

/-- Modelled from the spec: the members of `struct Node` (Mesh.h) that the
constructor of `Mesh` fills. `Mesh.cpp` is not part of the sources, so the
values follow section 4.1 and the member documentation of `Mesh.h`. The
coordinate of a node is integral and is kept as a pair of naturals. -/
structure Node where
  /-- The member `coord`. -/
  coord : Nat × Nat
  /-- The member `neighbours`: left, right, down, up. -/
  neighbours : List Nat
  /-- The member `elements`. -/
  elements : List Nat
  /-- The member `nElements`. -/
  nElements : Nat

/-- Modelled from the spec: the member of `struct Element` (Mesh.h) that the
constructor of `Mesh` fills, the indices of the four nodes of the element. -/
structure Element where
  /-- The member `nodes`. -/
  nodes : List Nat

/-- Modelled from the spec: the data members of `class Mesh` (Mesh.h). The
solver reads `nNodes` and the neighbour entries only, which is the structure
`Mesh` above. -/
structure FullMesh where
  /-- The member `width`. -/
  width : Nat
  /-- The member `height`. -/
  height : Nat
  /-- The member `nElements`. -/
  nElements : Nat
  /-- The member `nNodes`. -/
  nNodes : Nat
  /-- The member `elements`. -/
  elements : Nat → Element
  /-- The member `nodes`. -/
  nodes : Nat → Node

/-- Modelled from the spec: the table `xyToIndex` (Mesh.h), the index of the
node at the grid position `(x, y)`. Nodes are numbered row by row from the
bottom left, `width + 1` nodes to a row. -/
def xyToIndex (width x y : Nat) : Nat := y * (width + 1) + x

/-- Modelled from the spec: the four entries that `initialiseNeighbours(node,
x, y)` (declared in Mesh.h, defined in the missing Mesh.cpp) stores for the
node at `(x, y)`: the nodes to the left, right, below and above, and `nNodes`
for a direction that leaves the domain. -/
def initialiseNeighbours (width height nNodes x y : Nat) : List Nat :=
  [if x = 0 then nNodes else xyToIndex width (x - 1) y,
   if x = width then nNodes else xyToIndex width (x + 1) y,
   if y = 0 then nNodes else xyToIndex width x (y - 1),
   if y = height then nNodes else xyToIndex width x (y + 1)]

/-- Modelled from the spec: `initialiseNodes()` (declared in Mesh.h, defined
in the missing Mesh.cpp): the coordinate and the neighbours of every node;
no element is attached yet. -/
def initialiseNodes (width height nNodes : Nat) : Nat → Node := fun i =>
  { coord := (i % (width + 1), i / (width + 1))
    neighbours := initialiseNeighbours width height nNodes (i % (width + 1)) (i / (width + 1))
    elements := []
    nElements := 0 }

/-- Modelled from the spec: the four nodes of the element `e`, anticlockwise
from the bottom left. Elements are numbered row by row from the bottom left,
`width` elements to a row. -/
def elementNodes (width e : Nat) : List Nat :=
  [xyToIndex width (e % width) (e / width),
   xyToIndex width (e % width + 1) (e / width),
   xyToIndex width (e % width + 1) (e / width + 1),
   xyToIndex width (e % width) (e / width + 1)]

/-- Modelled from the spec: a further element `e` in the element list of a
node: the element is appended and the counter `nElements` goes up by one. -/
def Node.attach (nd : Node) (e : Nat) : Node :=
  { nd with elements := nd.elements ++ [e], nElements := nd.nElements + 1 }

/-- Modelled from the spec: the element `e` is attached to the node `n` of the
node array. -/
def attachElement (nodes : Nat → Node) (e n : Nat) : Nat → Node :=
  fun i => if i = n then (nodes i).attach e else nodes i

/-- Modelled from the spec: `initialiseElements()` (declared in Mesh.h, defined
in the missing Mesh.cpp): the loop over the elements in index order, which
attaches each element to its four nodes. The result is the node array. -/
def initialiseElements (width nElements : Nat) (nodes : Nat → Node) : Nat → Node :=
  (List.range nElements).foldl
    (fun nd e => (elementNodes width e).foldl (fun nd n => attachElement nd e n) nd) nodes

/-- Modelled from the spec: the mesh that the constructor `Mesh(width_,
height_)` leaves for non-zero arguments. The counts are taken as natural
numbers. -/
def FullMesh.build (width_ height_ : Nat) : FullMesh where
  width := width_
  height := height_
  nElements := width_ * height_
  nNodes := (width_ + 1) * (height_ + 1)
  elements := fun e => { nodes := elementNodes width_ e }
  nodes := initialiseElements width_ (width_ * height_)
    (initialiseNodes width_ height_ ((width_ + 1) * (height_ + 1)))

/-- Modelled from the spec: the constructor `Mesh(width_, height_)`. A zero
width or height is a fatal error (section 4.1), here `none`. -/
def FullMesh.new (width_ height_ : Nat) : Option FullMesh :=
  if width_ = 0 ∨ height_ = 0 then none else some (FullMesh.build width_ height_)

/-- The part of the mesh that the solver reads. -/
def FullMesh.toMesh (m : FullMesh) : Mesh where
  nNodes := m.nNodes
  neighbours := fun i j => (m.nodes i).neighbours.getD j 0

/-- Modelled from the spec: `getElement(x, y)` (declared in Mesh.h, defined in
the missing Mesh.cpp): the containing unit cell by floor division. -/
def FullMesh.getElement [FloorRing α] (m : FullMesh) (x y : α) : Nat :=
  ⌊y⌋₊ * m.width + ⌊x⌋₊

/-- The slot of the opposite direction: left and right, down and up. -/
def oppositeSlot (j : Nat) : Nat :=
  match j with
  | 0 => 1
  | 1 => 0
  | 2 => 3
  | _ => 2

/-- The elements around the grid position `(x, y)` in ascending index order:
below left, below right, above left, above right, as far as they lie in the
grid of `width` by `height` elements. -/
def adjacentElements (width height x y : Nat) : List Nat :=
  (if 0 < y then
    (if 0 < x then [(y - 1) * width + (x - 1)] else []) ++
      (if x < width then [(y - 1) * width + x] else [])
   else []) ++
  (if y < height then
    (if 0 < x then [y * width + (x - 1)] else []) ++
      (if x < width then [y * width + x] else [])
   else [])

/-- Modelled from the spec: `getClosestNode(x, y)` (declared in Mesh.h, defined
in the missing Mesh.cpp): the nearest node by grid rounding, through the
table `xyToIndex`. -/
def FullMesh.getClosestNode [FloorRing α] (m : FullMesh) (x y : α) : Nat :=
  xyToIndex m.width (round x).toNat (round y).toNat

/-! ### The demo and the sensitivities -/

/-- The function `computeBiasPotential` of `umbrella_sample.cpp`. -/
def computeBiasPotential (value centre spring : α) : α :=
  spring * spring * (value - centre) * (value - centre)

/-- The type `Coord` (Common.h, not part of the sources): a point of the
plane. -/
structure Coord (α : Type) where
  /-- The member `x`. -/
  x : α
  /-- The member `y`. -/
  y : α

/-- The members of `struct BoundaryPoint` (Boundary.h, not part of the
sources) that `computeSensitivity` uses. -/
structure BoundaryPoint (α : Type) where
  /-- The member `coord`. -/
  coord : Coord α
  /-- The member `normal`. -/
  normal : Coord α
  /-- The member `length`. -/
  length : α

/-- The function `Sensitivity::computeSensitivity` for the member `delta`: the
value returned and the boundary point as the call leaves it. The callback is
a function of the point it is given. -/
def computeSensitivity (delta : α) (point : BoundaryPoint α) (callback : BoundaryPoint α → α) :
    α × BoundaryPoint α :=
  let coord := point.coord
  let point1 := { point with
    coord := ⟨coord.x + delta * point.normal.x, coord.y + delta * point.normal.y⟩ }
  let f1 := callback point1
  let point2 := { point1 with
    coord := ⟨coord.x - delta * point1.normal.x, coord.y - delta * point1.normal.y⟩ }
  let f2 := callback point2
  let sens := (f1 - f2) / (2 * delta)
  let sens := sens / point2.length
  (sens, { point2 with coord := coord })

/-- A fresh solver on the mesh `pairMesh` in which node 1, the right neighbour
of node 0, is FROZEN (at the distance zero). -/
def frozenRightState : FastMarchingMethod α :=
  { (FastMarchingMethod.new : FastMarchingMethod α) with
    nodeStatus := fun i => if i = 1 then .FROZEN else .NONE }

/-! ### Counting heap entries and pushes -/

/-- From the state `s` to the state `t` the capacity of the heap is unchanged,
and the number of heap entries and the number of pushes have grown by no more
than the number of nodes of the mesh that stopped being NONE. -/
def Counts (mesh : Mesh) (s t : FastMarchingMethod α) : Prop :=
  t.heap.capacity = s.heap.capacity ∧
  t.heap.entries.length + noneCount mesh t ≤ s.heap.entries.length + noneCount mesh s ∧
  t.heap.nextHandle + noneCount mesh t ≤ s.heap.nextHandle + noneCount mesh s

/-- The heap has room for its entries and for one more entry for every node of
the mesh that is still NONE, and its capacity is at most the number of nodes. -/
def HeapFits (mesh : Mesh) (s : FastMarchingMethod α) : Prop :=
  s.heap.entries.length + noneCount mesh s ≤ s.heap.capacity ∧ s.heap.capacity ≤ mesh.nNodes

/-! ### Solvers that differ in what an earlier solve left -/

/-- The two states track no velocity and agree on the signed distances, the
statuses, the snapshot at the nodes of the mesh, the heap, the handles of the
TRIAL nodes and the record of pops. They may differ in the velocity data, in
the snapshot outside the mesh and in the handles stored for nodes that are not
TRIAL. -/
def Alike (mesh : Mesh) (a b : FastMarchingMethod α) : Prop :=
  a.isVelocity = false ∧ b.isVelocity = false ∧
  a.signedDistance = b.signedDistance ∧ a.nodeStatus = b.nodeStatus ∧
  (∀ i, i < mesh.nNodes → a.signedDistanceCopy i = b.signedDistanceCopy i) ∧
  a.heap = b.heap ∧ (∀ i, a.nodeStatus i = .TRIAL → a.heapPtr i = b.heapPtr i) ∧
  a.popLog = b.popLog

/-- A solver whose statuses are those of a fresh solver while its snapshot and
its array of heap handles hold values left by an earlier use. -/
def usedState : FastMarchingMethod α :=
  { (FastMarchingMethod.new : FastMarchingMethod α) with
    signedDistanceCopy := fun _ => 3
    heapPtr := fun _ => 7
    heap := (Heap.new 5).push 1 2 |>.1 }

/-- Bisection for the integer square root: `r` is the root found so far, and
the bits below position `k` are still to be decided, from the top down. -/
def sqrtBits (n : Nat) : Nat → Nat → Nat
  | 0, r => r
  | k + 1, r => if (r + 2 ^ k) * (r + 2 ^ k) ≤ n then sqrtBits n k (r + 2 ^ k) else sqrtBits n k r

/-- Rational parameters whose square root takes the integer square roots of
numerator and denominator by bisection over 256 bits: exact on the squares of
rationals whose numerator and denominator are below `2 ^ 256`. The constants
are those of `ratNumerics`. -/
def bisectNumerics : Numerics ℚ where
  sqrt := fun q => mkRat (sqrtBits q.num.toNat 256 0) (sqrtBits q.den 256 0)
  maxDouble := (2 ^ 53 - 1) * 2 ^ 971
  doubleEpsilon := 1 / 2 ^ 52

/-- The state in which `march(signedDistance_)` starts its work on a freshly
constructed solver: the input field stored, no velocities, nothing popped. -/
def loadedState (phi : Nat → α) : FastMarchingMethod α :=
  { (FastMarchingMethod.new : FastMarchingMethod α) with
    signedDistance := phi, isVelocity := false, popLog := [] }

/-- The nodes of the grid of 5 x 5 nodes that have a sign crossing when the
centre is the only positive node: the centre and its four neighbours. -/
def crossNodes : List Nat := [7, 11, 12, 13, 17]

/-- The neighbour entry `n` leaves the grid of 5 x 5 nodes or names a node
that has no sign crossing when the centre is the only positive node. -/
def NotCross (n : Nat) : Prop :=
  toInt n = -1 ∨ (idx (toInt n) < 25 ∧ idx (toInt n) ∉ crossNodes)

instance NotCross.decidable (n : Nat) : Decidable (NotCross n) := by
  unfold NotCross; infer_instance

/-- The field `phi` is a plane along the x dimension of the mesh whose zero
level lies inside the domain: a node without left neighbour is negative, a
node without right neighbour is positive, the left and right neighbours of a
node lie one unit below and above it and have the node as right and left
neighbour, its lower and upper neighbours have its value, some node lies less
than one unit from the zero level, and every value is below `maxDouble`. -/
def Planar (C : Numerics α) (mesh : Mesh) (phi : Nat → α) : Prop :=
  (∀ i, i < mesh.nNodes → phi i < C.maxDouble) ∧
  (∃ i, i < mesh.nNodes ∧ |phi i| < 1) ∧
  ∀ i, i < mesh.nNodes →
    (toInt (mesh.neighbours i 0) = -1 → phi i < 0) ∧
    (toInt (mesh.neighbours i 1) = -1 → 0 < phi i) ∧
    (toInt (mesh.neighbours i 0) ≠ -1 → phi (idx (toInt (mesh.neighbours i 0))) = phi i - 1) ∧
    (toInt (mesh.neighbours i 1) ≠ -1 → phi (idx (toInt (mesh.neighbours i 1))) = phi i + 1) ∧
    (toInt (mesh.neighbours i 2) ≠ -1 → phi (idx (toInt (mesh.neighbours i 2))) = phi i) ∧
    (toInt (mesh.neighbours i 3) ≠ -1 → phi (idx (toInt (mesh.neighbours i 3))) = phi i) ∧
    (toInt (mesh.neighbours i 0) ≠ -1 →
      toInt (mesh.neighbours (idx (toInt (mesh.neighbours i 0))) 1) ≠ -1 ∧
      idx (toInt (mesh.neighbours (idx (toInt (mesh.neighbours i 0))) 1)) = i) ∧
    (toInt (mesh.neighbours i 1) ≠ -1 →
      toInt (mesh.neighbours (idx (toInt (mesh.neighbours i 1))) 0) ≠ -1 ∧
      idx (toInt (mesh.neighbours (idx (toInt (mesh.neighbours i 1))) 0)) = i)

/-- The distances and the snapshot of the state are the field `phi`, and the
FROZEN nodes are the nodes up to some distance from the zero level of `phi`,
among them every node less than one unit from it. -/
def PlaneLevel (mesh : Mesh) (phi : Nat → α) (s : FastMarchingMethod α) : Prop :=
  (∀ i, i < mesh.nNodes → s.signedDistance i = phi i ∧ s.signedDistanceCopy i = phi i) ∧
  (∀ i j, i < mesh.nNodes → j < mesh.nNodes → s.nodeStatus i = .FROZEN → |phi j| ≤ |phi i| →
    s.nodeStatus j = .FROZEN) ∧
  (∀ i, i < mesh.nNodes → |phi i| < 1 → s.nodeStatus i = .FROZEN)

/-- The invariant of `solve` on a planar field: `PlaneLevel`, no MASKED node,
every TRIAL node lies at most one unit beyond a FROZEN node, the heap and the
TRIAL nodes agree, and the key of every entry is the magnitude of `phi` at its
node. -/
def PlaneInv (mesh : Mesh) (phi : Nat → α) (s : FastMarchingMethod α) : Prop :=
  PlaneLevel mesh phi s ∧
  (∀ i, i < mesh.nNodes → s.nodeStatus i ≠ .MASKED) ∧
  (∀ i, i < mesh.nNodes → s.nodeStatus i = .TRIAL →
    ∃ j, j < mesh.nNodes ∧ s.nodeStatus j = .FROZEN ∧ |phi i| ≤ |phi j| + 1) ∧
  HeapInv mesh s ∧ TrialInHeap mesh s ∧
  (∀ e ∈ s.heap.entries, e.key = |phi e.address|) ∧ s.isVelocity = false

/-- Every node at most one unit beyond a FROZEN node is FROZEN or TRIAL. -/
def PlaneFull (mesh : Mesh) (phi : Nat → α) (s : FastMarchingMethod α) : Prop :=
  ∀ i j, i < mesh.nNodes → j < mesh.nNodes → s.nodeStatus j = .FROZEN →
    |phi i| ≤ |phi j| + 1 → s.nodeStatus i = .FROZEN ∨ s.nodeStatus i = .TRIAL

/-- A step of `solve` on a planar field that freezes nothing: the invariant
holds afterwards, the FROZEN nodes are the same and a TRIAL node stays TRIAL. -/
def PlaneStep (mesh : Mesh) (phi : Nat → α) (s t : FastMarchingMethod α) : Prop :=
  PlaneInv mesh phi t ∧ (∀ i, t.nodeStatus i = .FROZEN ↔ s.nodeStatus i = .FROZEN) ∧
  (∀ i, s.nodeStatus i = .TRIAL → t.nodeStatus i = .TRIAL)

/-- The state `u` and the list `tf` during the pops of one pass of `solve`
that started in the state `s` of a planar field with the key `k`: distances
and snapshot are the field, a status is the one of `s` or the node was TRIAL
in `s` at the distance `k` and is now FROZEN and listed, the heap and the
TRIAL nodes agree, and every entry is an entry of `s`. -/
def PlanePopped (mesh : Mesh) (phi : Nat → α) (k : α) (s u : FastMarchingMethod α)
    (tf : List Nat) : Prop :=
  (∀ i, i < mesh.nNodes → u.signedDistance i = phi i ∧ u.signedDistanceCopy i = phi i) ∧
  (∀ i, u.nodeStatus i = s.nodeStatus i ∨
    (u.nodeStatus i = .FROZEN ∧ s.nodeStatus i = .TRIAL ∧ |phi i| = k ∧ i ∈ tf)) ∧
  (∀ a ∈ tf, a < mesh.nNodes ∧ u.nodeStatus a = .FROZEN) ∧
  HeapInv mesh u ∧ TrialInHeap mesh u ∧ (∀ e ∈ u.heap.entries, e ∈ s.heap.entries) ∧
  u.isVelocity = false

/-- The axis-aligned planar field `distance(x, y) = x - c` on the grid of width
`w`: node `i` lies in column `x = i % (w + 1)` (the nodes are numbered row by
row, `mesh_tests.cpp` checks node 5 of the 4 x 4 nodes at `x = 1`, `y = 1`). -/
def planeField (w : Nat) (c : α) : Nat → α := fun i => ((i % (w + 1) : Nat) : α) - c

/-- The signed distance to the line `3 x + 4 y = 1 / 2` at the nodes of the
grid of 2 x 2 nodes (node `i` at `x = i % 2`, `y = i / 2`): the values
`-1/10, 1/2, 7/10, 13/10`. -/
def obliqueField : Nat → ℚ :=
  fun i => (3 * ((i % 2 : Nat) : ℚ) + 4 * ((i / 2 : Nat) : ℚ) - 1 / 2) / 5

/-- The field that `march` returns on the grid of 2 x 2 nodes for the input
`1, -2/3, -1/4, -1`. -/
def marchedField : List ℚ := [12 / 25, -2 / 5, -1 / 5, -1]

end Statements

/-! # Properties -/

section Proofs

variable {α : Type} [LinearOrderedField α]

/-! ## The quadratic of `updateNode` -/

theorem addAxis_poly (C : Numerics α) (abc : α × α × α) (d : α × α) (r : α) :
    (addAxis C abc d).1 * r ^ 2 + (addAxis C abc d).2.1 * r + (addAxis C abc d).2.2
      = abc.1 * r ^ 2 + abc.2.1 * r + abc.2.2 + axisTerm C d r := by
  unfold addAxis axisTerm axisStencil
  by_cases h2 : d.2 < C.maxDouble
  · simp only [h2, if_true]; ring
  · by_cases h1 : d.1 < C.maxDouble
    · simp only [h2, h1, if_true, if_false]; ring
    · simp only [h2, h1, if_false]; ring

theorem addAxis_lead (C : Numerics α) (abc : α × α × α) (d : α × α) :
    abc.1 ≤ (addAxis C abc d).1 ∧ ((addAxis C abc d).1 = abc.1 → addAxis C abc d = abc) := by
  unfold addAxis
  by_cases h2 : d.2 < C.maxDouble
  · simp only [h2, if_true]
    refine ⟨by linarith, fun h => ?_⟩
    exfalso; linarith
  · by_cases h1 : d.1 < C.maxDouble
    · simp only [h2, h1, if_true, if_false]
      refine ⟨by linarith, fun h => ?_⟩
      exfalso; linarith
    · simp only [h2, h1, if_false]
      exact ⟨le_refl _, fun _ => trivial⟩

theorem solveQuadratic_root (C : Numerics α) (hC : C.Exact) (s : FastMarchingMethod α) (node : Nat)
    (a b c : α) (ha : 0 < a) (hr : solveQuadratic C s node a b c ≠ 0) :
    a * (solveQuadratic C s node a b c) ^ 2 + b * solveQuadratic C s node a b c + c = 1 := by
  unfold solveQuadratic at hr ⊢
  simp only at hr ⊢
  by_cases hdet : b * b - 4 * a * (c - 1) > 0
  · simp only [hdet, if_true] at hr ⊢
    obtain ⟨_, hsq⟩ := hC _ (le_of_lt hdet)
    have ha' : (2 * a) ≠ 0 := by positivity
    split
    · field_simp
      nlinarith [hsq]
    · field_simp
      nlinarith [hsq]
  · simp only [hdet, if_false] at hr
    exact absurd rfl hr

/-- The real numbers with the real square root satisfy `Numerics.Exact`. -/
theorem exact_real (m e : ℝ) : (⟨Real.sqrt, m, e⟩ : Numerics ℝ).Exact :=
  fun x hx => ⟨Real.sqrt_nonneg x, Real.mul_self_sqrt hx⟩

/-- C8. Whenever `updateNode` returns a non-zero value `r`, the terms
`k * (r - t) ^ 2` of the contributing dimensions add up to one (the square
root being exact). -/
theorem updateNode_root (C : Numerics α) (hC : C.Exact) (mesh : Mesh) (s : FastMarchingMethod α)
    (node : Nat) (hr : updateNode C mesh s node ≠ 0) :
    axisTerm C (axisDists C mesh s node 0) (updateNode C mesh s node)
      + axisTerm C (axisDists C mesh s node 1) (updateNode C mesh s node) = 1 := by
  have hu : updateNode C mesh s node
      = solveQuadratic C s node (stencilCoeffs C mesh s node).1 (stencilCoeffs C mesh s node).2.1
          (stencilCoeffs C mesh s node).2.2 := rfl
  have hs : stencilCoeffs C mesh s node
      = addAxis C (addAxis C (0, 0, 0) (axisDists C mesh s node 0)) (axisDists C mesh s node 1) := rfl
  generalize axisDists C mesh s node 0 = d0 at hs ⊢
  generalize axisDists C mesh s node 1 = d1 at hs ⊢
  have hp1 := addAxis_poly C (addAxis C (0, 0, 0) d0) d1 (updateNode C mesh s node)
  have hp0 := addAxis_poly C (0, 0, 0) d0 (updateNode C mesh s node)
  have hl1 := addAxis_lead C (addAxis C (0, 0, 0) d0) d1
  have hl0 := addAxis_lead C ((0 : α), (0 : α), (0 : α)) d0
  rw [← hs] at hp1 hl1
  simp only at hp0 hl0
  have ha : 0 < (stencilCoeffs C mesh s node).1 := by
    rcases lt_or_eq_of_le (le_trans hl0.1 hl1.1) with h | h
    · exact h
    · exfalso
      have h2 := hl1.1
      rw [← h] at h2
      have h1 : (addAxis C (0, 0, 0) d0).1 = 0 := le_antisymm h2 hl0.1
      have e0 := hl0.2 h1
      have e1 := hl1.2 (by rw [← h, h1])
      rw [hu, e1, e0] at hr
      simp [solveQuadratic] at hr
  have hroot := solveQuadratic_root C hC s node _ _ _ ha (hu ▸ hr)
  rw [← hu] at hroot
  linarith

/-- Witness of C8: a node whose left neighbour is frozen at distance zero, over
the real numbers. -/
theorem updateNode_root_witness :
    axisTerm (⟨Real.sqrt, 2 ^ 1024, 1 / 2 ^ 52⟩ : Numerics ℝ)
        (axisDists ⟨Real.sqrt, 2 ^ 1024, 1 / 2 ^ 52⟩
          ⟨2, fun i j => if i = 0 ∧ j = 0 then 1 else noNeighbour⟩
          { (FastMarchingMethod.new : FastMarchingMethod ℝ) with
            nodeStatus := fun i => if i = 1 then .FROZEN else .NONE } 0 0)
        (updateNode ⟨Real.sqrt, 2 ^ 1024, 1 / 2 ^ 52⟩
          ⟨2, fun i j => if i = 0 ∧ j = 0 then 1 else noNeighbour⟩
          { (FastMarchingMethod.new : FastMarchingMethod ℝ) with
            nodeStatus := fun i => if i = 1 then .FROZEN else .NONE } 0)
      + axisTerm (⟨Real.sqrt, 2 ^ 1024, 1 / 2 ^ 52⟩ : Numerics ℝ)
        (axisDists ⟨Real.sqrt, 2 ^ 1024, 1 / 2 ^ 52⟩
          ⟨2, fun i j => if i = 0 ∧ j = 0 then 1 else noNeighbour⟩
          { (FastMarchingMethod.new : FastMarchingMethod ℝ) with
            nodeStatus := fun i => if i = 1 then .FROZEN else .NONE } 0 1)
        (updateNode ⟨Real.sqrt, 2 ^ 1024, 1 / 2 ^ 52⟩
          ⟨2, fun i j => if i = 0 ∧ j = 0 then 1 else noNeighbour⟩
          { (FastMarchingMethod.new : FastMarchingMethod ℝ) with
            nodeStatus := fun i => if i = 1 then .FROZEN else .NONE } 0) = 1 :=
  updateNode_root _ (exact_real _ _) _ _ 0 (by
    have h4 : Real.sqrt 4 = 2 := by
      rw [show (4 : ℝ) = 2 ^ 2 by norm_num]; exact Real.sqrt_sq (by norm_num)
    simp [updateNode, stencilCoeffs, axisDists, updateDirection, addAxis, solveQuadratic, toInt, idx,
      noNeighbour, FastMarchingMethod.new, FMM_NodeStatus.test, FMM_NodeStatus.bits]
    norm_num [h4])

/-! ## The second-order term of `updateNode` -/

/-- C9 (evaluation of the code at the failing input). On the grid of 4 x 2
nodes with the field `-1, 1, 1, 0` in both rows, `initialiseTrial` calls
`updateNode` for node 2 in the state left by `initialiseHeap`. The loop over
the x dimension ends with `dist1 = 0`, the distance of the right neighbour
(node 3), and `dist2 = -1/2`, the distance of node 0, which lies two steps to
the LEFT; node 3 has no right neighbour. `march` then freezes node 2 at `5/6`. -/
theorem updateNode_stale_dist2 :
    (initialiseFrozen ratNumerics (gridMesh noNeighbour 3 1)
        { (FastMarchingMethod.new : FastMarchingMethod ℚ) with
          signedDistance := fieldOf [-1, 1, 1, 0, -1, 1, 1, 0] }).holds
      (fun s1 =>
        axisDists ratNumerics (gridMesh noNeighbour 3 1)
            (initialiseHeap (gridMesh noNeighbour 3 1) s1) 2 0 = (0, -1 / 2)
        ∧ s1.nodeStatus 3 = .FROZEN ∧ s1.signedDistance 3 = 0
        ∧ toInt ((gridMesh noNeighbour 3 1).neighbours 3 1) = -1
        ∧ s1.nodeStatus 0 = .FROZEN ∧ s1.signedDistance 0 = -1 / 2
        ∧ (gridMesh noNeighbour 3 1).neighbours ((gridMesh noNeighbour 3 1).neighbours 2 0) 0 = 0)
    ∧ (march ratNumerics (gridMesh noNeighbour 3 1) 8 FastMarchingMethod.new
        (fieldOf [-1, 1, 1, 0, -1, 1, 1, 0])).holds (fun s => s.signedDistance 2 = 5 / 6) := by
  decide!

/-! ## The first-order distance of `updateNode` -/

theorem test_frozen (st : FMM_NodeStatus) : st.test .FROZEN = true ↔ st = .FROZEN := by
  cases st <;> decide

theorem test_trial (st : FMM_NodeStatus) : st.test .TRIAL = true ↔ st = .TRIAL := by
  cases st <;> decide

theorem updateDirection_none (mesh : Mesh) (s : FastMarchingMethod α) (node : Nat) (d : α × α)
    (index : Nat) (h : frozenDist mesh s node index = none) :
    updateDirection mesh s node d index = d := by
  unfold frozenDist at h
  unfold updateDirection
  simp only [test_frozen]
  split_ifs at h ⊢ <;> first | rfl | simp_all

theorem updateDirection_some (mesh : Mesh) (s : FastMarchingMethod α) (node : Nat) (d : α × α)
    (index : Nat) (x : α) (h : frozenDist mesh s node index = some x) :
    (updateDirection mesh s node d index).1 = min x d.1 ∧
      (¬ x < d.1 → updateDirection mesh s node d index = d) := by
  unfold frozenDist at h
  unfold updateDirection
  simp only [test_frozen]
  split_ifs at h ⊢ <;> simp_all <;> exact le_of_lt ‹_›

/-- C10. In `updateNode`, for each dimension, `dist1` ends as the smallest of the
distances of the FROZEN neighbours of the node in that dimension, and a
dimension without FROZEN neighbour leaves the coefficients `a`, `b`, `c` as
they are (every distance of a FROZEN neighbour being below `maxDouble`). -/
theorem axisDists_dist1 (C : Numerics α) (mesh : Mesh) (s : FastMarchingMethod α) (node i : Nat)
    (hmax : ∀ x ∈ frozenNeighbourDists mesh s node i, x < C.maxDouble) :
    (frozenNeighbourDists mesh s node i = [] →
        ∀ abc, addAxis C abc (axisDists C mesh s node i) = abc) ∧
    (frozenNeighbourDists mesh s node i ≠ [] →
        (axisDists C mesh s node i).1 ∈ frozenNeighbourDists mesh s node i ∧
        ∀ x ∈ frozenNeighbourDists mesh s node i, (axisDists C mesh s node i).1 ≤ x) := by
  unfold frozenNeighbourDists at hmax ⊢
  unfold axisDists
  rcases h0 : frozenDist mesh s node (2 * i) with _ | x <;>
  rcases h1 : frozenDist mesh s node (2 * i + 1) with _ | y
  · simp only [List.filterMap_cons, h0, h1, List.filterMap_nil, true_implies, ne_eq, not_true_eq_false,
      false_implies, and_true]
    rw [updateDirection_none _ _ _ _ _ h0, updateDirection_none _ _ _ _ _ h1]
    intro abc
    simp [addAxis]
  · simp only [List.filterMap_cons, h0, h1, List.filterMap_nil] at hmax ⊢
    rw [updateDirection_none _ _ _ _ _ h0]
    have hy := hmax y (by simp)
    have := (updateDirection_some mesh s node (C.maxDouble, C.maxDouble) _ y h1).1
    simp [this, min_eq_left (le_of_lt hy)]
  · simp only [List.filterMap_cons, h0, h1, List.filterMap_nil] at hmax ⊢
    rw [updateDirection_none _ _ _ _ _ h1]
    have hx := hmax x (by simp)
    have := (updateDirection_some mesh s node (C.maxDouble, C.maxDouble) _ x h0).1
    simp [this, min_eq_left (le_of_lt hx)]
  · simp only [List.filterMap_cons, h0, h1, List.filterMap_nil] at hmax ⊢
    have hx := hmax x (by simp)
    have e0 := (updateDirection_some mesh s node (C.maxDouble, C.maxDouble) _ x h0).1
    have e1 := (updateDirection_some mesh s node
      (updateDirection mesh s node (C.maxDouble, C.maxDouble) (2 * i)) _ y h1).1
    rw [e0, min_eq_left (le_of_lt hx)] at e1
    simp only [e1, ne_eq, reduceCtorEq, not_false_eq_true, List.mem_cons, List.mem_singleton,
      forall_eq_or_imp, forall_eq, true_implies, false_implies, true_and, List.not_mem_nil,
      or_false, IsEmpty.forall_iff, implies_true, and_true, min_le_right, min_le_left]
    rcases le_total y x with h | h
    · simp [min_eq_left h]
    · simp [min_eq_right h]


/-- Witness of C10: node 2 of the grid of 4 x 2 nodes with its left and right
neighbours frozen at `1/2` and `1/4`. -/
theorem axisDists_dist1_witness :
    (∀ x ∈ frozenNeighbourDists (gridMesh noNeighbour 3 1) (rowState (α := ℚ)) 2 0,
        x < ratNumerics.maxDouble) ∧
    (axisDists ratNumerics (gridMesh noNeighbour 3 1) (rowState (α := ℚ)) 2 0).1 = 1 / 4 ∧
    ((frozenNeighbourDists (gridMesh noNeighbour 3 1) (rowState (α := ℚ)) 2 0 = [] →
        ∀ abc, addAxis ratNumerics abc
          (axisDists ratNumerics (gridMesh noNeighbour 3 1) (rowState (α := ℚ)) 2 0) = abc) ∧
      (frozenNeighbourDists (gridMesh noNeighbour 3 1) (rowState (α := ℚ)) 2 0 ≠ [] →
        (axisDists ratNumerics (gridMesh noNeighbour 3 1) (rowState (α := ℚ)) 2 0).1
            ∈ frozenNeighbourDists (gridMesh noNeighbour 3 1) (rowState (α := ℚ)) 2 0 ∧
        ∀ x ∈ frozenNeighbourDists (gridMesh noNeighbour 3 1) (rowState (α := ℚ)) 2 0,
          (axisDists ratNumerics (gridMesh noNeighbour 3 1) (rowState (α := ℚ)) 2 0).1 ≤ x)) :=
  ⟨by decide!, by decide!,
    axisDists_dist1 ratNumerics (gridMesh noNeighbour 3 1) rowState 2 0 (by decide!)⟩

/-! ## `initialiseFrozen` -/

theorem zeroPass_fold (s : FastMarchingMethod α) (m : Nat) :
    ZeroPassed s m ((List.range m).foldl zeroPassStep (s, 0)) := by
  induction m with
  | zero => simp [ZeroPassed]
  | succ m ih =>
    rw [List.range_succ, List.foldl_append, List.foldl_cons, List.foldl_nil]
    generalize (List.range m).foldl zeroPassStep (s, 0) = r at ih
    obtain ⟨h1, h2, h3, h4, h5, h6, h7, h8, h9, h10⟩ := ih
    have hst : r.1.nodeStatus m = s.nodeStatus m := by rw [h9]; simp
    have hlt : ∀ k, k < m + 1 ↔ k < m ∨ k = m := fun k => by omega
    unfold ZeroPassed zeroPassStep
    by_cases hv : s.isVelocity = true <;> by_cases hm : s.nodeStatus m = .MASKED <;>
      by_cases hz : s.signedDistance m = 0 <;>
      simp only [h1, h2, h3, h4, h5, h6, hv, hm, hz, hst, Function.update_same, if_true, if_false,
        ne_eq, not_true_eq_false, not_false_eq_true, true_and, and_true, Bool.false_eq_true] <;>
      refine ⟨?_, ?_, ?_, ?_⟩
    all_goals first
      | (intro k
         rcases lt_trichotomy k m with hk | hk | hk
         · have hne : k ≠ m := by omega
           have hk1 : k < m + 1 := by omega
           simp [Function.update_noteq hne, h7, h8, h9, hk, hk1, hv]
         · subst hk
           simp [h7, h8, h9, hv, hm, hz]
         · have hne : k ≠ m := by omega
           have hk0 : ¬ k < m := by omega
           have hk1 : ¬ k < m + 1 := by omega
           simp [Function.update_noteq hne, h7, h8, h9, hk0, hk1, hv])
      | (constructor
         · intro h k hk
           rcases (hlt k).1 hk with hk | hk
           · first | exact (h10.1 h) k hk | omega
           · subst hk; simp_all
         · intro h
           first
             | exact h10.2 (fun k hk => h k (by omega))
             | (exfalso; exact h m (by omega) (by simp_all)))

theorem oppositeSign_iff (a b : α) : OppositeSign a b ↔ a * b < 0 := by
  unfold OppositeSign
  rw [mul_neg_iff]
  tauto

theorem crossingFraction_pos (mesh : Mesh) (phi : Nat → α) (i j : Nat) (d : α)
    (h : crossingFraction mesh phi i j = some d) : 0 < d ∧ d < 1 := by
  unfold crossingFraction at h
  split_ifs at h with hc
  obtain ⟨_, hs⟩ := hc
  simp only [Option.some.injEq] at h
  subst h
  rcases hs with ⟨ha, hb⟩ | ⟨ha, hb⟩
  · have hd : phi i - phi (idx (toInt (mesh.neighbours i j))) < 0 := by linarith
    constructor
    · exact div_pos_of_neg_of_neg ha hd
    · rw [div_lt_one_of_neg hd]; linarith
  · have hd : 0 < phi i - phi (idx (toInt (mesh.neighbours i j))) := by linarith
    constructor
    · exact div_pos ha hd
    · rw [div_lt_one hd]; linarith

theorem crossingStep_eq (mesh : Mesh) (s : FastMarchingMethod α) (i : Nat) (c : Crossing α) (j : Nat) :
    crossingStep mesh s i c j =
      match crossingFraction mesh s.signedDistanceCopy i j with
      | none => c
      | some d =>
        if c.dist (if j < 2 then 0 else 1) = 0 ∨ c.dist (if j < 2 then 0 else 1) > d then
          { isBorder := true
            dist := Function.update c.dist (if j < 2 then 0 else 1) d
            vel := if s.isVelocity then
                Function.update c.vel (if j < 2 then 0 else 1)
                  (s.velocityCopy i + d * (s.velocityCopy (idx (toInt (mesh.neighbours i j)))
                    - s.velocityCopy i))
              else c.vel }
        else { c with isBorder := true } := by
  unfold crossingStep crossingFraction
  simp only [oppositeSign_iff]
  by_cases h1 : toInt (mesh.neighbours i j) ≠ -1
  · by_cases h2 : s.signedDistanceCopy i * s.signedDistanceCopy (idx (toInt (mesh.neighbours i j))) < 0
    · simp only [h1, h2, if_true, and_self, not_false_eq_true, ne_eq]
    · simp only [h1, h2, if_true, if_false, and_false, not_false_eq_true, ne_eq]
  · simp only [h1, if_false, false_and]

/-- The effect of the two passes for the slots of one dimension on `dist`. -/
theorem crossing_pair (mesh : Mesh) (s : FastMarchingMethod α) (i : Nat) (c : Crossing α)
    (axis : Nat) (ha : axis < 2) (h0 : c.dist axis = 0) :
    let c2 := crossingStep mesh s i (crossingStep mesh s i c (2 * axis)) (2 * axis + 1)
    c2.dist axis = (axisFraction mesh s.signedDistanceCopy i axis).getD 0 ∧
    (∀ k, k ≠ axis → c2.dist k = c.dist k) ∧
    (c2.isBorder = true ↔ c.isBorder = true ∨
      (axisFraction mesh s.signedDistanceCopy i axis).isSome = true) := by
  have hdim0 : (if 2 * axis < 2 then 0 else 1) = axis := by interval_cases axis <;> simp
  have hdim1 : (if 2 * axis + 1 < 2 then 0 else 1) = axis := by interval_cases axis <;> simp
  simp only [crossingStep_eq, hdim0, hdim1, axisFraction, List.filterMap_cons, List.filterMap_nil]
  rcases hf0 : crossingFraction mesh s.signedDistanceCopy i (2 * axis) with _ | x <;>
  rcases hf1 : crossingFraction mesh s.signedDistanceCopy i (2 * axis + 1) with _ | y
  · simp [smallest, h0]
  · simp [smallest, h0]
    intro k hk; exact Function.update_noteq hk _ _
  · simp [smallest, h0]
    intro k hk; exact Function.update_noteq hk _ _
  · have hx := (crossingFraction_pos _ _ _ _ _ hf0).1
    have hx0 : x ≠ 0 := ne_of_gt hx
    simp only [h0, true_or, if_true, Function.update_same, hx0, false_or, smallest,
      List.foldl_cons, List.foldl_nil, Option.getD_some, Option.isSome_some, or_true, iff_true]
    by_cases hxy : y < x
    · simp only [gt_iff_lt, hxy, if_true, Function.update_same, min_eq_right (le_of_lt hxy), true_and]
      refine ⟨fun k hk => ?_, trivial⟩
      rw [Function.update_noteq hk, Function.update_noteq hk]
    · simp only [gt_iff_lt, hxy, if_false, Function.update_same, min_eq_left (not_lt.1 hxy), true_and]
      refine ⟨fun k hk => ?_, trivial⟩
      rw [Function.update_noteq hk]

theorem forM_append {σ : Type} (f : σ → Nat → Outcome σ) (l1 l2 : List Nat) (s : σ) :
    forM f (l1 ++ l2) s = (forM f l1 s).bind (forM f l2) := by
  induction l1 generalizing s with
  | nil => rfl
  | cons i l ih =>
    simp only [List.cons_append, forM]
    cases f s i <;> simp [Outcome.bind, ih]

theorem forM_range_succ {σ : Type} (f : σ → Nat → Outcome σ) (m : Nat) (s : σ) :
    forM f (List.range (m + 1)) s = (forM f (List.range m) s).bind (fun r => f r m) := by
  rw [List.range_succ, forM_append]
  congr 1
  funext r
  simp only [forM]
  cases f r m <;> rfl

theorem crossings_congr (mesh : Mesh) (s r : FastMarchingMethod α) (i : Nat)
    (h1 : r.signedDistanceCopy = s.signedDistanceCopy) (h2 : r.velocityCopy = s.velocityCopy)
    (h3 : r.isVelocity = s.isVelocity) : crossings mesh r i = crossings mesh s i := by
  unfold crossings
  congr 1
  funext c j
  unfold crossingStep
  rw [h1, h2, h3]

theorem crossings_spec (mesh : Mesh) (s : FastMarchingMethod α) (i : Nat) :
    (crossings mesh s i).dist 0 = (axisFraction mesh s.signedDistanceCopy i 0).getD 0 ∧
    (crossings mesh s i).dist 1 = (axisFraction mesh s.signedDistanceCopy i 1).getD 0 ∧
    ((crossings mesh s i).isBorder = true ↔
      (axisFraction mesh s.signedDistanceCopy i 0).isSome = true ∨
      (axisFraction mesh s.signedDistanceCopy i 1).isSome = true) := by
  have hr : List.range 4 = [0, 1, 2, 3] := by decide
  unfold crossings
  rw [hr]
  simp only [List.foldl_cons, List.foldl_nil]
  have p0 := crossing_pair mesh s i ⟨false, fun _ => 0, fun _ => 0⟩ 0 (by norm_num) rfl
  simp only [Nat.mul_zero, Nat.zero_add] at p0
  obtain ⟨a1, a2, a3⟩ := p0
  have p1 := crossing_pair mesh s i
    (crossingStep mesh s i (crossingStep mesh s i ⟨false, fun _ => 0, fun _ => 0⟩ 0) 1) 1
    (by norm_num) (by rw [a2 1 (by norm_num)])
  simp only [Nat.mul_one] at p1
  obtain ⟨b1, b2, b3⟩ := p1
  refine ⟨?_, b1, ?_⟩
  · rw [b2 0 (by norm_num), a1]
  · rw [b3, a3]; simp

theorem axisFraction_some (mesh : Mesh) (phi : Nat → α) (i axis : Nat) (d : α)
    (h : axisFraction mesh phi i axis = some d) :
    0 < d ∧ d < 1 ∧
    (crossingFraction mesh phi i (2 * axis) = some d ∨
      crossingFraction mesh phi i (2 * axis + 1) = some d) ∧
    (∀ x, crossingFraction mesh phi i (2 * axis) = some x → d ≤ x) ∧
    (∀ x, crossingFraction mesh phi i (2 * axis + 1) = some x → d ≤ x) := by
  unfold axisFraction at h
  simp only [List.filterMap_cons, List.filterMap_nil] at h
  rcases hf0 : crossingFraction mesh phi i (2 * axis) with _ | x <;>
  rcases hf1 : crossingFraction mesh phi i (2 * axis + 1) with _ | y <;>
  simp only [hf0, hf1, smallest, List.foldl_cons, List.foldl_nil, Option.some.injEq,
    reduceCtorEq] at h
  · subst h
    have := crossingFraction_pos _ _ _ _ _ hf1
    simp [this.1, this.2]
  · subst h
    have := crossingFraction_pos _ _ _ _ _ hf0
    simp [this.1, this.2]
  · subst h
    have hx := crossingFraction_pos _ _ _ _ _ hf0
    have hy := crossingFraction_pos _ _ _ _ _ hf1
    rcases le_total x y with hxy | hxy
    · simp [min_eq_left hxy, hx.1, hx.2, hxy]
    · simp [min_eq_right hxy, hy.1, hy.2, hxy]

theorem axisFraction_none (mesh : Mesh) (phi : Nat → α) (i axis : Nat) :
    axisFraction mesh phi i axis = none ↔
      crossingFraction mesh phi i (2 * axis) = none ∧
      crossingFraction mesh phi i (2 * axis + 1) = none := by
  unfold axisFraction
  simp only [List.filterMap_cons, List.filterMap_nil]
  rcases hf0 : crossingFraction mesh phi i (2 * axis) with _ | x <;>
  rcases hf1 : crossingFraction mesh phi i (2 * axis + 1) with _ | y <;>
  simp [smallest]

theorem distSum_eq (mesh : Mesh) (s : FastMarchingMethod α) (i : Nat) :
    distSum (crossings mesh s i) =
      inverseSquare (axisFraction mesh s.signedDistanceCopy i 0) +
      inverseSquare (axisFraction mesh s.signedDistanceCopy i 1) := by
  have hr : List.range 2 = [0, 1] := by decide
  obtain ⟨h0, h1, _⟩ := crossings_spec mesh s i
  unfold distSum
  rw [hr]
  simp only [List.foldl_cons, List.foldl_nil, h0, h1]
  rcases hf0 : axisFraction mesh s.signedDistanceCopy i 0 with _ | x <;>
  rcases hf1 : axisFraction mesh s.signedDistanceCopy i 1 with _ | y
  · simp [inverseSquare]
  · have := (axisFraction_some _ _ _ _ _ hf1).1
    simp [inverseSquare, this, sq]
  · have := (axisFraction_some _ _ _ _ _ hf0).1
    simp [inverseSquare, this, sq]
  · have hx := (axisFraction_some _ _ _ _ _ hf0).1
    have hy := (axisFraction_some _ _ _ _ _ hf1).1
    simp [inverseSquare, hx, hy, sq]

theorem inverseSquare_nonneg (o : Option α) (h : ∀ d, o = some d → 0 < d) :
    0 ≤ inverseSquare o ∧ (o.isSome = true → 0 < inverseSquare o) := by
  cases o with
  | none => simp [inverseSquare]
  | some d =>
    have := h d rfl
    simp only [inverseSquare, Option.isSome_some, true_implies]
    have : 0 < 1 / d ^ 2 := by positivity
    exact ⟨le_of_lt this, this⟩

theorem distSum_pos (mesh : Mesh) (s : FastMarchingMethod α) (i : Nat)
    (h : (crossings mesh s i).isBorder = true) : 0 < distSum (crossings mesh s i) := by
  rw [distSum_eq]
  have h0 := inverseSquare_nonneg (axisFraction mesh s.signedDistanceCopy i 0)
    (fun d hd => (axisFraction_some _ _ _ _ _ hd).1)
  have h1 := inverseSquare_nonneg (axisFraction mesh s.signedDistanceCopy i 1)
    (fun d hd => (axisFraction_some _ _ _ _ _ hd).1)
  rcases (crossings_spec mesh s i).2.2.1 h with hb | hb
  · linarith [h0.2 hb, h1.1]
  · linarith [h1.2 hb, h0.1]

theorem crossingWeights_den (mesh : Mesh) (s : FastMarchingMethod α) (i : Nat) :
    (crossingWeights (crossings mesh s i)).2 = distSum (crossings mesh s i) := by
  have hr : List.range 2 = [0, 1] := by decide
  obtain ⟨h0, h1, _⟩ := crossings_spec mesh s i
  unfold distSum crossingWeights
  rw [hr]
  simp only [List.foldl_cons, List.foldl_nil, h0, h1]
  rcases hf0 : axisFraction mesh s.signedDistanceCopy i 0 with _ | x <;>
  rcases hf1 : axisFraction mesh s.signedDistanceCopy i 1 with _ | y
  · simp
  · have := (axisFraction_some _ _ _ _ _ hf1).1
    simp [this, ne_of_gt this]
  · have := (axisFraction_some _ _ _ _ _ hf0).1
    simp [this, ne_of_gt this]
  · have hx := (axisFraction_some _ _ _ _ _ hf0).1
    have hy := (axisFraction_some _ _ _ _ _ hf1).1
    simp [hx, hy, ne_of_gt hx, ne_of_gt hy]

theorem borderStep_eq (C : Numerics α) (mesh : Mesh) (s : FastMarchingMethod α)
    (r : FastMarchingMethod α × Nat) (m : Nat)
    (h1 : r.1.signedDistanceCopy = s.signedDistanceCopy) (h2 : r.1.velocityCopy = s.velocityCopy)
    (h3 : r.1.isVelocity = s.isVelocity) (h4 : r.1.nodeStatus m = s.nodeStatus m) :
    borderStep C mesh r m =
      if IsBorder mesh s m then
        .ok ({ r.1 with
                signedDistance := Function.update r.1.signedDistance m (borderDistance C mesh s m)
                nodeStatus := Function.update r.1.nodeStatus m .FROZEN
                velocity := if s.isVelocity = true then
                    Function.update r.1.velocity m (borderVelocity mesh s m)
                  else r.1.velocity }, r.2 + 1)
      else .ok r := by
  have hc := crossings_congr mesh s r.1 m h1 h2 h3
  unfold borderStep IsBorder borderDistance borderVelocity
  simp only [hc, h1, h3, h4]
  by_cases hn : s.nodeStatus m = .NONE
  · by_cases hb : (crossings mesh s m).isBorder = true
    · have hden : (crossingWeights (crossings mesh s m)).2 ≠ 0 := by
        rw [crossingWeights_den]; exact ne_of_gt (distSum_pos mesh s m hb)
      by_cases hv : s.isVelocity = true
      · by_cases hneg : s.signedDistanceCopy m < 0 <;>
          simp [hn, hb, hv, hneg, hden]
      · by_cases hneg : s.signedDistanceCopy m < 0 <;>
          simp [hn, hb, hv, hneg]
    · simp [hn, hb]
  · simp [hn]

theorem borderPass_fold (C : Numerics α) (mesh : Mesh) (s : FastMarchingMethod α) (n m : Nat) :
    ∃ r, forM (borderStep C mesh) (List.range m) (s, n) = .ok r ∧ BorderPassed C mesh s n m r := by
  induction m with
  | zero =>
    refine ⟨(s, n), rfl, ?_⟩
    simp [BorderPassed]
  | succ m ih =>
    obtain ⟨r, hr, h1, h2, h3, h4, h5, h6, h7, h8, h9, h10⟩ := ih
    have hst : r.1.nodeStatus m = s.nodeStatus m := by rw [h7]; simp
    rw [forM_range_succ, hr]
    simp only [Outcome.bind]
    rw [borderStep_eq C mesh s r m h2 h3 h1 hst]
    have hlt : ∀ k, k < m + 1 ↔ k < m ∨ k = m := fun k => by omega
    by_cases hb : IsBorder mesh s m
    · simp only [hb, if_true]
      refine ⟨_, rfl, h1, h2, h3, h4, h5, h6, ?_, ?_, ?_, ?_⟩
      · intro k
        rcases lt_trichotomy k m with hk | hk | hk
        · have hne : k ≠ m := by omega
          have hk1 : k < m + 1 := by omega
          simp [Function.update_noteq hne, h7, hk, hk1]
        · subst hk; simp [hb]
        · have hne : k ≠ m := by omega
          have hk0 : ¬ k < m := by omega
          have hk1 : ¬ k < m + 1 := by omega
          simp [Function.update_noteq hne, h7, hk0, hk1]
      · intro k
        rcases lt_trichotomy k m with hk | hk | hk
        · have hne : k ≠ m := by omega
          have hk1 : k < m + 1 := by omega
          simp [Function.update_noteq hne, h8, hk, hk1]
        · subst hk; simp [hb]
        · have hne : k ≠ m := by omega
          have hk0 : ¬ k < m := by omega
          have hk1 : ¬ k < m + 1 := by omega
          simp [Function.update_noteq hne, h8, hk0, hk1]
      · intro k
        by_cases hv : s.isVelocity = true
        · rcases lt_trichotomy k m with hk | hk | hk
          · have hne : k ≠ m := by omega
            have hk1 : k < m + 1 := by omega
            simp [Function.update_noteq hne, h9, hk, hk1, hv]
          · subst hk; simp [hb, hv]
          · have hne : k ≠ m := by omega
            have hk0 : ¬ k < m := by omega
            have hk1 : ¬ k < m + 1 := by omega
            simp [Function.update_noteq hne, h9, hk0, hk1, hv]
        · simp [h9, hv]
      · simp only [Nat.add_eq_zero, one_ne_zero, and_false, false_iff, not_and, not_forall,
          Classical.not_imp, not_not]
        intro _
        exact ⟨m, by omega, hb⟩
    · simp only [hb, if_false]
      refine ⟨_, rfl, h1, h2, h3, h4, h5, h6, ?_, ?_, ?_, ?_⟩
      · intro k
        rw [h7]
        by_cases hk : k = m
        · subst hk; simp [hb]
        · simp [hlt, hk]
      · intro k
        rw [h8]
        by_cases hk : k = m
        · subst hk; simp [hb]
        · simp [hlt, hk]
      · intro k
        rw [h9]
        by_cases hk : k = m
        · subst hk; simp [hb]
        · simp [hlt, hk]
      · rw [h10]
        constructor
        · rintro ⟨hn, h⟩
          refine ⟨hn, fun k hk => ?_⟩
          rcases (hlt k).1 hk with hk | hk
          · exact h k hk
          · subst hk; exact hb
        · rintro ⟨hn, h⟩
          exact ⟨hn, fun k hk => h k (by omega)⟩

/-- The outcome of `initialiseFrozen` in closed form. -/
theorem initialiseFrozen_eq (C : Numerics α) (mesh : Mesh) (s : FastMarchingMethod α) :
    ∃ r, BorderPassed C mesh (zeroPass mesh s).1 (zeroPass mesh s).2 mesh.nNodes r ∧
      initialiseFrozen C mesh s = if r.2 > 0 then .ok r.1 else .noFrozenNodes := by
  obtain ⟨r, hr, hp⟩ := borderPass_fold C mesh (zeroPass mesh s).1 (zeroPass mesh s).2 mesh.nNodes
  refine ⟨r, hp, ?_⟩
  unfold initialiseFrozen
  rw [show zeroPass mesh s = ((zeroPass mesh s).1, (zeroPass mesh s).2) from rfl, hr]
  rfl

theorem crossingFraction_isSome (mesh : Mesh) (phi : Nat → α) (i j : Nat) :
    (crossingFraction mesh phi i j).isSome = true ↔
      toInt (mesh.neighbours i j) ≠ -1 ∧
        OppositeSign (phi i) (phi (idx (toInt (mesh.neighbours i j)))) := by
  unfold crossingFraction
  split_ifs with h
  · simp [h]
  · simp [h]

theorem hasCrossing_iff (mesh : Mesh) (phi : Nat → α) (i : Nat) :
    HasCrossing mesh phi i ↔
      (axisFraction mesh phi i 0).isSome = true ∨ (axisFraction mesh phi i 1).isSome = true := by
  have e : ∀ a, (axisFraction mesh phi i a).isSome = true ↔
      (crossingFraction mesh phi i (2 * a)).isSome = true ∨
      (crossingFraction mesh phi i (2 * a + 1)).isSome = true := by
    intro a
    have := axisFraction_none mesh phi i a
    rcases h : axisFraction mesh phi i a with _ | d
    · rw [h] at this
      have := this.1 rfl
      simp [this.1, this.2]
    · rw [h] at this
      simp only [Option.isSome_some, true_iff]
      by_contra hc
      simp only [not_or, Bool.not_eq_true, Option.not_isSome, Option.isNone_iff_eq_none] at hc
      exact absurd (this.2 hc) (by simp)
  rw [e 0, e 1]
  simp only [crossingFraction_isSome]
  unfold HasCrossing
  constructor
  · rintro ⟨j, hj, h⟩
    interval_cases j
    · exact Or.inl (Or.inl h)
    · exact Or.inl (Or.inr h)
    · exact Or.inr (Or.inl h)
    · exact Or.inr (Or.inr h)
  · rintro ((h | h) | (h | h))
    · exact ⟨0, by norm_num, h⟩
    · exact ⟨1, by norm_num, h⟩
    · exact ⟨2, by norm_num, h⟩
    · exact ⟨3, by norm_num, h⟩

theorem isBorder_iff (mesh : Mesh) (s : FastMarchingMethod α) (i : Nat) :
    (crossings mesh s i).isBorder = true ↔ HasCrossing mesh s.signedDistanceCopy i := by
  rw [hasCrossing_iff]
  exact (crossings_spec mesh s i).2.2

theorem zeroPass_spec (mesh : Mesh) (s : FastMarchingMethod α) :
    ZeroPassed s mesh.nNodes (zeroPass mesh s) :=
  zeroPass_fold s mesh.nNodes

/-- The snapshot of a node of the mesh is its input distance. -/
theorem snapshot_eq (mesh : Mesh) (s : FastMarchingMethod α) (k : Nat) (hk : k < mesh.nNodes) :
    snapshot mesh s k = s.signedDistance k := by
  unfold snapshot
  rw [(zeroPass_spec mesh s).2.2.2.2.2.2.1 k]
  simp [hk]

/-- The outcomes of `initialiseFrozen`. -/
theorem initialiseFrozen_outcome (C : Numerics α) (mesh : Mesh) (s : FastMarchingMethod α) :
    (initialiseFrozen C mesh s = .noFrozenNodes ↔
      (∀ i, i < mesh.nNodes → ¬ (s.nodeStatus i ≠ .MASKED ∧ s.signedDistance i = 0)) ∧
      (∀ i, i < mesh.nNodes → (zeroPass mesh s).1.nodeStatus i = .NONE →
        ¬ HasCrossing mesh (snapshot mesh s) i)) ∧
    (initialiseFrozen C mesh s ≠ .noFrozenNodes → ∃ s', initialiseFrozen C mesh s = .ok s') ∧
    ((∀ k, 0 < snapshot mesh s k) → initialiseFrozen C mesh s = .noFrozenNodes) := by
  obtain ⟨r, hp, he⟩ := initialiseFrozen_eq C mesh s
  have hz := (zeroPass_spec mesh s).2.2.2.2.2.2.2.2.2
  have h10 := hp.2.2.2.2.2.2.2.2.2
  have hb : ∀ k, IsBorder mesh (zeroPass mesh s).1 k ↔
      ((zeroPass mesh s).1.nodeStatus k = .NONE ∧ HasCrossing mesh (snapshot mesh s) k) := by
    intro k
    unfold IsBorder snapshot
    rw [isBorder_iff]
  have hiff : initialiseFrozen C mesh s = .noFrozenNodes ↔
      (∀ i, i < mesh.nNodes → ¬ (s.nodeStatus i ≠ .MASKED ∧ s.signedDistance i = 0)) ∧
      (∀ i, i < mesh.nNodes → (zeroPass mesh s).1.nodeStatus i = .NONE →
        ¬ HasCrossing mesh (snapshot mesh s) i) := by
    rw [he]
    by_cases h0 : r.2 > 0
    · simp only [h0, if_true, reduceCtorEq, false_iff]
      intro hcon
      have : r.2 = 0 :=
        h10.2 ⟨hz.2 hcon.1, fun k hk hbk => hcon.2 k hk ((hb k).1 hbk).1 ((hb k).1 hbk).2⟩
      omega
    · simp only [h0, if_false, true_iff]
      have h00 : r.2 = 0 := by omega
      obtain ⟨hn, hbk⟩ := h10.1 h00
      exact ⟨hz.1 hn, fun k hk hst hc => hbk k hk ((hb k).2 ⟨hst, hc⟩)⟩
  refine ⟨hiff, ?_, ?_⟩
  · intro hne
    rw [he] at hne ⊢
    by_cases h0 : r.2 > 0
    · exact ⟨r.1, by simp [h0]⟩
    · simp [h0] at hne
  · intro hpos
    rw [hiff]
    refine ⟨fun i hi hz0 => ?_, fun i _ _ hcr => ?_⟩
    · have := hpos i
      rw [snapshot_eq mesh s i hi, hz0.2] at this
      exact lt_irrefl _ this
    · obtain ⟨j, _, _, ho⟩ := hcr
      have p1 := hpos i
      have p2 := hpos (idx (toInt (mesh.neighbours i j)))
      rcases ho with ⟨h, _⟩ | ⟨_, h⟩
      · exact lt_asymm p1 h
      · exact lt_asymm p2 h

theorem sqrt_inv (C : Numerics α) (hC : C.Exact) (D : α) (hD : 0 < D) :
    C.sqrt (1 / D) = 1 / C.sqrt D ∧ 0 < C.sqrt D := by
  obtain ⟨h1, h2⟩ := hC D (le_of_lt hD)
  obtain ⟨h3, h4⟩ := hC (1 / D) (by positivity)
  have hpos : 0 < C.sqrt D := by
    rcases lt_or_eq_of_le h1 with h | h
    · exact h
    · rw [← h] at h2; simp at h2; linarith
  refine ⟨?_, hpos⟩
  have h5 : 0 ≤ 1 / C.sqrt D := by positivity
  have h6 : (1 / C.sqrt D) * (1 / C.sqrt D) = 1 / D := by
    rw [div_mul_div_comm, one_mul, h2]
  apply le_antisymm
  · rw [mul_self_le_mul_self_iff h3 h5, h4, h6]
  · rw [mul_self_le_mul_self_iff h5 h3, h4, h6]

/-- The outcome of `initialiseFrozen` at a node next to the front. -/
theorem initialiseFrozen_border (C : Numerics α) (mesh : Mesh) (s : FastMarchingMethod α) (i : Nat)
    (hi : i < mesh.nNodes) (hn : (zeroPass mesh s).1.nodeStatus i = .NONE)
    (hc : HasCrossing mesh (snapshot mesh s) i) :
    ∃ s', initialiseFrozen C mesh s = .ok s' ∧ s'.nodeStatus i = .FROZEN ∧
      s'.signedDistance i = borderDistance C mesh (zeroPass mesh s).1 i := by
  obtain ⟨r, hp, he⟩ := initialiseFrozen_eq C mesh s
  have hb : IsBorder mesh (zeroPass mesh s).1 i := ⟨hn, (isBorder_iff _ _ _).2 hc⟩
  have h0 : r.2 > 0 := by
    rcases Nat.eq_zero_or_pos r.2 with h | h
    · exact absurd hb ((hp.2.2.2.2.2.2.2.2.2.1 h).2 i hi)
    · exact h
  refine ⟨r.1, by rw [he]; simp [h0], ?_, ?_⟩
  · rw [hp.2.2.2.2.2.2.1 i]; simp [hi, hb]
  · rw [hp.2.2.2.2.2.2.2.1 i]; simp [hi, hb]

/-! ## The heap, `initialiseTrial` and `solve` -/

theorem minEntry_spec (e : HeapEntry α) (l : List (HeapEntry α)) :
    (minEntry e l = e ∨ minEntry e l ∈ l) ∧ (minEntry e l).key ≤ e.key ∧
      ∀ x ∈ l, (minEntry e l).key ≤ x.key := by
  induction l generalizing e with
  | nil => simp [minEntry]
  | cons x l ih =>
    unfold minEntry
    by_cases hx : x.key < e.key
    · simp only [hx, if_true]
      obtain ⟨h1, h2, h3⟩ := ih x
      refine ⟨?_, le_trans h2 (le_of_lt hx), ?_⟩
      · right
        rcases h1 with h | h
        · rw [h]; exact List.mem_cons_self _ _
        · exact List.mem_cons_of_mem _ h
      · intro y hy
        rcases List.mem_cons.1 hy with h | h
        · rw [h]; exact h2
        · exact h3 y h
    · simp only [hx, if_false]
      obtain ⟨h1, h2, h3⟩ := ih e
      refine ⟨?_, h2, ?_⟩
      · rcases h1 with h | h
        · exact Or.inl h
        · exact Or.inr (List.mem_cons_of_mem _ h)
      · intro y hy
        rcases List.mem_cons.1 hy with h | h
        · rw [h]; exact le_trans h2 (not_lt.1 hx)
        · exact h3 y h

theorem Heap.top_spec (h : Heap α) (hne : h.empty = false) :
    ∃ e, h.top = some e ∧ e ∈ h.entries ∧ ∀ x ∈ h.entries, e.key ≤ x.key := by
  unfold Heap.empty at hne
  unfold Heap.top
  rcases hl : h.entries with _ | ⟨e, l⟩
  · rw [hl] at hne; simp at hne
  · obtain ⟨h1, h2, h3⟩ := minEntry_spec e l
    refine ⟨minEntry e l, rfl, ?_, ?_⟩
    · rcases h1 with h | h
      · rw [h]; exact List.mem_cons_self _ _
      · exact List.mem_cons_of_mem _ h
    · intro x hx
      rcases List.mem_cons.1 hx with h | h
      · rw [h]; exact h2
      · exact h3 x h

theorem Heap.pop_spec (h : Heap α) (e : HeapEntry α) (he : h.top = some e) :
    h.pop = ({ h with entries := h.entries.filter (fun x => x.handle != e.handle) },
      e.address, e.key) := by
  unfold Heap.pop
  rw [he]

theorem Heap.peek_spec (h : Heap α) (e : HeapEntry α) (he : h.top = some e) : h.peek = e.key := by
  unfold Heap.peek
  rw [he]

theorem forward_refl (a : FMM_NodeStatus) : a.forward a = true := by cases a <;> rfl

theorem forward_trans (a b c : FMM_NodeStatus) (h1 : a.forward b = true)
    (h2 : b.forward c = true) : a.forward c = true := by
  cases a <;> cases b <;> cases c <;> first | rfl | exact h1 | exact h2

theorem forward_frozen (b : FMM_NodeStatus) (h : FMM_NodeStatus.FROZEN.forward b = true) :
    b = .FROZEN := by
  cases b <;> first | rfl | exact absurd h (by decide)

theorem advances_refl (s : FastMarchingMethod α) : Advances s s :=
  fun i => ⟨forward_refl _, fun _ => rfl⟩

theorem advances_trans {s t u : FastMarchingMethod α} (h1 : Advances s t) (h2 : Advances t u) :
    Advances s u := by
  intro i
  refine ⟨forward_trans _ _ _ (h1 i).1 (h2 i).1, fun hf => ?_⟩
  have ht : t.nodeStatus i = .FROZEN := forward_frozen _ (hf ▸ (h1 i).1)
  rw [(h2 i).2 ht, (h1 i).2 hf]

theorem keeps_refl (mesh : Mesh) (s : FastMarchingMethod α) : Keeps mesh s s :=
  fun h => ⟨advances_refl s, h, id⟩

theorem keeps_trans {mesh : Mesh} {s t u : FastMarchingMethod α} (h1 : Keeps mesh s t)
    (h2 : Keeps mesh t u) : Keeps mesh s u := by
  intro h
  obtain ⟨a1, b1, c1⟩ := h1 h
  obtain ⟨a2, b2, c2⟩ := h2 b1
  exact ⟨advances_trans a1 a2, b2, fun x => c2 (c1 x)⟩

theorem finaliseVelocity_ok (mesh : Mesh) (s t : FastMarchingMethod α) (node : Nat)
    (h : finaliseVelocity mesh s node = .ok t) :
    t.nodeStatus = s.nodeStatus ∧ t.signedDistance = s.signedDistance ∧ t.heap = s.heap ∧
    t.heapPtr = s.heapPtr ∧ t.popLog = s.popLog ∧ t.isVelocity = s.isVelocity ∧
    t.signedDistanceCopy = s.signedDistanceCopy ∧ t.velocityCopy = s.velocityCopy := by
  unfold finaliseVelocity at h
  simp only at h
  split_ifs at h
  simp only [Outcome.ok.injEq] at h
  subst h
  simp

theorem finaliseVelocity_clean (mesh : Mesh) (s : FastMarchingMethod α) (node : Nat) :
    (finaliseVelocity mesh s node).clean true := by
  unfold finaliseVelocity
  simp only
  split_ifs <;> simp [Outcome.clean]

theorem freeze_ok (mesh : Mesh) (s t : FastMarchingMethod α) (tf tf' : List Nat) (addr : Nat)
    (h : freeze mesh s tf addr = .ok (t, tf')) :
    t.nodeStatus = Function.update s.nodeStatus addr .FROZEN ∧
    t.signedDistance = s.signedDistance ∧ t.heap = s.heap ∧ t.heapPtr = s.heapPtr ∧
    t.popLog = s.popLog ∧ t.isVelocity = s.isVelocity ∧
    t.signedDistanceCopy = s.signedDistanceCopy ∧ t.velocityCopy = s.velocityCopy ∧
    tf' = tf ++ [addr] := by
  unfold freeze at h
  simp only at h
  split_ifs at h
  · rcases hv : finaliseVelocity mesh
        { s with nodeStatus := Function.update s.nodeStatus addr .FROZEN } addr with u | _ | _ | _
    all_goals rw [hv] at h
    all_goals simp only [Outcome.bind, Outcome.ok.injEq, Prod.mk.injEq, reduceCtorEq] at h
    obtain ⟨h1, h2⟩ := h
    subst h1 h2
    have := finaliseVelocity_ok _ _ _ _ hv
    simpa using this
  · simp only [Outcome.ok.injEq, Prod.mk.injEq] at h
    obtain ⟨h1, h2⟩ := h
    subst h1 h2
    simp

theorem freeze_clean (mesh : Mesh) (s : FastMarchingMethod α) (tf : List Nat) (addr : Nat) :
    (freeze mesh s tf addr).clean s.isVelocity := by
  unfold freeze
  simp only
  split_ifs with hv
  · have := finaliseVelocity_clean mesh
      { s with nodeStatus := Function.update s.nodeStatus addr .FROZEN } addr
    revert this
    cases finaliseVelocity mesh
      { s with nodeStatus := Function.update s.nodeStatus addr .FROZEN } addr <;>
      simp [Outcome.bind, Outcome.clean, hv]
  · simp [Outcome.clean]

theorem heapInv_unique {mesh : Mesh} {s : FastMarchingMethod α} (hinv : HeapInv mesh s)
    {x y : HeapEntry α} (hx : x ∈ s.heap.entries) (hy : y ∈ s.heap.entries) (hne : x ≠ y) :
    x.address ≠ y.address ∧ x.handle ≠ y.handle := by
  have hsym : Symmetric (fun a b : HeapEntry α => a.address ≠ b.address ∧ a.handle ≠ b.handle) :=
    fun a b h => ⟨fun e => h.1 e.symm, fun e => h.2 e.symm⟩
  exact hinv.2.forall hsym hx hy hne

/-- One pop of `solve` followed by the freezing of the popped node. -/
theorem pop_freeze (mesh : Mesh) (s : FastMarchingMethod α) (tf : List Nat)
    (hne : s.heap.empty = false) (hinv : HeapInv mesh s) :
    ∃ e, e ∈ s.heap.entries ∧ (∀ x ∈ s.heap.entries, e.key ≤ x.key) ∧
      (popHeap s).2.1 = e.address ∧ (popHeap s).2.2 = e.key ∧ s.heap.peek = e.key ∧
      e.address < mesh.nNodes ∧ s.nodeStatus e.address = .TRIAL ∧
      (popHeap s).1.heap.entries.length < s.heap.entries.length ∧
      ∀ t tf', freeze mesh (popHeap s).1 tf (popHeap s).2.1 = .ok (t, tf') →
        tf' = tf ++ [e.address] ∧ t.signedDistance = s.signedDistance ∧
        t.popLog = s.popLog ++ [(e.address, e.key)] ∧
        t.nodeStatus = Function.update s.nodeStatus e.address .FROZEN ∧
        t.heap = (popHeap s).1.heap ∧
        Advances s t ∧ HeapInv mesh t ∧ (TrialInHeap mesh s → TrialInHeap mesh t) ∧
        t.isVelocity = s.isVelocity := by
  obtain ⟨e, htop, hmem, hmin⟩ := Heap.top_spec s.heap hne
  have hpop := Heap.pop_spec s.heap e htop
  obtain ⟨ha, hst, hptr, hh⟩ := hinv.1 e hmem
  have hfilter : ∀ x, x ∈ s.heap.entries.filter (fun x => x.handle != e.handle) ↔
      x ∈ s.heap.entries ∧ x ≠ e := by
    intro x
    simp only [List.mem_filter, bne_iff_ne, ne_eq, and_congr_right_iff]
    intro hx
    constructor
    · intro h hxe; exact h (hxe ▸ rfl)
    · intro h hh; exact (heapInv_unique hinv hx hmem h).2 hh
  refine ⟨e, hmem, hmin, by simp [popHeap, hpop], by simp [popHeap, hpop],
    Heap.peek_spec _ _ htop, ha, hst, ?_, ?_⟩
  · simp only [popHeap, hpop]
    apply List.length_filter_lt_length_iff_exists.2
    exact ⟨e, hmem, by simp⟩
  intro t tf' hfr
  have hp1 : (popHeap s).2.1 = e.address := by simp [popHeap, hpop]
  rw [hp1] at hfr
  obtain ⟨f1, f2, f3, f4, f5, f6, f7, f8, f9⟩ := freeze_ok _ _ _ _ _ _ hfr
  have hst' : t.nodeStatus = Function.update s.nodeStatus e.address .FROZEN := by
    rw [f1]; rfl
  have hhe : t.heap.entries = s.heap.entries.filter (fun x => x.handle != e.handle) := by
    rw [f3]; simp [popHeap, hpop]
  refine ⟨f9, by rw [f2]; rfl, by rw [f5]; simp [popHeap, hpop], hst', f3, ?_, ?_, ?_,
    by rw [f6]; rfl⟩
  · intro i
    rw [hst', f2]
    refine ⟨?_, fun _ => rfl⟩
    by_cases hi : i = e.address
    · subst hi; rw [Function.update_same, hst]; rfl
    · rw [Function.update_noteq hi]; exact forward_refl _
  · constructor
    · intro x hx
      rw [hhe, hfilter] at hx
      obtain ⟨xa, xs, xp, xh⟩ := hinv.1 x hx.1
      have hne' := (heapInv_unique hinv hx.1 hmem hx.2).1
      refine ⟨xa, ?_, ?_, ?_⟩
      · rw [hst', Function.update_noteq hne']; exact xs
      · rw [f4]; exact xp
      · rw [f3]; simpa [popHeap, hpop] using xh
    · rw [hhe]; exact hinv.2.filter _
  · intro htr i hi hti
    rw [hst'] at hti
    have hie : i ≠ e.address := by
      intro h; rw [h, Function.update_same] at hti; exact absurd hti (by decide)
    rw [Function.update_noteq hie] at hti
    obtain ⟨x, hx, hxa⟩ := htr i hi hti
    refine ⟨x, ?_, hxa⟩
    rw [hhe, hfilter]
    exact ⟨hx, fun h => hie (by rw [← hxa, h])⟩

/-- The loop that pops the entries tied with `value`. -/
theorem popTies_spec (mesh : Mesh) (value : α) (n : Nat) :
    ∀ (s : FastMarchingMethod α) (tf : List Nat), HeapInv mesh s →
      (popTies mesh value n (s, tf)).clean s.isVelocity ∧
      ∀ t tf', popTies mesh value n (s, tf) = .ok (t, tf') →
        t.signedDistance = s.signedDistance ∧ t.isVelocity = s.isVelocity ∧
        Advances s t ∧ HeapInv mesh t ∧ (TrialInHeap mesh s → TrialInHeap mesh t) ∧
        (∃ L, t.popLog = s.popLog ++ L ∧ ∀ p ∈ L, p.2 = value) ∧
        ((∀ a ∈ tf, a < mesh.nNodes) → ∀ a ∈ tf', a < mesh.nNodes) ∧
        (∀ i, t.nodeStatus i = .FROZEN → s.nodeStatus i = .FROZEN ∨ i ∈ tf') ∧
        (∃ A, tf' = tf ++ A) ∧
        (s.heap.entries.length ≤ n → t.heap.empty = true ∨ value ≠ t.heap.peek) := by
  induction n with
  | zero =>
    intro s tf hinv
    refine ⟨by simp [Outcome.clean, popTies], fun t tf' h => ?_⟩
    simp only [popTies, Outcome.ok.injEq, Prod.mk.injEq] at h
    obtain ⟨h1, h2⟩ := h
    subst h1 h2
    refine ⟨rfl, rfl, advances_refl _, hinv, id, ⟨[], by simp, by simp⟩, fun h => h,
      fun i h => Or.inl h, ⟨[], by simp⟩, fun hl => ?_⟩
    left
    simp only [Nat.le_zero, List.length_eq_zero] at hl
    simp [Heap.empty, hl]
  | succ n ih =>
    intro s tf hinv
    unfold popTies
    by_cases hc : (!s.heap.empty && value == s.heap.peek) = true
    · simp only [hc, if_true]
      have hne : s.heap.empty = false := by
        simp only [Bool.and_eq_true, Bool.not_eq_true', beq_iff_eq] at hc; exact hc.1
      have hval : value = s.heap.peek := by
        simp only [Bool.and_eq_true, Bool.not_eq_true', beq_iff_eq] at hc; exact hc.2
      obtain ⟨e, hmem, hmin, p1, p2, p3, p4, p5, p6, hfr⟩ := pop_freeze mesh s tf hne hinv
      have hfin := freeze_clean mesh (popHeap s).1 tf (popHeap s).2.1
      have hpv : (popHeap s).1.isVelocity = s.isVelocity := rfl
      rw [hpv] at hfin
      rcases hf : freeze mesh (popHeap s).1 tf (popHeap s).2.1 with ⟨u, tfu⟩ | _ | _ | _
      · obtain ⟨g1, g2, g3, g4, g5, g6, g7, g8, g9⟩ := hfr u tfu hf
        obtain ⟨i1, i2⟩ := ih u tfu g7
        simp only [Outcome.bind]
        rw [g9] at i1
        refine ⟨i1, fun t tf' h => ?_⟩
        obtain ⟨j1, jv, j2, j3, j4, ⟨L, j5, j6⟩, j7, j8, ⟨A, jA⟩, j9⟩ := i2 t tf' h
        refine ⟨by rw [j1, g2], by rw [jv, g9], advances_trans g6 j2, j3, fun x => j4 (g8 x),
          ⟨(e.address, e.key) :: L, by rw [j5, g3]; simp, ?_⟩, ?_, ?_,
          ⟨e.address :: A, by rw [jA, g1]; simp⟩, ?_⟩
        · intro p hp
          rcases List.mem_cons.1 hp with h | h
          · rw [h, hval, p3]
          · exact j6 p h
        · intro htf
          apply j7
          intro a ha
          rw [g1] at ha
          rcases List.mem_append.1 ha with h | h
          · exact htf a h
          · simp only [List.mem_singleton] at h; rw [h]; exact p4
        · intro i hi
          rcases j8 i hi with h | h
          · rw [g4] at h
            by_cases hie : i = e.address
            · right
              rw [jA, g1, hie]; simp
            · rw [Function.update_noteq hie] at h; exact Or.inl h
          · exact Or.inr h
        · intro hl
          apply j9
          rw [g5]
          omega
      · rw [hf] at hfin; exact absurd hfin (by simp [Outcome.clean])
      · rw [hf] at hfin; simpa [Outcome.bind, Outcome.clean] using hfin
      · rw [hf] at hfin; exact absurd hfin (by simp [Outcome.clean])
    · simp only [hc, if_false, Bool.false_eq_true]
      refine ⟨by simp [Outcome.clean], fun t tf' h => ?_⟩
      simp only [Outcome.ok.injEq, Prod.mk.injEq] at h
      obtain ⟨h1, h2⟩ := h
      subst h1 h2
      refine ⟨rfl, rfl, advances_refl _, hinv, id, ⟨[], by simp, by simp⟩, fun h => h,
        fun i h => Or.inl h, ⟨[], by simp⟩, fun _ => ?_⟩
      simp only [Bool.and_eq_true, Bool.not_eq_true', beq_iff_eq, not_and] at hc
      by_cases he : s.heap.empty = true
      · exact Or.inl he
      · exact Or.inr (hc (by simpa using he))

theorem relaxes_refl (mesh : Mesh) (s : FastMarchingMethod α) : Relaxes mesh s s :=
  ⟨keeps_refl mesh s, rfl, fun _ h => h, rfl⟩

theorem relaxes_trans {mesh : Mesh} {s t u : FastMarchingMethod α} (h1 : Relaxes mesh s t)
    (h2 : Relaxes mesh t u) : Relaxes mesh s u :=
  ⟨keeps_trans h1.1 h2.1, by rw [h2.2.1, h1.2.1], fun i h => h1.2.2.1 i (h2.2.2.1 i h),
    by rw [h2.2.2.2, h1.2.2.2]⟩

theorem toInt_noNeighbour : toInt noNeighbour = -1 := by decide

theorem neighbour_cases (mesh : Mesh) (hm : mesh.Valid) (i j : Nat) (hi : i < mesh.nNodes)
    (hj : j < 4) :
    toInt (mesh.neighbours i j) = -1 ∨
      (idx (toInt (mesh.neighbours i j)) < mesh.nNodes ∧
        toUInt (toInt (mesh.neighbours i j)) = idx (toInt (mesh.neighbours i j)) ∧
        idx (toInt (mesh.neighbours i j)) = mesh.neighbours i j) := by
  rcases hm.2 i hi j hj with h | h
  · left; rw [h]; exact toInt_noNeighbour
  · right
    have hlt := hm.1
    have h31 : mesh.neighbours i j < 2 ^ 31 := lt_trans h hlt
    have e1 : mesh.neighbours i j % 2 ^ 32 = mesh.neighbours i j :=
      Nat.mod_eq_of_lt (by omega)
    have e2 : toInt (mesh.neighbours i j) = (mesh.neighbours i j : Int) := by
      unfold toInt; rw [e1, if_pos h31]
    have e3 : idx (toInt (mesh.neighbours i j)) = mesh.neighbours i j := by
      rw [e2]; unfold idx; omega
    have e4 : toUInt (toInt (mesh.neighbours i j)) = mesh.neighbours i j := by
      rw [e2]; unfold toUInt; omega
    rw [e3, e4]
    exact ⟨h, rfl, rfl⟩

/-- A write to the distance of a node that is not FROZEN. -/
theorem relaxes_write (mesh : Mesh) (s : FastMarchingMethod α) (k : Nat) (d : α)
    (hk : s.nodeStatus k ≠ .FROZEN) :
    Relaxes mesh s { s with signedDistance := Function.update s.signedDistance k d } := by
  refine ⟨fun hinv => ⟨fun i => ⟨forward_refl _, fun hf => ?_⟩, hinv, id⟩, rfl, fun _ h => h, rfl⟩
  have : i ≠ k := fun h => hk (h ▸ hf)
  simp [Function.update_noteq this]

/-- The statement `heap->set(handle, key)`. -/
theorem relaxes_set (mesh : Mesh) (s : FastMarchingMethod α) (handle : Nat) (key : α) :
    Relaxes mesh s { s with heap := s.heap.set handle key } := by
  refine ⟨fun hinv => ⟨advances_refl _, ⟨?_, ?_⟩, ?_⟩, rfl, fun _ h => h, rfl⟩
  · intro e he
    simp only [Heap.set, List.mem_map] at he
    obtain ⟨x, hx, hxe⟩ := he
    have := hinv.1 x hx
    split_ifs at hxe <;> subst hxe <;> exact this
  · simp only [Heap.set]
    apply hinv.2.map
    intro a b hab
    split_ifs <;> exact hab
  · intro htr i hi hti
    obtain ⟨x, hx, hxa⟩ := htr i hi hti
    refine ⟨if x.handle = handle then { x with key := key } else x, ?_, ?_⟩
    · simp only [Heap.set, List.mem_map]
      exact ⟨x, hx, rfl⟩
    · split_ifs <;> exact hxa

/-- The statements that move a NONE node into the trial band and push it. -/
theorem relaxes_push (mesh : Mesh) (s : FastMarchingMethod α) (k : Nat) (key : α)
    (hk : k < mesh.nNodes) (hs : s.nodeStatus k = .NONE) :
    Relaxes mesh s
      { s with nodeStatus := Function.update s.nodeStatus k .TRIAL
               heap := (s.heap.push k key).1
               heapPtr := Function.update s.heapPtr k (s.heap.push k key).2 } := by
  refine ⟨fun hinv => ⟨?_, ⟨?_, ?_⟩, ?_⟩, rfl, ?_, rfl⟩
  · intro i
    refine ⟨?_, fun _ => rfl⟩
    by_cases hi : i = k
    · subst hi; simp [hs, FMM_NodeStatus.forward]
    · simp [Function.update_noteq hi, forward_refl]
  · intro e he
    simp only [Heap.push, List.mem_append, List.mem_singleton] at he
    rcases he with he | he
    · obtain ⟨xa, xs, xp, xh⟩ := hinv.1 e he
      have hne : e.address ≠ k := fun h => by rw [h, hs] at xs; exact absurd xs (by decide)
      refine ⟨xa, ?_, ?_, ?_⟩
      · simp [Function.update_noteq hne, xs]
      · simp [Function.update_noteq hne, xp]
      · simp only [Heap.push]; omega
    · subst he
      simp [Heap.push, hk]
  · simp only [Heap.push]
    rw [List.pairwise_append]
    refine ⟨hinv.2, by simp, ?_⟩
    intro a ha b hb
    simp only [List.mem_singleton] at hb
    subst hb
    obtain ⟨_, xs, _, xh⟩ := hinv.1 a ha
    refine ⟨fun h => ?_, fun h => ?_⟩
    · simp only at h; rw [h, hs] at xs; exact absurd xs (by decide)
    · simp only at h; omega
  · intro htr i hi hti
    by_cases hik : i = k
    · subst hik
      exact ⟨⟨s.heap.nextHandle, i, key⟩, by simp [Heap.push], rfl⟩
    · simp only [Function.update_noteq hik] at hti
      obtain ⟨x, hx, hxa⟩ := htr i hi hti
      exact ⟨x, by simp [Heap.push, hx], hxa⟩
  · intro i hi
    by_cases hik : i = k
    · subst hik; simp at hi
    · simpa [Function.update_noteq hik] using hi

/-- One neighbour update of `solve`. -/
theorem relax_relaxes (C : Numerics α) (mesh : Mesh) (hm : mesh.Valid) (addr j : Nat)
    (ha : addr < mesh.nNodes) (hj : j < 4) (s : FastMarchingMethod α) :
    Relaxes mesh s (relax C mesh addr s j) := by
  unfold relax
  simp only [test_trial]
  by_cases hn1 : toInt (mesh.neighbours addr j) = -1
  · simp [hn1, relaxes_refl]
  rcases neighbour_cases mesh hm addr j ha hj with h1 | ⟨k1, k2, _⟩
  · exact absurd h1 hn1
  simp only [ne_eq, hn1, not_false_eq_true, if_true]
  generalize idx (toInt (mesh.neighbours addr j)) = k at k1 k2 ⊢
  rw [k2]
  by_cases hf : s.nodeStatus k = .FROZEN
  · simp only [hf, not_true_eq_false, if_false]
    by_cases hn2 : toInt (mesh.neighbours k j) = -1
    · simp [hn2, relaxes_refl]
    rcases neighbour_cases mesh hm k j k1 hj with h2 | ⟨m1, m2, _⟩
    · exact absurd h2 hn2
    simp only [hn2, not_false_eq_true, if_true]
    generalize idx (toInt (mesh.neighbours k j)) = m at m1 m2 ⊢
    rw [m2]
    by_cases ht : s.nodeStatus m = .TRIAL
    · simp only [ht, if_true]
      by_cases hd : updateNode C mesh s m = 0
      · simp only [hd, not_true_eq_false, if_false]
        exact relaxes_refl _ _
      · simp only [hd, not_false_eq_true, if_true]
        exact relaxes_trans
          (t := { s with signedDistance :=
            Function.update s.signedDistance m (updateNode C mesh s m) })
          (relaxes_write mesh s m _ (by rw [ht]; decide))
          (relaxes_set mesh _ (s.heapPtr m) |updateNode C mesh s m|)
    · simp only [ht, if_false]
      exact relaxes_refl _ _
  · simp only [hf, not_false_eq_true, if_true]
    by_cases hd : updateNode C mesh s k = 0
    · simp only [hd, not_true_eq_false, if_false]
      exact relaxes_refl _ _
    · simp only [hd, not_false_eq_true, if_true]
      by_cases ht : s.nodeStatus k = .TRIAL
      · simp only [ht, if_true]
        exact relaxes_trans
          (t := { s with signedDistance :=
            Function.update s.signedDistance k (updateNode C mesh s k) })
          (relaxes_write mesh s k _ hf)
          (relaxes_set mesh _ (s.heapPtr k) |updateNode C mesh s k|)
      · simp only [ht, if_false]
        by_cases hnone : s.nodeStatus k = .NONE
        · simp only [hnone, if_true]
          exact relaxes_trans
            (t := { s with signedDistance :=
              Function.update s.signedDistance k (updateNode C mesh s k) })
            (relaxes_write mesh s k _ hf)
            (relaxes_push mesh _ k |updateNode C mesh s k| k1 hnone)
        · simp only [hnone, if_false]
          exact relaxes_write mesh s k _ hf

theorem relaxAll_relaxes (C : Numerics α) (mesh : Mesh) (hm : mesh.Valid) (tf : List Nat) :
    ∀ s : FastMarchingMethod α, (∀ a ∈ tf, a < mesh.nNodes) →
      Relaxes mesh s (relaxAll C mesh tf s) := by
  have hr : List.range 4 = [0, 1, 2, 3] := by decide
  induction tf with
  | nil => intro s _; exact relaxes_refl _ _
  | cons a l ih =>
    intro s h
    have ha : a < mesh.nNodes := h a (List.mem_cons_self _ _)
    unfold relaxAll
    rw [List.foldl_cons, hr]
    simp only [List.foldl_cons, List.foldl_nil]
    have r0 := relax_relaxes C mesh hm a 0 ha (by norm_num) s
    have r1 := relax_relaxes C mesh hm a 1 ha (by norm_num) (relax C mesh a s 0)
    have r2 := relax_relaxes C mesh hm a 2 ha (by norm_num) (relax C mesh a (relax C mesh a s 0) 1)
    have r3 := relax_relaxes C mesh hm a 3 ha (by norm_num)
      (relax C mesh a (relax C mesh a (relax C mesh a s 0) 1) 2)
    have := ih (relax C mesh a (relax C mesh a (relax C mesh a (relax C mesh a s 0) 1) 2) 3)
      (fun x hx => h x (List.mem_cons_of_mem _ hx))
    unfold relaxAll at this
    rw [hr] at this
    exact relaxes_trans (relaxes_trans (relaxes_trans r0 r1) (relaxes_trans r2 r3)) this

theorem countP_lt_of_imp (l : List Nat) (p q : Nat → Bool) (h : ∀ x ∈ l, q x = true → p x = true)
    (x0 : Nat) (hx : x0 ∈ l) (hp : p x0 = true) (hq : q x0 = false) :
    l.countP q < l.countP p := by
  induction l with
  | nil => simp at hx
  | cons a l ih =>
    rcases List.mem_cons.1 hx with hxa | hxl
    · subst hxa
      rw [List.countP_cons_of_pos _ _ hp, List.countP_cons_of_neg _ _ (by simp [hq])]
      have := List.countP_mono_left (l := l) (p := q) (q := p)
        (fun x hx => h x (List.mem_cons_of_mem _ hx))
      omega
    · have := ih (fun x hx => h x (List.mem_cons_of_mem _ hx)) hxl
      by_cases hqa : q a = true
      · rw [List.countP_cons_of_pos _ _ hqa,
          List.countP_cons_of_pos _ _ (h a (List.mem_cons_self _ _) hqa)]
        omega
      · rw [List.countP_cons_of_neg _ _ hqa]
        by_cases hpa : p a = true
        · rw [List.countP_cons_of_pos _ _ hpa]; omega
        · rw [List.countP_cons_of_neg _ _ hpa]; exact this

theorem activeCount_lt (mesh : Mesh) (s t : FastMarchingMethod α) (h : Advances s t)
    (a : Nat) (ha : a < mesh.nNodes) (hs : s.nodeStatus a = .TRIAL) (ht : t.nodeStatus a = .FROZEN) :
    activeCount mesh t < activeCount mesh s := by
  unfold activeCount
  apply countP_lt_of_imp _ _ _ _ a (List.mem_range.2 ha)
  · simp [hs]
  · simp [ht]
  · intro x _ hx
    have := (h x).1
    simp only [decide_eq_true_eq] at hx ⊢
    revert this hx
    cases s.nodeStatus x <;> cases t.nodeStatus x <;> simp [FMM_NodeStatus.forward]

theorem activeCount_le (mesh : Mesh) (s : FastMarchingMethod α) :
    activeCount mesh s ≤ mesh.nNodes := by
  unfold activeCount
  exact le_trans (List.countP_le_length _) (by simp)

/-- One pass of the main loop of `solve`. -/
theorem solveRound_spec (C : Numerics α) (mesh : Mesh) (hm : mesh.Valid)
    (s : FastMarchingMethod α) (hinv : HeapInv mesh s) (hne : s.heap.empty = false) :
    (solveRound C mesh s).clean s.isVelocity ∧
    ∀ t, solveRound C mesh s = .ok t →
      Advances s t ∧ HeapInv mesh t ∧ (TrialInHeap mesh s → TrialInHeap mesh t) ∧
      t.isVelocity = s.isVelocity ∧ activeCount mesh t < activeCount mesh s ∧
      (∀ i, t.nodeStatus i = .FROZEN → t.signedDistance i = s.signedDistance i) ∧
      ∃ a k L, t.popLog = s.popLog ++ (a, k) :: L ∧ (∀ e ∈ s.heap.entries, k ≤ e.key) ∧
        ∀ p ∈ L, p.2 = k := by
  obtain ⟨e, hmem, hmin, p1, p2, p3, p4, p5, p6, hfr⟩ := pop_freeze mesh s [] hne hinv
  have hfin := freeze_clean mesh (popHeap s).1 [] (popHeap s).2.1
  have hpv : (popHeap s).1.isVelocity = s.isVelocity := rfl
  rw [hpv] at hfin
  unfold solveRound
  simp only
  rcases hf : freeze mesh (popHeap s).1 [] (popHeap s).2.1 with ⟨u, tfu⟩ | _ | _ | _
  · obtain ⟨g1, g2, g3, g4, g5, g6, g7, g8, g9⟩ := hfr u tfu hf
    obtain ⟨i1, i2⟩ := popTies_spec mesh (popHeap s).2.2 (popHeap s).1.heap.entries.length u tfu g7
    rw [g9] at i1
    simp only [Outcome.bind]
    rcases hpt : popTies mesh (popHeap s).2.2 (popHeap s).1.heap.entries.length (u, tfu)
      with ⟨v, tfv⟩ | _ | _ | _
    · obtain ⟨j1, jv, j2, j3, j4, ⟨L, j5, j6⟩, j7, j8, _, _⟩ := i2 v tfv hpt
      simp only [Outcome.bind]
      refine ⟨by simp [Outcome.clean], fun t ht => ?_⟩
      simp only [Outcome.ok.injEq] at ht
      subst ht
      have htf : ∀ a ∈ tfv, a < mesh.nNodes := by
        apply j7
        intro a ha
        rw [g1] at ha
        simp only [List.nil_append, List.mem_singleton] at ha
        rw [ha]; exact p4
      obtain ⟨k1, k4, k5, k6⟩ := relaxAll_relaxes C mesh hm tfv v htf
      have hadv : Advances s (relaxAll C mesh tfv v) := advances_trans (advances_trans g6 j2) (k1 j3).1
      refine ⟨hadv, (k1 j3).2.1, fun x => (k1 j3).2.2 (j4 (g8 x)), by rw [k6, jv, g9],
        ?_, ?_, ?_⟩
      · apply activeCount_lt mesh s _ hadv e.address p4 p5
        have hu : u.nodeStatus e.address = .FROZEN := by rw [g4]; simp
        exact forward_frozen _ (hu ▸ ((advances_trans j2 (k1 j3).1) e.address).1)
      · intro i hi
        have hv : v.nodeStatus i = .FROZEN := k5 i hi
        rw [((k1 j3).1 i).2 hv, j1, g2]
      · refine ⟨e.address, e.key, L, ?_, hmin, ?_⟩
        · rw [k4, j5, g3]; simp
        · intro p hp; rw [j6 p hp, p2]
    · rw [hpt] at i1; exact absurd i1 (by simp [Outcome.clean])
    · rw [hpt] at i1; simpa [Outcome.bind, Outcome.clean] using i1
    · rw [hpt] at i1; exact absurd i1 (by simp [Outcome.clean])
  · rw [hf] at hfin; exact absurd hfin (by simp [Outcome.clean])
  · rw [hf] at hfin; simpa [Outcome.bind, Outcome.clean] using hfin
  · rw [hf] at hfin; exact absurd hfin (by simp [Outcome.clean])

/-- The main loop of `solve` with enough fuel. -/
theorem solve_spec (C : Numerics α) (mesh : Mesh) (hm : mesh.Valid) (fuel : Nat) :
    ∀ s : FastMarchingMethod α, HeapInv mesh s → activeCount mesh s ≤ fuel →
      (solve C mesh fuel s).clean s.isVelocity ∧
      ∀ t, solve C mesh fuel s = .ok t →
        t.heap.empty = true ∧ Advances s t ∧ HeapInv mesh t ∧
        (TrialInHeap mesh s → TrialInHeap mesh t) ∧ t.isVelocity = s.isVelocity := by
  induction fuel with
  | zero =>
    intro s hinv hc
    have he : s.heap.empty = true := by
      by_contra hne
      obtain ⟨e, _, hmem, _⟩ := Heap.top_spec s.heap (by simpa using hne)
      obtain ⟨ha, hs, _, _⟩ := hinv.1 e hmem
      have hpos : 0 < activeCount mesh s := by
        unfold activeCount
        apply List.countP_pos_iff.2
        exact ⟨e.address, List.mem_range.2 ha, by simp [hs]⟩
      omega
    unfold solve
    simp only [he, if_true]
    refine ⟨by simp [Outcome.clean], fun t ht => ?_⟩
    simp only [Outcome.ok.injEq] at ht
    subst ht
    exact ⟨he, advances_refl _, hinv, id, rfl⟩
  | succ n ih =>
    intro s hinv hc
    unfold solve
    by_cases he : s.heap.empty = true
    · simp only [he, if_true]
      refine ⟨by simp [Outcome.clean], fun t ht => ?_⟩
      simp only [Outcome.ok.injEq] at ht
      subst ht
      exact ⟨he, advances_refl _, hinv, id, rfl⟩
    · simp only [he, if_false, Bool.false_eq_true]
      obtain ⟨r1, r2⟩ := solveRound_spec C mesh hm s hinv (by simpa using he)
      rcases hr : solveRound C mesh s with u | _ | _ | _
      · obtain ⟨a1, a2, a3, av, a4, _⟩ := r2 u hr
        obtain ⟨i1, i2⟩ := ih u a2 (by omega)
        simp only [Outcome.bind]
        rw [av] at i1
        refine ⟨i1, fun t ht => ?_⟩
        obtain ⟨b1, b2, b3, b4, b5⟩ := i2 t ht
        exact ⟨b1, advances_trans a1 b2, b3, fun x => b4 (a3 x), by rw [b5, av]⟩
      · rw [hr] at r1; exact absurd r1 (by simp [Outcome.clean])
      · rw [hr] at r1; simpa [Outcome.bind, Outcome.clean] using r1
      · rw [hr] at r1; exact absurd r1 (by simp [Outcome.clean])

theorem foldl_relaxes {mesh : Mesh} (f : FastMarchingMethod α → Nat → FastMarchingMethod α)
    (l : List Nat) (h : ∀ s, ∀ x ∈ l, Relaxes mesh s (f s x)) :
    ∀ s, Relaxes mesh s (l.foldl f s) := by
  induction l with
  | nil => intro s; exact relaxes_refl _ _
  | cons a l ih =>
    intro s
    rw [List.foldl_cons]
    exact relaxes_trans (h s a (List.mem_cons_self _ _))
      (ih (fun s x hx => h s x (List.mem_cons_of_mem _ hx)) _)

theorem trialStep_relaxes (C : Numerics α) (mesh : Mesh) (i j : Nat) (hi : i < mesh.nNodes)
    (s : FastMarchingMethod α) : Relaxes mesh s (trialStep C mesh i s j) := by
  unfold trialStep
  simp only [test_frozen, Function.update_same]
  by_cases h1 : toInt (mesh.neighbours i j) = -1
  · simp [h1, relaxes_refl]
  simp only [ne_eq, h1, not_false_eq_true, if_true]
  by_cases h2 : s.nodeStatus (idx (toInt (mesh.neighbours i j))) = .FROZEN
  · simp only [h2, if_true]
    by_cases h3 : s.nodeStatus i = .NONE
    · simp only [h3, if_true]
      generalize updateNode C mesh
        { s with nodeStatus := Function.update s.nodeStatus i .TRIAL } i = d
      exact relaxes_trans
        (t := { s with signedDistance := Function.update s.signedDistance i d })
        (relaxes_write mesh s i d (by rw [h3]; decide))
        (relaxes_push mesh _ i |d| hi h3)
    · simp only [h3, if_false]
      exact relaxes_refl _ _
  · simp only [h2, if_false]
    exact relaxes_refl _ _

theorem initialiseTrial_relaxes (C : Numerics α) (mesh : Mesh) (s : FastMarchingMethod α) :
    Relaxes mesh s (initialiseTrial C mesh s) := by
  unfold initialiseTrial
  apply foldl_relaxes
  intro s i hi
  have hi' : i < mesh.nNodes := List.mem_range.1 hi
  unfold trialNode
  split_ifs
  · apply foldl_relaxes
    intro s j _
    exact trialStep_relaxes C mesh i j hi' s
  · exact relaxes_refl _ _

theorem initialiseHeap_inv (mesh : Mesh) (s : FastMarchingMethod α) :
    HeapInv mesh (initialiseHeap mesh s) ∧
    ((∀ i, i < mesh.nNodes → s.nodeStatus i ≠ .TRIAL) → TrialInHeap mesh (initialiseHeap mesh s)) ∧
    (initialiseHeap mesh s).nodeStatus = s.nodeStatus ∧
    (initialiseHeap mesh s).signedDistance = s.signedDistance ∧
    (initialiseHeap mesh s).isVelocity = s.isVelocity ∧
    (initialiseHeap mesh s).popLog = s.popLog := by
  unfold initialiseHeap
  refine ⟨⟨?_, ?_⟩, ?_, rfl, rfl, rfl, rfl⟩
  · intro e he; simp [Heap.new] at he
  · simp [Heap.new]
  · intro h i hi ht
    exact absurd ht (h i hi)

/-- The status of a node after `initialiseFrozen` is its status before the
call or FROZEN. -/
theorem initialiseFrozen_status (C : Numerics α) (mesh : Mesh) (s t : FastMarchingMethod α)
    (h : initialiseFrozen C mesh s = .ok t) (k : Nat) :
    (t.nodeStatus k = s.nodeStatus k ∨ t.nodeStatus k = .FROZEN) ∧
    t.isVelocity = s.isVelocity ∧ t.popLog = s.popLog ∧
    (k < mesh.nNodes → s.nodeStatus k ≠ .MASKED → s.signedDistance k = 0 →
      t.nodeStatus k = .FROZEN ∧ t.signedDistance k = 0) := by
  obtain ⟨r, hp, he⟩ := initialiseFrozen_eq C mesh s
  obtain ⟨z1, _, z3, _, _, z6, _, _, z9, _⟩ := zeroPass_spec mesh s
  obtain ⟨b1, _, _, _, _, b6, b7, b8, _, _⟩ := hp
  rw [he] at h
  split_ifs at h
  simp only [Outcome.ok.injEq] at h
  subst h
  have hzk := z9 k
  refine ⟨?_, by rw [b1, z3], by rw [b6, z6], fun hk hm hz => ?_⟩
  · rw [b7 k]
    split_ifs
    · exact Or.inr rfl
    · rw [hzk]
      split_ifs
      · exact Or.inr rfl
      · exact Or.inl rfl
  · have hfz : (zeroPass mesh s).1.nodeStatus k = .FROZEN := by
      rw [hzk]; simp [hk, hm, hz]
    have hnb : ¬ IsBorder mesh (zeroPass mesh s).1 k := by
      intro hb; rw [hb.1] at hfz; exact absurd hfz (by decide)
    constructor
    · rw [b7 k]; simp [hnb, hfz]
    · rw [b8 k]; simp [hnb, z1, hz]

/-- The calls of `march` after the arrays have been installed, with fuel for
at least as many passes of the main loop as the mesh has nodes. -/
theorem marchBody_spec (C : Numerics α) (mesh : Mesh) (hm : mesh.Valid) (fuel : Nat)
    (hfuel : mesh.nNodes ≤ fuel) (s : FastMarchingMethod α) :
    (marchBody C mesh fuel s = .noFrozenNodes ↔ initialiseFrozen C mesh s = .noFrozenNodes) ∧
    (marchBody C mesh fuel s = .noFrozenNodes ∨ (marchBody C mesh fuel s).clean s.isVelocity) ∧
    ∀ t, marchBody C mesh fuel s = .ok t →
      ∃ s1, initialiseFrozen C mesh s = .ok s1 ∧ t.heap.empty = true ∧ HeapInv mesh t ∧
        Advances s1 t ∧
        ((∀ i, i < mesh.nNodes → s.nodeStatus i ≠ .TRIAL) → TrialInHeap mesh t) := by
  unfold marchBody
  have hnf := (initialiseFrozen_outcome C mesh s).2.1
  rcases h1 : initialiseFrozen C mesh s with s1 | _ | _ | _
  · simp only [Outcome.bind]
    obtain ⟨i1, i2, i3, i4, i5, _⟩ := initialiseHeap_inv mesh s1
    obtain ⟨k1, _, _, k4⟩ := initialiseTrial_relaxes C mesh (initialiseHeap mesh s1)
    obtain ⟨a1, a2, a3⟩ := k1 i1
    obtain ⟨c1, c2⟩ := solve_spec C mesh hm fuel (initialiseTrial C mesh (initialiseHeap mesh s1)) a2
      (le_trans (activeCount_le _ _) hfuel)
    have hv : (initialiseTrial C mesh (initialiseHeap mesh s1)).isVelocity = s.isVelocity := by
      rw [k4, i5, (initialiseFrozen_status C mesh s s1 h1 0).2.1]
    rw [hv] at c1
    have hadv0 : Advances s1 (initialiseHeap mesh s1) := by
      intro i; rw [i3, i4]; exact ⟨forward_refl _, fun _ => rfl⟩
    refine ⟨?_, Or.inr c1, fun t ht => ?_⟩
    · constructor
      · intro h; rw [h] at c1; exact absurd c1 (by simp [Outcome.clean])
      · intro h; exact absurd h (by simp)
    · obtain ⟨d1, d2, d3, d4, _⟩ := c2 t ht
      refine ⟨s1, rfl, d1, d3, advances_trans (advances_trans hadv0 a1) d2, fun hnt => d4 (a3 (i2 ?_))⟩
      intro i hi
      rcases (initialiseFrozen_status C mesh s s1 h1 i).1 with h | h
      · rw [h]; exact hnt i hi
      · rw [h]; decide
  · simp [Outcome.bind]
  · exact absurd (hnf (by rw [h1]; simp)) (by rw [h1]; simp)
  · exact absurd (hnf (by rw [h1]; simp)) (by rw [h1]; simp)

/-! ## `march` -/

theorem holds_of_clean_false {σ : Type} (o : Outcome σ) (p : σ → Prop)
    (hc : o.clean false) (h : ∀ t, o = .ok t → p t) : o.holds p := by
  cases o with
  | ok t => exact h t rfl
  | noFrozenNodes => exact absurd hc (by simp [Outcome.clean])
  | divideByZero => exact absurd hc (by simp [Outcome.clean])
  | timeout => exact absurd hc (by simp [Outcome.clean])

theorem holds_ok {σ : Type} (o : Outcome σ) (p : σ → Prop) (h : o.holds p) :
    ∃ t, o = .ok t ∧ p t := by
  cases o with
  | ok t => exact ⟨t, rfl, h⟩
  | noFrozenNodes => exact absurd h (by simp [Outcome.holds])
  | divideByZero => exact absurd h (by simp [Outcome.holds])
  | timeout => exact absurd h (by simp [Outcome.holds])

theorem final_status (mesh : Mesh) (s s1 t : FastMarchingMethod α)
    (hs : ∀ i, i < mesh.nNodes → s.nodeStatus i ≠ .MASKED ∧ s.nodeStatus i ≠ .TRIAL)
    (h1 : ∀ k, s1.nodeStatus k = s.nodeStatus k ∨ s1.nodeStatus k = .FROZEN)
    (he : t.heap.empty = true) (hadv : Advances s1 t)
    (htr : TrialInHeap mesh t) :
    ∀ i, i < mesh.nNodes → t.nodeStatus i = .FROZEN ∨ t.nodeStatus i = .NONE := by
  intro i hi
  have hnt : t.nodeStatus i ≠ .TRIAL := by
    intro h
    obtain ⟨e, hmem, _⟩ := htr i hi h
    unfold Heap.empty at he
    rw [List.isEmpty_iff] at he
    rw [he] at hmem
    simp at hmem
  have hnm : s1.nodeStatus i ≠ .MASKED := by
    rcases h1 i with h | h
    · rw [h]; exact (hs i hi).1
    · rw [h]; decide
  have hf := (hadv i).1
  revert hnt hnm hf
  cases s1.nodeStatus i <;> cases t.nodeStatus i <;> simp [FMM_NodeStatus.forward]

/-- Whenever `solve` returns, the heap is empty, the invariants hold and every
status has moved forward, whatever the fuel. -/
theorem solve_freezes (C : Numerics α) (mesh : Mesh) (hm : mesh.Valid) (fuel : Nat) :
    ∀ s : FastMarchingMethod α, HeapInv mesh s → TrialInHeap mesh s →
      ∀ t, solve C mesh fuel s = .ok t →
        t.heap.empty = true ∧ HeapInv mesh t ∧ TrialInHeap mesh t ∧ Advances s t := by
  induction fuel with
  | zero =>
    intro s hinv htr t ht
    unfold solve at ht
    split_ifs at ht with he
    simp only [Outcome.ok.injEq] at ht
    subst ht
    exact ⟨he, hinv, htr, advances_refl _⟩
  | succ n ih =>
    intro s hinv htr t ht
    unfold solve at ht
    split_ifs at ht with he
    · simp only [Outcome.ok.injEq] at ht
      subst ht
      exact ⟨he, hinv, htr, advances_refl _⟩
    · have hne : s.heap.empty = false := by simpa using he
      obtain ⟨_, hr⟩ := solveRound_spec C mesh hm s hinv hne
      rcases hu : solveRound C mesh s with u | _ | _ | _
      · rw [hu] at ht
        simp only [Outcome.bind] at ht
        obtain ⟨r1, r2, r3, _⟩ := hr u hu
        obtain ⟨q1, q2, q3, q4⟩ := ih u r2 (r3 htr) t ht
        exact ⟨q1, q2, q3, advances_trans r1 q4⟩
      all_goals (rw [hu] at ht; simp [Outcome.bind] at ht)

/-- A node that is TRIAL or FROZEN when `solve` starts is FROZEN when it
returns. -/
theorem reached_frozen (C : Numerics α) (mesh : Mesh) (hm : mesh.Valid) (fuel : Nat)
    (s t : FastMarchingMethod α) (hinv : HeapInv mesh s) (htr : TrialInHeap mesh s)
    (ht : solve C mesh fuel s = .ok t) (i : Nat) (hi : i < mesh.nNodes)
    (h : s.nodeStatus i = .TRIAL ∨ s.nodeStatus i = .FROZEN) : t.nodeStatus i = .FROZEN := by
  obtain ⟨q1, _, q3, q4⟩ := solve_freezes C mesh hm fuel s hinv htr t ht
  have hnt : t.nodeStatus i ≠ .TRIAL := by
    intro hc
    obtain ⟨e, hmem, _⟩ := q3 i hi hc
    unfold Heap.empty at q1
    rw [List.isEmpty_iff] at q1
    rw [q1] at hmem
    simp at hmem
  have hf := (q4 i).1
  revert hnt hf
  rcases h with h | h <;> rw [h] <;> cases t.nodeStatus i <;> simp [FMM_NodeStatus.forward]

/-- A node that `initialiseFrozen` froze or that `initialiseTrial` made TRIAL
is FROZEN when the body of `march` returns. -/
theorem marchBody_reached (C : Numerics α) (mesh : Mesh) (hm : mesh.Valid) (fuel : Nat)
    (s : FastMarchingMethod α) (hs : ∀ i, i < mesh.nNodes → s.nodeStatus i ≠ .TRIAL)
    (s1 t : FastMarchingMethod α) (e1 : initialiseFrozen C mesh s = .ok s1)
    (ht : marchBody C mesh fuel s = .ok t) (i : Nat) (hi : i < mesh.nNodes)
    (h : s1.nodeStatus i = .FROZEN ∨
      (initialiseTrial C mesh (initialiseHeap mesh s1)).nodeStatus i = .TRIAL) :
    t.nodeStatus i = .FROZEN := by
  obtain ⟨i1, i2, i3, _⟩ := initialiseHeap_inv mesh s1
  obtain ⟨k1, _⟩ := initialiseTrial_relaxes C mesh (initialiseHeap mesh s1)
  obtain ⟨a1, a2, a3⟩ := k1 i1
  have hnt : ∀ i, i < mesh.nNodes → s1.nodeStatus i ≠ .TRIAL := by
    intro i hi
    rcases (initialiseFrozen_status C mesh s s1 e1 i).1 with h | h
    · rw [h]; exact hs i hi
    · rw [h]; decide
  have hsol : solve C mesh fuel (initialiseTrial C mesh (initialiseHeap mesh s1)) = .ok t := by
    unfold marchBody at ht
    rw [e1] at ht
    simpa only [Outcome.bind] using ht
  apply reached_frozen C mesh hm fuel _ t a2 (a3 (i2 hnt)) hsol i hi
  rcases h with h | h
  · right
    have hf := (a1 i).1
    rw [i3, h] at hf
    revert hf
    cases (initialiseTrial C mesh (initialiseHeap mesh s1)).nodeStatus i <;>
      simp [FMM_NodeStatus.forward]
  · exact Or.inl h

/-- In `solve`, a NONE neighbour of a popped node stays NONE only when
`updateNode` returned the no-update value 0 for it. -/
theorem relax_none_kept (C : Numerics α) (mesh : Mesh) (addr : Nat) (s : FastMarchingMethod α)
    (j : Nat) (hn : toInt (mesh.neighbours addr j) ≠ -1)
    (h0 : s.nodeStatus (idx (toInt (mesh.neighbours addr j))) = .NONE)
    (h1 : (relax C mesh addr s j).nodeStatus (idx (toInt (mesh.neighbours addr j))) = .NONE) :
    updateNode C mesh s (toUInt (toInt (mesh.neighbours addr j))) = 0 := by
  by_contra hd
  unfold relax at h1
  simp only [ne_eq, hn, not_false_eq_true, if_true, h0, reduceCtorEq, hd,
    FMM_NodeStatus.test, FMM_NodeStatus.bits] at h1
  simp at h1

/-- C1 (amended). On a valid mesh, starting from a solver without MASKED or
TRIAL node, if `initialiseFrozen` freezes at least one node then `march`, given
fuel for as many passes of the main loop as there are nodes, returns, with an
empty heap and with every node FROZEN or still NONE; every node that
`initialiseFrozen` froze or that `initialiseTrial` made TRIAL is FROZEN. The
same holds for the overload with velocities whenever it returns. In `solve`,
from any state in which the heap and the TRIAL nodes agree, every node that is
TRIAL or FROZEN is FROZEN when `solve` returns, one pass of the main loop keeps
that agreement, and a NONE neighbour of a popped node stays NONE only when
`updateNode` returned 0 for it. -/
theorem march_final_status (C : Numerics α) (mesh : Mesh) (hm : mesh.Valid)
    (s : FastMarchingMethod α)
    (hs : ∀ i, i < mesh.nNodes → s.nodeStatus i ≠ .MASKED ∧ s.nodeStatus i ≠ .TRIAL)
    (phi : Nat → α) (fuel : Nat) (hfuel : mesh.nNodes ≤ fuel)
    (hfr : (initialiseFrozen C mesh
      { s with signedDistance := phi, isVelocity := false, popLog := [] }).holds (fun _ => True)) :
    (march C mesh fuel s phi).holds (fun t =>
        t.heap.empty = true ∧
        (∀ i, i < mesh.nNodes → t.nodeStatus i = .FROZEN ∨ t.nodeStatus i = .NONE) ∧
        ∀ s1, initialiseFrozen C mesh
            { s with signedDistance := phi, isVelocity := false, popLog := [] } = .ok s1 →
          ∀ i, i < mesh.nNodes →
            s1.nodeStatus i = .FROZEN ∨
              (initialiseTrial C mesh (initialiseHeap mesh s1)).nodeStatus i = .TRIAL →
            t.nodeStatus i = .FROZEN) ∧
    (∀ vel t, marchVelocity C mesh fuel s phi vel = .ok t →
        t.heap.empty = true ∧
        (∀ i, i < mesh.nNodes → t.nodeStatus i = .FROZEN ∨ t.nodeStatus i = .NONE) ∧
        ∀ s1, initialiseFrozen C mesh
            { s with signedDistance := phi, velocity := vel, isVelocity := true, popLog := [] }
              = .ok s1 →
          ∀ i, i < mesh.nNodes →
            s1.nodeStatus i = .FROZEN ∨
              (initialiseTrial C mesh (initialiseHeap mesh s1)).nodeStatus i = .TRIAL →
            t.nodeStatus i = .FROZEN) ∧
    (∀ (u t : FastMarchingMethod α) (n : Nat), HeapInv mesh u → TrialInHeap mesh u →
        solve C mesh n u = .ok t →
        ∀ i, i < mesh.nNodes → u.nodeStatus i = .TRIAL ∨ u.nodeStatus i = .FROZEN →
          t.nodeStatus i = .FROZEN) ∧
    (∀ u v : FastMarchingMethod α, HeapInv mesh u → TrialInHeap mesh u →
        u.heap.empty = false → solveRound C mesh u = .ok v →
        HeapInv mesh v ∧ TrialInHeap mesh v) ∧
    (∀ (u : FastMarchingMethod α) (addr j : Nat), toInt (mesh.neighbours addr j) ≠ -1 →
        u.nodeStatus (idx (toInt (mesh.neighbours addr j))) = .NONE →
        (relax C mesh addr u j).nodeStatus (idx (toInt (mesh.neighbours addr j))) = .NONE →
        updateNode C mesh u (toUInt (toInt (mesh.neighbours addr j))) = 0) := by
  refine ⟨?_, ?_, fun u t n hinv htr ht i hi h => reached_frozen C mesh hm n u t hinv htr ht i hi h,
    fun u v hinv htr hne hv => ?_, fun u addr j hn h0 h1 => relax_none_kept C mesh addr u j hn h0 h1⟩
  · unfold march
    obtain ⟨m1, m2, m3⟩ := marchBody_spec C mesh hm fuel hfuel
      { s with signedDistance := phi, isVelocity := false, popLog := [] }
    obtain ⟨s1, hs1, _⟩ := holds_ok _ _ hfr
    have hclean : (marchBody C mesh fuel
        { s with signedDistance := phi, isVelocity := false, popLog := [] }).clean false := by
      rcases m2 with h | h
      · rw [m1.1 h] at hs1; exact absurd hs1 (by simp)
      · exact h
    apply holds_of_clean_false _ _ hclean
    intro t ht
    obtain ⟨s1', e1, e2, _, e4, e5⟩ := m3 t ht
    refine ⟨e2, final_status mesh s s1' t hs ?_ e2 e4 (e5 (fun i hi => (hs i hi).2)),
      fun s2 e2' i hi h => marchBody_reached C mesh hm fuel
        { s with signedDistance := phi, isVelocity := false, popLog := [] }
        (fun i hi => (hs i hi).2) s2 t e2' ht i hi h⟩
    intro k
    exact (initialiseFrozen_status C mesh _ s1' e1 k).1
  · intro vel t ht
    unfold marchVelocity at ht
    obtain ⟨_, _, m3⟩ := marchBody_spec C mesh hm fuel hfuel
      { s with signedDistance := phi, velocity := vel, isVelocity := true, popLog := [] }
    obtain ⟨s1', e1, e2, _, e4, e5⟩ := m3 t ht
    refine ⟨e2, final_status mesh s s1' t hs ?_ e2 e4 (e5 (fun i hi => (hs i hi).2)),
      fun s2 e2' i hi h => marchBody_reached C mesh hm fuel
        { s with signedDistance := phi, velocity := vel, isVelocity := true, popLog := [] }
        (fun i hi => (hs i hi).2) s2 t e2' ht i hi h⟩
    intro k
    exact (initialiseFrozen_status C mesh _ s1' e1 k).1
  · obtain ⟨_, hr⟩ := solveRound_spec C mesh hm u hinv hne
    obtain ⟨_, r2, r3, _⟩ := hr v hv
    exact ⟨r2, r3 htr⟩

/-- `solve` with any amount of fuel only moves statuses forward. -/
theorem solve_advances (C : Numerics α) (mesh : Mesh) (hm : mesh.Valid) (fuel : Nat) :
    ∀ s : FastMarchingMethod α, HeapInv mesh s →
      ∀ t, solve C mesh fuel s = .ok t → Advances s t := by
  induction fuel with
  | zero =>
    intro s _ t ht
    unfold solve at ht
    split_ifs at ht
    simp only [Outcome.ok.injEq] at ht
    subst ht
    exact advances_refl _
  | succ n ih =>
    intro s hinv t ht
    unfold solve at ht
    by_cases he : s.heap.empty = true
    · simp only [he, if_true, Outcome.ok.injEq] at ht
      subst ht
      exact advances_refl _
    · simp only [he, if_false, Bool.false_eq_true] at ht
      obtain ⟨_, r2⟩ := solveRound_spec C mesh hm s hinv (by simpa using he)
      rcases hr : solveRound C mesh s with u | _ | _ | _
      · rw [hr] at ht
        obtain ⟨a1, a2, _⟩ := r2 u hr
        exact advances_trans a1 (ih u a2 t ht)
      all_goals rw [hr] at ht
      all_goals simp [Outcome.bind] at ht

/-- C3. Once a node is FROZEN its status and its signed distance stay as they
are, and statuses only move forward along NONE, TRIAL, FROZEN: this holds
across `initialiseTrial`, across any number of passes of the main loop of
`solve`, and across each single pass, at the end of which every FROZEN node,
the ones popped in this pass included, has the distance it had when the pass
began. -/
theorem frozen_is_final (C : Numerics α) (mesh : Mesh) (hm : mesh.Valid)
    (s : FastMarchingMethod α) (hinv : HeapInv mesh s) :
    Advances s (initialiseTrial C mesh s) ∧
    (∀ fuel t, solve C mesh fuel s = .ok t → Advances s t) ∧
    (s.heap.empty = false → ∀ t, solveRound C mesh s = .ok t →
      Advances s t ∧ ∀ i, t.nodeStatus i = .FROZEN → t.signedDistance i = s.signedDistance i) := by
  refine ⟨((initialiseTrial_relaxes C mesh s).1 hinv).1,
    fun fuel t ht => solve_advances C mesh hm fuel s hinv t ht, fun hne t ht => ?_⟩
  obtain ⟨_, r2⟩ := solveRound_spec C mesh hm s hinv hne
  obtain ⟨a1, _, _, _, _, a5, _⟩ := r2 t ht
  exact ⟨a1, a5⟩

/-- C6. A node of the mesh that is not masked and whose input distance is
zero is marked FROZEN by `initialiseFrozen`, and when `march` returns it is
FROZEN with distance zero; `march` without velocities does return, given fuel
for as many passes of the main loop as there are nodes. -/
theorem zero_node_stays_zero (C : Numerics α) (mesh : Mesh) (hm : mesh.Valid)
    (s : FastMarchingMethod α) (phi : Nat → α) (fuel : Nat) (hfuel : mesh.nNodes ≤ fuel)
    (i : Nat) (hi : i < mesh.nNodes) (hmask : s.nodeStatus i ≠ .MASKED) (hz : phi i = 0) :
    (initialiseFrozen C mesh
      { s with signedDistance := phi, isVelocity := false, popLog := [] }).holds
        (fun s1 => s1.nodeStatus i = .FROZEN ∧ s1.signedDistance i = 0) ∧
    (march C mesh fuel s phi).holds
        (fun t => t.nodeStatus i = .FROZEN ∧ t.signedDistance i = 0) ∧
    ∀ vel t, marchVelocity C mesh fuel s phi vel = .ok t →
        t.nodeStatus i = .FROZEN ∧ t.signedDistance i = 0 := by
  have key : ∀ s0 : FastMarchingMethod α, s0.nodeStatus i ≠ .MASKED → s0.signedDistance i = 0 →
      (∃ s1, initialiseFrozen C mesh s0 = .ok s1) ∧
      (∀ s1, initialiseFrozen C mesh s0 = .ok s1 →
        s1.nodeStatus i = .FROZEN ∧ s1.signedDistance i = 0) ∧
      (marchBody C mesh fuel s0).clean s0.isVelocity ∧
      ∀ t, marchBody C mesh fuel s0 = .ok t →
        t.nodeStatus i = .FROZEN ∧ t.signedDistance i = 0 := by
    intro s0 h0 h1
    obtain ⟨f1, f2, _⟩ := initialiseFrozen_outcome C mesh s0
    have hnf : initialiseFrozen C mesh s0 ≠ .noFrozenNodes :=
      fun h => (f1.1 h).1 i hi ⟨h0, h1⟩
    obtain ⟨m1, m2, m3⟩ := marchBody_spec C mesh hm fuel hfuel s0
    have hst : ∀ s1, initialiseFrozen C mesh s0 = .ok s1 →
        s1.nodeStatus i = .FROZEN ∧ s1.signedDistance i = 0 :=
      fun s1 h => (initialiseFrozen_status C mesh s0 s1 h i).2.2.2 hi h0 h1
    refine ⟨f2 hnf, hst, ?_, fun t ht => ?_⟩
    · rcases m2 with h | h
      · exact absurd (m1.1 h) hnf
      · exact h
    · obtain ⟨s1, e1, _, _, e4, _⟩ := m3 t ht
      obtain ⟨g1, g2⟩ := hst s1 e1
      have := e4 i
      exact ⟨forward_frozen _ (g1 ▸ this.1), by rw [this.2 g1, g2]⟩
  obtain ⟨⟨s1, k1⟩, k2, k3, k4⟩ := key
    { s with signedDistance := phi, isVelocity := false, popLog := [] } hmask hz
  refine ⟨?_, holds_of_clean_false _ _ k3 k4, fun vel t ht => ?_⟩
  · rw [k1]; exact k2 s1 k1
  · obtain ⟨_, _, _, l4⟩ := key
      { s with signedDistance := phi, velocity := vel, isVelocity := true, popLog := [] }
      hmask hz
    exact l4 t ht

/-- C2 (amended). In each pass of the main loop of `solve` the first pop returns
a key that is at most every key in the heap at that moment, and every
further pop of the pass returns that same key: the keys popped within one
pass are non-decreasing. -/
theorem solveRound_popped_keys (C : Numerics α) (mesh : Mesh) (hm : mesh.Valid)
    (s : FastMarchingMethod α) (hinv : HeapInv mesh s) (hne : s.heap.empty = false) :
    (solveRound C mesh s).clean s.isVelocity ∧
    ∀ t, solveRound C mesh s = .ok t →
      ∃ a k L, t.popLog = s.popLog ++ (a, k) :: L ∧ (∀ e ∈ s.heap.entries, k ≤ e.key) ∧
        (∀ p ∈ L, p.2 = k) ∧ List.Pairwise (· ≤ ·) (((a, k) :: L).map Prod.snd) := by
  obtain ⟨r1, r2⟩ := solveRound_spec C mesh hm s hinv hne
  refine ⟨r1, fun t ht => ?_⟩
  obtain ⟨_, _, _, _, _, _, a, k, L, h1, h2, h3⟩ := r2 t ht
  refine ⟨a, k, L, h1, h2, h3, ?_⟩
  rw [List.map_cons, List.pairwise_cons]
  constructor
  · intro x hx
    obtain ⟨p, hp, hpx⟩ := List.mem_map.1 hx
    rw [← hpx, h3 p hp]
  · rw [List.pairwise_map]
    apply List.Pairwise.imp_of_mem (R := fun _ _ => True)
    · intro x y hx hy _
      rw [h3 x hx, h3 y hy]
    · exact List.pairwise_of_forall (fun _ _ => trivial)

theorem popTies_ne_noFrozenNodes (mesh : Mesh) (value : α) (n : Nat) :
    ∀ st : FastMarchingMethod α × List Nat, popTies mesh value n st ≠ .noFrozenNodes := by
  induction n with
  | zero => intro st; simp [popTies]
  | succ n ih =>
    intro st
    unfold popTies
    split_ifs
    · have hc := freeze_clean mesh (popHeap st.1).1 st.2 (popHeap st.1).2.1
      simp only
      rcases hf : freeze mesh (popHeap st.1).1 st.2 (popHeap st.1).2.1 with u | _ | _ | _
      · simp only [Outcome.bind]; exact ih u
      · rw [hf] at hc; exact absurd hc (by simp [Outcome.clean])
      · simp [Outcome.bind]
      · simp [Outcome.bind]
    · simp

theorem solve_ne_noFrozenNodes (C : Numerics α) (mesh : Mesh) (fuel : Nat) :
    ∀ s : FastMarchingMethod α, solve C mesh fuel s ≠ .noFrozenNodes := by
  induction fuel with
  | zero => intro s; unfold solve; split_ifs <;> simp
  | succ n ih =>
    intro s
    unfold solve
    split_ifs
    · simp
    · have hr : solveRound C mesh s ≠ .noFrozenNodes := by
        unfold solveRound
        simp only
        have hc := freeze_clean mesh (popHeap s).1 [] (popHeap s).2.1
        rcases hf : freeze mesh (popHeap s).1 [] (popHeap s).2.1 with u | _ | _ | _
        · simp only [Outcome.bind]
          have := popTies_ne_noFrozenNodes mesh (popHeap s).2.2 (popHeap s).1.heap.entries.length u
          revert this
          cases popTies mesh (popHeap s).2.2 (popHeap s).1.heap.entries.length u <;>
            simp [Outcome.bind]
        · rw [hf] at hc; exact absurd hc (by simp [Outcome.clean])
        · simp [Outcome.bind]
        · simp [Outcome.bind]
      revert hr
      rcases solveRound C mesh s with u | _ | _ | _
      · intro _; simp only [Outcome.bind]; exact ih u
      · simp
      · simp [Outcome.bind]
      · simp [Outcome.bind]

theorem marchBody_noFrozenNodes_iff (C : Numerics α) (mesh : Mesh) (fuel : Nat)
    (s : FastMarchingMethod α) :
    marchBody C mesh fuel s = .noFrozenNodes ↔ initialiseFrozen C mesh s = .noFrozenNodes := by
  unfold marchBody
  rcases initialiseFrozen C mesh s with s1 | _ | _ | _
  · simp only [Outcome.bind, reduceCtorEq, iff_false]
    exact solve_ne_noFrozenNodes C mesh fuel _
  · simp [Outcome.bind]
  · simp [Outcome.bind]
  · simp [Outcome.bind]

/-! ## Concrete runs -/

/-- The grid whose out-of-domain entries read as `-1` is a valid mesh. -/
theorem gridMesh_valid (w h : Nat) (hsize : (w + 1) * (h + 1) < 2 ^ 31) :
    (gridMesh noNeighbour w h).Valid := by
  refine ⟨hsize, fun i hi j hj => ?_⟩
  have hn : (w + 1) * (h + 1) = (w + 1) * h + (w + 1) := by ring
  have hi' : i < (w + 1) * h + (w + 1) := by rw [← hn]; exact hi
  show _ ∨ _ < (w + 1) * (h + 1)
  rw [hn]
  interval_cases j
  · show (if i % (w + 1) = 0 then noNeighbour else i - 1) = noNeighbour ∨
      (if i % (w + 1) = 0 then noNeighbour else i - 1) < _
    split_ifs
    · exact Or.inl rfl
    · right; omega
  · show (if i % (w + 1) = w then noNeighbour else i + 1) = noNeighbour ∨
      (if i % (w + 1) = w then noNeighbour else i + 1) < _
    split_ifs with hc
    · exact Or.inl rfl
    · right
      by_contra hlt
      have hie : i = (w + 1) * h + w := by omega
      apply hc
      rw [hie, Nat.mul_add_mod]
      exact Nat.mod_eq_of_lt (by omega)
  · show (if i / (w + 1) = 0 then noNeighbour else i - (w + 1)) = noNeighbour ∨
      (if i / (w + 1) = 0 then noNeighbour else i - (w + 1)) < _
    split_ifs
    · exact Or.inl rfl
    · right; omega
  · show (if i / (w + 1) = h then noNeighbour else i + (w + 1)) = noNeighbour ∨
      (if i / (w + 1) = h then noNeighbour else i + (w + 1)) < _
    split_ifs with hc
    · exact Or.inl rfl
    · right
      have h1 : i / (w + 1) < h + 1 := by
        apply Nat.div_lt_of_lt_mul
        rw [hn]; exact hi'
      have h2 : i / (w + 1) < h := by omega
      have h3 : i < h * (w + 1) := (Nat.div_lt_iff_lt_mul (by omega)).1 h2
      have h4 : h * (w + 1) = (w + 1) * h := by ring
      omega

theorem trial_rowState_inv :
    HeapInv (gridMesh noNeighbour 3 1)
      (initialiseTrial ratNumerics (gridMesh noNeighbour 3 1) rowState) := by
  unfold HeapInv; decide!

/-- C1 (counterexample). On the grid of 2 x 2 nodes, a fresh solver (every
status NONE) and the input distances `0, doubleEpsilon, 1, 1`:
`initialiseFrozen` freezes node 0; nodes 1 and 2 enter the heap with the
distances `-1` and `1` (the snapshot of node 1 is not above `doubleEpsilon`, so
`solveQuadratic` takes the root `r1`) and are popped in the same pass; the
stencil of node 3 then has the negative discriminant `-8`, `updateNode`
returns 0 twice and `march` returns with an empty heap and node 3 still NONE. -/
theorem march_leaves_node_none :
    (initialiseFrozen ratNumerics (gridMesh noNeighbour 1 1)
        { (FastMarchingMethod.new : FastMarchingMethod ℚ) with
          signedDistance := fieldOf [0, ratNumerics.doubleEpsilon, 1, 1] }).holds
      (fun s1 => s1.nodeStatus 0 = .FROZEN ∧
        ∀ i, i < (gridMesh noNeighbour 1 1).nNodes → s1.nodeStatus i ≠ .MASKED)
    ∧ (march ratNumerics (gridMesh noNeighbour 1 1) 4 FastMarchingMethod.new
        (fieldOf [0, ratNumerics.doubleEpsilon, 1, 1])).holds
      (fun t => t.heap.empty = true ∧ t.nodeStatus 3 = .NONE ∧
        t.popLog.map Prod.snd = [1, 1] ∧ t.signedDistance 1 = -1 ∧ t.signedDistance 2 = 1) := by
  decide!

/-- Witness of C1 (amended): the run of the counterexample. -/
theorem march_final_status_witness :
    (march ratNumerics (gridMesh noNeighbour 1 1) 4 FastMarchingMethod.new
        (fieldOf [0, ratNumerics.doubleEpsilon, 1, 1])).holds (fun t =>
        t.heap.empty = true ∧
        (∀ i, i < (gridMesh noNeighbour 1 1).nNodes →
          t.nodeStatus i = .FROZEN ∨ t.nodeStatus i = .NONE) ∧
        ∀ s1, initialiseFrozen ratNumerics (gridMesh noNeighbour 1 1)
            { (FastMarchingMethod.new : FastMarchingMethod ℚ) with
              signedDistance := fieldOf [0, ratNumerics.doubleEpsilon, 1, 1],
              isVelocity := false, popLog := [] } = .ok s1 →
          ∀ i, i < (gridMesh noNeighbour 1 1).nNodes →
            s1.nodeStatus i = .FROZEN ∨
              (initialiseTrial ratNumerics (gridMesh noNeighbour 1 1)
                (initialiseHeap (gridMesh noNeighbour 1 1) s1)).nodeStatus i = .TRIAL →
            t.nodeStatus i = .FROZEN) :=
  (march_final_status ratNumerics (gridMesh noNeighbour 1 1) (gridMesh_valid 1 1 (by norm_num))
    FastMarchingMethod.new (by decide) (fieldOf [0, ratNumerics.doubleEpsilon, 1, 1]) 4
    (by decide) (by decide!)).1

/-- C2 (counterexample). On the grid of 5 x 2 nodes, a fresh solver and the
input distances `0, 0, -1, 0, -3` (bottom row) and `3, 1, -2, -1/3, -2` (top
row), the pops of `solve` return the keys `2/3, 4/9, 12/13, 1, 160/117`: node 2
is frozen with key `2/3`, and the update of node 4 that follows (second-order
term with `dist1 = 0` from node 3 and `dist2 = -2/3` from node 2) lowers the key
of node 4 from `1` to `4/9`, which is popped next. -/
theorem popped_keys_decrease :
    (march ratNumerics (gridMesh noNeighbour 4 1) 10 FastMarchingMethod.new
        (fieldOf [0, 0, -1, 0, -3, 3, 1, -2, -1 / 3, -2])).holds
      (fun t => t.popLog = [(2, 2 / 3), (4, 4 / 9), (5, 12 / 13), (8, 1), (9, 160 / 117)]) := by
  decide!

/-- Witness of C2 (amended): the first pass of the main loop after
`initialiseTrial` on the grid of 4 x 2 nodes with nodes 1 and 3 frozen. -/
theorem solveRound_popped_keys_witness :
    (solveRound ratNumerics (gridMesh noNeighbour 3 1)
        (initialiseTrial ratNumerics (gridMesh noNeighbour 3 1) rowState)).holds
      (fun t => t.popLog = [(0, 1 / 2), (5, 1 / 2)]) ∧
    ((solveRound ratNumerics (gridMesh noNeighbour 3 1)
        (initialiseTrial ratNumerics (gridMesh noNeighbour 3 1) rowState)).clean
        (initialiseTrial ratNumerics (gridMesh noNeighbour 3 1) rowState).isVelocity ∧
      ∀ t, solveRound ratNumerics (gridMesh noNeighbour 3 1)
          (initialiseTrial ratNumerics (gridMesh noNeighbour 3 1) rowState) = .ok t →
        ∃ a k L,
          t.popLog = (initialiseTrial ratNumerics (gridMesh noNeighbour 3 1) rowState).popLog
            ++ (a, k) :: L ∧
          (∀ e ∈ (initialiseTrial ratNumerics (gridMesh noNeighbour 3 1) rowState).heap.entries,
            k ≤ e.key) ∧
          (∀ p ∈ L, p.2 = k) ∧ List.Pairwise (· ≤ ·) (((a, k) :: L).map Prod.snd)) :=
  ⟨by decide!,
    solveRound_popped_keys ratNumerics (gridMesh noNeighbour 3 1) (gridMesh_valid 3 1 (by norm_num))
      (initialiseTrial ratNumerics (gridMesh noNeighbour 3 1) rowState) trial_rowState_inv
      (by decide!)⟩

/-- Witness of C3: the state left by `initialiseTrial` on the grid of 4 x 2
nodes with nodes 1 and 3 frozen, which has four entries in the heap. -/
theorem frozen_is_final_witness :
    (initialiseTrial ratNumerics (gridMesh noNeighbour 3 1) rowState).heap.entries.length = 4 ∧
    (Advances (initialiseTrial ratNumerics (gridMesh noNeighbour 3 1) rowState)
        (initialiseTrial ratNumerics (gridMesh noNeighbour 3 1)
          (initialiseTrial ratNumerics (gridMesh noNeighbour 3 1) rowState)) ∧
      (∀ fuel t, solve ratNumerics (gridMesh noNeighbour 3 1) fuel
          (initialiseTrial ratNumerics (gridMesh noNeighbour 3 1) rowState) = .ok t →
        Advances (initialiseTrial ratNumerics (gridMesh noNeighbour 3 1) rowState) t) ∧
      ((initialiseTrial ratNumerics (gridMesh noNeighbour 3 1) rowState).heap.empty = false →
        ∀ t, solveRound ratNumerics (gridMesh noNeighbour 3 1)
            (initialiseTrial ratNumerics (gridMesh noNeighbour 3 1) rowState) = .ok t →
          Advances (initialiseTrial ratNumerics (gridMesh noNeighbour 3 1) rowState) t ∧
          ∀ i, t.nodeStatus i = .FROZEN →
            t.signedDistance i
              = (initialiseTrial ratNumerics (gridMesh noNeighbour 3 1) rowState).signedDistance i)) :=
  ⟨by decide!,
    frozen_is_final ratNumerics (gridMesh noNeighbour 3 1) (gridMesh_valid 3 1 (by norm_num))
      (initialiseTrial ratNumerics (gridMesh noNeighbour 3 1) rowState) trial_rowState_inv⟩

/-- Witness of C6: node 0 of the grid of 2 x 2 nodes with the input distances
`0, doubleEpsilon, 1, 1`. -/
theorem zero_node_stays_zero_witness :
    (initialiseFrozen ratNumerics (gridMesh noNeighbour 1 1)
      { (FastMarchingMethod.new : FastMarchingMethod ℚ) with
        signedDistance := fieldOf [0, ratNumerics.doubleEpsilon, 1, 1], isVelocity := false,
        popLog := [] }).holds
        (fun s1 => s1.nodeStatus 0 = .FROZEN ∧ s1.signedDistance 0 = 0) ∧
    (march ratNumerics (gridMesh noNeighbour 1 1) 4 FastMarchingMethod.new
        (fieldOf [0, ratNumerics.doubleEpsilon, 1, 1])).holds
        (fun t => t.nodeStatus 0 = .FROZEN ∧ t.signedDistance 0 = 0) ∧
    ∀ vel t, marchVelocity ratNumerics (gridMesh noNeighbour 1 1) 4 FastMarchingMethod.new
        (fieldOf [0, ratNumerics.doubleEpsilon, 1, 1]) vel = .ok t →
        t.nodeStatus 0 = .FROZEN ∧ t.signedDistance 0 = 0 :=
  zero_node_stays_zero ratNumerics (gridMesh noNeighbour 1 1) (gridMesh_valid 1 1 (by norm_num))
    FastMarchingMethod.new (fieldOf [0, ratNumerics.doubleEpsilon, 1, 1]) 4 (by decide) 0
    (by decide) (by decide) (by decide!)

/-! ## The choice of the root in `solveQuadratic` -/

/-- C11 (counterexample). With `a = 1`, `b = 0`, `c = 0` the discriminant
`b * b - 4 * a * (c - 1)` is `4` and the root computed from `+sqrt` is `1`; for
a node whose snapshot is `doubleEpsilon`, a positive number, `solveQuadratic`
returns the other root, `-1`. -/
theorem solveQuadratic_small_snapshot :
    (0 : ℚ) < (snapshotState ratNumerics.doubleEpsilon).signedDistanceCopy 0 ∧
    (0 : ℚ) < 0 * 0 - 4 * 1 * (0 - 1) ∧
    (-0 + ratNumerics.sqrt (0 * 0 - 4 * 1 * (0 - 1))) / (2 * 1) = (1 : ℚ) ∧
    solveQuadratic ratNumerics (snapshotState ratNumerics.doubleEpsilon) 0 1 0 0 = -1 := by
  decide!

/-- C11 (amended). For a positive discriminant `det = b * b - 4 * a * (c - 1)`
(`c` being the value passed in, which the function lowers by one),
`solveQuadratic` returns `(-b + sqrt det) / (2 * a)` when the snapshot of the
node is greater than `doubleEpsilon` and `(-b - sqrt det) / (2 * a)` otherwise;
in particular it returns the latter for a negative snapshot, `doubleEpsilon`
being non-negative. -/
theorem solveQuadratic_roots (C : Numerics α) (s : FastMarchingMethod α) (node : Nat) (a b c : α)
    (hdet : 0 < b * b - 4 * a * (c - 1)) :
    (C.doubleEpsilon < s.signedDistanceCopy node →
      solveQuadratic C s node a b c = (-b + C.sqrt (b * b - 4 * a * (c - 1))) / (2 * a)) ∧
    (s.signedDistanceCopy node ≤ C.doubleEpsilon →
      solveQuadratic C s node a b c = (-b - C.sqrt (b * b - 4 * a * (c - 1))) / (2 * a)) ∧
    (0 ≤ C.doubleEpsilon → s.signedDistanceCopy node < 0 →
      solveQuadratic C s node a b c = (-b - C.sqrt (b * b - 4 * a * (c - 1))) / (2 * a)) := by
  unfold solveQuadratic
  simp only [gt_iff_lt, hdet, if_true]
  refine ⟨fun h => by rw [if_pos h], fun h => by rw [if_neg (not_lt.2 h)], fun h0 h => ?_⟩
  rw [if_neg (not_lt.2 (le_trans (le_of_lt h) h0))]

/-- Witness of C11 (amended): `a = 1`, `b = 0`, `c = 0` and a node of snapshot
`1`, for which the result is `1`; for the snapshot `-1` it is `-1`. -/
theorem solveQuadratic_roots_witness :
    ((0 : ℚ) < 0 * 0 - 4 * 1 * (0 - 1)) ∧
    solveQuadratic ratNumerics (snapshotState 1) 0 1 0 0 = 1 ∧
    solveQuadratic ratNumerics (snapshotState (-1)) 0 1 0 0 = -1 ∧
    ((ratNumerics.doubleEpsilon < (snapshotState (1 : ℚ)).signedDistanceCopy 0 →
      solveQuadratic ratNumerics (snapshotState 1) 0 1 0 0
        = (-0 + ratNumerics.sqrt (0 * 0 - 4 * 1 * (0 - 1))) / (2 * 1)) ∧
    ((snapshotState (1 : ℚ)).signedDistanceCopy 0 ≤ ratNumerics.doubleEpsilon →
      solveQuadratic ratNumerics (snapshotState 1) 0 1 0 0
        = (-0 - ratNumerics.sqrt (0 * 0 - 4 * 1 * (0 - 1))) / (2 * 1)) ∧
    (0 ≤ ratNumerics.doubleEpsilon → (snapshotState (1 : ℚ)).signedDistanceCopy 0 < 0 →
      solveQuadratic ratNumerics (snapshotState 1) 0 1 0 0
        = (-0 - ratNumerics.sqrt (0 * 0 - 4 * 1 * (0 - 1))) / (2 * 1))) :=
  ⟨by decide!, by decide!, by decide!,
    solveQuadratic_roots ratNumerics (snapshotState 1) 0 1 0 0 (by decide!)⟩

/-! ## A stencil without real root in `initialiseTrial` -/

/-- C12 (evaluation of the code at the failing input). On the grid of 3 x 2
nodes with the input distances `0, 0, 0` (bottom row) and `-1, 9, 1` (top row),
`initialiseFrozen` freezes nodes 0 to 4 and leaves node 5 NONE with distance
`1`. The stencil of node 5 has the coefficients `13/4, -111/20, 1369/400`, its
discriminant is `-69/100`, and `updateNode` returns 0. `initialiseTrial` marks
node 5 TRIAL, stores the distance 0 and pushes the key 0; `march` then pops
that entry and returns with node 5 FROZEN at distance 0. -/
theorem initialiseTrial_stores_zero :
    (initialiseFrozen ratNumerics (gridMesh noNeighbour 2 1)
        { (FastMarchingMethod.new : FastMarchingMethod ℚ) with
          signedDistance := fieldOf [0, 0, 0, -1, 9, 1] }).holds
      (fun s1 =>
        s1.nodeStatus 5 = .NONE ∧ s1.signedDistance 5 = 1 ∧
        stencilCoeffs ratNumerics (gridMesh noNeighbour 2 1)
            (initialiseHeap (gridMesh noNeighbour 2 1) s1) 5 = (13 / 4, -111 / 20, 1369 / 400) ∧
        (-111 / 20 : ℚ) * (-111 / 20) - 4 * (13 / 4) * (1369 / 400 - 1) = -69 / 100 ∧
        updateNode ratNumerics (gridMesh noNeighbour 2 1)
            (initialiseHeap (gridMesh noNeighbour 2 1) s1) 5 = 0 ∧
        (initialiseTrial ratNumerics (gridMesh noNeighbour 2 1)
            (initialiseHeap (gridMesh noNeighbour 2 1) s1)).nodeStatus 5 = .TRIAL ∧
        (initialiseTrial ratNumerics (gridMesh noNeighbour 2 1)
            (initialiseHeap (gridMesh noNeighbour 2 1) s1)).signedDistance 5 = 0 ∧
        (initialiseTrial ratNumerics (gridMesh noNeighbour 2 1)
            (initialiseHeap (gridMesh noNeighbour 2 1) s1)).heap.entries.map
              (fun e => (e.address, e.key)) = [(5, 0)])
    ∧ (march ratNumerics (gridMesh noNeighbour 2 1) 6 FastMarchingMethod.new
        (fieldOf [0, 0, 0, -1, 9, 1])).holds
      (fun t => t.nodeStatus 5 = .FROZEN ∧ t.signedDistance 5 = 0 ∧ t.popLog = [(5, 0)]) := by
  decide!

/-! ## The velocity of a node next to the front -/

/-- The effect of the two passes for the slots of one dimension on `vel`. -/
theorem crossing_pair_vel (mesh : Mesh) (s : FastMarchingMethod α) (i : Nat) (c : Crossing α)
    (axis : Nat) (ha : axis < 2) (h0 : c.dist axis = 0) (hv : s.isVelocity = true) :
    (crossingStep mesh s i (crossingStep mesh s i c (2 * axis)) (2 * axis + 1)).vel axis
      = (chosenSlot mesh s.signedDistanceCopy i axis).elim (c.vel axis)
          (crossingVelocity mesh s.signedDistanceCopy s.velocityCopy i) ∧
    ∀ k, k ≠ axis →
      (crossingStep mesh s i (crossingStep mesh s i c (2 * axis)) (2 * axis + 1)).vel k = c.vel k := by
  have hdim0 : (if 2 * axis < 2 then 0 else 1) = axis := by interval_cases axis <;> simp
  have hdim1 : (if 2 * axis + 1 < 2 then 0 else 1) = axis := by interval_cases axis <;> simp
  simp only [crossingStep_eq, hdim0, hdim1, chosenSlot, crossingVelocity, hv, if_true]
  rcases hf0 : crossingFraction mesh s.signedDistanceCopy i (2 * axis) with _ | x <;>
  rcases hf1 : crossingFraction mesh s.signedDistanceCopy i (2 * axis + 1) with _ | y
  · simp
  · simp only [h0, true_or, if_true, Function.update_same, Option.elim]
    refine ⟨by simp [crossingVelocity, hf1], fun k hk => Function.update_noteq hk _ _⟩
  · simp only [h0, true_or, if_true, Function.update_same, Option.elim]
    refine ⟨by simp [crossingVelocity, hf0], fun k hk => Function.update_noteq hk _ _⟩
  · have hx := (crossingFraction_pos _ _ _ _ _ hf0).1
    have hx0 : x ≠ 0 := ne_of_gt hx
    simp only [h0, true_or, if_true, Function.update_same, hx0, false_or]
    by_cases hxy : y < x
    · simp only [gt_iff_lt, hxy, if_true, Function.update_same, Option.elim]
      refine ⟨by simp [crossingVelocity, hf1], fun k hk => ?_⟩
      rw [Function.update_noteq hk, Function.update_noteq hk]
    · simp only [gt_iff_lt, hxy, if_false, Function.update_same, Option.elim]
      refine ⟨by simp [crossingVelocity, hf0], fun k hk => ?_⟩
      rw [Function.update_noteq hk]

/-- The array `vel` after the loop over the four neighbours. -/
theorem crossings_vel (mesh : Mesh) (s : FastMarchingMethod α) (i : Nat)
    (hv : s.isVelocity = true) (axis : Nat) (ha : axis < 2) :
    (crossings mesh s i).vel axis
      = (chosenSlot mesh s.signedDistanceCopy i axis).elim 0
          (crossingVelocity mesh s.signedDistanceCopy s.velocityCopy i) := by
  have hr : List.range 4 = [0, 1, 2, 3] := by decide
  unfold crossings
  rw [hr]
  simp only [List.foldl_cons, List.foldl_nil]
  have p0 := crossing_pair mesh s i ⟨false, fun _ => 0, fun _ => 0⟩ 0 (by norm_num) rfl
  have q0 := crossing_pair_vel mesh s i ⟨false, fun _ => 0, fun _ => 0⟩ 0 (by norm_num) rfl hv
  simp only [Nat.mul_zero, Nat.zero_add] at p0 q0
  have q1 := crossing_pair_vel mesh s i
    (crossingStep mesh s i (crossingStep mesh s i ⟨false, fun _ => 0, fun _ => 0⟩ 0) 1) 1
    (by norm_num) (by rw [p0.2.1 1 (by norm_num)]) hv
  simp only [Nat.mul_one] at q1
  interval_cases axis
  · rw [q1.2 0 (by norm_num), q0.1]
  · rw [q1.1, q0.2 1 (by norm_num)]

theorem chosenSlot_isSome (mesh : Mesh) (phi : Nat → α) (i axis : Nat) :
    (chosenSlot mesh phi i axis = none ↔ axisFraction mesh phi i axis = none) ∧
    ∀ j, chosenSlot mesh phi i axis = some j →
      (j = 2 * axis ∨ j = 2 * axis + 1) ∧
      crossingFraction mesh phi i j = axisFraction mesh phi i axis := by
  unfold chosenSlot axisFraction
  simp only [List.filterMap_cons, List.filterMap_nil]
  rcases hf0 : crossingFraction mesh phi i (2 * axis) with _ | x <;>
  rcases hf1 : crossingFraction mesh phi i (2 * axis + 1) with _ | y
  · simp [smallest]
  · simp only [reduceCtorEq, smallest, List.foldl_nil, false_iff, not_false_eq_true,
      Option.some.injEq, true_and]
    intro j hj; subst hj; exact ⟨Or.inr rfl, hf1⟩
  · simp only [reduceCtorEq, smallest, List.foldl_nil, false_iff, not_false_eq_true,
      Option.some.injEq, true_and]
    intro j hj; subst hj; exact ⟨Or.inl rfl, hf0⟩
  · by_cases hxy : y < x
    · simp only [hxy, if_true, reduceCtorEq, smallest, List.foldl_cons, List.foldl_nil,
        false_iff, not_false_eq_true, Option.some.injEq, true_and]
      intro j hj; subst hj
      exact ⟨Or.inr rfl, by rw [hf1, min_eq_right (le_of_lt hxy)]⟩
    · simp only [hxy, if_false, reduceCtorEq, smallest, List.foldl_cons, List.foldl_nil,
        false_iff, not_false_eq_true, Option.some.injEq, true_and]
      intro j hj; subst hj
      exact ⟨Or.inl rfl, by rw [hf0, min_eq_left (not_lt.1 hxy)]⟩

/-- The velocity that the second loop of `initialiseFrozen` stores for a node
it freezes, in terms of the snapshots. -/
theorem borderVelocity_eq (mesh : Mesh) (s : FastMarchingMethod α) (i : Nat)
    (hv : s.isVelocity = true) :
    borderVelocity mesh s i
      = crossingAverage mesh s.signedDistanceCopy i
          (crossingVelocity mesh s.signedDistanceCopy s.velocityCopy i) := by
  have hr : List.range 2 = [0, 1] := by decide
  obtain ⟨h0, h1, _⟩ := crossings_spec mesh s i
  have v0 := crossings_vel mesh s i hv 0 (by norm_num)
  have v1 := crossings_vel mesh s i hv 1 (by norm_num)
  have hden := crossingWeights_den mesh s i
  rw [distSum_eq] at hden
  unfold borderVelocity crossingAverage
  rw [hden]
  congr 1
  unfold crossingWeights
  rw [hr]
  simp only [List.foldl_cons, List.foldl_nil, h0, h1, v0, v1]
  have n0 := (chosenSlot_isSome mesh s.signedDistanceCopy i 0).1
  have n1 := (chosenSlot_isSome mesh s.signedDistanceCopy i 1).1
  rcases hf0 : axisFraction mesh s.signedDistanceCopy i 0 with _ | x <;>
  rcases hf1 : axisFraction mesh s.signedDistanceCopy i 1 with _ | y
  · simp [inverseSquare]
  · have := (axisFraction_some _ _ _ _ _ hf1).1
    simp [inverseSquare, ne_of_gt this, sq]
    ring
  · have := (axisFraction_some _ _ _ _ _ hf0).1
    simp [inverseSquare, ne_of_gt this, sq]
    ring
  · have hx := (axisFraction_some _ _ _ _ _ hf0).1
    have hy := (axisFraction_some _ _ _ _ _ hf1).1
    simp [inverseSquare, ne_of_gt hx, ne_of_gt hy, sq]
    ring

theorem crossingAverage_congr (mesh : Mesh) (phi psi u w : Nat → α) (i : Nat)
    (hf : ∀ j, j < 4 → crossingFraction mesh phi i j = crossingFraction mesh psi i j)
    (hu : ∀ j, j < 4 → (crossingFraction mesh psi i j).isSome = true → u j = w j) :
    crossingAverage mesh phi i u = crossingAverage mesh psi i w := by
  have ha : ∀ axis, axis < 2 →
      axisFraction mesh phi i axis = axisFraction mesh psi i axis ∧
      chosenSlot mesh phi i axis = chosenSlot mesh psi i axis := by
    intro axis ha
    unfold axisFraction chosenSlot
    simp only [List.filterMap_cons, List.filterMap_nil, hf (2 * axis) (by omega),
      hf (2 * axis + 1) (by omega), and_self]
  have he : ∀ axis, axis < 2 →
      (chosenSlot mesh psi i axis).elim 0 u = (chosenSlot mesh psi i axis).elim 0 w := by
    intro axis ha
    obtain ⟨c1, c2⟩ := chosenSlot_isSome mesh psi i axis
    rcases hc : chosenSlot mesh psi i axis with _ | j
    · rfl
    · obtain ⟨hj, hjf⟩ := c2 j hc
      simp only [Option.elim]
      apply hu j (by omega)
      rw [hjf]
      rcases hax : axisFraction mesh psi i axis with _ | d
      · rw [c1.2 hax] at hc; exact absurd hc (by simp)
      · rfl
  unfold crossingAverage
  rw [(ha 0 (by norm_num)).1, (ha 0 (by norm_num)).2, (ha 1 (by norm_num)).1,
    (ha 1 (by norm_num)).2, he 0 (by norm_num), he 1 (by norm_num)]

theorem crossingFraction_congr (mesh : Mesh) (phi psi : Nat → α) (i j : Nat) (h1 : phi i = psi i)
    (h2 : toInt (mesh.neighbours i j) ≠ -1 →
      phi (idx (toInt (mesh.neighbours i j))) = psi (idx (toInt (mesh.neighbours i j)))) :
    crossingFraction mesh phi i j = crossingFraction mesh psi i j := by
  unfold crossingFraction
  by_cases h : toInt (mesh.neighbours i j) = -1
  · simp [h]
  · rw [h1, h2 h]

/-- On a valid mesh the crossing fractions of a node of the mesh can be read
from the input distances. -/
theorem crossingFraction_snapshot (mesh : Mesh) (hm : mesh.Valid) (s : FastMarchingMethod α)
    (i j : Nat) (hi : i < mesh.nNodes) (hj : j < 4) :
    crossingFraction mesh (snapshot mesh s) i j = crossingFraction mesh s.signedDistance i j := by
  apply crossingFraction_congr _ _ _ _ _ (snapshot_eq mesh s i hi)
  intro h
  rcases neighbour_cases mesh hm i j hi hj with h1 | ⟨h1, _, _⟩
  · exact absurd h1 h
  · exact snapshot_eq mesh s _ h1

theorem velocityStep_eq (mesh : Mesh) (s : FastMarchingMethod α) (node : Nat)
    (dv : (Nat → α) × (Nat → α)) (i : Nat) :
    velocityStep mesh s node dv i =
      match frozenDifference mesh s node i with
      | none => dv
      | some p =>
        if dv.1 (if i < 2 then 0 else 1) = 0 ∨ dv.1 (if i < 2 then 0 else 1) > p.1 then
          (Function.update dv.1 (if i < 2 then 0 else 1) p.1,
            Function.update dv.2 (if i < 2 then 0 else 1) p.2)
        else dv := by
  unfold velocityStep frozenDifference
  simp only [test_frozen]
  by_cases h1 : toInt (mesh.neighbours node i) ≠ -1
  · by_cases h2 : s.nodeStatus (idx (toInt (mesh.neighbours node i))) = .FROZEN
    · simp only [h1, h2, if_true, and_self, not_false_eq_true, ne_eq]
    · simp only [h1, h2, if_true, if_false, and_false, not_false_eq_true, ne_eq]
  · simp only [h1, if_false, false_and]

/-- The effect of the two passes of the scan for the slots of one dimension. -/
theorem velocity_pair (mesh : Mesh) (s : FastMarchingMethod α) (node : Nat)
    (dv : (Nat → α) × (Nat → α)) (axis : Nat) (ha : axis < 2)
    (h0 : dv.1 axis = 0) (h1 : dv.2 axis = 0) :
    let dv2 := velocityStep mesh s node (velocityStep mesh s node dv (2 * axis)) (2 * axis + 1)
    (dv2.1 axis, dv2.2 axis)
      = scannedChoice (frozenDifference mesh s node (2 * axis))
          (frozenDifference mesh s node (2 * axis + 1)) ∧
    ∀ k, k ≠ axis → dv2.1 k = dv.1 k ∧ dv2.2 k = dv.2 k := by
  have hdim0 : (if 2 * axis < 2 then 0 else 1) = axis := by interval_cases axis <;> simp
  have hdim1 : (if 2 * axis + 1 < 2 then 0 else 1) = axis := by interval_cases axis <;> simp
  simp only [velocityStep_eq, hdim0, hdim1]
  rcases hf0 : frozenDifference mesh s node (2 * axis) with _ | p <;>
  rcases hf1 : frozenDifference mesh s node (2 * axis + 1) with _ | q
  · simp [scannedChoice, h0, h1]
  · simp only [h0, true_or, if_true, Function.update_same, scannedChoice, true_and]
    exact fun k hk => ⟨Function.update_noteq hk _ _, Function.update_noteq hk _ _⟩
  · simp only [h0, true_or, if_true, Function.update_same, scannedChoice, true_and]
    exact fun k hk => ⟨Function.update_noteq hk _ _, Function.update_noteq hk _ _⟩
  · simp only [h0, true_or, if_true, Function.update_same, scannedChoice]
    by_cases hc : p.1 = 0 ∨ p.1 > q.1
    · simp only [hc, if_true, Function.update_same, true_and]
      intro k hk
      rw [Function.update_noteq hk, Function.update_noteq hk, Function.update_noteq hk,
        Function.update_noteq hk]
      exact ⟨rfl, rfl⟩
    · simp only [hc, if_false, Function.update_same, true_and]
      exact fun k hk => ⟨Function.update_noteq hk _ _, Function.update_noteq hk _ _⟩

/-- The result of `finaliseVelocity` in closed form. -/
theorem finaliseVelocity_scanned (mesh : Mesh) (s : FastMarchingMethod α) (node : Nat) :
    finaliseVelocity mesh s node =
      if |(scannedChoice (frozenDifference mesh s node 0) (frozenDifference mesh s node 1)).1|
          + |(scannedChoice (frozenDifference mesh s node 2) (frozenDifference mesh s node 3)).1|
          ≠ 0 then
        .ok { s with velocity := Function.update s.velocity node (weightedVelocity
                (scannedChoice (frozenDifference mesh s node 0) (frozenDifference mesh s node 1))
                (scannedChoice (frozenDifference mesh s node 2) (frozenDifference mesh s node 3))) }
      else .divideByZero := by
  have hr : List.range 4 = [0, 1, 2, 3] := by decide
  have hr2 : List.range 2 = [0, 1] := by decide
  have p0 := velocity_pair mesh s node (fun _ => 0, fun _ => 0) 0 (by norm_num) rfl rfl
  simp only [Nat.mul_zero, Nat.zero_add] at p0
  obtain ⟨a1, a2⟩ := p0
  have p1 := velocity_pair mesh s node
    (velocityStep mesh s node (velocityStep mesh s node (fun _ => 0, fun _ => 0) 0) 1) 1
    (by norm_num) (by rw [(a2 1 (by norm_num)).1]) (by rw [(a2 1 (by norm_num)).2])
  simp only [Nat.mul_one] at p1
  obtain ⟨b1, b2⟩ := p1
  rw [(b2 0 (by norm_num)).1.symm, (b2 0 (by norm_num)).2.symm] at a1
  unfold finaliseVelocity weightedVelocity
  rw [hr, hr2, ← a1, ← b1]
  simp only [List.foldl_cons, List.foldl_nil, zero_add]

/-- C15 (evaluation of the code at the failing input). On the grid of 3 x 2
nodes with nodes 2 and 5 (the right column) MASKED and the input distances
`0, 1, 7` in both rows, `initialiseFrozen` and `initialiseTrial` leave the
masked nodes as they are: nodes 0 and 3 are frozen at 0 and nodes 1 and 4 enter
the heap with the distance 1. `solve` pops nodes 1 and 4; their right
neighbours, the masked nodes 2 and 5, pass the test `nodeStatus != FROZEN`,
`updateNode` returns 2 for them and the value is stored. `march` returns with
nodes 2 and 5 still MASKED and their distance changed from 7 to 2; with
velocities, their velocity is unchanged. -/
theorem masked_distance_overwritten :
    (initialiseFrozen ratNumerics (gridMesh noNeighbour 2 1)
        { (maskedState : FastMarchingMethod ℚ) with
          signedDistance := fieldOf [0, 1, 7, 0, 1, 7] }).holds
      (fun s1 =>
        s1.nodeStatus 2 = .MASKED ∧ s1.signedDistance 2 = 7 ∧
        (initialiseTrial ratNumerics (gridMesh noNeighbour 2 1)
            (initialiseHeap (gridMesh noNeighbour 2 1) s1)).nodeStatus 2 = .MASKED ∧
        (initialiseTrial ratNumerics (gridMesh noNeighbour 2 1)
            (initialiseHeap (gridMesh noNeighbour 2 1) s1)).signedDistance 2 = 7 ∧
        (initialiseTrial ratNumerics (gridMesh noNeighbour 2 1)
            (initialiseHeap (gridMesh noNeighbour 2 1) s1)).heap.entries.map
              (fun e => (e.address, e.key)) = [(1, 1), (4, 1)])
    ∧ (march ratNumerics (gridMesh noNeighbour 2 1) 6 maskedState
        (fieldOf [0, 1, 7, 0, 1, 7])).holds
      (fun t => t.nodeStatus 2 = .MASKED ∧ t.signedDistance 2 = 2 ∧
        t.nodeStatus 5 = .MASKED ∧ t.signedDistance 5 = 2 ∧
        t.popLog.map Prod.snd = [1, 1])
    ∧ (marchVelocity ratNumerics (gridMesh noNeighbour 2 1) 6 maskedState
        (fieldOf [0, 1, 7, 0, 1, 7]) (fieldOf [1, 2, 3, 4, 5, 6])).holds
      (fun t => t.nodeStatus 2 = .MASKED ∧ t.signedDistance 2 = 2 ∧ t.velocity 2 = 3 ∧
        t.nodeStatus 5 = .MASKED ∧ t.signedDistance 5 = 2 ∧ t.velocity 5 = 6) := by
  decide!

/-! ## The ties of one pass of `solve` -/

/-- The pops of the loop that collects the ties: the record of the pops and
the list `toFreeze` grow by the same entries, every key is `value`, and every
popped node is FROZEN when the loop ends. -/
theorem popTies_trace (mesh : Mesh) (value : α) (n : Nat) :
    ∀ (s : FastMarchingMethod α) (tf : List Nat), HeapInv mesh s →
      ∀ t tf', popTies mesh value n (s, tf) = .ok (t, tf') →
        ∃ L : List (Nat × α), t.popLog = s.popLog ++ L ∧ tf' = tf ++ L.map Prod.fst ∧
          ∀ p ∈ L, p.2 = value ∧ t.nodeStatus p.1 = .FROZEN := by
  induction n with
  | zero =>
    intro s tf _ t tf' h
    simp only [popTies, Outcome.ok.injEq, Prod.mk.injEq] at h
    obtain ⟨h1, h2⟩ := h
    subst h1 h2
    exact ⟨[], by simp, by simp, by simp⟩
  | succ n ih =>
    intro s tf hinv t tf' h
    unfold popTies at h
    by_cases hc : (!s.heap.empty && value == s.heap.peek) = true
    · simp only [hc, if_true] at h
      have hne : s.heap.empty = false := by
        simp only [Bool.and_eq_true, Bool.not_eq_true', beq_iff_eq] at hc; exact hc.1
      have hval : value = s.heap.peek := by
        simp only [Bool.and_eq_true, Bool.not_eq_true', beq_iff_eq] at hc; exact hc.2
      obtain ⟨e, _, _, _, _, p3, _, _, _, hfr⟩ := pop_freeze mesh s tf hne hinv
      rcases hf : freeze mesh (popHeap s).1 tf (popHeap s).2.1 with ⟨u, tfu⟩ | _ | _ | _
      · rw [hf] at h
        simp only [Outcome.bind] at h
        obtain ⟨g1, _, g3, g4, _, _, g7, _, _⟩ := hfr u tfu hf
        obtain ⟨L, l1, l2, l3⟩ := ih u tfu g7 t tf' h
        obtain ⟨_, _, adv, _⟩ := (popTies_spec mesh value n u tfu g7).2 t tf' h
        refine ⟨(e.address, e.key) :: L, by rw [l1, g3]; simp, by rw [l2, g1]; simp, ?_⟩
        intro p hp
        rcases List.mem_cons.1 hp with hpe | hpl
        · subst hpe
          refine ⟨by rw [hval, p3], ?_⟩
          have hu : u.nodeStatus e.address = .FROZEN := by rw [g4]; simp
          exact forward_frozen _ (hu ▸ (adv e.address).1)
        · exact l3 p hpl
      all_goals rw [hf] at h
      all_goals simp [Outcome.bind] at h
    · simp only [hc, if_false, Bool.false_eq_true, Outcome.ok.injEq, Prod.mk.injEq] at h
      obtain ⟨h1, h2⟩ := h
      subst h1 h2
      exact ⟨[], by simp, by simp, by simp⟩

/-- One pass of the main loop of `solve`, split at the end of the pops. -/
theorem solveRound_split (C : Numerics α) (mesh : Mesh) (hm : mesh.Valid)
    (s : FastMarchingMethod α) (hinv : HeapInv mesh s) (hne : s.heap.empty = false) :
    ∀ t, solveRound C mesh s = .ok t →
      ∃ u a k L,
        (freeze mesh (popHeap s).1 [] (popHeap s).2.1).bind
            (popTies mesh (popHeap s).2.2 (popHeap s).1.heap.entries.length)
          = .ok (u, a :: L.map Prod.fst) ∧
        t = relaxAll C mesh (a :: L.map Prod.fst) u ∧
        u.popLog = s.popLog ++ (a, k) :: L ∧ (∀ p ∈ L, p.2 = k) ∧
        (u.heap.empty = true ∨ u.heap.peek ≠ k) ∧
        (∀ i, u.nodeStatus i = .FROZEN ↔ s.nodeStatus i = .FROZEN ∨ i ∈ a :: L.map Prod.fst) ∧
        (∀ i, t.nodeStatus i = .FROZEN ↔ u.nodeStatus i = .FROZEN) ∧
        HeapInv mesh u ∧ (∀ x ∈ a :: L.map Prod.fst, x < mesh.nNodes) := by
  intro t ht
  obtain ⟨e, hmem, hmin, p1, p2, p3, p4, p5, p6, hfr⟩ := pop_freeze mesh s [] hne hinv
  unfold solveRound at ht
  simp only at ht
  rcases hf : freeze mesh (popHeap s).1 [] (popHeap s).2.1 with ⟨u, tfu⟩ | _ | _ | _
  · obtain ⟨g1, g2, g3, g4, g5, g6, g7, g8, g9⟩ := hfr u tfu hf
    rw [hf] at ht
    simp only [Outcome.bind] at ht ⊢
    rcases hpt : popTies mesh (popHeap s).2.2 (popHeap s).1.heap.entries.length (u, tfu)
      with ⟨v, tfv⟩ | _ | _ | _
    · rw [hpt] at ht
      simp only [Outcome.bind, Outcome.ok.injEq] at ht
      obtain ⟨j1, jv, j2, j3, j4, _, j7, j8, _, j9⟩ :=
        (popTies_spec mesh (popHeap s).2.2 (popHeap s).1.heap.entries.length u tfu g7).2 v tfv hpt
      obtain ⟨L, l1, l2, l3⟩ :=
        popTies_trace mesh (popHeap s).2.2 (popHeap s).1.heap.entries.length u tfu g7 v tfv hpt
      have htfv : tfv = e.address :: L.map Prod.fst := by rw [l2, g1]; simp
      have hlt : ∀ x ∈ tfv, x < mesh.nNodes := by
        apply j7
        intro x hx
        rw [g1] at hx
        simp only [List.nil_append, List.mem_singleton] at hx
        rw [hx]; exact p4
      have hue : u.nodeStatus e.address = .FROZEN := by rw [g4]; simp
      have hve : v.nodeStatus e.address = .FROZEN := forward_frozen _ (hue ▸ (j2 e.address).1)
      obtain ⟨k1, _, k5, _⟩ := relaxAll_relaxes C mesh hm tfv v hlt
      refine ⟨v, e.address, e.key, L, by rw [htfv], by rw [← htfv]; exact ht.symm,
        by rw [l1, g3]; simp, fun p hp => by rw [(l3 p hp).1, p2], ?_, ?_, ?_, j3,
        by rw [← htfv]; exact hlt⟩
      · rcases j9 (by rw [g5]) with h | h
        · exact Or.inl h
        · right; rw [← p2]; exact fun hh => h hh.symm
      · intro i
        constructor
        · intro hi
          rcases j8 i hi with h | h
          · rw [g4] at h
            by_cases hie : i = e.address
            · right; rw [hie]; exact List.mem_cons_self _ _
            · rw [Function.update_noteq hie] at h; exact Or.inl h
          · right; rw [← htfv]; exact h
        · rintro (h | h)
          · exact forward_frozen _ (h ▸ ((advances_trans g6 j2) i).1)
          · rcases List.mem_cons.1 h with h | h
            · rw [h]; exact hve
            · obtain ⟨p, hp, hpi⟩ := List.mem_map.1 h
              rw [← hpi]; exact (l3 p hp).2
      · intro i
        rw [← ht]
        constructor
        · exact k5 i
        · intro h
          exact forward_frozen _ (h ▸ ((k1 j3).1 i).1)
    all_goals rw [hpt] at ht
    all_goals simp [Outcome.bind] at ht
  all_goals rw [hf] at ht
  all_goals simp [Outcome.bind] at ht

/-- C14. In each pass of the main loop of `solve` (entered with a non-empty
heap, on a valid mesh, the heap and the statuses agreeing), the pops come
first: they return the nodes `a :: L`, every one of them with the key `k` of the
first pop, and stop in a state `u` whose heap is empty or has a minimum key
different from `k`; the nodes that are FROZEN in `u` are those that were FROZEN
before the pass and the popped ones; the neighbour updates are then applied to
`u`, for the popped nodes in the order of the pops, and freeze no further node.
The pass returns or ends on the check of `finaliseVelocity`. -/
theorem solveRound_ties (C : Numerics α) (mesh : Mesh) (hm : mesh.Valid)
    (s : FastMarchingMethod α) (hinv : HeapInv mesh s) (hne : s.heap.empty = false) :
    (solveRound C mesh s).clean s.isVelocity ∧
    ∀ t, solveRound C mesh s = .ok t →
      ∃ u a k L,
        (freeze mesh (popHeap s).1 [] (popHeap s).2.1).bind
            (popTies mesh (popHeap s).2.2 (popHeap s).1.heap.entries.length)
          = .ok (u, a :: L.map Prod.fst) ∧
        t = relaxAll C mesh (a :: L.map Prod.fst) u ∧
        u.popLog = s.popLog ++ (a, k) :: L ∧ (∀ p ∈ L, p.2 = k) ∧
        (u.heap.empty = true ∨ u.heap.peek ≠ k) ∧
        (∀ i, u.nodeStatus i = .FROZEN ↔ s.nodeStatus i = .FROZEN ∨ i ∈ a :: L.map Prod.fst) ∧
        (∀ i, t.nodeStatus i = .FROZEN ↔ u.nodeStatus i = .FROZEN) := by
  refine ⟨(solveRound_spec C mesh hm s hinv hne).1, fun t ht => ?_⟩
  obtain ⟨u, a, k, L, h1, h2, h3, h4, h5, h6, h7, _⟩ := solveRound_split C mesh hm s hinv hne t ht
  exact ⟨u, a, k, L, h1, h2, h3, h4, h5, h6, h7⟩

/-- Witness of C14: the first pass of the main loop after `initialiseTrial` on
the grid of 4 x 2 nodes with nodes 1 and 3 frozen, which pops nodes 0 and 5
with the key `1/2`. -/
theorem solveRound_ties_witness :
    (solveRound ratNumerics (gridMesh noNeighbour 3 1)
        (initialiseTrial ratNumerics (gridMesh noNeighbour 3 1) rowState)).holds
      (fun t => t.popLog = [(0, 1 / 2), (5, 1 / 2)] ∧ t.nodeStatus 0 = .FROZEN ∧
        t.nodeStatus 5 = .FROZEN) ∧
    ((solveRound ratNumerics (gridMesh noNeighbour 3 1)
        (initialiseTrial ratNumerics (gridMesh noNeighbour 3 1) rowState)).clean
        (initialiseTrial ratNumerics (gridMesh noNeighbour 3 1) rowState).isVelocity ∧
      ∀ t, solveRound ratNumerics (gridMesh noNeighbour 3 1)
          (initialiseTrial ratNumerics (gridMesh noNeighbour 3 1) rowState) = .ok t →
        ∃ u a k L,
          (freeze (gridMesh noNeighbour 3 1)
              (popHeap (initialiseTrial ratNumerics (gridMesh noNeighbour 3 1) rowState)).1 []
              (popHeap (initialiseTrial ratNumerics (gridMesh noNeighbour 3 1) rowState)).2.1).bind
            (popTies (gridMesh noNeighbour 3 1)
              (popHeap (initialiseTrial ratNumerics (gridMesh noNeighbour 3 1) rowState)).2.2
              (popHeap (initialiseTrial ratNumerics (gridMesh noNeighbour 3 1)
                rowState)).1.heap.entries.length)
            = .ok (u, a :: L.map Prod.fst) ∧
          t = relaxAll ratNumerics (gridMesh noNeighbour 3 1) (a :: L.map Prod.fst) u ∧
          u.popLog = (initialiseTrial ratNumerics (gridMesh noNeighbour 3 1) rowState).popLog
            ++ (a, k) :: L ∧
          (∀ p ∈ L, p.2 = k) ∧
          (u.heap.empty = true ∨ u.heap.peek ≠ k) ∧
          (∀ i, u.nodeStatus i = .FROZEN ↔
            (initialiseTrial ratNumerics (gridMesh noNeighbour 3 1) rowState).nodeStatus i
              = .FROZEN ∨ i ∈ a :: L.map Prod.fst) ∧
          (∀ i, t.nodeStatus i = .FROZEN ↔ u.nodeStatus i = .FROZEN)) :=
  ⟨by decide!,
    solveRound_ties ratNumerics (gridMesh noNeighbour 3 1) (gridMesh_valid 3 1 (by norm_num))
      (initialiseTrial ratNumerics (gridMesh noNeighbour 3 1) rowState) trial_rowState_inv
      (by decide!)⟩

/-! ## Nodes that stay NONE -/

theorem noneKept_refl (s : FastMarchingMethod α) : NoneKept s s := fun _ h => ⟨h, rfl⟩

theorem noneKept_trans {s t u : FastMarchingMethod α} (h1 : NoneKept s t) (h2 : NoneKept t u) :
    NoneKept s u := by
  intro i hi
  obtain ⟨a, b⟩ := h2 i hi
  obtain ⟨c, d⟩ := h1 i a
  exact ⟨c, by rw [b, d]⟩

/-- A state change that keeps every status and distance but those of node `k`,
which does not end NONE. -/
theorem noneKept_of_eq (s t : FastMarchingMethod α) (k : Nat) (hk : t.nodeStatus k ≠ .NONE)
    (hs : ∀ i, i ≠ k → t.nodeStatus i = s.nodeStatus i)
    (hd : ∀ i, i ≠ k → t.signedDistance i = s.signedDistance i) : NoneKept s t := by
  intro i hi
  have hik : i ≠ k := fun h => hk (h ▸ hi)
  exact ⟨by rw [← hs i hik]; exact hi, hd i hik⟩

theorem foldl_noneKept (f : FastMarchingMethod α → Nat → FastMarchingMethod α) (l : List Nat)
    (h : ∀ s x, NoneKept s (f s x)) : ∀ s, NoneKept s (l.foldl f s) := by
  induction l with
  | nil => intro s; exact noneKept_refl _
  | cons a l ih =>
    intro s
    rw [List.foldl_cons]
    exact noneKept_trans (h s a) (ih _)

theorem initialiseFrozen_noneKept (C : Numerics α) (mesh : Mesh) (s t : FastMarchingMethod α)
    (h : initialiseFrozen C mesh s = .ok t) : NoneKept s t := by
  obtain ⟨r, hp, he⟩ := initialiseFrozen_eq C mesh s
  obtain ⟨z1, _, _, _, _, _, _, _, z9, _⟩ := zeroPass_spec mesh s
  obtain ⟨_, _, _, _, _, _, b7, b8, _, _⟩ := hp
  rw [he] at h
  split_ifs at h
  simp only [Outcome.ok.injEq] at h
  subst h
  intro i hi
  rw [b7 i] at hi
  rw [b8 i]
  split_ifs at hi ⊢ with hb
  rw [z9 i] at hi
  split_ifs at hi
  exact ⟨hi, by rw [z1]⟩

theorem trialStep_noneKept (C : Numerics α) (mesh : Mesh) (i : Nat) (s : FastMarchingMethod α)
    (j : Nat) : NoneKept s (trialStep C mesh i s j) := by
  unfold trialStep
  simp only
  split_ifs
  · apply noneKept_of_eq _ _ i
    · simp
    · intro k hk; simp [Function.update_noteq hk]
    · intro k hk; simp [Function.update_noteq hk]
  all_goals exact noneKept_refl _

theorem initialiseTrial_noneKept (C : Numerics α) (mesh : Mesh) (s : FastMarchingMethod α) :
    NoneKept s (initialiseTrial C mesh s) := by
  unfold initialiseTrial
  apply foldl_noneKept
  intro s i
  unfold trialNode
  split_ifs
  · apply foldl_noneKept
    intro s j
    exact trialStep_noneKept C mesh i s j
  · exact noneKept_refl _

theorem freeze_noneKept (mesh : Mesh) (s t : FastMarchingMethod α) (tf tf' : List Nat)
    (h : freeze mesh (popHeap s).1 tf (popHeap s).2.1 = .ok (t, tf')) : NoneKept s t := by
  obtain ⟨f1, f2, _⟩ := freeze_ok _ _ _ _ _ _ h
  apply noneKept_of_eq _ _ (popHeap s).2.1
  · rw [f1]; simp
  · intro k hk; rw [f1, Function.update_noteq hk]; rfl
  · intro k _; rw [f2]; rfl

theorem popTies_noneKept (mesh : Mesh) (value : α) (n : Nat) :
    ∀ (s : FastMarchingMethod α) (tf : List Nat) t tf',
      popTies mesh value n (s, tf) = .ok (t, tf') → NoneKept s t := by
  induction n with
  | zero =>
    intro s tf t tf' h
    simp only [popTies, Outcome.ok.injEq, Prod.mk.injEq] at h
    rw [← h.1]; exact noneKept_refl _
  | succ n ih =>
    intro s tf t tf' h
    unfold popTies at h
    split_ifs at h
    · simp only at h
      rcases hf : freeze mesh (popHeap s).1 tf (popHeap s).2.1 with ⟨u, tfu⟩ | _ | _ | _
      · rw [hf] at h
        exact noneKept_trans (freeze_noneKept mesh s u tf tfu hf) (ih u tfu t tf' h)
      all_goals rw [hf] at h
      all_goals simp [Outcome.bind] at h
    · simp only [Outcome.ok.injEq, Prod.mk.injEq] at h
      rw [← h.1]; exact noneKept_refl _

theorem relax_noneKept (C : Numerics α) (mesh : Mesh) (addr : Nat) (s : FastMarchingMethod α)
    (j : Nat) : NoneKept s (relax C mesh addr s j) := by
  unfold relax
  simp only [test_trial]
  generalize idx (toInt (mesh.neighbours addr j)) = k
  generalize updateNode C mesh s (toUInt (toInt (mesh.neighbours addr j))) = d
  split_ifs with h1 h2 h3 h4 h5 h6 h7 h8
  · apply noneKept_of_eq _ _ k
    · show s.nodeStatus k ≠ .NONE
      rw [h4]; decide
    · intro i _; rfl
    · intro i hi; exact Function.update_noteq hi _ _
  · apply noneKept_of_eq _ _ k
    · show Function.update s.nodeStatus k .TRIAL k ≠ .NONE
      simp
    · intro i hi; exact Function.update_noteq hi _ _
    · intro i hi; exact Function.update_noteq hi _ _
  · apply noneKept_of_eq _ _ k
    · exact h5
    · intro i _; rfl
    · intro i hi; exact Function.update_noteq hi _ _
  · exact noneKept_refl _
  · apply noneKept_of_eq _ _ (idx (toInt (mesh.neighbours k j)))
    · show s.nodeStatus (idx (toInt (mesh.neighbours k j))) ≠ .NONE
      rw [h7]; decide
    · intro i _; rfl
    · intro i hi; exact Function.update_noteq hi _ _
  · exact noneKept_refl _
  · exact noneKept_refl _
  · exact noneKept_refl _
  · exact noneKept_refl _

theorem relaxAll_noneKept (C : Numerics α) (mesh : Mesh) (tf : List Nat)
    (s : FastMarchingMethod α) : NoneKept s (relaxAll C mesh tf s) := by
  unfold relaxAll
  apply foldl_noneKept
  intro s addr
  apply foldl_noneKept
  intro s j
  exact relax_noneKept C mesh addr s j

theorem solveRound_noneKept (C : Numerics α) (mesh : Mesh) (s t : FastMarchingMethod α)
    (h : solveRound C mesh s = .ok t) : NoneKept s t := by
  unfold solveRound at h
  simp only at h
  rcases hf : freeze mesh (popHeap s).1 [] (popHeap s).2.1 with ⟨u, tfu⟩ | _ | _ | _
  · rw [hf] at h
    simp only [Outcome.bind] at h
    rcases hpt : popTies mesh (popHeap s).2.2 (popHeap s).1.heap.entries.length (u, tfu)
      with ⟨v, tfv⟩ | _ | _ | _
    · rw [hpt] at h
      simp only [Outcome.bind, Outcome.ok.injEq] at h
      rw [← h]
      exact noneKept_trans (noneKept_trans (freeze_noneKept mesh s u [] tfu hf)
        (popTies_noneKept mesh _ _ u tfu v tfv hpt)) (relaxAll_noneKept C mesh tfv v)
    all_goals rw [hpt] at h
    all_goals simp [Outcome.bind] at h
  all_goals rw [hf] at h
  all_goals simp [Outcome.bind] at h

theorem solve_noneKept (C : Numerics α) (mesh : Mesh) (fuel : Nat) :
    ∀ s t : FastMarchingMethod α, solve C mesh fuel s = .ok t → NoneKept s t := by
  induction fuel with
  | zero =>
    intro s t h
    unfold solve at h
    split_ifs at h
    simp only [Outcome.ok.injEq] at h
    rw [← h]; exact noneKept_refl _
  | succ n ih =>
    intro s t h
    unfold solve at h
    split_ifs at h
    · simp only [Outcome.ok.injEq] at h
      rw [← h]; exact noneKept_refl _
    · rcases hr : solveRound C mesh s with u | _ | _ | _
      · rw [hr] at h
        exact noneKept_trans (solveRound_noneKept C mesh s u hr) (ih u t h)
      all_goals rw [hr] at h
      all_goals simp [Outcome.bind] at h

theorem marchBody_noneKept (C : Numerics α) (mesh : Mesh) (fuel : Nat)
    (s t : FastMarchingMethod α) (h : marchBody C mesh fuel s = .ok t) : NoneKept s t := by
  unfold marchBody at h
  rcases h1 : initialiseFrozen C mesh s with s1 | _ | _ | _
  · rw [h1] at h
    simp only [Outcome.bind] at h
    have h2 : NoneKept s1 (initialiseHeap mesh s1) := fun i hi => ⟨hi, rfl⟩
    exact noneKept_trans (noneKept_trans (noneKept_trans (initialiseFrozen_noneKept C mesh s s1 h1) h2)
      (initialiseTrial_noneKept C mesh _)) (solve_noneKept C mesh fuel _ t h)
  all_goals rw [h1] at h
  all_goals simp [Outcome.bind] at h

/-- C16. Every node whose status is NONE when `march` returns (either overload)
was NONE before the call and has the signed distance that the caller passed
in for it. -/
theorem none_keeps_distance (C : Numerics α) (mesh : Mesh) (fuel : Nat)
    (s t : FastMarchingMethod α) (phi : Nat → α)
    (ht : march C mesh fuel s phi = .ok t ∨ ∃ vel, marchVelocity C mesh fuel s phi vel = .ok t)
    (i : Nat) (hi : t.nodeStatus i = .NONE) :
    s.nodeStatus i = .NONE ∧ t.signedDistance i = phi i := by
  rcases ht with ht | ⟨vel, ht⟩
  · exact marchBody_noneKept C mesh fuel _ t ht i hi
  · exact marchBody_noneKept C mesh fuel _ t ht i hi

/-- Witness of C16: on the grid of 2 x 2 nodes with the input distances
`0, doubleEpsilon, 1, 1`, `march` returns with node 3 NONE at the distance `1`. -/
theorem none_keeps_distance_witness :
    ∃ t, march ratNumerics (gridMesh noNeighbour 1 1) 4 FastMarchingMethod.new
        (fieldOf [0, ratNumerics.doubleEpsilon, 1, 1]) = .ok t ∧
      t.nodeStatus 3 = .NONE ∧
      (FastMarchingMethod.new : FastMarchingMethod ℚ).nodeStatus 3 = .NONE ∧
      t.signedDistance 3 = 1 := by
  obtain ⟨t, ht, hn⟩ := holds_ok
    (march ratNumerics (gridMesh noNeighbour 1 1) 4 FastMarchingMethod.new
      (fieldOf [0, ratNumerics.doubleEpsilon, 1, 1]))
    (fun t => t.nodeStatus 3 = .NONE) (by decide!)
  obtain ⟨h1, h2⟩ := none_keeps_distance ratNumerics (gridMesh noNeighbour 1 1) 4
    FastMarchingMethod.new t (fieldOf [0, ratNumerics.doubleEpsilon, 1, 1]) (Or.inl ht) 3 hn
  exact ⟨t, ht, hn, h1, by rw [h2]; rfl⟩

/-! ## `initialiseHeap` and `initialiseTrial` -/

/-- The result of `updateDirection` depends on the state through the set of
FROZEN nodes and their distances only. -/
theorem updateDirection_congr (mesh : Mesh) (r s : FastMarchingMethod α) (node : Nat) (d : α × α)
    (index : Nat) (hst : ∀ k, r.nodeStatus k = .FROZEN ↔ s.nodeStatus k = .FROZEN)
    (hsd : ∀ k, s.nodeStatus k = .FROZEN → r.signedDistance k = s.signedDistance k) :
    updateDirection mesh r node d index = updateDirection mesh s node d index := by
  unfold updateDirection
  simp only [test_frozen, hst]
  by_cases h1 : s.nodeStatus (idx (toInt (mesh.neighbours node index))) = .FROZEN
  · rw [hsd _ h1]
    by_cases h2 : s.nodeStatus
        (idx (toInt (mesh.neighbours (idx (toInt (mesh.neighbours node index))) index))) = .FROZEN
    · rw [hsd _ h2]
    · simp only [h2, if_false]
  · simp only [h1, if_false]

/-- The result of `updateNode` depends on the state through the set of FROZEN
nodes, their distances and the snapshot of the node only. -/
theorem updateNode_congr (C : Numerics α) (mesh : Mesh) (r s : FastMarchingMethod α) (node : Nat)
    (hst : ∀ k, r.nodeStatus k = .FROZEN ↔ s.nodeStatus k = .FROZEN)
    (hsd : ∀ k, s.nodeStatus k = .FROZEN → r.signedDistance k = s.signedDistance k)
    (hcp : r.signedDistanceCopy node = s.signedDistanceCopy node) :
    updateNode C mesh r node = updateNode C mesh s node := by
  unfold updateNode stencilCoeffs axisDists solveQuadratic
  simp only [updateDirection_congr mesh r s node _ _ hst hsd, hcp]

theorem trialStep_eq (C : Numerics α) (mesh : Mesh) (i : Nat) (s : FastMarchingMethod α)
    (j : Nat) :
    trialStep C mesh i s j =
      if (toInt (mesh.neighbours i j) ≠ -1 ∧
          s.nodeStatus (idx (toInt (mesh.neighbours i j))) = .FROZEN) ∧ s.nodeStatus i = .NONE then
        enterTrial C mesh s i
      else s := by
  unfold trialStep enterTrial
  simp only [test_frozen, Function.update_same]
  split_ifs <;> first | rfl | simp_all

theorem enterTrial_status (C : Numerics α) (mesh : Mesh) (s : FastMarchingMethod α) (i : Nat) :
    (enterTrial C mesh s i).nodeStatus i ≠ .NONE := by
  simp [enterTrial]

/-- The body of the outer loop of `initialiseTrial` in closed form. -/
theorem trialNode_eq (C : Numerics α) (mesh : Mesh) (s : FastMarchingMethod α) (i : Nat) :
    trialNode C mesh s i =
      if s.nodeStatus i = .NONE ∧ HasFrozenNeighbour mesh s i then enterTrial C mesh s i
      else s := by
  have hr : List.range 4 = [0, 1, 2, 3] := by decide
  have hstay : ∀ j, trialStep C mesh i (enterTrial C mesh s i) j = enterTrial C mesh s i := by
    intro j
    rw [trialStep_eq, if_neg]
    exact fun h => enterTrial_status C mesh s i h.2
  have hex : HasFrozenNeighbour mesh s i ↔
      ((toInt (mesh.neighbours i 0) ≠ -1 ∧
          s.nodeStatus (idx (toInt (mesh.neighbours i 0))) = .FROZEN) ∨
        (toInt (mesh.neighbours i 1) ≠ -1 ∧
          s.nodeStatus (idx (toInt (mesh.neighbours i 1))) = .FROZEN) ∨
        (toInt (mesh.neighbours i 2) ≠ -1 ∧
          s.nodeStatus (idx (toInt (mesh.neighbours i 2))) = .FROZEN) ∨
        (toInt (mesh.neighbours i 3) ≠ -1 ∧
          s.nodeStatus (idx (toInt (mesh.neighbours i 3))) = .FROZEN)) := by
    unfold HasFrozenNeighbour
    constructor
    · rintro ⟨j, hj, h⟩
      interval_cases j
      · exact Or.inl h
      · exact Or.inr (Or.inl h)
      · exact Or.inr (Or.inr (Or.inl h))
      · exact Or.inr (Or.inr (Or.inr h))
    · rintro (h | h | h | h)
      · exact ⟨0, by norm_num, h⟩
      · exact ⟨1, by norm_num, h⟩
      · exact ⟨2, by norm_num, h⟩
      · exact ⟨3, by norm_num, h⟩
  unfold trialNode
  by_cases hn : s.nodeStatus i = .NONE
  · rw [if_pos hn, hr]
    simp only [List.foldl_cons, List.foldl_nil, hn, true_and]
    rw [trialStep_eq C mesh i s 0]
    by_cases h0 : toInt (mesh.neighbours i 0) ≠ -1 ∧
        s.nodeStatus (idx (toInt (mesh.neighbours i 0))) = .FROZEN
    · rw [if_pos ⟨h0, hn⟩, hstay, hstay, hstay, if_pos (hex.2 (Or.inl h0))]
    · rw [if_neg (fun h => h0 h.1), trialStep_eq C mesh i s 1]
      by_cases h1 : toInt (mesh.neighbours i 1) ≠ -1 ∧
          s.nodeStatus (idx (toInt (mesh.neighbours i 1))) = .FROZEN
      · rw [if_pos ⟨h1, hn⟩, hstay, hstay, if_pos (hex.2 (Or.inr (Or.inl h1)))]
      · rw [if_neg (fun h => h1 h.1), trialStep_eq C mesh i s 2]
        by_cases h2 : toInt (mesh.neighbours i 2) ≠ -1 ∧
            s.nodeStatus (idx (toInt (mesh.neighbours i 2))) = .FROZEN
        · rw [if_pos ⟨h2, hn⟩, hstay, if_pos (hex.2 (Or.inr (Or.inr (Or.inl h2))))]
        · rw [if_neg (fun h => h2 h.1), trialStep_eq C mesh i s 3]
          by_cases h3 : toInt (mesh.neighbours i 3) ≠ -1 ∧
              s.nodeStatus (idx (toInt (mesh.neighbours i 3))) = .FROZEN
          · rw [if_pos ⟨h3, hn⟩, if_pos (hex.2 (Or.inr (Or.inr (Or.inr h3))))]
          · rw [if_neg (fun h => h3 h.1), if_neg]
            intro hh
            rcases hex.1 hh with h | h | h | h
            · exact h0 h
            · exact h1 h
            · exact h2 h
            · exact h3 h
  · rw [if_neg hn, if_neg (fun h => hn h.1)]

theorem hasFrozenNeighbour_congr (mesh : Mesh) (r s : FastMarchingMethod α) (i : Nat)
    (hst : ∀ k, r.nodeStatus k = .FROZEN ↔ s.nodeStatus k = .FROZEN) :
    HasFrozenNeighbour mesh r i ↔ HasFrozenNeighbour mesh s i := by
  unfold HasFrozenNeighbour
  simp only [hst]

/-- The outer loop of `initialiseTrial` in closed form. -/
theorem trialPass_fold (C : Numerics α) (mesh : Mesh) (s : FastMarchingMethod α)
    (hs : s.heap.entries = []) (m : Nat) :
    TrialPassed C mesh s m ((List.range m).foldl (trialNode C mesh) s) := by
  induction m with
  | zero => simp [TrialPassed, hs]
  | succ m ih =>
    rw [List.range_succ, List.foldl_append, List.foldl_cons, List.foldl_nil]
    generalize (List.range m).foldl (trialNode C mesh) s = r at ih
    obtain ⟨h1, h2, h3, h4, h5⟩ := ih
    have hst : ∀ k, r.nodeStatus k = .FROZEN ↔ s.nodeStatus k = .FROZEN := by
      intro k
      rw [h3 k]
      split_ifs with hc
      · rw [hc.2.1]; simp
      · rfl
    have hsd : ∀ k, s.nodeStatus k = .FROZEN → r.signedDistance k = s.signedDistance k := by
      intro k hk
      rw [h4 k, if_neg]
      intro hc
      rw [hc.2.1] at hk
      exact absurd hk (by decide)
    have hm : r.nodeStatus m = s.nodeStatus m := by rw [h3 m]; simp
    have hlt : ∀ k, k < m + 1 ↔ k < m ∨ k = m := fun k => by omega
    have hcond : (r.nodeStatus m = .NONE ∧ HasFrozenNeighbour mesh r m) ↔
        (s.nodeStatus m = .NONE ∧ HasFrozenNeighbour mesh s m) := by
      rw [hm, hasFrozenNeighbour_congr mesh r s m hst]
    rw [trialNode_eq]
    by_cases hc : s.nodeStatus m = .NONE ∧ HasFrozenNeighbour mesh s m
    · rw [if_pos (hcond.2 hc)]
      have hu : updateNode C mesh { r with nodeStatus := Function.update r.nodeStatus m .TRIAL } m
          = updateNode C mesh s m := by
        apply updateNode_congr
        · intro k
          by_cases hk : k = m
          · subst hk; simp [hc.1]
          · simp only [Function.update_noteq hk]; exact hst k
        · exact hsd
        · exact congrFun h1 m
      refine ⟨h1, h2, ?_, ?_, ?_⟩
      · intro k
        by_cases hk : k = m
        · subst hk; simp [enterTrial, hc]
        · have : (enterTrial C mesh r m).nodeStatus k = r.nodeStatus k := by
            simp [enterTrial, Function.update_noteq hk]
          rw [this, h3 k]; simp [hlt, hk]
      · intro k
        by_cases hk : k = m
        · subst hk; simp [enterTrial, hc, hu]
        · have : (enterTrial C mesh r m).signedDistance k = r.signedDistance k := by
            simp [enterTrial, Function.update_noteq hk]
          rw [this, h4 k]; simp [hlt, hk]
      · intro k
        have he : (enterTrial C mesh r m).heap.entries
            = r.heap.entries ++ [⟨r.heap.nextHandle, m, |updateNode C mesh s m|⟩] := by
          simp [enterTrial, Heap.push, hu]
        rw [he, List.filter_append, List.map_append, h5 k]
        by_cases hk : k = m
        · subst hk
          simp [hc]
        · have hkm : ¬ m = k := fun h => hk h.symm
          simp [hlt, hk, hkm]
    · rw [if_neg (fun h => hc (hcond.1 h))]
      refine ⟨h1, h2, ?_, ?_, ?_⟩
      · intro k
        rw [h3 k]
        by_cases hk : k = m
        · subst hk; simp [hc]
        · simp [hlt, hk]
      · intro k
        rw [h4 k]
        by_cases hk : k = m
        · subst hk; simp [hc]
        · simp [hlt, hk]
      · intro k
        rw [h5 k]
        by_cases hk : k = m
        · subst hk; simp [hc]
        · simp [hlt, hk]

theorem foldl_count (p : Nat → Prop) [DecidablePred p] (l : List Nat) (a : Nat) :
    l.foldl (fun n i => if p i then n + 1 else n) a = a + l.countP (fun i => decide (p i)) := by
  induction l generalizing a with
  | nil => simp
  | cons x l ih =>
    rw [List.foldl_cons, ih]
    by_cases hx : p x
    · simp [hx, List.countP_cons_of_pos]; omega
    · simp [hx]

/-- The state left by `initialiseHeap` and `initialiseTrial` in closed form. -/
theorem initialiseTrial_spec (C : Numerics α) (mesh : Mesh) (s : FastMarchingMethod α) :
    TrialPassed C mesh (initialiseHeap mesh s) mesh.nNodes
      (initialiseTrial C mesh (initialiseHeap mesh s)) ∧
    (initialiseTrial C mesh (initialiseHeap mesh s)).heap.capacity = noneCount mesh s := by
  have h := trialPass_fold C mesh (initialiseHeap mesh s) rfl mesh.nNodes
  refine ⟨h, ?_⟩
  obtain ⟨_, h2, _⟩ := h
  unfold initialiseTrial
  rw [h2]
  unfold initialiseHeap noneCount
  simp only [Heap.new]
  rw [foldl_count]
  simp

/-- C13. After `initialiseHeap` and `initialiseTrial`, started in the state `s`
(the state left by `initialiseFrozen`): every node of the mesh that is NONE in
`s` and has a FROZEN neighbour in the domain is TRIAL, its signed distance is
the result of `updateNode` for it, and the heap holds exactly one entry for it,
with the absolute value of that distance as key; every other node that is NONE
in `s` is still NONE, keeps its distance and has no entry in the heap; a node
that is not NONE in `s` keeps its status and its distance and has no entry; the
capacity of the heap is the number of nodes of the mesh that are NONE in `s`;
and every entry belongs to a TRIAL node whose `heapPtr` is the handle of the
entry. -/
theorem initialiseTrial_band (C : Numerics α) (mesh : Mesh) (s : FastMarchingMethod α) :
    (∀ i, i < mesh.nNodes → s.nodeStatus i = .NONE → HasFrozenNeighbour mesh s i →
      (initialiseTrial C mesh (initialiseHeap mesh s)).nodeStatus i = .TRIAL ∧
      (initialiseTrial C mesh (initialiseHeap mesh s)).signedDistance i = updateNode C mesh s i ∧
      ((initialiseTrial C mesh (initialiseHeap mesh s)).heap.entries.filter
          (fun e => decide (e.address = i))).map (fun e => e.key)
        = [|(initialiseTrial C mesh (initialiseHeap mesh s)).signedDistance i|]) ∧
    (∀ i, i < mesh.nNodes → s.nodeStatus i = .NONE → ¬ HasFrozenNeighbour mesh s i →
      (initialiseTrial C mesh (initialiseHeap mesh s)).nodeStatus i = .NONE ∧
      (initialiseTrial C mesh (initialiseHeap mesh s)).signedDistance i = s.signedDistance i ∧
      ∀ e ∈ (initialiseTrial C mesh (initialiseHeap mesh s)).heap.entries, e.address ≠ i) ∧
    (∀ i, s.nodeStatus i ≠ .NONE →
      (initialiseTrial C mesh (initialiseHeap mesh s)).nodeStatus i = s.nodeStatus i ∧
      (initialiseTrial C mesh (initialiseHeap mesh s)).signedDistance i = s.signedDistance i ∧
      ∀ e ∈ (initialiseTrial C mesh (initialiseHeap mesh s)).heap.entries, e.address ≠ i) ∧
    (initialiseTrial C mesh (initialiseHeap mesh s)).heap.capacity = noneCount mesh s ∧
    HeapInv mesh (initialiseTrial C mesh (initialiseHeap mesh s)) := by
  obtain ⟨⟨_, _, h3, h4, h5⟩, hcap⟩ := initialiseTrial_spec C mesh s
  have hnone : ∀ i, ((initialiseTrial C mesh (initialiseHeap mesh s)).heap.entries.filter
      (fun e => decide (e.address = i))).map (fun e => e.key) = [] →
      ∀ e ∈ (initialiseTrial C mesh (initialiseHeap mesh s)).heap.entries, e.address ≠ i := by
    intro i h e he hei
    rw [List.map_eq_nil_iff, List.filter_eq_nil_iff] at h
    exact h e he (by simp [hei])
  have e1 : ∀ i, (initialiseHeap mesh s).nodeStatus i = s.nodeStatus i := fun _ => rfl
  have e2 : ∀ i, (initialiseHeap mesh s).signedDistance i = s.signedDistance i := fun _ => rfl
  have e3 : ∀ i, HasFrozenNeighbour mesh (initialiseHeap mesh s) i ↔ HasFrozenNeighbour mesh s i :=
    fun _ => Iff.rfl
  have e4 : ∀ i, updateNode C mesh (initialiseHeap mesh s) i = updateNode C mesh s i := fun _ => rfl
  refine ⟨fun i hi hn hf => ?_, fun i hi hn hf => ?_, fun i hn => ?_, hcap, ?_⟩
  · have hc : i < mesh.nNodes ∧ (initialiseHeap mesh s).nodeStatus i = .NONE ∧
        HasFrozenNeighbour mesh (initialiseHeap mesh s) i := ⟨hi, hn, (e3 i).2 hf⟩
    have a := h3 i
    have b := h4 i
    have c := h5 i
    rw [if_pos hc] at a b c
    exact ⟨a, by rw [b, e4], by rw [c, b]⟩
  · have hc : ¬ (i < mesh.nNodes ∧ (initialiseHeap mesh s).nodeStatus i = .NONE ∧
        HasFrozenNeighbour mesh (initialiseHeap mesh s) i) := fun h => hf ((e3 i).1 h.2.2)
    have a := h3 i
    have b := h4 i
    have c := h5 i
    rw [if_neg hc] at a b c
    exact ⟨by rw [a, e1, hn], by rw [b, e2], hnone i c⟩
  · have hc : ¬ (i < mesh.nNodes ∧ (initialiseHeap mesh s).nodeStatus i = .NONE ∧
        HasFrozenNeighbour mesh (initialiseHeap mesh s) i) := fun h => hn h.2.1
    have a := h3 i
    have b := h4 i
    have c := h5 i
    rw [if_neg hc] at a b c
    exact ⟨by rw [a, e1], by rw [b, e2], hnone i c⟩
  · exact ((initialiseTrial_relaxes C mesh (initialiseHeap mesh s)).1
      (initialiseHeap_inv mesh s).1).2.1

/-- Witness of C13: on the grid of 4 x 2 nodes with nodes 1 and 3 frozen at
`1/2` and `1/4`, node 2 enters the trial band with the distance `-3/4` (its
snapshot is zero) and the key `3/4`; the capacity of the heap is 6. -/
theorem initialiseTrial_band_witness :
    updateNode ratNumerics (gridMesh noNeighbour 3 1) (rowState (α := ℚ)) 2 = -3 / 4 ∧
    noneCount (gridMesh noNeighbour 3 1) (rowState (α := ℚ)) = 6 ∧
    ((initialiseTrial ratNumerics (gridMesh noNeighbour 3 1)
        (initialiseHeap (gridMesh noNeighbour 3 1) rowState)).nodeStatus 2 = .TRIAL ∧
      (initialiseTrial ratNumerics (gridMesh noNeighbour 3 1)
        (initialiseHeap (gridMesh noNeighbour 3 1) rowState)).signedDistance 2
          = updateNode ratNumerics (gridMesh noNeighbour 3 1) rowState 2 ∧
      ((initialiseTrial ratNumerics (gridMesh noNeighbour 3 1)
          (initialiseHeap (gridMesh noNeighbour 3 1) rowState)).heap.entries.filter
            (fun e => decide (e.address = 2))).map (fun e => e.key)
        = [|(initialiseTrial ratNumerics (gridMesh noNeighbour 3 1)
            (initialiseHeap (gridMesh noNeighbour 3 1) rowState)).signedDistance 2|]) :=
  ⟨by decide!, by decide!,
    (initialiseTrial_band ratNumerics (gridMesh noNeighbour 3 1) rowState).1 2 (by decide)
      (by decide) ⟨1, by decide, by decide, by decide⟩⟩

/-! ## A constant velocity on the front -/

theorem trialStep_velocity (C : Numerics α) (mesh : Mesh) (i : Nat) (s : FastMarchingMethod α)
    (j : Nat) : (trialStep C mesh i s j).velocity = s.velocity := by
  unfold trialStep
  simp only
  split_ifs <;> rfl

theorem foldl_velocity (f : FastMarchingMethod α → Nat → FastMarchingMethod α) (l : List Nat)
    (h : ∀ s x, (f s x).velocity = s.velocity) : ∀ s, (l.foldl f s).velocity = s.velocity := by
  induction l with
  | nil => intro s; rfl
  | cons a l ih => intro s; rw [List.foldl_cons, ih, h]

theorem initialiseTrial_velocity (C : Numerics α) (mesh : Mesh) (s : FastMarchingMethod α) :
    (initialiseTrial C mesh s).velocity = s.velocity := by
  unfold initialiseTrial
  apply foldl_velocity
  intro s i
  unfold trialNode
  split_ifs
  · exact foldl_velocity _ _ (fun s j => trialStep_velocity C mesh i s j) s
  · rfl

theorem relax_velocity (C : Numerics α) (mesh : Mesh) (addr : Nat) (s : FastMarchingMethod α)
    (j : Nat) : (relax C mesh addr s j).velocity = s.velocity := by
  unfold relax
  simp only
  split_ifs <;> rfl

theorem relaxAll_velocity (C : Numerics α) (mesh : Mesh) (tf : List Nat)
    (s : FastMarchingMethod α) : (relaxAll C mesh tf s).velocity = s.velocity := by
  unfold relaxAll
  apply foldl_velocity
  intro s addr
  exact foldl_velocity _ _ (fun s j => relax_velocity C mesh addr s j) s

/-- A step that keeps the velocities and freezes no node keeps
`FrozenVelocity`. -/
theorem frozenVelocity_of_relaxes (mesh : Mesh) (c : α) (s t : FastMarchingMethod α)
    (hr : Relaxes mesh s t) (hv : t.velocity = s.velocity) (hp : FrozenVelocity mesh c s) :
    FrozenVelocity mesh c t := by
  obtain ⟨_, _, hf, hiv⟩ := hr
  exact ⟨by rw [hiv]; exact hp.1, fun k hk hst => by rw [hv]; exact hp.2 k hk (hf k hst)⟩

theorem scannedChoice_const (c : α) (p q : Option (α × α))
    (hp : ∀ x, p = some x → x.1 = 0 ∨ x.2 = c) (hq : ∀ x, q = some x → x.1 = 0 ∨ x.2 = c) :
    (scannedChoice p q).1 = 0 ∨ (scannedChoice p q).2 = c := by
  rcases p with _ | x <;> rcases q with _ | y
  · left; rfl
  · exact hq y rfl
  · exact hp x rfl
  · unfold scannedChoice
    simp only
    split_ifs
    · exact hq y rfl
    · exact hp x rfl

theorem weightedVelocity_const (c : α) (x y : α × α) (hx : x.1 = 0 ∨ x.2 = c)
    (hy : y.1 = 0 ∨ y.2 = c) (hd : |x.1| + |y.1| ≠ 0) : weightedVelocity x y = c := by
  unfold weightedVelocity
  have h1 : |x.1| * x.2 = |x.1| * c := by
    rcases hx with h | h
    · rw [h]; simp
    · rw [h]
  have h2 : |y.1| * y.2 = |y.1| * c := by
    rcases hy with h | h
    · rw [h]; simp
    · rw [h]
  rw [h1, h2, ← add_mul]
  field_simp

theorem freeze_tracked (mesh : Mesh) (s : FastMarchingMethod α) (tf : List Nat) (addr : Nat)
    (hv : s.isVelocity = true) :
    freeze mesh s tf addr =
      (finaliseVelocity mesh { s with nodeStatus := Function.update s.nodeStatus addr .FROZEN }
        addr).bind fun s2 => .ok (s2, tf ++ [addr]) := by
  unfold freeze
  show (if s.isVelocity = true then _ else _) = _
  rw [if_pos hv]

/-- The pop of a node and the setting of its velocity keep `FrozenVelocity`. -/
theorem freeze_frozenVelocity (mesh : Mesh) (hm : mesh.Valid) (c : α)
    (s t : FastMarchingMethod α) (tf tf' : List Nat) (hinv : HeapInv mesh s)
    (hne : s.heap.empty = false) (hp : FrozenVelocity mesh c s)
    (h : freeze mesh (popHeap s).1 tf (popHeap s).2.1 = .ok (t, tf')) :
    FrozenVelocity mesh c t := by
  obtain ⟨e, _, _, p1, _, _, p4, p5, _, hfr⟩ := pop_freeze mesh s tf hne hinv
  obtain ⟨_, _, _, g4, _, _, _, _, g9⟩ := hfr t tf' h
  refine ⟨by rw [g9]; exact hp.1, ?_⟩
  have hiv : (popHeap s).1.isVelocity = true := hp.1
  rw [p1, freeze_tracked mesh _ tf e.address hiv] at h
  generalize hsF : ({ (popHeap s).1 with
    nodeStatus := Function.update (popHeap s).1.nodeStatus e.address .FROZEN } :
      FastMarchingMethod α) = sF at h
  have e1 : sF.nodeStatus = Function.update s.nodeStatus e.address .FROZEN := by
    rw [← hsF]; rfl
  have e2 : sF.velocity = s.velocity := by rw [← hsF]; rfl
  have hcand : ∀ j, j < 4 → ∀ x, frozenDifference mesh sF e.address j = some x →
      x.1 = 0 ∨ x.2 = c := by
    intro j hj x hx
    unfold frozenDifference at hx
    split_ifs at hx with hc
    simp only [Option.some.injEq] at hx
    subst hx
    rcases neighbour_cases mesh hm e.address j p4 hj with h1 | ⟨h1, _, _⟩
    · exact absurd h1 hc.1
    · by_cases hk : idx (toInt (mesh.neighbours e.address j)) = e.address
      · left; simp only [hk]; exact sub_self _
      · right
        have hst := hc.2
        rw [e1, Function.update_noteq hk] at hst
        simp only [e2]
        exact hp.2 _ h1 hst
  have hx := scannedChoice_const c _ _ (hcand 0 (by norm_num)) (hcand 1 (by norm_num))
  have hy := scannedChoice_const c _ _ (hcand 2 (by norm_num)) (hcand 3 (by norm_num))
  rw [finaliseVelocity_scanned] at h
  by_cases hden : |(scannedChoice (frozenDifference mesh sF e.address 0)
      (frozenDifference mesh sF e.address 1)).1|
      + |(scannedChoice (frozenDifference mesh sF e.address 2)
        (frozenDifference mesh sF e.address 3)).1| ≠ 0
  · rw [if_pos hden] at h
    simp only [Outcome.bind, Outcome.ok.injEq, Prod.mk.injEq] at h
    obtain ⟨h, _⟩ := h
    have hw := weightedVelocity_const c _ _ hx hy hden
    rw [hw] at h
    have hvel : t.velocity = Function.update s.velocity e.address c := by
      rw [← h, ← e2]
    intro k hk hst
    rw [g4] at hst
    rw [hvel]
    by_cases hke : k = e.address
    · rw [hke]; simp
    · rw [Function.update_noteq hke] at hst ⊢
      exact hp.2 k hk hst
  · rw [if_neg hden] at h
    simp [Outcome.bind] at h

theorem popTies_frozenVelocity (mesh : Mesh) (hm : mesh.Valid) (c : α) (value : α) (n : Nat) :
    ∀ (s : FastMarchingMethod α) (tf : List Nat), HeapInv mesh s → FrozenVelocity mesh c s →
      ∀ t tf', popTies mesh value n (s, tf) = .ok (t, tf') → FrozenVelocity mesh c t := by
  induction n with
  | zero =>
    intro s tf _ hp t tf' h
    simp only [popTies, Outcome.ok.injEq, Prod.mk.injEq] at h
    rw [← h.1]; exact hp
  | succ n ih =>
    intro s tf hinv hp t tf' h
    unfold popTies at h
    by_cases hc : (!s.heap.empty && value == s.heap.peek) = true
    · simp only [hc, if_true] at h
      have hne : s.heap.empty = false := by
        simp only [Bool.and_eq_true, Bool.not_eq_true', beq_iff_eq] at hc; exact hc.1
      obtain ⟨e, _, _, _, _, _, _, _, _, hfr⟩ := pop_freeze mesh s tf hne hinv
      rcases hf : freeze mesh (popHeap s).1 tf (popHeap s).2.1 with ⟨u, tfu⟩ | _ | _ | _
      · rw [hf] at h
        simp only [Outcome.bind] at h
        obtain ⟨_, _, _, _, _, _, g7, _, _⟩ := hfr u tfu hf
        exact ih u tfu g7 (freeze_frozenVelocity mesh hm c s u tf tfu hinv hne hp hf) t tf' h
      all_goals rw [hf] at h
      all_goals simp [Outcome.bind] at h
    · simp only [hc, if_false, Bool.false_eq_true, Outcome.ok.injEq, Prod.mk.injEq] at h
      rw [← h.1]; exact hp

theorem solveRound_frozenVelocity (C : Numerics α) (mesh : Mesh) (hm : mesh.Valid) (c : α)
    (s t : FastMarchingMethod α) (hinv : HeapInv mesh s) (hne : s.heap.empty = false)
    (hp : FrozenVelocity mesh c s) (h : solveRound C mesh s = .ok t) :
    FrozenVelocity mesh c t := by
  obtain ⟨u, a, k, L, h1, h2, _, _, _, _, _, hu, hlt⟩ := solveRound_split C mesh hm s hinv hne t h
  obtain ⟨e, _, _, _, _, _, _, _, _, hfr⟩ := pop_freeze mesh s [] hne hinv
  rcases hf : freeze mesh (popHeap s).1 [] (popHeap s).2.1 with ⟨w, tfw⟩ | _ | _ | _
  · rw [hf] at h1
    simp only [Outcome.bind] at h1
    obtain ⟨_, _, _, _, _, _, g7, _, _⟩ := hfr w tfw hf
    have hw := freeze_frozenVelocity mesh hm c s w [] tfw hinv hne hp hf
    have hpu := popTies_frozenVelocity mesh hm c _ _ w tfw g7 hw u _ h1
    rw [h2]
    exact frozenVelocity_of_relaxes mesh c u _ (relaxAll_relaxes C mesh hm _ u hlt)
      (relaxAll_velocity C mesh _ u) hpu
  all_goals rw [hf] at h1
  all_goals simp [Outcome.bind] at h1

theorem solve_frozenVelocity (C : Numerics α) (mesh : Mesh) (hm : mesh.Valid) (c : α)
    (fuel : Nat) :
    ∀ s : FastMarchingMethod α, HeapInv mesh s → FrozenVelocity mesh c s →
      ∀ t, solve C mesh fuel s = .ok t → FrozenVelocity mesh c t := by
  induction fuel with
  | zero =>
    intro s _ hp t ht
    unfold solve at ht
    split_ifs at ht
    simp only [Outcome.ok.injEq] at ht
    rw [← ht]; exact hp
  | succ n ih =>
    intro s hinv hp t ht
    unfold solve at ht
    by_cases he : s.heap.empty = true
    · simp only [he, if_true, Outcome.ok.injEq] at ht
      rw [← ht]; exact hp
    · simp only [he, if_false, Bool.false_eq_true] at ht
      have hne : s.heap.empty = false := by simpa using he
      obtain ⟨_, r2⟩ := solveRound_spec C mesh hm s hinv hne
      rcases hr : solveRound C mesh s with u | _ | _ | _
      · rw [hr] at ht
        obtain ⟨_, a2, _⟩ := r2 u hr
        exact ih u a2 (solveRound_frozenVelocity C mesh hm c s u hinv hne hp hr) t ht
      all_goals rw [hr] at ht
      all_goals simp [Outcome.bind] at ht

/-- On a valid mesh, the velocity that the second loop of `initialiseFrozen`
stores for a node of the mesh, in terms of the input arrays. -/
theorem borderVelocity_input (mesh : Mesh) (hm : mesh.Valid) (s : FastMarchingMethod α)
    (hv : s.isVelocity = true) (i : Nat) (hi : i < mesh.nNodes) :
    borderVelocity mesh (zeroPass mesh s).1 i
      = crossingAverage mesh s.signedDistance i
          (crossingVelocity mesh s.signedDistance s.velocity i) := by
  obtain ⟨_, _, z3, _, _, _, _, z8, _, _⟩ := zeroPass_spec mesh s
  have hzv : (zeroPass mesh s).1.isVelocity = true := by rw [z3, hv]
  rw [borderVelocity_eq mesh _ i hzv]
  apply crossingAverage_congr
  · intro j hj
    exact crossingFraction_snapshot mesh hm s i j hi hj
  · intro j hj hsome
    have hd : toInt (mesh.neighbours i j) ≠ -1 := by
      rw [crossingFraction_isSome] at hsome; exact hsome.1
    have hnb : idx (toInt (mesh.neighbours i j)) < mesh.nNodes := by
      rcases neighbour_cases mesh hm i j hi hj with h1 | ⟨h1, _, _⟩
      · exact absurd h1 hd
      · exact h1
    unfold crossingVelocity
    have e := crossingFraction_snapshot mesh hm s i j hi hj
    unfold snapshot at e
    rw [e, z8 i, z8 _]
    simp [hi, hnb, hv]

theorem crossingAverage_const (mesh : Mesh) (phi u : Nat → α) (i : Nat) (c : α)
    (hu : ∀ j, j < 4 → (crossingFraction mesh phi i j).isSome = true → u j = c)
    (hc : HasCrossing mesh phi i) : crossingAverage mesh phi i u = c := by
  have he : ∀ axis, axis < 2 →
      inverseSquare (axisFraction mesh phi i axis) * (chosenSlot mesh phi i axis).elim 0 u
        = inverseSquare (axisFraction mesh phi i axis) * c := by
    intro axis ha
    obtain ⟨c1, c2⟩ := chosenSlot_isSome mesh phi i axis
    rcases hs : chosenSlot mesh phi i axis with _ | j
    · rw [c1.1 hs]; simp [inverseSquare]
    · obtain ⟨hj, hjf⟩ := c2 j hs
      simp only [Option.elim]
      rw [hu j (by omega)]
      rw [hjf]
      rcases hax : axisFraction mesh phi i axis with _ | d
      · rw [c1.2 hax] at hs; exact absurd hs (by simp)
      · rfl
  have hpos : 0 < inverseSquare (axisFraction mesh phi i 0)
      + inverseSquare (axisFraction mesh phi i 1) := by
    have h0 := inverseSquare_nonneg (axisFraction mesh phi i 0)
      (fun d hd => (axisFraction_some _ _ _ _ _ hd).1)
    have h1 := inverseSquare_nonneg (axisFraction mesh phi i 1)
      (fun d hd => (axisFraction_some _ _ _ _ _ hd).1)
    rcases (hasCrossing_iff mesh phi i).1 hc with hb | hb
    · linarith [h0.2 hb, h1.1]
    · linarith [h1.2 hb, h0.1]
  unfold crossingAverage
  rw [he 0 (by norm_num), he 1 (by norm_num), ← add_mul]
  field_simp

/-- The state left by `initialiseFrozen` has `FrozenVelocity` when the input
velocity is `c` at every node it leaves FROZEN and at the sign-crossing
neighbours of these nodes. -/
theorem initialiseFrozen_frozenVelocity (C : Numerics α) (mesh : Mesh) (hm : mesh.Valid)
    (s s1 : FastMarchingMethod α) (hv : s.isVelocity = true) (c : α)
    (h : initialiseFrozen C mesh s = .ok s1)
    (hc : ∀ i, i < mesh.nNodes → s1.nodeStatus i = .FROZEN →
      s.velocity i = c ∧ ∀ j, j < 4 → toInt (mesh.neighbours i j) ≠ -1 →
        OppositeSign (s.signedDistance i) (s.signedDistance (idx (toInt (mesh.neighbours i j)))) →
        s.velocity (idx (toInt (mesh.neighbours i j))) = c) :
    FrozenVelocity mesh c s1 := by
  obtain ⟨r, hp, he⟩ := initialiseFrozen_eq C mesh s
  obtain ⟨_, z2, z3, _, _, _, _, _, _, _⟩ := zeroPass_spec mesh s
  obtain ⟨b1, _, _, _, _, _, _, _, b9, _⟩ := hp
  rw [he] at h
  split_ifs at h
  simp only [Outcome.ok.injEq] at h
  subst h
  have hzv : (zeroPass mesh s).1.isVelocity = true := by rw [z3, hv]
  refine ⟨by rw [b1, hzv], fun k hk hst => ?_⟩
  obtain ⟨hck, hcn⟩ := hc k hk hst
  rw [b9 k]
  by_cases hb : IsBorder mesh (zeroPass mesh s).1 k
  · rw [if_pos ⟨hk, hb, hzv⟩, borderVelocity_input mesh hm s hv k hk]
    have hcross : HasCrossing mesh s.signedDistance k := by
      obtain ⟨j, hj, hd, ho⟩ := (isBorder_iff _ _ _).1 hb.2
      refine ⟨j, hj, hd, ?_⟩
      rcases neighbour_cases mesh hm k j hk hj with h1 | ⟨h1, _, _⟩
      · exact absurd h1 hd
      · have e0 := snapshot_eq mesh s k hk
        have e1 := snapshot_eq mesh s _ h1
        unfold snapshot at e0 e1
        rw [e0, e1] at ho
        exact ho
    apply crossingAverage_const _ _ _ _ _ _ hcross
    intro j hj hsome
    rw [crossingFraction_isSome] at hsome
    unfold crossingVelocity
    rw [hck, hcn j hj hsome.1 hsome.2]
    ring
  · rw [if_neg (fun h => hb h.2.1), z2]
    exact hck

/-- C17. On a valid mesh, if the input velocity has the same value `c` at every
node of the mesh that is FROZEN when `initialiseFrozen` returns and at the
sign-crossing neighbours of these nodes, then whenever `march` with velocities
returns, every FROZEN node of the mesh has the velocity `c`. -/
theorem velocity_constant (C : Numerics α) (mesh : Mesh) (hm : mesh.Valid)
    (s : FastMarchingMethod α) (phi vel : Nat → α) (c : α) (fuel : Nat)
    (hc : ∀ s1, initialiseFrozen C mesh
        { s with signedDistance := phi, velocity := vel, isVelocity := true, popLog := [] }
          = .ok s1 →
      ∀ i, i < mesh.nNodes → s1.nodeStatus i = .FROZEN →
        vel i = c ∧ ∀ j, j < 4 → toInt (mesh.neighbours i j) ≠ -1 →
          OppositeSign (phi i) (phi (idx (toInt (mesh.neighbours i j)))) →
          vel (idx (toInt (mesh.neighbours i j))) = c)
    (t : FastMarchingMethod α) (ht : marchVelocity C mesh fuel s phi vel = .ok t) :
    ∀ i, i < mesh.nNodes → t.nodeStatus i = .FROZEN → t.velocity i = c := by
  unfold marchVelocity marchBody at ht
  rcases h1 : initialiseFrozen C mesh
      { s with signedDistance := phi, velocity := vel, isVelocity := true, popLog := [] }
    with s1 | _ | _ | _
  · rw [h1] at ht
    simp only [Outcome.bind] at ht
    have p1 := initialiseFrozen_frozenVelocity C mesh hm _ s1 rfl c h1 (hc s1 h1)
    obtain ⟨i1, _, _⟩ := initialiseHeap_inv mesh s1
    have p2 : FrozenVelocity mesh c (initialiseHeap mesh s1) := p1
    have hrel := initialiseTrial_relaxes C mesh (initialiseHeap mesh s1)
    have p3 := frozenVelocity_of_relaxes mesh c _ _ hrel
      (initialiseTrial_velocity C mesh (initialiseHeap mesh s1)) p2
    exact (solve_frozenVelocity C mesh hm c fuel _ (hrel.1 i1).2.1 p3 t ht).2
  all_goals rw [h1] at ht
  all_goals simp [Outcome.bind] at ht

theorem holds_elim {σ : Type} (o : Outcome σ) (p : σ → Prop) (t : σ) (h : o = .ok t)
    (hp : o.holds p) : p t := by
  subst h; exact hp

/-- Witness of C17: the grid of 4 x 2 nodes with the input distances
`-1, 1, 1, 0` in both rows and the input velocities `3, 3, 0, 3` and `3, 3, 5, 3`.
`initialiseFrozen` freezes the nodes of columns 0, 1 and 3, where the input
velocity is `3`; nodes 2 and 6 are frozen by `solve` and end with the
velocity `3`. -/
theorem velocity_constant_witness :
    ∃ t, marchVelocity ratNumerics (gridMesh noNeighbour 3 1) 8 FastMarchingMethod.new
        (fieldOf [-1, 1, 1, 0, -1, 1, 1, 0]) (fieldOf [3, 3, 0, 3, 3, 3, 5, 3]) = .ok t ∧
      (t.nodeStatus 2 = .FROZEN ∧ t.nodeStatus 6 = .FROZEN) ∧
      t.velocity 2 = 3 ∧ t.velocity 6 = 3 := by
  obtain ⟨t, ht, hs⟩ := holds_ok
    (marchVelocity ratNumerics (gridMesh noNeighbour 3 1) 8 FastMarchingMethod.new
      (fieldOf [-1, 1, 1, 0, -1, 1, 1, 0]) (fieldOf [3, 3, 0, 3, 3, 3, 5, 3]))
    (fun t => t.nodeStatus 2 = .FROZEN ∧ t.nodeStatus 6 = .FROZEN) (by decide!)
  have h := velocity_constant ratNumerics (gridMesh noNeighbour 3 1)
    (gridMesh_valid 3 1 (by norm_num)) FastMarchingMethod.new
    (fieldOf [-1, 1, 1, 0, -1, 1, 1, 0]) (fieldOf [3, 3, 0, 3, 3, 3, 5, 3]) 3 8
    (fun s1 h1 => holds_elim _
      (fun s1 => ∀ i, i < (gridMesh noNeighbour 3 1).nNodes → s1.nodeStatus i = .FROZEN →
        fieldOf [(3 : ℚ), 3, 0, 3, 3, 3, 5, 3] i = 3 ∧
        ∀ j, j < 4 → toInt ((gridMesh noNeighbour 3 1).neighbours i j) ≠ -1 →
          OppositeSign (fieldOf [(-1 : ℚ), 1, 1, 0, -1, 1, 1, 0] i)
            (fieldOf [(-1 : ℚ), 1, 1, 0, -1, 1, 1, 0]
              (idx (toInt ((gridMesh noNeighbour 3 1).neighbours i j)))) →
          fieldOf [(3 : ℚ), 3, 0, 3, 3, 3, 5, 3]
            (idx (toInt ((gridMesh noNeighbour 3 1).neighbours i j))) = 3)
      s1 h1 (by decide!)) t ht
  exact ⟨t, ht, hs, h 2 (by decide) hs.1, h 6 (by decide) hs.2⟩

/-! ## The two overloads of `march` -/

theorem sameDistances_setVelocity (a : FastMarchingMethod α) (iv : Bool) (v vc : Nat → α) :
    SameDistances a (setVelocity a iv v vc) :=
  ⟨rfl, rfl, rfl, rfl, rfl, rfl⟩

theorem sameDistances_eq (a b : FastMarchingMethod α) (h : SameDistances a b) :
    b = setVelocity a b.isVelocity b.velocity b.velocityCopy := by
  obtain ⟨h1, h2, h3, h4, h5, h6⟩ := h
  cases a
  cases b
  simp only at h1 h2 h3 h4 h5 h6
  simp [setVelocity, h1, h2, h3, h4, h5, h6]

theorem sameDistances_trans {a b c : FastMarchingMethod α} (h1 : SameDistances a b)
    (h2 : SameDistances b c) : SameDistances a c :=
  ⟨h1.1.trans h2.1, h1.2.1.trans h2.2.1, h1.2.2.1.trans h2.2.2.1, h1.2.2.2.1.trans h2.2.2.2.1,
    h1.2.2.2.2.1.trans h2.2.2.2.2.1, h1.2.2.2.2.2.trans h2.2.2.2.2.2⟩

theorem trialStep_setVelocity (C : Numerics α) (mesh : Mesh) (i : Nat) (a : FastMarchingMethod α)
    (iv : Bool) (v vc : Nat → α) (j : Nat) :
    trialStep C mesh i (setVelocity a iv v vc) j = setVelocity (trialStep C mesh i a j) iv v vc := by
  have hst : (setVelocity a iv v vc).nodeStatus = a.nodeStatus := rfl
  unfold trialStep
  simp only [hst]
  split_ifs <;> rfl

theorem foldl_setVelocity (f : FastMarchingMethod α → Nat → FastMarchingMethod α) (iv : Bool)
    (v vc : Nat → α) (l : List Nat)
    (h : ∀ a x, f (setVelocity a iv v vc) x = setVelocity (f a x) iv v vc) :
    ∀ a, l.foldl f (setVelocity a iv v vc) = setVelocity (l.foldl f a) iv v vc := by
  induction l with
  | nil => intro a; rfl
  | cons x l ih => intro a; rw [List.foldl_cons, h, ih, List.foldl_cons]

theorem initialiseTrial_setVelocity (C : Numerics α) (mesh : Mesh) (a : FastMarchingMethod α)
    (iv : Bool) (v vc : Nat → α) :
    initialiseTrial C mesh (setVelocity a iv v vc) = setVelocity (initialiseTrial C mesh a) iv v vc := by
  unfold initialiseTrial
  apply foldl_setVelocity
  intro a i
  have hst : (setVelocity a iv v vc).nodeStatus = a.nodeStatus := rfl
  unfold trialNode
  rw [hst]
  split_ifs
  · exact foldl_setVelocity _ iv v vc _ (fun a j => trialStep_setVelocity C mesh i a iv v vc j) a
  · rfl

theorem relax_setVelocity (C : Numerics α) (mesh : Mesh) (addr : Nat) (a : FastMarchingMethod α)
    (iv : Bool) (v vc : Nat → α) (j : Nat) :
    relax C mesh addr (setVelocity a iv v vc) j = setVelocity (relax C mesh addr a j) iv v vc := by
  have hst : (setVelocity a iv v vc).nodeStatus = a.nodeStatus := rfl
  have hu : ∀ n, updateNode C mesh (setVelocity a iv v vc) n = updateNode C mesh a n :=
    fun _ => rfl
  unfold relax
  simp only [hst, hu]
  split_ifs <;> rfl

theorem relaxAll_setVelocity (C : Numerics α) (mesh : Mesh) (tf : List Nat)
    (a : FastMarchingMethod α) (iv : Bool) (v vc : Nat → α) :
    relaxAll C mesh tf (setVelocity a iv v vc) = setVelocity (relaxAll C mesh tf a) iv v vc := by
  unfold relaxAll
  apply foldl_setVelocity
  intro a addr
  exact foldl_setVelocity _ iv v vc _ (fun a j => relax_setVelocity C mesh addr a iv v vc j) a

/-- The neighbour updates of `solve` do not read the velocity data. -/
theorem relaxAll_same (C : Numerics α) (mesh : Mesh) (tf : List Nat)
    (a b : FastMarchingMethod α) (h : SameDistances a b) :
    SameDistances (relaxAll C mesh tf a) (relaxAll C mesh tf b) ∧
    (relaxAll C mesh tf b).isVelocity = b.isVelocity := by
  rw [sameDistances_eq a b h, relaxAll_setVelocity]
  exact ⟨sameDistances_setVelocity _ _ _ _, rfl⟩

/-- `initialiseHeap` and `initialiseTrial` do not read the velocity data. -/
theorem initialiseTrial_same (C : Numerics α) (mesh : Mesh) (a b : FastMarchingMethod α)
    (h : SameDistances a b) :
    SameDistances (initialiseTrial C mesh (initialiseHeap mesh a))
      (initialiseTrial C mesh (initialiseHeap mesh b)) ∧
    (initialiseTrial C mesh (initialiseHeap mesh b)).isVelocity = b.isVelocity := by
  rw [sameDistances_eq a b h]
  have hh : initialiseHeap mesh (setVelocity a b.isVelocity b.velocity b.velocityCopy)
      = setVelocity (initialiseHeap mesh a) b.isVelocity b.velocity b.velocityCopy := rfl
  rw [hh, initialiseTrial_setVelocity]
  exact ⟨sameDistances_setVelocity _ _ _ _, rfl⟩

theorem popHeap_same (a b : FastMarchingMethod α) (h : SameDistances a b) :
    SameDistances (popHeap a).1 (popHeap b).1 ∧ (popHeap b).2 = (popHeap a).2 ∧
    (popHeap b).1.isVelocity = b.isVelocity := by
  rw [sameDistances_eq a b h]
  exact ⟨sameDistances_setVelocity _ _ _ _, rfl, rfl⟩

/-- The freezing of a popped node without velocities follows the one with
velocities. -/
theorem freeze_same (mesh : Mesh) (a b a' : FastMarchingMethod α) (tf tf' : List Nat)
    (addr : Nat) (h : SameDistances a b) (hb : b.isVelocity = false)
    (hf : freeze mesh a tf addr = .ok (a', tf')) :
    ∃ b', freeze mesh b tf addr = .ok (b', tf') ∧ SameDistances a' b' ∧ b'.isVelocity = false := by
  obtain ⟨f1, f2, f3, f4, f5, _, f7, _, f9⟩ := freeze_ok _ _ _ _ _ _ hf
  obtain ⟨h1, h2, h3, h4, h5, h6⟩ := h
  refine ⟨{ b with nodeStatus := Function.update b.nodeStatus addr .FROZEN }, ?_, ?_, hb⟩
  · unfold freeze
    show (if b.isVelocity = true then _ else _) = _
    rw [if_neg (by rw [hb]; simp), f9]
  · exact ⟨by rw [f2]; exact h1, by rw [f1, h2], by rw [f7]; exact h3, by rw [f3]; exact h4,
      by rw [f4]; exact h5, by rw [f5]; exact h6⟩

theorem popTies_same (mesh : Mesh) (value : α) (n : Nat) :
    ∀ (a b a' : FastMarchingMethod α) (tf tf' : List Nat), SameDistances a b →
      b.isVelocity = false → popTies mesh value n (a, tf) = .ok (a', tf') →
      ∃ b', popTies mesh value n (b, tf) = .ok (b', tf') ∧ SameDistances a' b' ∧
        b'.isVelocity = false := by
  induction n with
  | zero =>
    intro a b a' tf tf' h hb hp
    simp only [popTies, Outcome.ok.injEq, Prod.mk.injEq] at hp
    obtain ⟨e1, e2⟩ := hp
    subst e1 e2
    exact ⟨b, rfl, h, hb⟩
  | succ n ih =>
    intro a b a' tf tf' h hb hp
    obtain ⟨q1, q2, q3⟩ := popHeap_same a b h
    have hheap : b.heap = a.heap := h.2.2.2.1.symm
    unfold popTies at hp ⊢
    simp only [hheap, q2]
    by_cases hc : (!a.heap.empty && value == a.heap.peek) = true
    · simp only [hc, if_true] at hp ⊢
      rcases hf : freeze mesh (popHeap a).1 tf (popHeap a).2.1 with ⟨u, tfu⟩ | _ | _ | _
      · rw [hf] at hp
        simp only [Outcome.bind] at hp
        obtain ⟨w, hw, hsim, hwv⟩ :=
          freeze_same mesh _ _ u tf tfu _ q1 (by rw [q3]; exact hb) hf
        rw [hw]
        simp only [Outcome.bind]
        exact ih u w a' tfu tf' hsim hwv hp
      all_goals rw [hf] at hp
      all_goals simp [Outcome.bind] at hp
    · simp only [hc, if_false, Bool.false_eq_true, Outcome.ok.injEq, Prod.mk.injEq] at hp ⊢
      obtain ⟨e1, e2⟩ := hp
      subst e1 e2
      exact ⟨b, ⟨rfl, rfl⟩, h, hb⟩

theorem solveRound_same (C : Numerics α) (mesh : Mesh) (a b a' : FastMarchingMethod α)
    (h : SameDistances a b) (hb : b.isVelocity = false) (hr : solveRound C mesh a = .ok a') :
    ∃ b', solveRound C mesh b = .ok b' ∧ SameDistances a' b' ∧ b'.isVelocity = false := by
  obtain ⟨q1, q2, q3⟩ := popHeap_same a b h
  have hheap : (popHeap b).1.heap = (popHeap a).1.heap := q1.2.2.2.1.symm
  unfold solveRound at hr ⊢
  simp only at hr ⊢
  simp only [hheap, q2]
  rcases hf : freeze mesh (popHeap a).1 [] (popHeap a).2.1 with ⟨u, tfu⟩ | _ | _ | _
  · rw [hf] at hr
    simp only [Outcome.bind] at hr
    obtain ⟨w, hw, hsim, hwv⟩ :=
      freeze_same mesh _ _ u [] tfu _ q1 (by rw [q3]; exact hb) hf
    rw [hw]
    simp only [Outcome.bind]
    rcases hpt : popTies mesh (popHeap a).2.2 (popHeap a).1.heap.entries.length (u, tfu)
      with ⟨x, tfx⟩ | _ | _ | _
    · rw [hpt] at hr
      simp only [Outcome.bind, Outcome.ok.injEq] at hr
      obtain ⟨y, hy, hsim2, hyv⟩ := popTies_same mesh _ _ u w x tfu tfx hsim hwv hpt
      rw [hy]
      simp only [Outcome.bind]
      obtain ⟨r1, r2⟩ := relaxAll_same C mesh tfx x y hsim2
      exact ⟨_, rfl, by rw [← hr]; exact r1, by rw [r2]; exact hyv⟩
    all_goals rw [hpt] at hr
    all_goals simp [Outcome.bind] at hr
  all_goals rw [hf] at hr
  all_goals simp [Outcome.bind] at hr

theorem solve_same (C : Numerics α) (mesh : Mesh) (fuel : Nat) :
    ∀ a b a' : FastMarchingMethod α, SameDistances a b → b.isVelocity = false →
      solve C mesh fuel a = .ok a' →
      ∃ b', solve C mesh fuel b = .ok b' ∧ SameDistances a' b' := by
  induction fuel with
  | zero =>
    intro a b a' h hb hs
    have hheap : b.heap = a.heap := h.2.2.2.1.symm
    unfold solve at hs ⊢
    rw [hheap]
    split_ifs at hs ⊢
    simp only [Outcome.ok.injEq] at hs
    subst hs
    exact ⟨b, rfl, h⟩
  | succ n ih =>
    intro a b a' h hb hs
    have hheap : b.heap = a.heap := h.2.2.2.1.symm
    unfold solve at hs ⊢
    rw [hheap]
    by_cases he : a.heap.empty = true
    · simp only [he, if_true, Outcome.ok.injEq] at hs ⊢
      subst hs
      exact ⟨b, rfl, h⟩
    · simp only [he, if_false, Bool.false_eq_true] at hs ⊢
      rcases hr : solveRound C mesh a with u | _ | _ | _
      · rw [hr] at hs
        simp only [Outcome.bind] at hs
        obtain ⟨w, hw, hsim, hwv⟩ := solveRound_same C mesh a b u h hb hr
        rw [hw]
        simp only [Outcome.bind]
        exact ih u w a' hsim hwv hs
      all_goals rw [hr] at hs
      all_goals simp [Outcome.bind] at hs

/-- `initialiseFrozen` without velocities follows the one with velocities. -/
theorem initialiseFrozen_same (C : Numerics α) (mesh : Mesh) (a b a1 : FastMarchingMethod α)
    (h : SameDistances a b) (hb : b.isVelocity = false)
    (ha : initialiseFrozen C mesh a = .ok a1) :
    ∃ b1, initialiseFrozen C mesh b = .ok b1 ∧ SameDistances a1 b1 ∧ b1.isVelocity = false := by
  obtain ⟨h1, h2, h3, h4, h5, h6⟩ := h
  obtain ⟨ra, pa, ea⟩ := initialiseFrozen_eq C mesh a
  obtain ⟨rb, pb, eb⟩ := initialiseFrozen_eq C mesh b
  obtain ⟨x1, _, _, x4, x5, x6, x7, _, x9, x10⟩ := zeroPass_spec mesh a
  obtain ⟨y1, _, y3, y4, y5, y6, y7, _, y9, y10⟩ := zeroPass_spec mesh b
  obtain ⟨_, a2, _, a4, a5, a6, a7, a8, _, a10⟩ := pa
  obtain ⟨b1, b2, _, b4, b5, b6, b7, b8, _, b10⟩ := pb
  have zst : ∀ k, (zeroPass mesh a).1.nodeStatus k = (zeroPass mesh b).1.nodeStatus k := by
    intro k; rw [x9 k, y9 k, h1, h2]
  have zcp : (zeroPass mesh a).1.signedDistanceCopy = (zeroPass mesh b).1.signedDistanceCopy := by
    funext k; rw [x7 k, y7 k, h1, h3]
  have zsd : (zeroPass mesh a).1.signedDistance = (zeroPass mesh b).1.signedDistance := by
    rw [x1, y1, h1]
  have zn : (zeroPass mesh a).2 = 0 ↔ (zeroPass mesh b).2 = 0 := by
    rw [x10, y10, h1, h2]
  have hbord : ∀ k, IsBorder mesh (zeroPass mesh a).1 k ↔ IsBorder mesh (zeroPass mesh b).1 k := by
    intro k
    unfold IsBorder
    rw [isBorder_iff, isBorder_iff, zst k, zcp]
  have hdist : ∀ k, borderDistance C mesh (zeroPass mesh a).1 k
      = borderDistance C mesh (zeroPass mesh b).1 k := by
    intro k
    unfold borderDistance
    rw [distSum_eq, distSum_eq, zcp]
  have rst : ra.1.nodeStatus = rb.1.nodeStatus := by
    funext k
    rw [a7 k, b7 k, zst k]
    by_cases hk : k < mesh.nNodes ∧ IsBorder mesh (zeroPass mesh a).1 k
    · rw [if_pos hk, if_pos ⟨hk.1, (hbord k).1 hk.2⟩]
    · rw [if_neg hk, if_neg (fun hh => hk ⟨hh.1, (hbord k).2 hh.2⟩)]
  have rsd : ra.1.signedDistance = rb.1.signedDistance := by
    funext k
    rw [a8 k, b8 k, zsd, hdist k]
    by_cases hk : k < mesh.nNodes ∧ IsBorder mesh (zeroPass mesh a).1 k
    · rw [if_pos hk, if_pos ⟨hk.1, (hbord k).1 hk.2⟩]
    · rw [if_neg hk, if_neg (fun hh => hk ⟨hh.1, (hbord k).2 hh.2⟩)]
  have rn : ra.2 = 0 ↔ rb.2 = 0 := by
    rw [a10, b10, zn]
    simp only [hbord]
  rw [ea] at ha
  by_cases h0 : ra.2 > 0
  · rw [if_pos h0] at ha
    simp only [Outcome.ok.injEq] at ha
    subst ha
    have h0b : rb.2 > 0 := by
      rcases Nat.eq_zero_or_pos rb.2 with hz | hz
      · have := rn.2 hz; omega
      · exact hz
    refine ⟨rb.1, by rw [eb, if_pos h0b], ⟨rsd, rst, ?_, ?_, ?_, ?_⟩, by rw [b1, y3, hb]⟩
    · rw [a2, b2, zcp]
    · rw [a4, b4, x4, y4, h4]
    · rw [a5, b5, x5, y5, h5]
    · rw [a6, b6, x6, y6, h6]
  · rw [if_neg h0] at ha
    exact absurd ha (by simp)

/-- C20. Whenever `march` with velocities returns, `march` without velocities,
called on the same solver with the same mesh, input distances and fuel,
returns too, and the two calls leave the same signed distances and the same
node statuses (and the same snapshot, heap and record of pops). -/
theorem march_velocity_additive (C : Numerics α) (mesh : Mesh) (fuel : Nat)
    (s : FastMarchingMethod α) (phi vel : Nat → α) (t' : FastMarchingMethod α)
    (h : marchVelocity C mesh fuel s phi vel = .ok t') :
    ∃ t, march C mesh fuel s phi = .ok t ∧ t.signedDistance = t'.signedDistance ∧
      t.nodeStatus = t'.nodeStatus ∧ SameDistances t' t := by
  unfold marchVelocity marchBody at h
  unfold march marchBody
  have h0 : SameDistances
      { s with signedDistance := phi, velocity := vel, isVelocity := true, popLog := [] }
      { s with signedDistance := phi, isVelocity := false, popLog := [] } :=
    ⟨rfl, rfl, rfl, rfl, rfl, rfl⟩
  rcases h1 : initialiseFrozen C mesh
      { s with signedDistance := phi, velocity := vel, isVelocity := true, popLog := [] }
    with a1 | _ | _ | _
  · rw [h1] at h
    simp only [Outcome.bind] at h
    obtain ⟨b1, hb1, hsim, hv⟩ := initialiseFrozen_same C mesh _ _ a1 h0 rfl h1
    rw [hb1]
    simp only [Outcome.bind]
    obtain ⟨q1, q2⟩ := initialiseTrial_same C mesh a1 b1 hsim
    obtain ⟨t, ht, hst⟩ := solve_same C mesh fuel _ _ t' q1 (by rw [q2]; exact hv) h
    exact ⟨t, ht, hst.1.symm, hst.2.1.symm, hst⟩
  all_goals rw [h1] at h
  all_goals simp [Outcome.bind] at h

/-- Witness of C20: the grid of 4 x 2 nodes with the input distances
`-1, 1, 1, 0` in both rows and the input velocities `3, 3, 0, 3` and
`3, 3, 5, 3`; both calls leave node 2 FROZEN at the distance `5/6`. -/
theorem march_velocity_additive_witness :
    ∃ t' t, marchVelocity ratNumerics (gridMesh noNeighbour 3 1) 8 FastMarchingMethod.new
        (fieldOf [-1, 1, 1, 0, -1, 1, 1, 0]) (fieldOf [3, 3, 0, 3, 3, 3, 5, 3]) = .ok t' ∧
      t'.signedDistance 2 = 5 / 6 ∧
      march ratNumerics (gridMesh noNeighbour 3 1) 8 FastMarchingMethod.new
        (fieldOf [-1, 1, 1, 0, -1, 1, 1, 0]) = .ok t ∧
      t.signedDistance = t'.signedDistance ∧ t.nodeStatus = t'.nodeStatus := by
  obtain ⟨t', ht', hs⟩ := holds_ok
    (marchVelocity ratNumerics (gridMesh noNeighbour 3 1) 8 FastMarchingMethod.new
      (fieldOf [-1, 1, 1, 0, -1, 1, 1, 0]) (fieldOf [3, 3, 0, 3, 3, 3, 5, 3]))
    (fun t => t.signedDistance 2 = 5 / 6) (by decide!)
  obtain ⟨t, ht, h1, h2, _⟩ := march_velocity_additive ratNumerics (gridMesh noNeighbour 3 1) 8
    FastMarchingMethod.new (fieldOf [-1, 1, 1, 0, -1, 1, 1, 0]) (fieldOf [3, 3, 0, 3, 3, 3, 5, 3])
    t' ht'
  exact ⟨t', t, ht', hs, ht, h1, h2⟩

/-! ## The heap contract -/

theorem filter_handle_length (l : List (HeapEntry α)) (e : HeapEntry α) (he : e ∈ l) :
    (l.filter (fun x => x.handle != e.handle)).length < l.length := by
  induction l with
  | nil => simp at he
  | cons x l ih =>
    by_cases hx : x.handle = e.handle
    · rw [List.filter_cons_of_neg (by simp [hx])]
      exact Nat.lt_succ_of_le (List.length_filter_le _ _)
    · rw [List.filter_cons_of_pos (by simpa using hx)]
      rcases List.mem_cons.1 he with h | h
      · exact absurd (by rw [h]) hx
      · simpa using ih h

/-- C24: on a non-empty heap `pop` returns the node and key of an entry of the
heap, removes the entries carrying its handle (so the heap gets smaller), and
the returned key is at most every key that remains; `peek` returns the
minimum key, a key of the heap that is at most every key. After pushes with
the keys 0.3, 0.1, 0.1 the first `pop` returns a node pushed with key 0.1 and
the following `peek` returns 0.1. -/
theorem heap_pop_peek (h : Heap α) (hne : h.empty = false) :
    (∃ e ∈ h.entries, h.pop.2.1 = e.address ∧ h.pop.2.2 = e.key ∧
      h.pop.1.entries = h.entries.filter (fun x => x.handle != e.handle) ∧
      e ∉ h.pop.1.entries ∧ h.pop.1.entries.length < h.entries.length) ∧
    (∀ x ∈ h.pop.1.entries, h.pop.2.2 ≤ x.key) ∧
    (∃ x ∈ h.entries, h.peek = x.key) ∧ (∀ x ∈ h.entries, h.peek ≤ x.key) ∧
    ∀ n a b c : Nat,
      ((threePushes n a b c : Heap α).pop.2.1 = b ∨ (threePushes n a b c : Heap α).pop.2.1 = c) ∧
      (threePushes n a b c : Heap α).pop.2.2 = 1 / 10 ∧
      (threePushes n a b c : Heap α).pop.1.peek = 1 / 10 := by
  obtain ⟨e, htop, hmem, hmin⟩ := Heap.top_spec h hne
  have hpop := Heap.pop_spec h e htop
  have hpeek := Heap.peek_spec h e htop
  refine ⟨⟨e, hmem, by rw [hpop], by rw [hpop], by rw [hpop], ?_, ?_⟩, ?_, ⟨e, hmem, hpeek⟩,
    fun x hx => hpeek ▸ hmin x hx, ?_⟩
  · rw [hpop]
    intro hin
    have := (List.mem_filter.1 hin).2
    simp at this
  · rw [hpop]
    exact filter_handle_length _ _ hmem
  · rw [hpop]
    intro x hx
    exact hmin x (List.mem_filter.1 hx).1
  · intro n a b c
    have h1 : ((10 : α)⁻¹ < 3 / 10) := by norm_num
    simp [threePushes, Heap.new, Heap.push, Heap.pop, Heap.top, Heap.peek, minEntry, h1]

/-- The heap contract at the heap with the two entries (node 7, key 2) and
(node 3, key 1). -/
theorem heap_pop_peek_witness :
    (((Heap.new 4 : Heap ℚ).push 7 2).1.push 3 1).1.empty = false ∧
    (((Heap.new 4 : Heap ℚ).push 7 2).1.push 3 1).1.pop.2 = (3, 1) ∧
    (((Heap.new 4 : Heap ℚ).push 7 2).1.push 3 1).1.peek = 1 ∧
    ∀ x ∈ (((Heap.new 4 : Heap ℚ).push 7 2).1.push 3 1).1.pop.1.entries, (1 : ℚ) ≤ x.key :=
  ⟨by decide!, by decide!, by decide!,
    (heap_pop_peek (((Heap.new 4 : Heap ℚ).push 7 2).1.push 3 1).1 (by decide!)).2.1⟩

/-! ## The sentinel of the mesh -/

/-- C22: on the mesh of 2 x 2 nodes whose out-of-domain entries hold the
sentinel `nNodes = 4`, the left neighbour entry of node 0 is the sentinel, it
passes the test `neighbour != -1` of `initialiseFrozen` and is used as the
index 4 into the snapshot array. For the input distances 1, -1, 1, -1 the
distance that `march` stores for node 0 depends on what that position holds:
`1/2` when it reads 0 and `2/5` when it reads `-1/2`. -/
theorem sentinel_indexes_snapshot :
    (gridMesh 4 1 1).neighbours 0 0 = (gridMesh 4 1 1).nNodes ∧
    toInt ((gridMesh 4 1 1).neighbours 0 0) ≠ -1 ∧
    idx (toInt ((gridMesh 4 1 1).neighbours 0 0)) = 4 ∧
    (march ratNumerics (gridMesh 4 1 1) 4 (sentinelState 0) (fieldOf [1, -1, 1, -1])).holds
      (fun t => t.signedDistance 0 = 1 / 2) ∧
    (march ratNumerics (gridMesh 4 1 1) 4 (sentinelState (-1 / 2)) (fieldOf [1, -1, 1, -1])).holds
      (fun t => t.signedDistance 0 = 2 / 5) := by
  refine ⟨by decide!, by decide!, by decide!, by decide!, by decide!⟩

/-! ## The fixed-grid mesh -/

theorem index_div_mod (W y x : Nat) (hx : x < W) :
    (y * W + x) / W = y ∧ (y * W + x) % W = x := by
  have hW : 0 < W := by omega
  constructor
  · rw [Nat.add_comm, Nat.add_mul_div_right _ _ hW, Nat.div_eq_of_lt hx, Nat.zero_add]
  · rw [Nat.add_comm, Nat.add_mul_mod_self_right, Nat.mod_eq_of_lt hx]

theorem index_decomp (W i : Nat) : i / W * W + i % W = i := by
  rw [Nat.mul_comm]
  exact Nat.div_add_mod i W

theorem node_position (w h i : Nat) (hi : i < (w + 1) * (h + 1)) :
    i % (w + 1) ≤ w ∧ i / (w + 1) ≤ h := by
  constructor
  · have : i % (w + 1) < w + 1 := Nat.mod_lt i (Nat.succ_pos w)
    omega
  · have : i / (w + 1) < h + 1 := Nat.div_lt_of_lt_mul hi
    omega

theorem index_lt (w h x y : Nat) (hx : x ≤ w) (hy : y ≤ h) :
    y * (w + 1) + x < (w + 1) * (h + 1) := by
  have h1 : y * (w + 1) ≤ h * (w + 1) := Nat.mul_le_mul_right _ hy
  have h2 : (w + 1) * (h + 1) = h * (w + 1) + (w + 1) := by ring
  omega

theorem new_eq_some (w h : Nat) (m : FullMesh) (hm : FullMesh.new w h = some m) :
    1 ≤ w ∧ 1 ≤ h ∧ m = FullMesh.build w h := by
  unfold FullMesh.new at hm
  by_cases hz : w = 0 ∨ h = 0
  · rw [if_pos hz] at hm
    exact absurd hm (by simp)
  · rw [if_neg hz] at hm
    refine ⟨by omega, by omega, ?_⟩
    exact (Option.some.inj hm).symm

theorem new_build (w h : Nat) (hw : 1 ≤ w) (hh : 1 ≤ h) :
    FullMesh.new w h = some (FullMesh.build w h) := by
  unfold FullMesh.new
  rw [if_neg (by omega)]

theorem attach_fold (e : Nat) (ns : List Nat) (nd : Nat → Node) (i : Nat) :
    (ns.foldl (fun nd n => attachElement nd e n) nd i).coord = (nd i).coord ∧
    (ns.foldl (fun nd n => attachElement nd e n) nd i).neighbours = (nd i).neighbours ∧
    (ns.foldl (fun nd n => attachElement nd e n) nd i).elements =
      (nd i).elements ++ List.replicate (ns.count i) e ∧
    (ns.foldl (fun nd n => attachElement nd e n) nd i).nElements =
      (nd i).nElements + ns.count i := by
  induction ns generalizing nd with
  | nil => simp
  | cons n ns ih =>
    rw [List.foldl_cons]
    obtain ⟨h1, h2, h3, h4⟩ := ih (attachElement nd e n)
    rw [h1, h2, h3, h4]
    by_cases hin : i = n
    · subst hin
      simp only [attachElement, if_true, Node.attach, List.count_cons_self, List.replicate_succ,
        List.append_assoc, List.singleton_append, true_and]
      omega
    · have hni : ¬ (n = i) := fun h => hin h.symm
      simp [attachElement, hin, List.count_cons_of_ne hni]

theorem elements_fold (w : Nat) (es : List Nat) (hes : ∀ e ∈ es, (elementNodes w e).Nodup)
    (nd : Nat → Node) (i : Nat) :
    (es.foldl (fun nd e => (elementNodes w e).foldl (fun nd n => attachElement nd e n) nd)
        nd i).coord = (nd i).coord ∧
    (es.foldl (fun nd e => (elementNodes w e).foldl (fun nd n => attachElement nd e n) nd)
        nd i).neighbours = (nd i).neighbours ∧
    (es.foldl (fun nd e => (elementNodes w e).foldl (fun nd n => attachElement nd e n) nd)
        nd i).elements = (nd i).elements ++ es.filter (fun e => decide (i ∈ elementNodes w e)) ∧
    (es.foldl (fun nd e => (elementNodes w e).foldl (fun nd n => attachElement nd e n) nd)
        nd i).nElements =
      (nd i).nElements + (es.filter (fun e => decide (i ∈ elementNodes w e))).length := by
  induction es generalizing nd with
  | nil => simp
  | cons e es ih =>
    rw [List.foldl_cons]
    obtain ⟨h1, h2, h3, h4⟩ := ih (fun e' he' => hes e' (List.mem_cons_of_mem _ he'))
      ((elementNodes w e).foldl (fun nd n => attachElement nd e n) nd)
    obtain ⟨g1, g2, g3, g4⟩ := attach_fold e (elementNodes w e) nd i
    rw [h1, h2, h3, h4, g1, g2, g3, g4]
    have hnd := hes e (List.mem_cons_self _ _)
    by_cases hin : i ∈ elementNodes w e
    · rw [List.count_eq_one_of_mem hnd hin, List.filter_cons_of_pos (by simpa using hin)]
      simp
      omega
    · rw [List.count_eq_zero_of_not_mem hin, List.filter_cons_of_neg (by simpa using hin)]
      simp

theorem elementNodes_eq (w e : Nat) :
    elementNodes w e =
      [e / w * (w + 1) + e % w, e / w * (w + 1) + e % w + 1,
       e / w * (w + 1) + e % w + (w + 1) + 1, e / w * (w + 1) + e % w + (w + 1)] := by
  unfold elementNodes xyToIndex
  have h : (e / w + 1) * (w + 1) = e / w * (w + 1) + (w + 1) := by ring
  rw [h]
  simp only [List.cons.injEq, and_true, true_and]
  omega

theorem elementNodes_nodup (w e : Nat) (hw : 1 ≤ w) : (elementNodes w e).Nodup := by
  rw [elementNodes_eq]
  simp only [List.nodup_cons, List.mem_cons, List.mem_singleton, List.not_mem_nil, not_or,
    List.nodup_nil, and_true, not_false_eq_true]
  omega

theorem build_node (w h i : Nat) (hw : 1 ≤ w) :
    ((FullMesh.build w h).nodes i).coord = (i % (w + 1), i / (w + 1)) ∧
    ((FullMesh.build w h).nodes i).neighbours =
      initialiseNeighbours w h ((w + 1) * (h + 1)) (i % (w + 1)) (i / (w + 1)) ∧
    ((FullMesh.build w h).nodes i).elements =
      (List.range (w * h)).filter (fun e => decide (i ∈ elementNodes w e)) ∧
    ((FullMesh.build w h).nodes i).nElements =
      ((List.range (w * h)).filter (fun e => decide (i ∈ elementNodes w e))).length := by
  obtain ⟨h1, h2, h3, h4⟩ := elements_fold w (List.range (w * h))
    (fun e _ => elementNodes_nodup w e hw) (initialiseNodes w h ((w + 1) * (h + 1))) i
  refine ⟨h1, h2, ?_, ?_⟩
  · show (initialiseElements w (w * h) (initialiseNodes w h ((w + 1) * (h + 1))) i).elements = _
    unfold initialiseElements
    rw [h3]
    simp [initialiseNodes]
  · show (initialiseElements w (w * h) (initialiseNodes w h ((w + 1) * (h + 1))) i).nElements = _
    unfold initialiseElements
    rw [h4]
    simp [initialiseNodes]

theorem build_neighbours (w h i : Nat) (hw : 1 ≤ w) :
    ((FullMesh.build w h).nodes i).neighbours =
      [if i % (w + 1) = 0 then (w + 1) * (h + 1) else i - 1,
       if i % (w + 1) = w then (w + 1) * (h + 1) else i + 1,
       if i / (w + 1) = 0 then (w + 1) * (h + 1) else i - (w + 1),
       if i / (w + 1) = h then (w + 1) * (h + 1) else i + (w + 1)] := by
  rw [(build_node w h i hw).2.1]
  unfold initialiseNeighbours xyToIndex
  have hd := index_decomp (w + 1) i
  have h1 : i / (w + 1) ≠ 0 → (i / (w + 1) - 1) * (w + 1) + (w + 1) = i / (w + 1) * (w + 1) := by
    intro h0
    obtain ⟨k, hk⟩ := Nat.exists_eq_succ_of_ne_zero h0
    rw [hk]
    simp [Nat.succ_mul]
  have h2 : (i / (w + 1) + 1) * (w + 1) = i / (w + 1) * (w + 1) + (w + 1) := by ring
  congr 1
  · split_ifs with hx
    · rfl
    · omega
  congr 1
  · split_ifs with hx
    · rfl
    · omega
  congr 1
  · split_ifs with hy
    · rfl
    · have := h1 hy
      omega
  congr 1
  · split_ifs with hy
    · rfl
    · omega

theorem shift_position (w i : Nat) :
    (i % (w + 1) ≠ 0 → 1 ≤ i ∧ (i - 1) % (w + 1) = i % (w + 1) - 1 ∧
      (i - 1) / (w + 1) = i / (w + 1)) ∧
    (i % (w + 1) ≠ w → (i + 1) % (w + 1) = i % (w + 1) + 1 ∧ (i + 1) / (w + 1) = i / (w + 1)) ∧
    (i / (w + 1) ≠ 0 → w + 1 ≤ i ∧ (i - (w + 1)) % (w + 1) = i % (w + 1) ∧
      (i - (w + 1)) / (w + 1) = i / (w + 1) - 1) ∧
    (i + (w + 1)) % (w + 1) = i % (w + 1) ∧ (i + (w + 1)) / (w + 1) = i / (w + 1) + 1 := by
  have hd := index_decomp (w + 1) i
  have hx : i % (w + 1) < w + 1 := Nat.mod_lt i (Nat.succ_pos w)
  refine ⟨fun h0 => ?_, fun h0 => ?_, fun h0 => ?_, ?_, ?_⟩
  · have e : i - 1 = i / (w + 1) * (w + 1) + (i % (w + 1) - 1) := by omega
    have := index_div_mod (w + 1) (i / (w + 1)) (i % (w + 1) - 1) (by omega)
    rw [← e] at this
    exact ⟨by omega, this.2, this.1⟩
  · have e : i + 1 = i / (w + 1) * (w + 1) + (i % (w + 1) + 1) := by omega
    have := index_div_mod (w + 1) (i / (w + 1)) (i % (w + 1) + 1) (by omega)
    rw [← e] at this
    exact ⟨this.2, this.1⟩
  · obtain ⟨k, hk⟩ := Nat.exists_eq_succ_of_ne_zero h0
    have hk2 : i / (w + 1) * (w + 1) = k * (w + 1) + (w + 1) := by
      rw [hk, Nat.succ_mul]
    have e : i - (w + 1) = k * (w + 1) + i % (w + 1) := by omega
    have := index_div_mod (w + 1) k (i % (w + 1)) hx
    rw [← e] at this
    exact ⟨by omega, this.2, by rw [this.1, hk]; rfl⟩
  · rw [Nat.add_mod_right]
  · rw [Nat.add_div_right _ (Nat.succ_pos w)]

theorem neighbour_bounds (w h i : Nat) (hi : i < (w + 1) * (h + 1)) :
    (i % (w + 1) ≠ w → i + 1 < (w + 1) * (h + 1)) ∧
    (i / (w + 1) ≠ h → i + (w + 1) < (w + 1) * (h + 1)) := by
  have hd := index_decomp (w + 1) i
  obtain ⟨hx, hy⟩ := node_position w h i hi
  constructor
  · intro h0
    have := index_lt w h (i % (w + 1) + 1) (i / (w + 1)) (by omega) hy
    omega
  · intro h0
    have := index_lt w h (i % (w + 1)) (i / (w + 1) + 1) hx (by omega)
    have h2 : (i / (w + 1) + 1) * (w + 1) = i / (w + 1) * (w + 1) + (w + 1) := by ring
    omega

theorem build_element (w h e : Nat) (he : e < w * h) :
    ((FullMesh.build w h).elements e).nodes =
      [e / w * (w + 1) + e % w, e / w * (w + 1) + e % w + 1,
       (e / w + 1) * (w + 1) + e % w + 1, (e / w + 1) * (w + 1) + e % w] ∧
    (∀ n ∈ ((FullMesh.build w h).elements e).nodes, n < (w + 1) * (h + 1)) ∧
    ((FullMesh.build w h).elements e).nodes.map (fun n => ((FullMesh.build w h).nodes n).coord) =
      [(e % w, e / w), (e % w + 1, e / w), (e % w + 1, e / w + 1), (e % w, e / w + 1)] := by
  have hw : 1 ≤ w := by
    rcases Nat.eq_zero_or_pos w with h0 | h0
    · rw [h0, Nat.zero_mul] at he; exact absurd he (Nat.not_lt_zero _)
    · exact h0
  have hx : e % w < w := Nat.mod_lt e (by omega)
  have hy : e / w < h := Nat.div_lt_of_lt_mul he
  have hnodes : ((FullMesh.build w h).elements e).nodes =
      [e / w * (w + 1) + e % w, e / w * (w + 1) + (e % w + 1),
       (e / w + 1) * (w + 1) + (e % w + 1), (e / w + 1) * (w + 1) + e % w] := rfl
  refine ⟨hnodes, ?_, ?_⟩
  · rw [hnodes]
    intro n hn
    simp only [List.mem_cons, List.mem_singleton, List.not_mem_nil, or_false] at hn
    rcases hn with rfl | rfl | rfl | rfl
    · exact index_lt w h _ _ (by omega) (by omega)
    · exact index_lt w h _ _ (by omega) (by omega)
    · exact index_lt w h _ _ (by omega) (by omega)
    · exact index_lt w h _ _ (by omega) (by omega)
  · rw [hnodes]
    simp only [List.map_cons, List.map_nil, (build_node w h _ hw).1]
    have a1 := index_div_mod (w + 1) (e / w) (e % w) (by omega)
    have a2 := index_div_mod (w + 1) (e / w) (e % w + 1) (by omega)
    have a3 := index_div_mod (w + 1) (e / w + 1) (e % w + 1) (by omega)
    have a4 := index_div_mod (w + 1) (e / w + 1) (e % w) (by omega)
    rw [a1.1, a1.2, a2.1, a2.2, a3.1, a3.2, a4.1, a4.2]

/-- C25: a mesh constructed with width `w >= 1` and height `h >= 1` exists and
has `nElements = w * h`, `nNodes = (w + 1) * (h + 1)`, and its fields `width`
and `height` are the constructor arguments. -/
theorem mesh_size (w h : Nat) (hw : 1 ≤ w) (hh : 1 ≤ h) :
    ∃ m, FullMesh.new w h = some m ∧ m.nElements = w * h ∧ m.nNodes = (w + 1) * (h + 1) ∧
      m.width = w ∧ m.height = h :=
  ⟨FullMesh.build w h, new_build w h hw hh, rfl, rfl, rfl, rfl⟩

/-- The sizes of the mesh of 3 x 3 elements: 9 elements and 16 nodes. -/
theorem mesh_size_witness :
    1 ≤ 3 ∧ ∃ m, FullMesh.new 3 3 = some m ∧ m.nElements = 3 * 3 ∧
      m.nNodes = (3 + 1) * (3 + 1) ∧ m.width = 3 ∧ m.height = 3 :=
  ⟨by decide, mesh_size 3 3 (by decide) (by decide)⟩

/-- C26: in a constructed mesh of `w` by `h` elements the neighbours of node
`i`, at the grid position `x = i mod (w + 1)`, `y = i div (w + 1)`, are in the
order left, right, down, up the nodes `i - 1`, `i + 1`, `i - (w + 1)`,
`i + (w + 1)`, with `nNodes` in place of a direction that leaves the domain;
an entry equals `nNodes` exactly when the node lies on the edge of the domain
in that direction (`x = 0`, `x = w`, `y = 0`, `y = h`). The entries are those
of `gridMesh` with the sentinel `nNodes`. -/
theorem node_neighbours (w h : Nat) (m : FullMesh) (hm : FullMesh.new w h = some m) (i : Nat)
    (hi : i < m.nNodes) :
    (m.nodes i).neighbours =
      [if i % (w + 1) = 0 then m.nNodes else i - 1,
       if i % (w + 1) = w then m.nNodes else i + 1,
       if i / (w + 1) = 0 then m.nNodes else i - (w + 1),
       if i / (w + 1) = h then m.nNodes else i + (w + 1)] ∧
    ((m.nodes i).neighbours.getD 0 0 = m.nNodes ↔ i % (w + 1) = 0) ∧
    ((m.nodes i).neighbours.getD 1 0 = m.nNodes ↔ i % (w + 1) = w) ∧
    ((m.nodes i).neighbours.getD 2 0 = m.nNodes ↔ i / (w + 1) = 0) ∧
    ((m.nodes i).neighbours.getD 3 0 = m.nNodes ↔ i / (w + 1) = h) ∧
    ∀ j, j < 4 → m.toMesh.neighbours i j = (gridMesh m.nNodes w h).neighbours i j := by
  obtain ⟨hw, hh, rfl⟩ := new_eq_some w h m hm
  have hi2 : i < (w + 1) * (h + 1) := hi
  have hn := build_neighbours w h i hw
  obtain ⟨b1, b2⟩ := neighbour_bounds w h i hi2
  have hN : (FullMesh.build w h).nNodes = (w + 1) * (h + 1) := rfl
  refine ⟨hn, ?_, ?_, ?_, ?_, ?_⟩
  · rw [hn, hN]
    simp only [List.getD_cons_zero]
    split_ifs with h0
    · simp [h0]
    · constructor
      · intro h1; omega
      · intro h1; exact absurd h1 h0
  · rw [hn, hN]
    simp only [List.getD_cons_succ, List.getD_cons_zero]
    split_ifs with h0
    · simp [h0]
    · have := b1 h0
      constructor
      · intro h1; omega
      · intro h1; exact absurd h1 h0
  · rw [hn, hN]
    simp only [List.getD_cons_succ, List.getD_cons_zero]
    split_ifs with h0
    · simp [h0]
    · constructor
      · intro h1; omega
      · intro h1; exact absurd h1 h0
  · rw [hn, hN]
    simp only [List.getD_cons_succ, List.getD_cons_zero]
    split_ifs with h0
    · simp [h0]
    · have := b2 h0
      constructor
      · intro h1; omega
      · intro h1; exact absurd h1 h0
  · intro j hj
    show ((FullMesh.build w h).nodes i).neighbours.getD j 0 = _
    rw [hn, hN]
    have hj4 : j = 0 ∨ j = 1 ∨ j = 2 ∨ j = 3 := by omega
    rcases hj4 with rfl | rfl | rfl | rfl <;> rfl

/-- The neighbours of node 5 of the mesh of 3 x 3 elements, an interior node. -/
theorem node_neighbours_witness :
    ((FullMesh.build 3 3).nodes 5).neighbours =
      [if 5 % (3 + 1) = 0 then (FullMesh.build 3 3).nNodes else 5 - 1,
       if 5 % (3 + 1) = 3 then (FullMesh.build 3 3).nNodes else 5 + 1,
       if 5 / (3 + 1) = 0 then (FullMesh.build 3 3).nNodes else 5 - (3 + 1),
       if 5 / (3 + 1) = 3 then (FullMesh.build 3 3).nNodes else 5 + (3 + 1)] :=
  (node_neighbours 3 3 (FullMesh.build 3 3) (new_build 3 3 (by decide) (by decide)) 5
    (by decide)).1

/-- C27: in a constructed mesh, when the entry `n` of node `i` for the
direction `j` (left, right, down, up) is not the sentinel `nNodes`, `n` is a
node and its entry for the opposite direction is `i`. -/
theorem neighbours_symmetric (w h : Nat) (m : FullMesh) (hm : FullMesh.new w h = some m)
    (i : Nat) (hi : i < m.nNodes) (j : Nat) (hj : j < 4)
    (hn : (m.nodes i).neighbours.getD j 0 ≠ m.nNodes) :
    (m.nodes i).neighbours.getD j 0 < m.nNodes ∧
    (m.nodes ((m.nodes i).neighbours.getD j 0)).neighbours.getD (oppositeSlot j) 0 = i := by
  obtain ⟨hw, hh, rfl⟩ := new_eq_some w h m hm
  have hi2 : i < (w + 1) * (h + 1) := hi
  obtain ⟨b1, b2⟩ := neighbour_bounds w h i hi2
  obtain ⟨s1, s2, s3, s4, s5⟩ := shift_position w i
  obtain ⟨px, py⟩ := node_position w h i hi2
  have hN : (FullMesh.build w h).nNodes = (w + 1) * (h + 1) := rfl
  rw [hN] at hn ⊢
  rw [build_neighbours w h i hw] at hn ⊢
  have hj4 : j = 0 ∨ j = 1 ∨ j = 2 ∨ j = 3 := by omega
  rcases hj4 with rfl | rfl | rfl | rfl
  · simp only [List.getD_cons_zero] at hn ⊢
    by_cases h0 : i % (w + 1) = 0
    · rw [if_pos h0] at hn; exact absurd rfl hn
    · rw [if_neg h0]
      obtain ⟨t1, t2, t3⟩ := s1 h0
      refine ⟨by omega, ?_⟩
      rw [build_neighbours w h (i - 1) hw]
      show (if (i - 1) % (w + 1) = w then _ else i - 1 + 1) = i
      rw [if_neg (by omega)]
      omega
  · simp only [List.getD_cons_succ, List.getD_cons_zero] at hn ⊢
    by_cases h0 : i % (w + 1) = w
    · rw [if_pos h0] at hn; exact absurd rfl hn
    · rw [if_neg h0]
      obtain ⟨t2, t3⟩ := s2 h0
      refine ⟨b1 h0, ?_⟩
      rw [build_neighbours w h (i + 1) hw]
      show (if (i + 1) % (w + 1) = 0 then _ else i + 1 - 1) = i
      rw [if_neg (by omega)]
      omega
  · simp only [List.getD_cons_succ, List.getD_cons_zero] at hn ⊢
    by_cases h0 : i / (w + 1) = 0
    · rw [if_pos h0] at hn; exact absurd rfl hn
    · rw [if_neg h0]
      obtain ⟨t1, t2, t3⟩ := s3 h0
      refine ⟨by omega, ?_⟩
      rw [build_neighbours w h (i - (w + 1)) hw]
      show (if (i - (w + 1)) / (w + 1) = h then _ else i - (w + 1) + (w + 1)) = i
      rw [if_neg (by omega)]
      omega
  · simp only [List.getD_cons_succ, List.getD_cons_zero] at hn ⊢
    by_cases h0 : i / (w + 1) = h
    · rw [if_pos h0] at hn; exact absurd rfl hn
    · rw [if_neg h0]
      refine ⟨b2 h0, ?_⟩
      rw [build_neighbours w h (i + (w + 1)) hw]
      show (if (i + (w + 1)) / (w + 1) = 0 then _ else i + (w + 1) - (w + 1)) = i
      rw [if_neg (by rw [s5]; exact Nat.succ_ne_zero _)]
      omega

/-- Node 5 of the mesh of 3 x 3 elements is the right neighbour of its left
neighbour. -/
theorem neighbours_symmetric_witness :
    ((FullMesh.build 3 3).nodes 5).neighbours.getD 0 0 < (FullMesh.build 3 3).nNodes ∧
    ((FullMesh.build 3 3).nodes
      (((FullMesh.build 3 3).nodes 5).neighbours.getD 0 0)).neighbours.getD (oppositeSlot 0) 0
      = 5 :=
  neighbours_symmetric 3 3 (FullMesh.build 3 3) (new_build 3 3 (by decide) (by decide)) 5
    (by decide) 0 (by decide) (by decide)

/-- C28: in a constructed mesh of `w` by `h` elements the element `e`, at the
cell position `ex = e mod w`, `ey = e div w`, has the four nodes
`ey * (w + 1) + ex`, `ey * (w + 1) + ex + 1`, `(ey + 1) * (w + 1) + ex + 1`,
`(ey + 1) * (w + 1) + ex`; they are nodes of the mesh and their coordinates
are the corners of the cell anticlockwise from the bottom left. -/
theorem element_nodes (w h : Nat) (m : FullMesh) (hm : FullMesh.new w h = some m) (e : Nat)
    (he : e < m.nElements) :
    (m.elements e).nodes =
      [e / w * (w + 1) + e % w, e / w * (w + 1) + e % w + 1,
       (e / w + 1) * (w + 1) + e % w + 1, (e / w + 1) * (w + 1) + e % w] ∧
    (∀ n ∈ (m.elements e).nodes, n < m.nNodes) ∧
    (m.elements e).nodes.map (fun n => (m.nodes n).coord) =
      [(e % w, e / w), (e % w + 1, e / w), (e % w + 1, e / w + 1), (e % w, e / w + 1)] := by
  obtain ⟨_, _, rfl⟩ := new_eq_some w h m hm
  exact build_element w h e he

/-- The nodes of element 0 of the mesh of 3 x 3 elements are 0, 1, 5, 4. -/
theorem element_nodes_witness :
    ((FullMesh.build 3 3).elements 0).nodes =
      [0 / 3 * (3 + 1) + 0 % 3, 0 / 3 * (3 + 1) + 0 % 3 + 1,
       (0 / 3 + 1) * (3 + 1) + 0 % 3 + 1, (0 / 3 + 1) * (3 + 1) + 0 % 3] :=
  (element_nodes 3 3 (FullMesh.build 3 3) (new_build 3 3 (by decide) (by decide)) 0
    (by decide)).1

/-- C32: in a constructed mesh of `w` by `h` elements the coordinate of node
`i` is `(i mod (w + 1), i div (w + 1))`; node 0 has the coordinate `(0, 0)`
and node `nNodes - 1` the coordinate `(w, h)`. -/
theorem node_coordinates (w h : Nat) (m : FullMesh) (hm : FullMesh.new w h = some m) :
    (∀ i, i < m.nNodes → (m.nodes i).coord = (i % (w + 1), i / (w + 1))) ∧
    (m.nodes 0).coord = (0, 0) ∧ (m.nodes (m.nNodes - 1)).coord = (w, h) := by
  obtain ⟨hw, hh, rfl⟩ := new_eq_some w h m hm
  refine ⟨fun i _ => (build_node w h i hw).1, ?_, ?_⟩
  · rw [(build_node w h 0 hw).1]
    simp
  · rw [(build_node w h _ hw).1]
    have e : (FullMesh.build w h).nNodes - 1 = h * (w + 1) + w := by
      show (w + 1) * (h + 1) - 1 = _
      have : (w + 1) * (h + 1) = h * (w + 1) + w + 1 := by ring
      omega
    rw [e, (index_div_mod (w + 1) h w (by omega)).1, (index_div_mod (w + 1) h w (by omega)).2]

/-- The coordinates of the nodes 0 and 15 of the mesh of 3 x 3 elements. -/
theorem node_coordinates_witness :
    ((FullMesh.build 3 3).nodes 0).coord = (0, 0) ∧
    ((FullMesh.build 3 3).nodes ((FullMesh.build 3 3).nNodes - 1)).coord = (3, 3) :=
  (node_coordinates 3 3 (FullMesh.build 3 3) (new_build 3 3 (by decide) (by decide))).2

theorem cell_lt (w h x y : Nat) (hx : x < w) (hy : y < h) : y * w + x < w * h := by
  have h1 : (y + 1) * w ≤ h * w := Nat.mul_le_mul_right _ hy
  have h2 : (y + 1) * w = y * w + w := by ring
  have h3 : w * h = h * w := Nat.mul_comm _ _
  omega

theorem mem_elementNodes (w e i : Nat) (hw : 1 ≤ w) :
    i ∈ elementNodes w e ↔
      (i % (w + 1) = e % w ∨ i % (w + 1) = e % w + 1) ∧
      (i / (w + 1) = e / w ∨ i / (w + 1) = e / w + 1) := by
  have hx : e % w < w := Nat.mod_lt e (by omega)
  have a1 := index_div_mod (w + 1) (e / w) (e % w) (by omega)
  have a2 := index_div_mod (w + 1) (e / w) (e % w + 1) (by omega)
  have a3 := index_div_mod (w + 1) (e / w + 1) (e % w + 1) (by omega)
  have a4 := index_div_mod (w + 1) (e / w + 1) (e % w) (by omega)
  have hd := index_decomp (w + 1) i
  unfold elementNodes xyToIndex
  simp only [List.mem_cons, List.mem_singleton, List.not_mem_nil, or_false]
  constructor
  · rintro (rfl | rfl | rfl | rfl)
    · rw [a1.1, a1.2]; exact ⟨Or.inl rfl, Or.inl rfl⟩
    · rw [a2.1, a2.2]; exact ⟨Or.inr rfl, Or.inl rfl⟩
    · rw [a3.1, a3.2]; exact ⟨Or.inr rfl, Or.inr rfl⟩
    · rw [a4.1, a4.2]; exact ⟨Or.inl rfl, Or.inr rfl⟩
  · rintro ⟨h1 | h1, h2 | h2⟩
    · left; rw [← hd, h1, h2]
    · right; right; right; rw [← hd, h1, h2]
    · right; left; rw [← hd, h1, h2]
    · right; right; left; rw [← hd, h1, h2]

theorem mem_adjacent_cases (w h x y e : Nat) :
    e ∈ adjacentElements w h x y ↔
      (0 < y ∧ 0 < x ∧ e = (y - 1) * w + (x - 1)) ∨ (0 < y ∧ x < w ∧ e = (y - 1) * w + x) ∨
      (y < h ∧ 0 < x ∧ e = y * w + (x - 1)) ∨ (y < h ∧ x < w ∧ e = y * w + x) := by
  unfold adjacentElements
  by_cases h1 : 0 < y <;> by_cases h2 : y < h <;> by_cases h3 : 0 < x <;> by_cases h4 : x < w <;>
    simp [h1, h2, h3, h4]

theorem mem_adjacentElements (w h x y e : Nat) (hx : x ≤ w) (hy : y ≤ h) :
    e ∈ adjacentElements w h x y ↔
      e < w * h ∧ (x = e % w ∨ x = e % w + 1) ∧ (y = e / w ∨ y = e / w + 1) := by
  rw [mem_adjacent_cases]
  constructor
  · rintro (⟨h1, h2, rfl⟩ | ⟨h1, h2, rfl⟩ | ⟨h1, h2, rfl⟩ | ⟨h1, h2, rfl⟩)
    · have a := index_div_mod w (y - 1) (x - 1) (by omega)
      rw [a.1, a.2]
      exact ⟨cell_lt w h _ _ (by omega) (by omega), by omega, by omega⟩
    · have a := index_div_mod w (y - 1) x h2
      rw [a.1, a.2]
      exact ⟨cell_lt w h _ _ (by omega) (by omega), by omega, by omega⟩
    · have a := index_div_mod w y (x - 1) (by omega)
      rw [a.1, a.2]
      exact ⟨cell_lt w h _ _ (by omega) (by omega), by omega, by omega⟩
    · have a := index_div_mod w y x h2
      rw [a.1, a.2]
      exact ⟨cell_lt w h _ _ (by omega) (by omega), by omega, by omega⟩
  · rintro ⟨he, h1, h2⟩
    have hw : 0 < w := by
      rcases Nat.eq_zero_or_pos w with h0 | h0
      · rw [h0, Nat.zero_mul] at he; exact absurd he (Nat.not_lt_zero _)
      · exact h0
    have hex : e % w < w := Nat.mod_lt e hw
    have hey : e / w < h := Nat.div_lt_of_lt_mul he
    have hd := index_decomp w e
    rcases h1 with h1 | h1 <;> rcases h2 with h2 | h2
    · right; right; right
      exact ⟨h2 ▸ hey, h1 ▸ hex, by rw [h1, h2]; exact hd.symm⟩
    · right; left
      refine ⟨by rw [h2]; exact Nat.succ_pos _, h1 ▸ hex, ?_⟩
      rw [h1, h2, Nat.add_sub_cancel]; exact hd.symm
    · right; right; left
      refine ⟨h2 ▸ hey, by rw [h1]; exact Nat.succ_pos _, ?_⟩
      rw [h1, h2, Nat.add_sub_cancel]; exact hd.symm
    · left
      refine ⟨by rw [h2]; exact Nat.succ_pos _, by rw [h1]; exact Nat.succ_pos _, ?_⟩
      rw [h1, h2, Nat.add_sub_cancel, Nat.add_sub_cancel]; exact hd.symm

theorem adjacentElements_sorted (w h x y : Nat) (hw : 1 ≤ w) :
    (adjacentElements w h x y).Sorted (fun a b => a < b) := by
  have hyw : 0 < y → y * w = (y - 1) * w + w := by
    intro h0
    obtain ⟨k, hk⟩ := Nat.exists_eq_succ_of_ne_zero (Nat.pos_iff_ne_zero.1 h0)
    rw [hk, Nat.succ_mul]
    rfl
  unfold adjacentElements
  by_cases h1 : 0 < y <;> by_cases h2 : y < h <;> by_cases h3 : 0 < x <;> by_cases h4 : x < w <;>
    simp [h1, h2, h3, h4] <;> (try have := hyw h1) <;> omega

theorem adjacentElements_length (w h x y : Nat) (hw : 1 ≤ w) (hh : 1 ≤ h) (hx : x ≤ w)
    (hy : y ≤ h) :
    (((x = 0 ∨ x = w) ∧ (y = 0 ∨ y = h)) → (adjacentElements w h x y).length = 1) ∧
    ((((x = 0 ∨ x = w) ∧ ¬ (y = 0 ∨ y = h)) ∨ (¬ (x = 0 ∨ x = w) ∧ (y = 0 ∨ y = h))) →
      (adjacentElements w h x y).length = 2) ∧
    ((¬ (x = 0 ∨ x = w) ∧ ¬ (y = 0 ∨ y = h)) → (adjacentElements w h x y).length = 4) := by
  unfold adjacentElements
  by_cases h1 : 0 < y <;> by_cases h2 : y < h <;> by_cases h3 : 0 < x <;> by_cases h4 : x < w <;>
    simp [h1, h2, h3, h4] <;> omega

theorem node_elements_eq (w h i : Nat) (hw : 1 ≤ w) (hi : i < (w + 1) * (h + 1)) :
    (List.range (w * h)).filter (fun e => decide (i ∈ elementNodes w e)) =
      adjacentElements w h (i % (w + 1)) (i / (w + 1)) := by
  obtain ⟨px, py⟩ := node_position w h i hi
  have s1 : ((List.range (w * h)).filter (fun e => decide (i ∈ elementNodes w e))).Sorted
      (fun a b => a < b) := List.Pairwise.filter _ (List.pairwise_lt_range _)
  have s2 := adjacentElements_sorted w h (i % (w + 1)) (i / (w + 1)) hw
  refine List.eq_of_perm_of_sorted ((List.perm_ext_iff_of_nodup s1.nodup s2.nodup).2 ?_) s1 s2
  intro e
  rw [List.mem_filter, List.mem_range, mem_adjacentElements w h _ _ e px py, decide_eq_true_iff,
    mem_elementNodes w e i hw]

/-- C29: in a constructed mesh the counter `nElements` of a node is the length
of its element list and is 1 for a corner node, 2 for a node on an edge of the
domain that is not a corner and 4 for an interior node; the element list is in
ascending order and holds exactly the elements that have the node among their
four nodes. -/
theorem node_elements (w h : Nat) (m : FullMesh) (hm : FullMesh.new w h = some m) (i : Nat)
    (hi : i < m.nNodes) :
    (m.nodes i).nElements = (m.nodes i).elements.length ∧
    ((((m.nodes i).coord.1 = 0 ∨ (m.nodes i).coord.1 = w) ∧
      ((m.nodes i).coord.2 = 0 ∨ (m.nodes i).coord.2 = h)) → (m.nodes i).nElements = 1) ∧
    (((((m.nodes i).coord.1 = 0 ∨ (m.nodes i).coord.1 = w) ∧
        ¬ ((m.nodes i).coord.2 = 0 ∨ (m.nodes i).coord.2 = h)) ∨
      (¬ ((m.nodes i).coord.1 = 0 ∨ (m.nodes i).coord.1 = w) ∧
        ((m.nodes i).coord.2 = 0 ∨ (m.nodes i).coord.2 = h))) → (m.nodes i).nElements = 2) ∧
    ((¬ ((m.nodes i).coord.1 = 0 ∨ (m.nodes i).coord.1 = w) ∧
      ¬ ((m.nodes i).coord.2 = 0 ∨ (m.nodes i).coord.2 = h)) → (m.nodes i).nElements = 4) ∧
    (m.nodes i).elements.Sorted (fun a b => a < b) ∧
    ∀ e, e ∈ (m.nodes i).elements ↔ e < m.nElements ∧ i ∈ (m.elements e).nodes := by
  obtain ⟨hw, hh, rfl⟩ := new_eq_some w h m hm
  have hi2 : i < (w + 1) * (h + 1) := hi
  obtain ⟨px, py⟩ := node_position w h i hi2
  obtain ⟨c1, _, c3, c4⟩ := build_node w h i hw
  have heq := node_elements_eq w h i hw hi2
  obtain ⟨l1, l2, l3⟩ := adjacentElements_length w h _ _ hw hh px py
  rw [c1, c3, c4, heq]
  refine ⟨rfl, l1, l2, l3, adjacentElements_sorted _ _ _ _ hw, ?_⟩
  intro e
  rw [← heq, List.mem_filter, List.mem_range, decide_eq_true_iff]
  rfl

/-- The element list of node 7 of the mesh of 3 x 3 elements, a node on the
right edge: two elements. -/
theorem node_elements_witness :
    ((FullMesh.build 3 3).nodes 7).nElements = ((FullMesh.build 3 3).nodes 7).elements.length ∧
    ((FullMesh.build 3 3).nodes 7).elements.Sorted (fun a b => a < b) :=
  ⟨(node_elements 3 3 (FullMesh.build 3 3) (new_build 3 3 (by decide) (by decide)) 7
      (by decide)).1,
    (node_elements 3 3 (FullMesh.build 3 3) (new_build 3 3 (by decide) (by decide)) 7
      (by decide)).2.2.2.2.1⟩

/-- C30: in a constructed mesh of `w` by `h` elements, for a point `(x, y)`
with `0 <= x < w` and `0 <= y < h`, `getElement` returns
`floor(y) * w + floor(x)`; this is an element of the mesh, at the cell position
`(floor(x), floor(y))`, and the point lies between its bottom left node and
its top right node: the unit cell that contains the point. -/
theorem getElement_cell [FloorRing α] (w h : Nat) (m : FullMesh)
    (hm : FullMesh.new w h = some m) (x y : α) (hx0 : 0 ≤ x) (hxw : x < w) (hy0 : 0 ≤ y)
    (hyh : y < h) :
    m.getElement x y = ⌊y⌋₊ * w + ⌊x⌋₊ ∧ m.getElement x y < m.nElements ∧
    m.getElement x y % w = ⌊x⌋₊ ∧ m.getElement x y / w = ⌊y⌋₊ ∧
    (((m.nodes ((m.elements (m.getElement x y)).nodes.getD 0 0)).coord.1 : Nat) : α) ≤ x ∧
    x < (((m.nodes ((m.elements (m.getElement x y)).nodes.getD 2 0)).coord.1 : Nat) : α) ∧
    (((m.nodes ((m.elements (m.getElement x y)).nodes.getD 0 0)).coord.2 : Nat) : α) ≤ y ∧
    y < (((m.nodes ((m.elements (m.getElement x y)).nodes.getD 2 0)).coord.2 : Nat) : α) := by
  obtain ⟨hw, hh, rfl⟩ := new_eq_some w h m hm
  have fx : ⌊x⌋₊ < w := (Nat.floor_lt hx0).2 hxw
  have fy : ⌊y⌋₊ < h := (Nat.floor_lt hy0).2 hyh
  have hg : (FullMesh.build w h).getElement x y = ⌊y⌋₊ * w + ⌊x⌋₊ := rfl
  have hlt := cell_lt w h _ _ fx fy
  have a := index_div_mod w ⌊y⌋₊ ⌊x⌋₊ fx
  obtain ⟨e1, _, e3⟩ := build_element w h _ hlt
  rw [a.1, a.2] at e3
  have k0 := congrArg (fun l => l.getD 0 (0, 0)) e3
  have k2 := congrArg (fun l => l.getD 2 (0, 0)) e3
  rw [e1] at k0 k2
  simp only [List.map_cons, List.map_nil, List.getD_cons_zero, List.getD_cons_succ] at k0 k2
  rw [hg, e1]
  simp only [List.getD_cons_zero, List.getD_cons_succ]
  rw [k0, k2]
  refine ⟨trivial, hlt, a.2, a.1, Nat.floor_le hx0, ?_, Nat.floor_le hy0, ?_⟩
  · show x < ((⌊x⌋₊ + 1 : Nat) : α)
    push_cast
    exact Nat.lt_floor_add_one x
  · show y < ((⌊y⌋₊ + 1 : Nat) : α)
    push_cast
    exact Nat.lt_floor_add_one y

/-- The element that contains the point (3/2, 1/2) of the mesh of 2 x 2
elements is element 1. -/
theorem getElement_cell_witness :
    (FullMesh.build 2 2).getElement (3 / 2 : ℚ) (1 / 2) = ⌊(1 / 2 : ℚ)⌋₊ * 2 + ⌊(3 / 2 : ℚ)⌋₊ ∧
    (FullMesh.build 2 2).getElement (3 / 2 : ℚ) (1 / 2) < (FullMesh.build 2 2).nElements :=
  ⟨(getElement_cell 2 2 (FullMesh.build 2 2) (new_build 2 2 (by decide) (by decide))
      (3 / 2 : ℚ) (1 / 2) (by norm_num) (by norm_num) (by norm_num) (by norm_num)).1,
    (getElement_cell 2 2 (FullMesh.build 2 2) (new_build 2 2 (by decide) (by decide))
      (3 / 2 : ℚ) (1 / 2) (by norm_num) (by norm_num) (by norm_num) (by norm_num)).2.1⟩

theorem round_position [FloorRing α] (w : Nat) (x : α) (hx0 : 0 ≤ x) (hxw : x ≤ w) :
    (round x).toNat ≤ w ∧ (((round x).toNat : Nat) : α) = ((round x : Int) : α) := by
  have h0 : 0 ≤ round x := by
    rw [round_eq]
    exact Int.floor_nonneg.2 (by linarith)
  have h1 : round x ≤ (w : Int) := by
    rw [round_eq]
    have : ⌊x + 1 / 2⌋ < (w : Int) + 1 := by
      rw [Int.floor_lt]
      push_cast
      linarith
    omega
  constructor
  · omega
  · have : ((round x).toNat : Int) = round x := Int.toNat_of_nonneg h0
    calc (((round x).toNat : Nat) : α) = (((round x).toNat : Int) : α) := by push_cast; rfl
      _ = ((round x : Int) : α) := by rw [this]

/-- C31: in a constructed mesh of `w` by `h` elements, for a point `(x, y)`
of the domain, `0 <= x <= w` and `0 <= y <= h`, `getClosestNode` returns
`round(y) * (w + 1) + round(x)`; this is a node of the mesh, its coordinate is
`(round(x), round(y))`, and no node of the mesh is strictly closer to the
point: the squared distance from the point to any node is at least the
squared distance to the node returned. -/
theorem getClosestNode_nearest [FloorRing α] (w h : Nat) (m : FullMesh)
    (hm : FullMesh.new w h = some m) (x y : α) (hx0 : 0 ≤ x) (hxw : x ≤ w) (hy0 : 0 ≤ y)
    (hyh : y ≤ h) :
    m.getClosestNode x y = (round y).toNat * (w + 1) + (round x).toNat ∧
    m.getClosestNode x y < m.nNodes ∧
    (m.nodes (m.getClosestNode x y)).coord = ((round x).toNat, (round y).toNat) ∧
    ∀ k, k < m.nNodes →
      (x - ((m.nodes (m.getClosestNode x y)).coord.1 : Nat)) ^ 2 +
        (y - ((m.nodes (m.getClosestNode x y)).coord.2 : Nat)) ^ 2 ≤
      (x - ((m.nodes k).coord.1 : Nat)) ^ 2 + (y - ((m.nodes k).coord.2 : Nat)) ^ 2 := by
  obtain ⟨hw, hh, rfl⟩ := new_eq_some w h m hm
  obtain ⟨rx, cx⟩ := round_position w x hx0 hxw
  obtain ⟨ry, cy⟩ := round_position h y hy0 hyh
  have hg : (FullMesh.build w h).getClosestNode x y =
      (round y).toNat * (w + 1) + (round x).toNat := rfl
  have a := index_div_mod (w + 1) (round y).toNat (round x).toNat (by omega)
  have hc : ((FullMesh.build w h).nodes ((FullMesh.build w h).getClosestNode x y)).coord =
      ((round x).toNat, (round y).toNat) := by
    rw [(build_node w h _ hw).1, hg, a.1, a.2]
  refine ⟨hg, ?_, hc, ?_⟩
  · rw [hg]
    exact index_lt w h _ _ rx ry
  · intro k _
    rw [hc, (build_node w h k hw).1]
    show (x - (((round x).toNat : Nat) : α)) ^ 2 + (y - (((round y).toNat : Nat) : α)) ^ 2 ≤
      (x - ((k % (w + 1) : Nat) : α)) ^ 2 + (y - ((k / (w + 1) : Nat) : α)) ^ 2
    rw [cx, cy]
    have h1 := round_le x ((k % (w + 1) : Nat) : Int)
    have h2 := round_le y ((k / (w + 1) : Nat) : Int)
    rw [Int.cast_natCast] at h1 h2
    exact add_le_add (sq_le_sq.2 h1) (sq_le_sq.2 h2)

/-- The node closest to the point (3/5, 1/5) of the mesh of 2 x 2 elements
is a node of the mesh. -/
theorem getClosestNode_nearest_witness :
    (FullMesh.build 2 2).getClosestNode (3 / 5 : ℚ) (1 / 5) < (FullMesh.build 2 2).nNodes :=
  (getClosestNode_nearest 2 2 (FullMesh.build 2 2) (new_build 2 2 (by decide) (by decide))
    (3 / 5 : ℚ) (1 / 5) (by norm_num) (by norm_num) (by norm_num) (by norm_num)).2.1

/-! ## The bias potential and the boundary sensitivities -/

/-- C33: `computeBiasPotential` returns the square of the spring constant
times the squared deviation, not the spring constant times the squared
deviation: for the value 1, the centre 0 and the spring constant 2 it returns
4 where `k * (y_s - y_i) ^ 2` is 2. -/
theorem computeBiasPotential_square :
    (∀ value centre spring : α,
      computeBiasPotential value centre spring = spring ^ 2 * (value - centre) ^ 2) ∧
    computeBiasPotential (1 : ℚ) 0 2 = 4 ∧
    computeBiasPotential (1 : ℚ) 0 2 ≠ 2 * (1 - 0) ^ 2 := by
  refine ⟨fun value centre spring => ?_, ?_, ?_⟩
  · unfold computeBiasPotential; ring
  · unfold computeBiasPotential; norm_num
  · unfold computeBiasPotential; norm_num

/-- C34: for every boundary point, every `delta` and every callback that
depends on the coordinates of the point only (`callback p = f p.coord`),
`computeSensitivity` returns the central difference
`(f (p + delta * n) - f (p - delta * n)) / (2 * delta)` divided by the length of
the point, and leaves the point as it was, its coordinates included. -/
theorem computeSensitivity_central (delta : α) (point : BoundaryPoint α) (f : Coord α → α) :
    (computeSensitivity delta point (fun p => f p.coord)).1 =
      (f ⟨point.coord.x + delta * point.normal.x, point.coord.y + delta * point.normal.y⟩ -
        f ⟨point.coord.x - delta * point.normal.x, point.coord.y - delta * point.normal.y⟩) /
        (2 * delta) / point.length ∧
    (computeSensitivity delta point (fun p => f p.coord)).2 = point ∧
    (computeSensitivity delta point (fun p => f p.coord)).2.coord = point.coord :=
  ⟨rfl, rfl, rfl⟩

/-! ## Divisions in `solveQuadratic` and `initialiseFrozen` -/

theorem stencil_lead (C : Numerics α) (mesh : Mesh) (s : FastMarchingMethod α) (node : Nat) :
    0 ≤ (stencilCoeffs C mesh s node).1 ∧
    ((stencilCoeffs C mesh s node).1 = 0 → stencilCoeffs C mesh s node = (0, 0, 0)) := by
  unfold stencilCoeffs
  obtain ⟨a1, a2⟩ := addAxis_lead C (0, 0, 0) (axisDists C mesh s node 0)
  obtain ⟨b1, b2⟩ := addAxis_lead C (addAxis C (0, 0, 0) (axisDists C mesh s node 0))
    (axisDists C mesh s node 1)
  have a1' : (0 : α) ≤ (addAxis C (0, 0, 0) (axisDists C mesh s node 0)).1 := a1
  refine ⟨le_trans a1' b1, fun h => ?_⟩
  have h0 : (addAxis C (0, 0, 0) (axisDists C mesh s node 0)).1 = 0 :=
    le_antisymm (le_of_le_of_eq b1 h) a1'
  rw [b2 (by rw [h, h0])]
  exact a2 h0

theorem axisDists_none (C : Numerics α) (mesh : Mesh) (s : FastMarchingMethod α) (node i : Nat)
    (h0 : frozenDist mesh s node (2 * i) = none) (h1 : frozenDist mesh s node (2 * i + 1) = none) :
    axisDists C mesh s node i = (C.maxDouble, C.maxDouble) := by
  unfold axisDists
  rw [updateDirection_none mesh s node _ _ h0, updateDirection_none mesh s node _ _ h1]

theorem frozenDist_none (mesh : Mesh) (s : FastMarchingMethod α) (node j : Nat) (hj : j < 4)
    (h : ¬ HasFrozenNeighbour mesh s node) : frozenDist mesh s node j = none := by
  unfold frozenDist
  rw [if_neg]
  intro hc
  exact h ⟨j, hj, hc.1, hc.2⟩

/-- C36: in `updateNode` the coefficient `a` passed to `solveQuadratic` is
positive whenever the discriminant is positive, so the divisor `2 * a` of the
two roots is not zero; for a node without FROZEN neighbour in the domain the
coefficients are `a = b = c = 0`, the discriminant is not positive, and
`updateNode` returns the no-update value 0. -/
theorem solveQuadratic_divisor (C : Numerics α) (mesh : Mesh) (s : FastMarchingMethod α)
    (node : Nat) :
    (0 < (stencilCoeffs C mesh s node).2.1 * (stencilCoeffs C mesh s node).2.1 -
        4 * (stencilCoeffs C mesh s node).1 * ((stencilCoeffs C mesh s node).2.2 - 1) →
      0 < (stencilCoeffs C mesh s node).1 ∧ 2 * (stencilCoeffs C mesh s node).1 ≠ 0) ∧
    (¬ HasFrozenNeighbour mesh s node →
      stencilCoeffs C mesh s node = (0, 0, 0) ∧
      ¬ (0 < (stencilCoeffs C mesh s node).2.1 * (stencilCoeffs C mesh s node).2.1 -
        4 * (stencilCoeffs C mesh s node).1 * ((stencilCoeffs C mesh s node).2.2 - 1)) ∧
      updateNode C mesh s node = 0) := by
  obtain ⟨l1, l2⟩ := stencil_lead C mesh s node
  constructor
  · intro hdet
    have ha : 0 < (stencilCoeffs C mesh s node).1 := by
      rcases lt_or_eq_of_le l1 with h | h
      · exact h
      · exfalso
        rw [l2 h.symm] at hdet
        simp at hdet
    exact ⟨ha, by positivity⟩
  · intro hn
    have d0 := axisDists_none C mesh s node 0 (frozenDist_none mesh s node _ (by norm_num) hn)
      (frozenDist_none mesh s node _ (by norm_num) hn)
    have d1 := axisDists_none C mesh s node 1 (frozenDist_none mesh s node _ (by norm_num) hn)
      (frozenDist_none mesh s node _ (by norm_num) hn)
    have hs : stencilCoeffs C mesh s node = (0, 0, 0) := by
      unfold stencilCoeffs
      rw [d0, d1]
      simp [addAxis]
    refine ⟨hs, by rw [hs]; simp, ?_⟩
    unfold updateNode
    rw [hs]
    simp [solveQuadratic]

theorem sqrt_four (C : Numerics α) (hC : C.Exact) : C.sqrt 4 = 2 := by
  obtain ⟨h0, h1⟩ := hC 4 (by norm_num)
  nlinarith [h0, h1]

theorem addAxis_first (C : Numerics α) (abc : α × α × α) (d : α × α) (v : α)
    (h : axisStencil C d = some (1, v)) :
    addAxis C abc d = (abc.1 + 1, abc.2.1 - 2 * v, abc.2.2 + v * v) := by
  unfold axisStencil at h
  unfold addAxis
  split_ifs at h ⊢ with h2 h1
  · simp only [Option.some.injEq, Prod.mk.injEq] at h
    exact absurd h.1 (by norm_num)
  · simp only [Option.some.injEq, Prod.mk.injEq] at h
    rw [h.2]

theorem addAxis_skip (C : Numerics α) (abc : α × α × α) (d : α × α)
    (h : axisStencil C d = none) : addAxis C abc d = abc := by
  unfold axisStencil at h
  unfold addAxis
  split_ifs at h ⊢
  rfl

theorem solveQuadratic_unit (C : Numerics α) (hC : C.Exact) (s : FastMarchingMethod α)
    (node : Nat) (v : α) :
    solveQuadratic C s node 1 (0 - 2 * v) (0 + v * v) =
      if s.signedDistanceCopy node > C.doubleEpsilon then v + 1 else v - 1 := by
  unfold solveQuadratic
  have hdet : (0 - 2 * v) * (0 - 2 * v) - 4 * 1 * (0 + v * v - 1) = 4 := by ring
  simp only [hdet, sqrt_four C hC]
  rw [if_pos (by norm_num)]
  split_ifs
  · ring
  · ring

/-- C37: when one dimension of `updateNode` contributes the first-order term
with `dist1 = v` and the other dimension does not contribute, `updateNode`
returns `v + 1` if the snapshot distance of the node is greater than
`doubleEpsilon` and `v - 1` otherwise (the square root being exact). -/
theorem updateNode_unit_step (C : Numerics α) (hC : C.Exact) (mesh : Mesh)
    (s : FastMarchingMethod α) (node axis : Nat) (haxis : axis < 2) (v : α)
    (h1 : axisStencil C (axisDists C mesh s node axis) = some (1, v))
    (h2 : axisStencil C (axisDists C mesh s node (1 - axis)) = none) :
    updateNode C mesh s node =
      if s.signedDistanceCopy node > C.doubleEpsilon then v + 1 else v - 1 := by
  have hcoef : stencilCoeffs C mesh s node = (1, 0 - 2 * v, 0 + v * v) := by
    unfold stencilCoeffs
    have hax : axis = 0 ∨ axis = 1 := by omega
    rcases hax with rfl | rfl
    · rw [addAxis_first C _ _ v h1, addAxis_skip C _ _ h2]
      simp
    · rw [addAxis_skip C _ _ h2, addAxis_first C _ _ v h1]
      simp
  unfold updateNode
  rw [hcoef]
  exact solveQuadratic_unit C hC s node v

/-- Node 0 of the mesh of two nodes, whose right neighbour is FROZEN at the
distance zero and whose snapshot is zero, over the real numbers: the result is
`0 - 1`. -/
theorem updateNode_unit_step_witness :
    updateNode (⟨Real.sqrt, 2 ^ 1024, 1 / 2 ^ 52⟩ : Numerics ℝ) pairMesh frozenRightState 0 =
      if (frozenRightState : FastMarchingMethod ℝ).signedDistanceCopy 0 > 1 / 2 ^ 52 then 0 + 1
      else 0 - 1 :=
  updateNode_unit_step _ (exact_real _ _) pairMesh frozenRightState 0 0 (by norm_num) 0
    (by
      simp [axisStencil, axisDists, updateDirection, pairMesh, frozenRightState, toInt, idx,
        noNeighbour, FastMarchingMethod.new, FMM_NodeStatus.test, FMM_NodeStatus.bits])
    (by
      simp [axisStencil, axisDists, updateDirection, pairMesh, frozenRightState, toInt, idx,
        noNeighbour, FastMarchingMethod.new, FMM_NodeStatus.test, FMM_NodeStatus.bits])

/-! ## Termination of `solve` and the size of the heap -/

theorem noneCount_mono (mesh : Mesh) (s t : FastMarchingMethod α) (h : NoneKept s t) :
    noneCount mesh t ≤ noneCount mesh s := by
  unfold noneCount
  apply List.countP_mono_left
  intro x _ hx
  simp only [decide_eq_true_eq] at hx ⊢
  exact (h x hx).1

theorem noneCount_lt (mesh : Mesh) (s t : FastMarchingMethod α) (h : NoneKept s t) (k : Nat)
    (hk : k < mesh.nNodes) (hs : s.nodeStatus k = .NONE) (ht : t.nodeStatus k ≠ .NONE) :
    noneCount mesh t < noneCount mesh s := by
  unfold noneCount
  apply countP_lt_of_imp _ _ _ _ k (List.mem_range.2 hk)
  · simp [hs]
  · simp [ht]
  · intro x _ hx
    simp only [decide_eq_true_eq] at hx ⊢
    exact (h x hx).1

theorem noneCount_le (mesh : Mesh) (s : FastMarchingMethod α) : noneCount mesh s ≤ mesh.nNodes := by
  unfold noneCount
  exact le_trans (List.countP_le_length _) (by simp)

theorem counts_refl (mesh : Mesh) (s : FastMarchingMethod α) : Counts mesh s s :=
  ⟨rfl, le_refl _, le_refl _⟩

theorem counts_trans {mesh : Mesh} {s t u : FastMarchingMethod α} (h1 : Counts mesh s t)
    (h2 : Counts mesh t u) : Counts mesh s u :=
  ⟨h2.1.trans h1.1, le_trans h2.2.1 h1.2.1, le_trans h2.2.2 h1.2.2⟩

theorem counts_of_keep (mesh : Mesh) (s t : FastMarchingMethod α) (h : NoneKept s t)
    (hc : t.heap.capacity = s.heap.capacity)
    (he : t.heap.entries.length ≤ s.heap.entries.length)
    (hn : t.heap.nextHandle ≤ s.heap.nextHandle) : Counts mesh s t := by
  have := noneCount_mono mesh s t h
  exact ⟨hc, by omega, by omega⟩

theorem counts_of_push (mesh : Mesh) (s t : FastMarchingMethod α) (h : NoneKept s t) (k : Nat)
    (hk : k < mesh.nNodes) (hs : s.nodeStatus k = .NONE) (ht : t.nodeStatus k ≠ .NONE)
    (hc : t.heap.capacity = s.heap.capacity)
    (he : t.heap.entries.length ≤ s.heap.entries.length + 1)
    (hn : t.heap.nextHandle ≤ s.heap.nextHandle + 1) : Counts mesh s t := by
  have := noneCount_lt mesh s t h k hk hs ht
  exact ⟨hc, by omega, by omega⟩

theorem foldl_counts {mesh : Mesh} (f : FastMarchingMethod α → Nat → FastMarchingMethod α)
    (l : List Nat) (h : ∀ s, ∀ x ∈ l, Counts mesh s (f s x)) :
    ∀ s, Counts mesh s (l.foldl f s) := by
  induction l with
  | nil => intro s; exact counts_refl _ _
  | cons a l ih =>
    intro s
    rw [List.foldl_cons]
    exact counts_trans (h s a (List.mem_cons_self _ _))
      (ih (fun s x hx => h s x (List.mem_cons_of_mem _ hx)) _)

theorem trialStep_counts (C : Numerics α) (mesh : Mesh) (i j : Nat) (hi : i < mesh.nNodes)
    (s : FastMarchingMethod α) : Counts mesh s (trialStep C mesh i s j) := by
  have hk := trialStep_noneKept C mesh i s j
  rw [trialStep_eq] at hk ⊢
  split_ifs at hk ⊢ with hc
  · exact counts_of_push mesh _ _ hk i hi hc.2 (enterTrial_status C mesh s i) rfl
      (by simp [enterTrial, Heap.push]) (by simp [enterTrial, Heap.push])
  · exact counts_refl mesh s

theorem initialiseTrial_counts (C : Numerics α) (mesh : Mesh) (s : FastMarchingMethod α) :
    Counts mesh s (initialiseTrial C mesh s) := by
  unfold initialiseTrial
  apply foldl_counts
  intro s i hi
  have hi' : i < mesh.nNodes := List.mem_range.1 hi
  unfold trialNode
  split_ifs
  · apply foldl_counts
    intro s j _
    exact trialStep_counts C mesh i j hi' s
  · exact counts_refl _ _

theorem relax_counts (C : Numerics α) (mesh : Mesh) (hm : mesh.Valid) (addr j : Nat)
    (ha : addr < mesh.nNodes) (hj : j < 4) (s : FastMarchingMethod α) :
    Counts mesh s (relax C mesh addr s j) := by
  have hk := relax_noneKept C mesh addr s j
  rcases neighbour_cases mesh hm addr j ha hj with h | ⟨h1, _, _⟩
  · have hs : relax C mesh addr s j = s := by
      unfold relax
      simp [h]
    rw [hs]
    exact counts_refl _ _
  · revert hk
    unfold relax
    simp only [test_trial]
    generalize idx (toInt (mesh.neighbours addr j)) = k at h1 ⊢
    generalize updateNode C mesh s (toUInt (toInt (mesh.neighbours addr j))) = d
    split_ifs with h1' h2 h3 h4 h5 h6 h7 h8
    · intro hk
      exact counts_of_keep mesh _ _ hk rfl (by simp [Heap.set]) (le_refl _)
    · intro hk
      exact counts_of_push mesh _ _ hk k h1 h5 (by simp) rfl (by simp [Heap.push])
        (by simp [Heap.push])
    · intro hk
      exact counts_of_keep mesh _ _ hk rfl (le_refl _) (le_refl _)
    · intro _; exact counts_refl _ _
    · intro hk
      exact counts_of_keep mesh _ _ hk rfl (by simp [Heap.set]) (le_refl _)
    · intro _; exact counts_refl _ _
    · intro _; exact counts_refl _ _
    · intro _; exact counts_refl _ _
    · intro _; exact counts_refl _ _

theorem relaxAll_counts (C : Numerics α) (mesh : Mesh) (hm : mesh.Valid) (tf : List Nat)
    (htf : ∀ a ∈ tf, a < mesh.nNodes) (s : FastMarchingMethod α) :
    Counts mesh s (relaxAll C mesh tf s) := by
  unfold relaxAll
  apply foldl_counts
  intro s addr ha
  apply foldl_counts
  intro s j hj
  exact relax_counts C mesh hm addr j (htf addr ha) (List.mem_range.1 hj) s

theorem heap_pop_length (h : Heap α) :
    h.pop.1.capacity = h.capacity ∧ h.pop.1.nextHandle = h.nextHandle ∧
    h.pop.1.entries.length ≤ h.entries.length ∧
    (h.empty = false → h.pop.1.entries.length < h.entries.length) := by
  by_cases hne : h.empty = false
  · obtain ⟨e, htop, hmem, _⟩ := Heap.top_spec h hne
    rw [Heap.pop_spec h e htop]
    exact ⟨rfl, rfl, List.length_filter_le _ _, fun _ => filter_handle_length _ _ hmem⟩
  · have he : h.entries = [] := by
      unfold Heap.empty at hne
      simpa using hne
    have hp : h.pop = (h, 0, 0) := by
      unfold Heap.pop Heap.top
      rw [he]
    rw [hp]
    exact ⟨rfl, rfl, le_refl _, fun hc => absurd hc hne⟩

theorem pop_freeze_counts (mesh : Mesh) (s t : FastMarchingMethod α) (tf tf' : List Nat)
    (h : freeze mesh (popHeap s).1 tf (popHeap s).2.1 = .ok (t, tf')) :
    Counts mesh s t ∧ tf'.length = tf.length + 1 ∧ noneCount mesh t ≤ noneCount mesh s ∧
    (s.heap.empty = false → t.heap.entries.length < s.heap.entries.length) := by
  obtain ⟨_, _, f3, _, _, _, _, _, f9⟩ := freeze_ok _ _ _ _ _ _ h
  have hk := freeze_noneKept mesh s t tf tf' h
  obtain ⟨p1, p2, p3, p4⟩ := heap_pop_length s.heap
  have hh : t.heap = s.heap.pop.1 := f3
  refine ⟨counts_of_keep mesh s t hk (by rw [hh]; exact p1) (by rw [hh]; exact p3)
    (by rw [hh, p2]), by rw [f9]; simp, noneCount_mono mesh s t hk, fun hne => ?_⟩
  rw [hh]
  exact p4 hne

theorem popTies_counts (mesh : Mesh) (value : α) (n : Nat) :
    ∀ (s : FastMarchingMethod α) (tf : List Nat) t tf',
      popTies mesh value n (s, tf) = .ok (t, tf') →
        Counts mesh s t ∧
        tf'.length + t.heap.entries.length ≤ tf.length + s.heap.entries.length := by
  induction n with
  | zero =>
    intro s tf t tf' h
    simp only [popTies, Outcome.ok.injEq, Prod.mk.injEq] at h
    rw [← h.1, ← h.2]
    exact ⟨counts_refl _ _, le_refl _⟩
  | succ n ih =>
    intro s tf t tf' h
    unfold popTies at h
    split_ifs at h with hc
    · simp only at h
      have hne : s.heap.empty = false := by
        simp only [Bool.and_eq_true, Bool.not_eq_true'] at hc
        exact hc.1
      rcases hf : freeze mesh (popHeap s).1 tf (popHeap s).2.1 with ⟨u, tfu⟩ | _ | _ | _
      · rw [hf] at h
        obtain ⟨c1, c2, _, c4⟩ := pop_freeze_counts mesh s u tf tfu hf
        obtain ⟨d1, d2⟩ := ih u tfu t tf' h
        have := c4 hne
        exact ⟨counts_trans c1 d1, by omega⟩
      all_goals rw [hf] at h
      all_goals simp [Outcome.bind] at h
    · simp only [Outcome.ok.injEq, Prod.mk.injEq] at h
      rw [← h.1, ← h.2]
      exact ⟨counts_refl _ _, le_refl _⟩

theorem solveRound_counts (C : Numerics α) (mesh : Mesh) (hm : mesh.Valid)
    (s : FastMarchingMethod α) (hinv : HeapInv mesh s) (hne : s.heap.empty = false)
    (t : FastMarchingMethod α) (ht : solveRound C mesh s = .ok t) :
    Counts mesh s t ∧
    t.heap.entries.length + noneCount mesh t < s.heap.entries.length + noneCount mesh s ∧
    ∃ u tf, (freeze mesh (popHeap s).1 [] (popHeap s).2.1).bind
          (popTies mesh (popHeap s).2.2 (popHeap s).1.heap.entries.length) = .ok (u, tf) ∧
      t = relaxAll C mesh tf u ∧ tf.length ≤ s.heap.entries.length := by
  obtain ⟨u, a, k, L, hb, htu, _, _, _, _, _, _, hlt⟩ :=
    solveRound_split C mesh hm s hinv hne t ht
  have key : Counts mesh s t ∧
      t.heap.entries.length + noneCount mesh t < s.heap.entries.length + noneCount mesh s ∧
      (a :: L.map Prod.fst).length ≤ s.heap.entries.length := by
    have hb1 := hb
    rcases hf : freeze mesh (popHeap s).1 [] (popHeap s).2.1 with ⟨v, tfv⟩ | _ | _ | _
    · rw [hf] at hb1
      simp only [Outcome.bind] at hb1
      obtain ⟨c1, c2, c3, c4⟩ := pop_freeze_counts mesh s v [] tfv hf
      obtain ⟨d1, d2⟩ := popTies_counts mesh _ _ v tfv u _ hb1
      have r := relaxAll_counts C mesh hm _ hlt u
      rw [← htu] at r
      have h4 := c4 hne
      simp only [List.length_nil] at c2
      refine ⟨counts_trans (counts_trans c1 d1) r, ?_, by omega⟩
      have e1 := d1.2.1
      have e2 := r.2.1
      omega
    all_goals rw [hf] at hb1
    all_goals simp [Outcome.bind] at hb1
  exact ⟨key.1, key.2.1, u, _, hb, htu, key.2.2⟩

theorem solve_counts (C : Numerics α) (mesh : Mesh) (hm : mesh.Valid) (fuel : Nat) :
    ∀ s : FastMarchingMethod α, HeapInv mesh s →
      (s.heap.entries.length + noneCount mesh s ≤ fuel → solve C mesh fuel s ≠ .timeout) ∧
      ∀ t, solve C mesh fuel s = .ok t → Counts mesh s t := by
  induction fuel with
  | zero =>
    intro s _
    unfold solve
    constructor
    · intro hc
      have he : s.heap.empty = true := by
        unfold Heap.empty
        have : s.heap.entries.length = 0 := by omega
        simp [List.length_eq_zero.1 this]
      rw [he]
      simp
    · intro t ht
      split_ifs at ht
      simp only [Outcome.ok.injEq] at ht
      rw [← ht]
      exact counts_refl _ _
  | succ n ih =>
    intro s hinv
    unfold solve
    by_cases he : s.heap.empty = true
    · simp only [he, if_true]
      refine ⟨fun _ => by simp, fun t ht => ?_⟩
      simp only [Outcome.ok.injEq] at ht
      rw [← ht]
      exact counts_refl _ _
    · have hne : s.heap.empty = false := by simpa using he
      simp only [he, if_false, Bool.false_eq_true]
      obtain ⟨r1, r2⟩ := solveRound_spec C mesh hm s hinv hne
      rcases hr : solveRound C mesh s with u | _ | _ | _
      · obtain ⟨_, a2, _⟩ := r2 u hr
        obtain ⟨c1, c2, _⟩ := solveRound_counts C mesh hm s hinv hne u hr
        obtain ⟨i1, i2⟩ := ih u a2
        simp only [Outcome.bind]
        exact ⟨fun hc => i1 (by omega), fun t ht => counts_trans c1 (i2 t ht)⟩
      · rw [hr] at r1; exact absurd r1 (by simp [Outcome.clean])
      · simp [Outcome.bind]
      · rw [hr] at r1; exact absurd r1 (by simp [Outcome.clean])

theorem initialiseHeap_counts (mesh : Mesh) (s : FastMarchingMethod α) :
    (initialiseHeap mesh s).heap.capacity = noneCount mesh s ∧
    (initialiseHeap mesh s).heap.entries.length = 0 ∧
    (initialiseHeap mesh s).heap.nextHandle = 0 ∧
    noneCount mesh (initialiseHeap mesh s) = noneCount mesh s := by
  refine ⟨?_, rfl, rfl, rfl⟩
  show (List.range mesh.nNodes).foldl (fun n i => if s.nodeStatus i = .NONE then n + 1 else n) 0
    = noneCount mesh s
  rw [foldl_count]
  simp [noneCount]

theorem trial_heapInv (C : Numerics α) (mesh : Mesh) (s : FastMarchingMethod α) :
    HeapInv mesh (initialiseTrial C mesh (initialiseHeap mesh s)) :=
  ((initialiseTrial_relaxes C mesh (initialiseHeap mesh s)).1 (initialiseHeap_inv mesh s).1).2.1

/-- C35: on a valid mesh `solve` terminates: started in the state that
`initialiseHeap` and `initialiseTrial` leave from any state `s1` (the state
after `initialiseFrozen`), the main loop does not run out of fuel when it is
given one pass for every node that is NONE in `s1`. The number of pushes made
by `initialiseTrial`, and by `initialiseTrial` and `solve` together, is at
most the number of nodes that stopped being NONE (a push is made for a NONE
node, which leaves that status for good), and every pop on a non-empty heap
removes an entry. -/
theorem solve_terminates (C : Numerics α) (mesh : Mesh) (hm : mesh.Valid)
    (s1 : FastMarchingMethod α) :
    (∀ fuel, noneCount mesh s1 ≤ fuel →
      solve C mesh fuel (initialiseTrial C mesh (initialiseHeap mesh s1)) ≠ .timeout) ∧
    (initialiseTrial C mesh (initialiseHeap mesh s1)).heap.nextHandle +
        noneCount mesh (initialiseTrial C mesh (initialiseHeap mesh s1)) ≤ noneCount mesh s1 ∧
    (∀ fuel t, solve C mesh fuel (initialiseTrial C mesh (initialiseHeap mesh s1)) = .ok t →
      t.heap.nextHandle + noneCount mesh t ≤ noneCount mesh s1) ∧
    ∀ u : FastMarchingMethod α, u.heap.empty = false →
      (popHeap u).1.heap.entries.length < u.heap.entries.length := by
  obtain ⟨h1, h2, h3, h4⟩ := initialiseHeap_counts mesh s1
  have ct := initialiseTrial_counts C mesh (initialiseHeap mesh s1)
  have hinv := trial_heapInv C mesh s1
  have e1 := ct.2.1
  have e2 := ct.2.2
  rw [h2, h4] at e1
  rw [h3, h4] at e2
  refine ⟨fun fuel hf => (solve_counts C mesh hm fuel _ hinv).1 (by omega), by omega,
    fun fuel t ht => ?_, fun u hu => (heap_pop_length u.heap).2.2.2 hu⟩
  have := ((solve_counts C mesh hm fuel _ hinv).2 t ht).2.2
  omega

/-- The main loop started for a fresh solver on the grid of 2 x 2 nodes does
not run out of fuel with four passes, one for each NONE node. -/
theorem solve_terminates_witness :
    solve ratNumerics (gridMesh noNeighbour 1 1) 4
      (initialiseTrial ratNumerics (gridMesh noNeighbour 1 1)
        (initialiseHeap (gridMesh noNeighbour 1 1) FastMarchingMethod.new)) ≠ .timeout :=
  (solve_terminates ratNumerics (gridMesh noNeighbour 1 1) (gridMesh_valid 1 1 (by norm_num))
    FastMarchingMethod.new).1 4 (by decide)

theorem heapFits_of_counts {mesh : Mesh} {s t : FastMarchingMethod α} (h : Counts mesh s t)
    (hs : HeapFits mesh s) : HeapFits mesh t := by
  obtain ⟨c1, c2, _⟩ := h
  obtain ⟨f1, f2⟩ := hs
  exact ⟨by rw [c1]; omega, by rw [c1]; exact f2⟩

/-- C38: on a valid mesh the heap never holds more entries than the capacity
computed by `initialiseHeap`, the number of NONE nodes, which is at most
`nNodes`. The bound "entries plus NONE nodes at most the capacity" holds when
`initialiseHeap` returns and is kept by every step of `initialiseTrial` and of
`solve` (the body of the loop of `initialiseTrial`, a pop with the freezing of
the popped node, an update of a neighbour, a whole pass of the main loop), so
it holds when `initialiseTrial` and `solve` return; and the list `toFreeze` of
one pass of the main loop has at most as many elements as the heap had
entries, hence at most `nNodes`. -/
theorem heap_within_capacity (C : Numerics α) (mesh : Mesh) (hm : mesh.Valid)
    (s1 : FastMarchingMethod α) :
    (initialiseHeap mesh s1).heap.capacity = noneCount mesh s1 ∧
    HeapFits mesh (initialiseHeap mesh s1) ∧
    (∀ u : FastMarchingMethod α, HeapFits mesh u →
      u.heap.entries.length ≤ u.heap.capacity ∧ u.heap.entries.length ≤ mesh.nNodes) ∧
    (∀ (u : FastMarchingMethod α) i j, i < mesh.nNodes → HeapFits mesh u →
      HeapFits mesh (trialStep C mesh i u j)) ∧
    (∀ (u t : FastMarchingMethod α) tf tf',
      freeze mesh (popHeap u).1 tf (popHeap u).2.1 = .ok (t, tf') → HeapFits mesh u →
      HeapFits mesh t) ∧
    (∀ (u : FastMarchingMethod α) addr j, addr < mesh.nNodes → j < 4 → HeapFits mesh u →
      HeapFits mesh (relax C mesh addr u j)) ∧
    (∀ u t : FastMarchingMethod α, HeapInv mesh u → HeapFits mesh u → u.heap.empty = false →
      solveRound C mesh u = .ok t →
      HeapFits mesh t ∧
      ∃ v tf, (freeze mesh (popHeap u).1 [] (popHeap u).2.1).bind
            (popTies mesh (popHeap u).2.2 (popHeap u).1.heap.entries.length) = .ok (v, tf) ∧
        t = relaxAll C mesh tf v ∧ tf.length ≤ mesh.nNodes) ∧
    HeapFits mesh (initialiseTrial C mesh (initialiseHeap mesh s1)) ∧
    ∀ fuel t, solve C mesh fuel (initialiseTrial C mesh (initialiseHeap mesh s1)) = .ok t →
      HeapFits mesh t := by
  obtain ⟨h1, h2, h3, h4⟩ := initialiseHeap_counts mesh s1
  have hfit0 : HeapFits mesh (initialiseHeap mesh s1) :=
    ⟨by rw [h1, h2, h4]; omega, by rw [h1]; exact noneCount_le mesh s1⟩
  have hfit1 := heapFits_of_counts (initialiseTrial_counts C mesh (initialiseHeap mesh s1)) hfit0
  refine ⟨h1, hfit0, fun u hu => ⟨by have := hu.1; omega, by have := hu.1; have := hu.2; omega⟩,
    fun u i j hi hu => heapFits_of_counts (trialStep_counts C mesh i j hi u) hu,
    fun u t tf tf' hf hu => heapFits_of_counts (pop_freeze_counts mesh u t tf tf' hf).1 hu,
    fun u addr j ha hj hu => heapFits_of_counts (relax_counts C mesh hm addr j ha hj u) hu,
    fun u t hinv hu hne ht => ?_, hfit1, fun fuel t ht => ?_⟩
  · obtain ⟨c1, _, v, tf, e1, e2, e3⟩ := solveRound_counts C mesh hm u hinv hne t ht
    refine ⟨heapFits_of_counts c1 hu, v, tf, e1, e2, ?_⟩
    have := hu.1
    have := hu.2
    omega
  · exact heapFits_of_counts
      ((solve_counts C mesh hm fuel _ (trial_heapInv C mesh s1)).2 t ht) hfit1

/-- The capacity computed by `initialiseHeap` for a fresh solver on the grid
of 2 x 2 nodes is the number of its NONE nodes. -/
theorem heap_within_capacity_witness :
    (initialiseHeap (gridMesh noNeighbour 1 1)
        (FastMarchingMethod.new : FastMarchingMethod ℚ)).heap.capacity =
      noneCount (gridMesh noNeighbour 1 1) (FastMarchingMethod.new : FastMarchingMethod ℚ) :=
  (heap_within_capacity ratNumerics (gridMesh noNeighbour 1 1)
    (gridMesh_valid 1 1 (by norm_num)) FastMarchingMethod.new).1

/-! ## `march` on a solver that has been used before -/

theorem alike_updateNode (C : Numerics α) (mesh : Mesh) (a b : FastMarchingMethod α)
    (h : Alike mesh a b) (n : Nat) (hn : n < mesh.nNodes) :
    updateNode C mesh b n = updateNode C mesh a n := by
  obtain ⟨_, _, hsd, hst, hcp, _⟩ := h
  exact updateNode_congr C mesh b a n (fun k => by rw [hst]) (fun k _ => by rw [hsd])
    (hcp n hn).symm

theorem alike_write (mesh : Mesh) (a b : FastMarchingMethod α) (h : Alike mesh a b) (k : Nat)
    (d : α) :
    Alike mesh { a with signedDistance := Function.update a.signedDistance k d }
      { b with signedDistance := Function.update b.signedDistance k d } := by
  obtain ⟨va, vb, hsd, hst, hcp, hheap, hptr, hlog⟩ := h
  exact ⟨va, vb, by simp only [hsd], hst, hcp, hheap, hptr, hlog⟩

theorem alike_set (mesh : Mesh) (a b : FastMarchingMethod α) (h : Alike mesh a b) (k : Nat)
    (hk : a.nodeStatus k = .TRIAL) (x : α) :
    Alike mesh { a with heap := a.heap.set (a.heapPtr k) x }
      { b with heap := b.heap.set (b.heapPtr k) x } := by
  obtain ⟨va, vb, hsd, hst, hcp, hheap, hptr, hlog⟩ := h
  exact ⟨va, vb, hsd, hst, hcp, by simp only [hheap, hptr k hk], hptr, hlog⟩

theorem alike_push (mesh : Mesh) (a b : FastMarchingMethod α) (h : Alike mesh a b) (k : Nat)
    (x : α) :
    Alike mesh
      { a with nodeStatus := Function.update a.nodeStatus k .TRIAL
               heap := (a.heap.push k x).1
               heapPtr := Function.update a.heapPtr k (a.heap.push k x).2 }
      { b with nodeStatus := Function.update b.nodeStatus k .TRIAL
               heap := (b.heap.push k x).1
               heapPtr := Function.update b.heapPtr k (b.heap.push k x).2 } := by
  obtain ⟨va, vb, hsd, hst, hcp, hheap, hptr, hlog⟩ := h
  refine ⟨va, vb, hsd, by simp only [hst], hcp, by simp only [hheap], ?_, hlog⟩
  intro i hi
  by_cases hik : i = k
  · subst hik
    simp [hheap]
  · simp only [Function.update_noteq hik] at hi ⊢
    exact hptr i hi

theorem alike_freeze (mesh : Mesh) (a b : FastMarchingMethod α) (h : Alike mesh a b) (k : Nat) :
    Alike mesh { a with nodeStatus := Function.update a.nodeStatus k .FROZEN }
      { b with nodeStatus := Function.update b.nodeStatus k .FROZEN } := by
  obtain ⟨va, vb, hsd, hst, hcp, hheap, hptr, hlog⟩ := h
  refine ⟨va, vb, hsd, by simp only [hst], hcp, hheap, ?_, hlog⟩
  intro i hi
  by_cases hik : i = k
  · subst hik
    simp at hi
  · simp only [Function.update_noteq hik] at hi
    exact hptr i hi

theorem relax_alike (C : Numerics α) (mesh : Mesh) (hm : mesh.Valid) (addr j : Nat)
    (ha : addr < mesh.nNodes) (hj : j < 4) (a b : FastMarchingMethod α) (h : Alike mesh a b) :
    Alike mesh (relax C mesh addr a j) (relax C mesh addr b j) := by
  have hst : ∀ i, b.nodeStatus i = a.nodeStatus i := fun i => by rw [h.2.2.2.1]
  rcases neighbour_cases mesh hm addr j ha hj with h1 | ⟨k1, k2, _⟩
  · have ea : relax C mesh addr a j = a := by unfold relax; simp [h1]
    have eb : relax C mesh addr b j = b := by unfold relax; simp [h1]
    rw [ea, eb]
    exact h
  have hn1 : toInt (mesh.neighbours addr j) ≠ -1 := by
    intro hc
    unfold idx at k1
    rw [hc] at k1
    have := hm.1
    have h64 : ((-1 : Int) % 2 ^ 64).toNat = 2 ^ 64 - 1 := by decide
    rw [h64] at k1
    omega
  have hu := alike_updateNode C mesh a b h _ k1
  unfold relax
  simp only [test_trial, hst, k2, hu, ne_eq, hn1, not_false_eq_true, if_true]
  generalize idx (toInt (mesh.neighbours addr j)) = k at k1 ⊢
  generalize updateNode C mesh a k = d
  by_cases c1 : a.nodeStatus k = .FROZEN
  · simp only [c1, not_true_eq_false, if_false]
    rcases neighbour_cases mesh hm k j k1 hj with g1 | ⟨g1, g2, _⟩
    · simp only [g1, not_true_eq_false, if_false]
      exact h
    · have hn2 : toInt (mesh.neighbours k j) ≠ -1 := by
        intro hc
        unfold idx at g1
        rw [hc] at g1
        have := hm.1
        have h64 : ((-1 : Int) % 2 ^ 64).toNat = 2 ^ 64 - 1 := by decide
        rw [h64] at g1
        omega
      have hu2 := alike_updateNode C mesh a b h _ g1
      simp only [hn2, not_false_eq_true, if_true, g2, hu2]
      generalize idx (toInt (mesh.neighbours k j)) = k' at g1 ⊢
      generalize updateNode C mesh a k' = d'
      by_cases c5 : a.nodeStatus k' = .TRIAL
      · simp only [c5, if_true]
        by_cases c6 : d' = 0
        · simp only [c6, not_true_eq_false, if_false]
          exact h
        · simp only [c6, not_false_eq_true, if_true]
          exact alike_set mesh _ _ (alike_write mesh a b h k' d') k' c5 |d'|
      · simp only [c5, if_false]
        exact h
  · simp only [c1, not_false_eq_true, if_true]
    by_cases c2 : d = 0
    · simp only [c2, not_true_eq_false, if_false]
      exact h
    · simp only [c2, not_false_eq_true, if_true]
      by_cases c3 : a.nodeStatus k = .TRIAL
      · simp only [c3, if_true]
        exact alike_set mesh _ _ (alike_write mesh a b h k d) k c3 |d|
      · simp only [c3, if_false]
        by_cases c4 : a.nodeStatus k = .NONE
        · simp only [c4, if_true]
          exact alike_push mesh _ _ (alike_write mesh a b h k d) k |d|
        · simp only [c4, if_false]
          exact alike_write mesh a b h k d

theorem foldl_alike {mesh : Mesh} (f : FastMarchingMethod α → Nat → FastMarchingMethod α)
    (l : List Nat) (h : ∀ a b, ∀ x ∈ l, Alike mesh a b → Alike mesh (f a x) (f b x)) :
    ∀ a b, Alike mesh a b → Alike mesh (l.foldl f a) (l.foldl f b) := by
  induction l with
  | nil => intro a b hab; exact hab
  | cons x l ih =>
    intro a b hab
    rw [List.foldl_cons, List.foldl_cons]
    exact ih (fun a b y hy => h a b y (List.mem_cons_of_mem _ hy)) _ _
      (h a b x (List.mem_cons_self _ _) hab)

theorem relaxAll_alike (C : Numerics α) (mesh : Mesh) (hm : mesh.Valid) (tf : List Nat)
    (htf : ∀ x ∈ tf, x < mesh.nNodes) (a b : FastMarchingMethod α) (h : Alike mesh a b) :
    Alike mesh (relaxAll C mesh tf a) (relaxAll C mesh tf b) := by
  unfold relaxAll
  apply foldl_alike _ _ _ a b h
  intro a b addr haddr hab
  apply foldl_alike _ _ _ a b hab
  intro a b j hj hab
  exact relax_alike C mesh hm addr j (htf addr haddr) (List.mem_range.1 hj) a b hab

theorem trialStep_alike (C : Numerics α) (mesh : Mesh) (i j : Nat) (hi : i < mesh.nNodes)
    (a b : FastMarchingMethod α) (h : Alike mesh a b) :
    Alike mesh (trialStep C mesh i a j) (trialStep C mesh i b j) := by
  have hst : b.nodeStatus = a.nodeStatus := h.2.2.2.1.symm
  rw [trialStep_eq, trialStep_eq, hst]
  split_ifs with hc
  · have hu : updateNode C mesh { b with nodeStatus := Function.update b.nodeStatus i .TRIAL } i
        = updateNode C mesh { a with nodeStatus := Function.update a.nodeStatus i .TRIAL } i := by
      obtain ⟨_, _, hsd, hst', hcp, _⟩ := h
      exact updateNode_congr C mesh _ _ i (fun k => by simp only [hst'])
        (fun k _ => by simp only [hsd]) (hcp i hi).symm
    unfold enterTrial
    rw [hu]
    generalize updateNode C mesh { a with nodeStatus := Function.update a.nodeStatus i .TRIAL } i
      = d
    exact alike_push mesh _ _ (alike_write mesh a b h i d) i |d|
  · exact h

theorem initialiseTrial_alike (C : Numerics α) (mesh : Mesh) (a b : FastMarchingMethod α)
    (h : Alike mesh a b) :
    Alike mesh (initialiseTrial C mesh a) (initialiseTrial C mesh b) := by
  unfold initialiseTrial
  apply foldl_alike _ _ _ a b h
  intro a b i hi hab
  have hi' : i < mesh.nNodes := List.mem_range.1 hi
  have hst : b.nodeStatus = a.nodeStatus := hab.2.2.2.1.symm
  unfold trialNode
  rw [hst]
  split_ifs
  · apply foldl_alike _ _ _ a b hab
    intro a b j _ hab
    exact trialStep_alike C mesh i j hi' a b hab
  · exact hab

theorem popHeap_alike (mesh : Mesh) (a b : FastMarchingMethod α) (h : Alike mesh a b) :
    Alike mesh (popHeap a).1 (popHeap b).1 ∧ (popHeap b).2 = (popHeap a).2 := by
  obtain ⟨va, vb, hsd, hst, hcp, hheap, hptr, hlog⟩ := h
  unfold popHeap
  rw [← hheap, ← hlog]
  exact ⟨⟨va, vb, hsd, hst, hcp, rfl, hptr, rfl⟩, rfl⟩

theorem freeze_plain (mesh : Mesh) (s : FastMarchingMethod α) (tf : List Nat) (addr : Nat)
    (hv : s.isVelocity = false) :
    freeze mesh s tf addr =
      .ok ({ s with nodeStatus := Function.update s.nodeStatus addr .FROZEN }, tf ++ [addr]) := by
  unfold freeze
  show (if s.isVelocity = true then _ else _) = _
  rw [if_neg (by rw [hv]; simp)]

theorem popTies_alike (mesh : Mesh) (value : α) (n : Nat) :
    ∀ (a b a' : FastMarchingMethod α) (tf tf' : List Nat), Alike mesh a b →
      popTies mesh value n (a, tf) = .ok (a', tf') →
      ∃ b', popTies mesh value n (b, tf) = .ok (b', tf') ∧ Alike mesh a' b' := by
  induction n with
  | zero =>
    intro a b a' tf tf' h hp
    simp only [popTies, Outcome.ok.injEq, Prod.mk.injEq] at hp
    obtain ⟨e1, e2⟩ := hp
    subst e1 e2
    exact ⟨b, rfl, h⟩
  | succ n ih =>
    intro a b a' tf tf' h hp
    obtain ⟨q1, q2⟩ := popHeap_alike mesh a b h
    have hheap : b.heap = a.heap := h.2.2.2.2.2.1.symm
    unfold popTies at hp ⊢
    simp only [hheap]
    by_cases hc : (!a.heap.empty && value == a.heap.peek) = true
    · simp only [hc, if_true] at hp ⊢
      rw [freeze_plain mesh _ _ _ q1.1] at hp
      rw [freeze_plain mesh _ _ _ q1.2.1, q2]
      simp only [Outcome.bind] at hp ⊢
      exact ih _ _ a' _ tf' (alike_freeze mesh _ _ q1 _) hp
    · simp only [hc, if_false, Bool.false_eq_true] at hp ⊢
      simp only [Outcome.ok.injEq, Prod.mk.injEq] at hp
      obtain ⟨e1, e2⟩ := hp
      subst e1 e2
      exact ⟨b, rfl, h⟩

theorem solveRound_alike (C : Numerics α) (mesh : Mesh) (hm : mesh.Valid)
    (a b a' : FastMarchingMethod α) (h : Alike mesh a b) (hinv : HeapInv mesh a)
    (hne : a.heap.empty = false) (hr : solveRound C mesh a = .ok a') :
    ∃ b', solveRound C mesh b = .ok b' ∧ Alike mesh a' b' := by
  obtain ⟨u, x, k, L, hb, htu, _, _, _, _, _, _, hlt⟩ :=
    solveRound_split C mesh hm a hinv hne a' hr
  obtain ⟨q1, q2⟩ := popHeap_alike mesh a b h
  have hlen : (popHeap b).1.heap.entries.length = (popHeap a).1.heap.entries.length := by
    rw [q1.2.2.2.2.2.1]
  rw [freeze_plain mesh _ _ _ q1.1] at hb
  simp only [Outcome.bind] at hb
  obtain ⟨ub, hub, hal⟩ := popTies_alike mesh _ _ _ _ u _ _ (alike_freeze mesh _ _ q1 _) hb
  refine ⟨relaxAll C mesh (x :: L.map Prod.fst) ub, ?_, ?_⟩
  · unfold solveRound
    simp only
    rw [freeze_plain mesh _ _ _ q1.2.1, q2, hlen]
    simp only [Outcome.bind]
    rw [hub]
  · rw [htu]
    exact relaxAll_alike C mesh hm _ hlt u ub hal

theorem solve_alike (C : Numerics α) (mesh : Mesh) (hm : mesh.Valid) (fuel : Nat) :
    ∀ a b a' : FastMarchingMethod α, Alike mesh a b → HeapInv mesh a →
      solve C mesh fuel a = .ok a' → ∃ b', solve C mesh fuel b = .ok b' ∧ Alike mesh a' b' := by
  induction fuel with
  | zero =>
    intro a b a' h _ hs
    have hheap : b.heap = a.heap := h.2.2.2.2.2.1.symm
    unfold solve at hs ⊢
    rw [hheap]
    split_ifs at hs ⊢
    simp only [Outcome.ok.injEq] at hs
    subst hs
    exact ⟨b, rfl, h⟩
  | succ n ih =>
    intro a b a' h hinv hs
    have hheap : b.heap = a.heap := h.2.2.2.2.2.1.symm
    unfold solve at hs ⊢
    rw [hheap]
    by_cases he : a.heap.empty = true
    · simp only [he, if_true] at hs ⊢
      simp only [Outcome.ok.injEq] at hs
      subst hs
      exact ⟨b, rfl, h⟩
    · have hne : a.heap.empty = false := by simpa using he
      simp only [he, if_false, Bool.false_eq_true] at hs ⊢
      rcases hr : solveRound C mesh a with u | _ | _ | _
      · rw [hr] at hs
        simp only [Outcome.bind] at hs
        obtain ⟨ub, hub, hal⟩ := solveRound_alike C mesh hm a b u h hinv hne hr
        obtain ⟨_, a2, _⟩ := (solveRound_spec C mesh hm a hinv hne).2 u hr
        rw [hub]
        simp only [Outcome.bind]
        exact ih u ub a' hal a2 hs
      all_goals rw [hr] at hs
      all_goals simp [Outcome.bind] at hs

theorem axisFraction_alike (mesh : Mesh) (hm : mesh.Valid) (phi psi : Nat → α)
    (h : ∀ i, i < mesh.nNodes → phi i = psi i) (k axis : Nat) (hk : k < mesh.nNodes)
    (ha : axis < 2) : axisFraction mesh phi k axis = axisFraction mesh psi k axis := by
  have hc : ∀ j, j < 4 → crossingFraction mesh phi k j = crossingFraction mesh psi k j := by
    intro j hj
    apply crossingFraction_congr mesh phi psi k j (h k hk)
    intro hn
    rcases neighbour_cases mesh hm k j hk hj with h1 | ⟨h1, _, _⟩
    · exact absurd h1 hn
    · exact h _ h1
  unfold axisFraction
  simp only [List.filterMap_cons, List.filterMap_nil, hc (2 * axis) (by omega),
    hc (2 * axis + 1) (by omega)]

theorem initialiseFrozen_alike (C : Numerics α) (mesh : Mesh) (hm : mesh.Valid)
    (a b a1 : FastMarchingMethod α) (hva : a.isVelocity = false) (hvb : b.isVelocity = false)
    (hsd : a.signedDistance = b.signedDistance) (hst : a.nodeStatus = b.nodeStatus)
    (hptr : ∀ i, a.nodeStatus i = .TRIAL → a.heapPtr i = b.heapPtr i)
    (hlog : a.popLog = b.popLog) (ha : initialiseFrozen C mesh a = .ok a1) :
    ∃ b1, initialiseFrozen C mesh b = .ok b1 ∧
      Alike mesh (initialiseHeap mesh a1) (initialiseHeap mesh b1) := by
  obtain ⟨ra, pa, ea⟩ := initialiseFrozen_eq C mesh a
  obtain ⟨rb, pb, eb⟩ := initialiseFrozen_eq C mesh b
  obtain ⟨x1, _, x3, _, x5, x6, x7, _, x9, x10⟩ := zeroPass_spec mesh a
  obtain ⟨y1, _, y3, _, y5, y6, y7, _, y9, y10⟩ := zeroPass_spec mesh b
  obtain ⟨a1', a2, _, _, a5, a6, a7, a8, _, a10⟩ := pa
  obtain ⟨b1', b2, _, _, b5, b6, b7, b8, _, b10⟩ := pb
  have zst : ∀ k, (zeroPass mesh a).1.nodeStatus k = (zeroPass mesh b).1.nodeStatus k := by
    intro k; rw [x9 k, y9 k, hsd, hst]
  have zcp : ∀ k, k < mesh.nNodes →
      (zeroPass mesh a).1.signedDistanceCopy k = (zeroPass mesh b).1.signedDistanceCopy k := by
    intro k hk; rw [x7 k, y7 k, if_pos hk, if_pos hk, hsd]
  have zsd : (zeroPass mesh a).1.signedDistance = (zeroPass mesh b).1.signedDistance := by
    rw [x1, y1, hsd]
  have zn : (zeroPass mesh a).2 = 0 ↔ (zeroPass mesh b).2 = 0 := by
    rw [x10, y10, hsd, hst]
  have hax := axisFraction_alike mesh hm _ _ zcp
  have hbord : ∀ k, k < mesh.nNodes →
      (IsBorder mesh (zeroPass mesh a).1 k ↔ IsBorder mesh (zeroPass mesh b).1 k) := by
    intro k hk
    unfold IsBorder
    rw [isBorder_iff, isBorder_iff, hasCrossing_iff, hasCrossing_iff, zst k,
      hax k 0 hk (by norm_num), hax k 1 hk (by norm_num)]
  have hdist : ∀ k, k < mesh.nNodes → borderDistance C mesh (zeroPass mesh a).1 k
      = borderDistance C mesh (zeroPass mesh b).1 k := by
    intro k hk
    unfold borderDistance
    rw [distSum_eq, distSum_eq, zcp k hk, hax k 0 hk (by norm_num), hax k 1 hk (by norm_num)]
  have rst : ra.1.nodeStatus = rb.1.nodeStatus := by
    funext k
    rw [a7 k, b7 k, zst k]
    by_cases hk : k < mesh.nNodes ∧ IsBorder mesh (zeroPass mesh a).1 k
    · rw [if_pos hk, if_pos ⟨hk.1, (hbord k hk.1).1 hk.2⟩]
    · rw [if_neg hk, if_neg (fun hh => hk ⟨hh.1, (hbord k hh.1).2 hh.2⟩)]
  have rsd : ra.1.signedDistance = rb.1.signedDistance := by
    funext k
    rw [a8 k, b8 k, zsd]
    by_cases hk : k < mesh.nNodes ∧ IsBorder mesh (zeroPass mesh a).1 k
    · rw [if_pos hk, if_pos ⟨hk.1, (hbord k hk.1).1 hk.2⟩, hdist k hk.1]
    · rw [if_neg hk, if_neg (fun hh => hk ⟨hh.1, (hbord k hh.1).2 hh.2⟩)]
  have rn : ra.2 = 0 ↔ rb.2 = 0 := by
    rw [a10, b10, zn]
    constructor
    · intro hh; exact ⟨hh.1, fun k hk hb => hh.2 k hk ((hbord k hk).2 hb)⟩
    · intro hh; exact ⟨hh.1, fun k hk hb => hh.2 k hk ((hbord k hk).1 hb)⟩
  rw [ea] at ha
  by_cases h0 : ra.2 > 0
  · rw [if_pos h0] at ha
    simp only [Outcome.ok.injEq] at ha
    subst ha
    have h0b : rb.2 > 0 := by
      rcases Nat.eq_zero_or_pos rb.2 with hz | hz
      · have := rn.2 hz; omega
      · exact hz
    refine ⟨rb.1, by rw [eb, if_pos h0b], ?_⟩
    have htrial : ∀ i, ra.1.nodeStatus i = .TRIAL → a.nodeStatus i = .TRIAL := by
      intro i hi
      rw [a7 i] at hi
      split_ifs at hi
      rw [x9 i] at hi
      split_ifs at hi
      exact hi
    refine ⟨by show ra.1.isVelocity = false; rw [a1', x3, hva],
      by show rb.1.isVelocity = false; rw [b1', y3, hvb], rsd, rst, ?_, ?_, ?_, ?_⟩
    · intro i hi
      show ra.1.signedDistanceCopy i = rb.1.signedDistanceCopy i
      rw [a2, b2, zcp i hi]
    · unfold initialiseHeap
      simp only [rst]
    · intro i hi
      show ra.1.heapPtr i = rb.1.heapPtr i
      rw [a5, b5, x5, y5]
      exact hptr i (htrial i hi)
    · show ra.1.popLog = rb.1.popLog
      rw [a6, b6, x6, y6, hlog]
  · rw [if_neg h0] at ha
    exact absurd ha (by simp)

theorem march_alike (C : Numerics α) (mesh : Mesh) (hm : mesh.Valid) (fuel : Nat)
    (s s' : FastMarchingMethod α) (hst : s.nodeStatus = s'.nodeStatus)
    (htr : ∀ i, s.nodeStatus i ≠ .TRIAL) (phi : Nat → α) (t : FastMarchingMethod α)
    (h : march C mesh fuel s phi = .ok t) :
    ∃ t', march C mesh fuel s' phi = .ok t' ∧ t'.signedDistance = t.signedDistance ∧
      t'.nodeStatus = t.nodeStatus := by
  unfold march marchBody at h ⊢
  rcases h1 : initialiseFrozen C mesh
      { s with signedDistance := phi, isVelocity := false, popLog := [] } with a1 | _ | _ | _
  · rw [h1] at h
    simp only [Outcome.bind] at h
    obtain ⟨b1, hb1, hal⟩ := initialiseFrozen_alike C mesh hm
      { s with signedDistance := phi, isVelocity := false, popLog := [] }
      { s' with signedDistance := phi, isVelocity := false, popLog := [] } a1 rfl rfl rfl hst
      (fun i hi => absurd hi (htr i)) rfl h1
    rw [hb1]
    simp only [Outcome.bind]
    obtain ⟨t', ht', hal'⟩ := solve_alike C mesh hm fuel _ _ t
      (initialiseTrial_alike C mesh _ _ hal) (trial_heapInv C mesh a1) h
    exact ⟨t', ht', hal'.2.2.1.symm, hal'.2.2.2.1.symm⟩
  all_goals rw [h1] at h
  all_goals simp [Outcome.bind] at h

/-- C39 (counterexample). On the grid of 3 x 1 nodes a first `march` with the
input 0, 1, 2 leaves every node FROZEN. A second `march` on the same solver
with the input 0, 5, 7 returns the input unchanged, distance 5 at node 1,
while on a fresh solver the same input gives the distance 1 at node 1. -/
theorem second_march_differs :
    (march ratNumerics (gridMesh noNeighbour 2 0) 3 FastMarchingMethod.new
        (fieldOf [0, 1, 2])).holds
      (fun t1 => t1.nodeStatus 1 = .FROZEN ∧
        (march ratNumerics (gridMesh noNeighbour 2 0) 3 t1 (fieldOf [0, 5, 7])).holds
          (fun t2 => t2.signedDistance 1 = 5)) ∧
    (march ratNumerics (gridMesh noNeighbour 2 0) 3 FastMarchingMethod.new
        (fieldOf [0, 5, 7])).holds (fun t => t.signedDistance 1 = 1) := by
  decide!

/-- C39 (amended). On a valid mesh `march` depends on the solver it is called
on through the status array only: for two solvers with the same statuses, none
of them TRIAL, whatever their snapshots, heaps, heap handles and velocity data
(what earlier solves left), if `march` returns on the first it returns on the
second, with the same signed distances and the same statuses. -/
theorem march_status_only (C : Numerics α) (mesh : Mesh) (hm : mesh.Valid) (fuel : Nat)
    (s s' : FastMarchingMethod α) (hst : s.nodeStatus = s'.nodeStatus)
    (htr : ∀ i, s.nodeStatus i ≠ .TRIAL) (phi : Nat → α)
    (h : (march C mesh fuel s phi).holds (fun _ => True)) :
    (march C mesh fuel s phi).holds (fun t =>
      (march C mesh fuel s' phi).holds (fun t' =>
        t'.signedDistance = t.signedDistance ∧ t'.nodeStatus = t.nodeStatus)) := by
  rcases ht : march C mesh fuel s phi with t | _ | _ | _
  · obtain ⟨t', ht', h1, h2⟩ := march_alike C mesh hm fuel s s' hst htr phi t ht
    show (march C mesh fuel s' phi).holds _
    rw [ht']
    exact ⟨h1, h2⟩
  all_goals rw [ht] at h
  all_goals exact absurd h (by simp [Outcome.holds])

/-- A fresh solver and a solver with the same statuses whose snapshot, heap
and heap handles hold other values, on the grid of 3 x 1 nodes with the input
0, 5, 7. -/
theorem march_status_only_witness :
    (march ratNumerics (gridMesh noNeighbour 2 0) 3 FastMarchingMethod.new
        (fieldOf [0, 5, 7])).holds (fun t =>
      (march ratNumerics (gridMesh noNeighbour 2 0) 3 usedState (fieldOf [0, 5, 7])).holds
        (fun t' => t'.signedDistance = t.signedDistance ∧ t'.nodeStatus = t.nodeStatus)) :=
  march_status_only ratNumerics (gridMesh noNeighbour 2 0) (gridMesh_valid 2 0 (by norm_num)) 3
    FastMarchingMethod.new usedState rfl (fun i => by simp [FastMarchingMethod.new])
    (fieldOf [0, 5, 7]) (by decide!)

/-! ## A positive node surrounded by negative nodes -/

theorem sqrt_unique (C : Numerics α) (hC : C.Exact) (x y : α) (hy : 0 ≤ y) (h : y * y = x) :
    C.sqrt x = y := by
  subst h
  obtain ⟨h0, h1⟩ := hC (y * y) (mul_self_nonneg y)
  exact (mul_self_inj h0 hy).1 h1

/-- One pass of the loop over directions that finds a FROZEN neighbour closer
than `dist1` whose own neighbour in the same direction is not FROZEN. -/
theorem updateDirection_first (mesh : Mesh) (s : FastMarchingMethod α) (node : Nat) (d : α × α)
    (index : Nat) (x : α) (h : frozenDist mesh s node index = some x) (hx : x < d.1)
    (h2 : frozenDist mesh s (idx (toInt (mesh.neighbours node index))) index = none) :
    updateDirection mesh s node d index = (x, d.2) := by
  unfold frozenDist at h h2
  unfold updateDirection
  simp only [test_frozen]
  split_ifs at h h2 ⊢ <;> simp_all
  exact absurd hx (not_lt.2 ‹_›)

/-- A dimension with one FROZEN neighbour, whose own neighbour in the same
direction is not FROZEN, ends with that neighbour's distance in `dist1` and
with `dist2` untouched. -/
theorem axisDists_single (C : Numerics α) (mesh : Mesh) (s : FastMarchingMethod α)
    (node i j k : Nat) (hjk : (j = 2 * i ∧ k = 2 * i + 1) ∨ (j = 2 * i + 1 ∧ k = 2 * i)) (x : α)
    (h : frozenDist mesh s node j = some x) (hx : x < C.maxDouble)
    (h2 : frozenDist mesh s (idx (toInt (mesh.neighbours node j))) j = none)
    (hk : frozenDist mesh s node k = none) :
    axisDists C mesh s node i = (x, C.maxDouble) := by
  unfold axisDists
  rcases hjk with ⟨rfl, rfl⟩ | ⟨rfl, rfl⟩
  · rw [updateDirection_first mesh s node _ _ x h hx h2, updateDirection_none mesh s node _ _ hk]
  · rw [updateDirection_none mesh s node _ _ hk, updateDirection_first mesh s node _ _ x h hx h2]

/-- The sum of the inverse squares of a node with one sign crossing. -/
theorem inverseSquare_single (mesh : Mesh) (cp : Nat → α) (k j0 : Nat) (hj0 : j0 < 4) (c : α)
    (h0 : crossingFraction mesh cp k j0 = some c)
    (h1 : ∀ j, j < 4 → j ≠ j0 → crossingFraction mesh cp k j = none) :
    inverseSquare (axisFraction mesh cp k 0) + inverseSquare (axisFraction mesh cp k 1) =
      1 / c ^ 2 := by
  unfold axisFraction
  simp only [Nat.mul_zero, Nat.zero_add, Nat.mul_one, List.filterMap_cons, List.filterMap_nil]
  interval_cases j0
  · rw [h0, h1 1 (by norm_num) (by norm_num), h1 2 (by norm_num) (by norm_num),
      h1 3 (by norm_num) (by norm_num)]
    simp [smallest, inverseSquare]
  · rw [h0, h1 0 (by norm_num) (by norm_num), h1 2 (by norm_num) (by norm_num),
      h1 3 (by norm_num) (by norm_num)]
    simp [smallest, inverseSquare]
  · rw [h0, h1 0 (by norm_num) (by norm_num), h1 1 (by norm_num) (by norm_num),
      h1 3 (by norm_num) (by norm_num)]
    simp [smallest, inverseSquare]
  · rw [h0, h1 0 (by norm_num) (by norm_num), h1 1 (by norm_num) (by norm_num),
      h1 2 (by norm_num) (by norm_num)]
    simp [smallest, inverseSquare]

theorem march_loaded (C : Numerics α) (mesh : Mesh) (fuel : Nat) (phi : Nat → α) :
    march C mesh fuel FastMarchingMethod.new phi = marchBody C mesh fuel (loadedState phi) :=
  rfl

/-- One pass of the loop over directions that finds a FROZEN neighbour closer
than `dist1` whose own neighbour in the same direction is FROZEN on the far
side. -/
theorem updateDirection_second (mesh : Mesh) (s : FastMarchingMethod α) (node : Nat) (d : α × α)
    (index : Nat) (x y : α) (h : frozenDist mesh s node index = some x) (hx : x < d.1)
    (h2 : frozenDist mesh s (idx (toInt (mesh.neighbours node index))) index = some y)
    (hc : (y ≤ x ∧ x ≥ 0) ∨ (y ≥ x ∧ x ≤ 0)) :
    updateDirection mesh s node d index = (x, y) := by
  unfold frozenDist at h h2
  unfold updateDirection
  simp only [test_frozen]
  split_ifs at h h2 with c1 c2
  simp only [Option.some.injEq] at h h2
  subst h h2
  rw [if_pos c1.1, if_pos c1.2, if_pos hx, if_pos c2.1, if_pos c2.2, if_pos hc]

/-- A dimension with one FROZEN neighbour whose own neighbour in the same
direction is FROZEN on the far side ends with both distances. -/
theorem axisDists_double (C : Numerics α) (mesh : Mesh) (s : FastMarchingMethod α)
    (node i j k : Nat) (hjk : (j = 2 * i ∧ k = 2 * i + 1) ∨ (j = 2 * i + 1 ∧ k = 2 * i)) (x y : α)
    (h : frozenDist mesh s node j = some x) (hx : x < C.maxDouble)
    (h2 : frozenDist mesh s (idx (toInt (mesh.neighbours node j))) j = some y)
    (hc : (y ≤ x ∧ x ≥ 0) ∨ (y ≥ x ∧ x ≤ 0))
    (hk : frozenDist mesh s node k = none) :
    axisDists C mesh s node i = (x, y) := by
  unfold axisDists
  rcases hjk with ⟨rfl, rfl⟩ | ⟨rfl, rfl⟩
  · rw [updateDirection_second mesh s node _ _ x y h hx h2 hc,
      updateDirection_none mesh s node _ _ hk]
  · rw [updateDirection_none mesh s node _ _ hk,
      updateDirection_second mesh s node _ _ x y h hx h2 hc]

/-- The quadratic of a single second-order term. -/
theorem solveQuadratic_second (C : Numerics α) (hC : C.Exact) (s : FastMarchingMethod α)
    (node : Nat) (tp : α) :
    solveQuadratic C s node (0 + 9 / 4) (0 - 2 * (9 / 4) * tp) (0 + 9 / 4 * tp * tp) =
      if s.signedDistanceCopy node > C.doubleEpsilon then tp + 2 / 3 else tp - 2 / 3 := by
  unfold solveQuadratic
  have hdet : (0 - 2 * (9 / 4) * tp) * (0 - 2 * (9 / 4) * tp) -
      4 * (0 + 9 / 4) * (0 + 9 / 4 * tp * tp - 1) = 9 := by ring
  have hs : C.sqrt 9 = 3 := sqrt_unique C hC 9 3 (by norm_num) (by norm_num)
  simp only [hdet, hs]
  rw [if_pos (by norm_num)]
  split_ifs <;> ring

/-- The stencil of a node with one first-order term `v` in the x dimension and
nothing in the y dimension. -/
theorem updateNode_first (C : Numerics α) (hC : C.Exact) (mesh : Mesh)
    (s : FastMarchingMethod α) (node : Nat) (v : α) (hv : v < C.maxDouble)
    (hx : axisDists C mesh s node 0 = (v, C.maxDouble))
    (hy : axisDists C mesh s node 1 = (C.maxDouble, C.maxDouble)) :
    updateNode C mesh s node =
      if s.signedDistanceCopy node > C.doubleEpsilon then v + 1 else v - 1 := by
  unfold updateNode stencilCoeffs addAxis
  rw [hx, hy]
  simp only [lt_irrefl, if_false, hv, if_true]
  have := solveQuadratic_unit C hC s node v
  rw [← this]
  congr 1
  ring

/-- The stencil of a node with one second-order term in the x dimension and
nothing in the y dimension. -/
theorem updateNode_second (C : Numerics α) (hC : C.Exact) (mesh : Mesh)
    (s : FastMarchingMethod α) (node : Nat) (x y : α) (hy2 : y < C.maxDouble)
    (hx : axisDists C mesh s node 0 = (x, y))
    (hy : axisDists C mesh s node 1 = (C.maxDouble, C.maxDouble)) :
    updateNode C mesh s node =
      if s.signedDistanceCopy node > C.doubleEpsilon then 1 / 3 * (4 * x - y) + 2 / 3
      else 1 / 3 * (4 * x - y) - 2 / 3 := by
  unfold updateNode stencilCoeffs addAxis
  rw [hx, hy]
  simp only [lt_irrefl, if_false, hy2, if_true]
  exact solveQuadratic_second C hC s node _
/-- A neighbour in the domain of a node of a planar field is a node whose
value differs by at most one unit. -/
theorem plane_neighbour (C : Numerics α) (mesh : Mesh) (hm : mesh.Valid) (phi : Nat → α)
    (hp : Planar C mesh phi) (i j : Nat) (hi : i < mesh.nNodes) (hj : j < 4)
    (hn : toInt (mesh.neighbours i j) ≠ -1) :
    idx (toInt (mesh.neighbours i j)) < mesh.nNodes ∧
    toUInt (toInt (mesh.neighbours i j)) = idx (toInt (mesh.neighbours i j)) ∧
    |phi (idx (toInt (mesh.neighbours i j)))| ≤ |phi i| + 1 ∧
    |phi i| ≤ |phi (idx (toInt (mesh.neighbours i j)))| + 1 := by
  obtain ⟨k1, k2, _⟩ := (neighbour_cases mesh hm i j hi hj).resolve_left hn
  obtain ⟨_, _, p0, p1, p2, p3, _⟩ := hp.2.2 i hi
  refine ⟨k1, k2, ?_⟩
  have key : phi (idx (toInt (mesh.neighbours i j))) = phi i - 1 ∨
      phi (idx (toInt (mesh.neighbours i j))) = phi i + 1 ∨
      phi (idx (toInt (mesh.neighbours i j))) = phi i := by
    interval_cases j
    · exact Or.inl (p0 hn)
    · exact Or.inr (Or.inl (p1 hn))
    · exact Or.inr (Or.inr (p2 hn))
    · exact Or.inr (Or.inr (p3 hn))
  have h1 := abs_sub_abs_le_abs_sub (phi (idx (toInt (mesh.neighbours i j)))) (phi i)
  have h2 := abs_sub_abs_le_abs_sub (phi i) (phi (idx (toInt (mesh.neighbours i j))))
  rcases key with e | e | e
  · rw [e] at h1 h2 ⊢
    have a1 : |phi i - 1 - phi i| = 1 := by rw [show phi i - 1 - phi i = -1 by ring]; simp
    have a2 : |phi i - (phi i - 1)| = 1 := by rw [show phi i - (phi i - 1) = 1 by ring]; simp
    rw [a1] at h1; rw [a2] at h2
    constructor <;> linarith
  · rw [e] at h1 h2 ⊢
    have a1 : |phi i + 1 - phi i| = 1 := by rw [show phi i + 1 - phi i = 1 by ring]; simp
    have a2 : |phi i - (phi i + 1)| = 1 := by rw [show phi i - (phi i + 1) = -1 by ring]; simp
    rw [a1] at h1; rw [a2] at h2
    constructor <;> linarith
  · rw [e]
    constructor <;> linarith

/-- A neighbour at least as far from the zero level as a node that is not
FROZEN is not FROZEN either. -/
theorem plane_far_none (mesh : Mesh) (hm : mesh.Valid) (phi : Nat → α)
    (s : FastMarchingMethod α) (hl : PlaneLevel mesh phi s) (k j : Nat)
    (hk : k < mesh.nNodes) (hj : j < 4) (hnf : s.nodeStatus k ≠ .FROZEN)
    (hfar : toInt (mesh.neighbours k j) ≠ -1 →
      |phi k| ≤ |phi (idx (toInt (mesh.neighbours k j)))|) :
    frozenDist mesh s k j = none := by
  unfold frozenDist
  rw [if_neg]
  rintro ⟨h1, h2⟩
  have hlt := ((neighbour_cases mesh hm k j hk hj).resolve_left h1).1
  exact hnf (hl.2.1 _ k hlt hk h2 (hfar h1))

/-- On a planar field, `updateNode` gives a node that is not FROZEN and lies
at most one unit beyond a FROZEN node its value of the field. -/
theorem plane_stencil (C : Numerics α) (hC : C.Exact) (he0 : 0 ≤ C.doubleEpsilon)
    (he1 : C.doubleEpsilon < 1) (mesh : Mesh) (hm : mesh.Valid) (phi : Nat → α)
    (hp : Planar C mesh phi) (s : FastMarchingMethod α) (hl : PlaneLevel mesh phi s)
    (k : Nat) (hk : k < mesh.nNodes) (hnf : s.nodeStatus k ≠ .FROZEN)
    (hj : ∃ j, j < mesh.nNodes ∧ s.nodeStatus j = .FROZEN ∧ |phi k| ≤ |phi j| + 1) :
    updateNode C mesh s k = phi k := by
  obtain ⟨j, hjn, hjf, hjk⟩ := hj
  obtain ⟨hmax, _, hnb⟩ := hp
  obtain ⟨q0, q1, p0, p1, p2, p3, _⟩ := hnb k hk
  have hk1 : 1 ≤ |phi k| := by
    by_contra h
    exact hnf (hl.2.2 k hk (not_le.1 h))
  have hcp : s.signedDistanceCopy k = phi k := (hl.1 k hk).2
  have v2 : frozenDist mesh s k (2 * 1) = none :=
    plane_far_none mesh hm phi s hl k 2 hk (by norm_num) hnf (fun h => by rw [p2 h])
  have v3 : frozenDist mesh s k (2 * 1 + 1) = none :=
    plane_far_none mesh hm phi s hl k 3 hk (by norm_num) hnf (fun h => by rw [p3 h])
  have hy := axisDists_none C mesh s k 1 v2 v3
  rcases le_abs'.1 hk1 with hneg | hpos
  · -- the node lies at or below -1: the neighbour towards the zero level is the right one
    have hin : toInt (mesh.neighbours k 1) ≠ -1 := fun h => by
      have := q1 h; linarith
    obtain ⟨tn, _⟩ := (neighbour_cases mesh hm k 1 hk (by norm_num)).resolve_left hin
    have ht := p1 hin
    have habs : |phi k| = -phi k := abs_of_nonpos (by linarith)
    have htf : s.nodeStatus (idx (toInt (mesh.neighbours k 1))) = .FROZEN := by
      apply hl.2.1 j _ hjn tn hjf
      rw [ht, abs_of_nonpos (by linarith)]
      rw [habs] at hjk
      linarith
    have f1 : frozenDist mesh s k (2 * 0 + 1) = some (phi k + 1) := by
      unfold frozenDist
      rw [if_pos ⟨hin, htf⟩, (hl.1 _ tn).1, ht]
    have f0 : frozenDist mesh s k (2 * 0) = none :=
      plane_far_none mesh hm phi s hl k 0 hk (by norm_num) hnf (fun h => by
        rw [p0 h, habs, abs_of_nonpos (by linarith)]; linarith)
    have hxm : phi k + 1 < C.maxDouble := by rw [← ht]; exact hmax _ tn
    rcases h2 : frozenDist mesh s (idx (toInt (mesh.neighbours k 1))) (2 * 0 + 1) with _ | y
    · have hx := axisDists_single C mesh s k 0 (2 * 0 + 1) (2 * 0) (Or.inr ⟨rfl, rfl⟩) _ f1 hxm
        h2 f0
      rw [updateNode_first C hC mesh s k _ hxm hx hy, hcp, if_neg (by linarith)]
      ring
    · have hy0 : y = phi k + 2 := by
        unfold frozenDist at h2
        split_ifs at h2 with c
        simp only [Option.some.injEq] at h2
        obtain ⟨tn2, _⟩ := (neighbour_cases mesh hm _ 1 tn (by norm_num)).resolve_left c.1
        rw [← h2, (hl.1 _ tn2).1, (hnb _ tn).2.2.2.1 c.1, ht]
        ring
      have hym : y < C.maxDouble := by
        unfold frozenDist at h2
        split_ifs at h2 with c
        simp only [Option.some.injEq] at h2
        obtain ⟨tn2, _⟩ := (neighbour_cases mesh hm _ 1 tn (by norm_num)).resolve_left c.1
        rw [← h2, (hl.1 _ tn2).1]
        exact hmax _ tn2
      have hx := axisDists_double C mesh s k 0 (2 * 0 + 1) (2 * 0) (Or.inr ⟨rfl, rfl⟩) _ y f1 hxm
        h2 (Or.inr ⟨by rw [hy0]; linarith, by linarith⟩) f0
      rw [updateNode_second C hC mesh s k _ y hym hx hy, hcp, if_neg (by linarith), hy0]
      ring
  · -- the node lies at or above 1: the neighbour towards the zero level is the left one
    have hin : toInt (mesh.neighbours k 0) ≠ -1 := fun h => by
      have := q0 h; linarith
    obtain ⟨tn, _⟩ := (neighbour_cases mesh hm k 0 hk (by norm_num)).resolve_left hin
    have ht := p0 hin
    have habs : |phi k| = phi k := abs_of_nonneg (by linarith)
    have htf : s.nodeStatus (idx (toInt (mesh.neighbours k 0))) = .FROZEN := by
      apply hl.2.1 j _ hjn tn hjf
      rw [ht, abs_of_nonneg (by linarith)]
      rw [habs] at hjk
      linarith
    have f0 : frozenDist mesh s k (2 * 0) = some (phi k - 1) := by
      unfold frozenDist
      rw [if_pos ⟨hin, htf⟩, (hl.1 _ tn).1, ht]
    have f1 : frozenDist mesh s k (2 * 0 + 1) = none :=
      plane_far_none mesh hm phi s hl k 1 hk (by norm_num) hnf (fun h => by
        rw [p1 h, habs, abs_of_nonneg (by linarith)]; linarith)
    have hxm : phi k - 1 < C.maxDouble := by rw [← ht]; exact hmax _ tn
    rcases h2 : frozenDist mesh s (idx (toInt (mesh.neighbours k 0))) (2 * 0) with _ | y
    · have hx := axisDists_single C mesh s k 0 (2 * 0) (2 * 0 + 1) (Or.inl ⟨rfl, rfl⟩) _ f0 hxm
        h2 f1
      rw [updateNode_first C hC mesh s k _ hxm hx hy, hcp, if_pos (by linarith)]
      ring
    · have hy0 : y = phi k - 2 := by
        unfold frozenDist at h2
        split_ifs at h2 with c
        simp only [Option.some.injEq] at h2
        obtain ⟨tn2, _⟩ := (neighbour_cases mesh hm _ 0 tn (by norm_num)).resolve_left c.1
        rw [← h2, (hl.1 _ tn2).1, (hnb _ tn).2.2.1 c.1, ht]
        ring
      have hym : y < C.maxDouble := by
        unfold frozenDist at h2
        split_ifs at h2 with c
        simp only [Option.some.injEq] at h2
        obtain ⟨tn2, _⟩ := (neighbour_cases mesh hm _ 0 tn (by norm_num)).resolve_left c.1
        rw [← h2, (hl.1 _ tn2).1]
        exact hmax _ tn2
      have hx := axisDists_double C mesh s k 0 (2 * 0) (2 * 0 + 1) (Or.inl ⟨rfl, rfl⟩) _ y f0 hxm
        h2 (Or.inl ⟨by rw [hy0]; linarith, by linarith⟩) f1
      rw [updateNode_second C hC mesh s k _ y hym hx hy, hcp, if_pos (by linarith), hy0]
      ring
/-- Writing the value of the field again keeps the invariant. -/
theorem plane_write (mesh : Mesh) (phi : Nat → α) (s : FastMarchingMethod α)
    (hinv : PlaneInv mesh phi s) (x : Nat) :
    PlaneInv mesh phi { s with signedDistance := Function.update s.signedDistance x (phi x) } := by
  obtain ⟨⟨l1, l2, l3⟩, h2, h3, h4, h5, h6, h7⟩ := hinv
  refine ⟨⟨fun i hi => ⟨?_, (l1 i hi).2⟩, l2, l3⟩, h2, h3, h4, h5, h6, h7⟩
  show Function.update s.signedDistance x (phi x) i = phi i
  by_cases h : i = x
  · subst h; simp
  · rw [Function.update_noteq h]; exact (l1 i hi).1

/-- Setting the key of the entry of a TRIAL node to the magnitude of the field
keeps the invariant. -/
theorem plane_set (mesh : Mesh) (phi : Nat → α) (s : FastMarchingMethod α)
    (hinv : PlaneInv mesh phi s) (x : Nat) (hx : x < mesh.nNodes)
    (ht : s.nodeStatus x = .TRIAL) :
    PlaneInv mesh phi { s with heap := s.heap.set (s.heapPtr x) |phi x| } := by
  obtain ⟨hl, h2, h3, h4, h5, h6, h7⟩ := hinv
  obtain ⟨k1, _, _, _⟩ := relaxes_set mesh s (s.heapPtr x) |phi x|
  obtain ⟨_, a2, a3⟩ := k1 h4
  refine ⟨hl, h2, h3, a2, a3 h5, ?_, h7⟩
  intro e he
  simp only [Heap.set, List.mem_map] at he
  obtain ⟨y, hy, hye⟩ := he
  by_cases hh : y.handle = s.heapPtr x
  · rw [if_pos hh] at hye
    obtain ⟨z, hz, hzx⟩ := h5 x hx ht
    have hzy : z = y := by
      by_contra hne
      have := (heapInv_unique h4 hz hy hne).2
      apply this
      rw [hh, ← hzx]
      exact ((h4.1 z hz).2.2.1).symm
    subst hye
    show |phi x| = |phi y.address|
    rw [← hzy, hzx]
  · rw [if_neg hh] at hye
    subst hye
    exact h6 y hy

/-- Pushing a NONE node that lies at most one unit beyond a FROZEN node, with
the magnitude of the field as key, keeps the invariant. -/
theorem plane_push (mesh : Mesh) (phi : Nat → α) (s : FastMarchingMethod α)
    (hinv : PlaneInv mesh phi s) (x : Nat) (hx : x < mesh.nNodes)
    (hn : s.nodeStatus x = .NONE)
    (hj : ∃ j, j < mesh.nNodes ∧ s.nodeStatus j = .FROZEN ∧ |phi x| ≤ |phi j| + 1) :
    PlaneInv mesh phi
      { s with nodeStatus := Function.update s.nodeStatus x .TRIAL
               heap := (s.heap.push x |phi x|).1
               heapPtr := Function.update s.heapPtr x (s.heap.push x |phi x|).2 } := by
  obtain ⟨⟨l1, l2, l3⟩, h2, h3, h4, h5, h6, h7⟩ := hinv
  obtain ⟨k1, _, _, _⟩ := relaxes_push mesh s x |phi x| hx hn
  obtain ⟨_, a2, a3⟩ := k1 h4
  have hst : ∀ i, Function.update s.nodeStatus x .TRIAL i = .FROZEN ↔ s.nodeStatus i = .FROZEN := by
    intro i
    by_cases h : i = x
    · subst h; simp [hn]
    · rw [Function.update_noteq h]
  refine ⟨⟨l1, ?_, ?_⟩, ?_, ?_, a2, a3 h5, ?_, h7⟩
  · intro i j hi hj hf hle
    exact (hst j).2 (l2 i j hi hj ((hst i).1 hf) hle)
  · intro i hi hlt
    exact (hst i).2 (l3 i hi hlt)
  · intro i hi
    show Function.update s.nodeStatus x .TRIAL i ≠ .MASKED
    by_cases h : i = x
    · subst h; simp
    · rw [Function.update_noteq h]; exact h2 i hi
  · intro i hi hti
    change Function.update s.nodeStatus x .TRIAL i = .TRIAL at hti
    by_cases h : i = x
    · subst h
      obtain ⟨j, j1, j2, j3⟩ := hj
      exact ⟨j, j1, (hst j).2 j2, j3⟩
    · rw [Function.update_noteq h] at hti
      obtain ⟨j, j1, j2, j3⟩ := h3 i hi hti
      exact ⟨j, j1, (hst j).2 j2, j3⟩
  · intro e he
    simp only [Heap.push, List.mem_append, List.mem_singleton] at he
    rcases he with he | he
    · exact h6 e he
    · subst he; rfl
/-- One neighbour update of `solve` on a planar field, from a FROZEN node: the
invariant is kept, the FROZEN nodes are the same, a TRIAL node stays TRIAL,
and the neighbour, if there is one, is FROZEN or TRIAL afterwards. -/
theorem plane_relax (C : Numerics α) (hC : C.Exact) (he0 : 0 ≤ C.doubleEpsilon)
    (he1 : C.doubleEpsilon < 1) (mesh : Mesh) (hm : mesh.Valid) (phi : Nat → α)
    (hp : Planar C mesh phi) (a j : Nat) (ha : a < mesh.nNodes) (hj : j < 4)
    (s : FastMarchingMethod α) (hinv : PlaneInv mesh phi s) (haf : s.nodeStatus a = .FROZEN) :
    PlaneInv mesh phi (relax C mesh a s j) ∧
    (∀ i, (relax C mesh a s j).nodeStatus i = .FROZEN ↔ s.nodeStatus i = .FROZEN) ∧
    (∀ i, s.nodeStatus i = .TRIAL → (relax C mesh a s j).nodeStatus i = .TRIAL) ∧
    (toInt (mesh.neighbours a j) ≠ -1 →
      (relax C mesh a s j).nodeStatus (idx (toInt (mesh.neighbours a j))) = .FROZEN ∨
      (relax C mesh a s j).nodeStatus (idx (toInt (mesh.neighbours a j))) = .TRIAL) := by
  suffices h : ∀ t, relax C mesh a s j = t →
      PlaneInv mesh phi t ∧ (∀ i, t.nodeStatus i = .FROZEN ↔ s.nodeStatus i = .FROZEN) ∧
      (∀ i, s.nodeStatus i = .TRIAL → t.nodeStatus i = .TRIAL) ∧
      (toInt (mesh.neighbours a j) ≠ -1 →
        t.nodeStatus (idx (toInt (mesh.neighbours a j))) = .FROZEN ∨
        t.nodeStatus (idx (toInt (mesh.neighbours a j))) = .TRIAL) from h _ rfl
  intro t et
  unfold relax at et
  simp only [test_trial] at et
  by_cases hn1 : toInt (mesh.neighbours a j) = -1
  · simp only [ne_eq, hn1, not_true_eq_false, if_false] at et
    subst et
    exact ⟨hinv, fun _ => Iff.rfl, fun _ h => h, fun h => absurd hn1 h⟩
  obtain ⟨k1, k2, k3, _⟩ := plane_neighbour C mesh hm phi hp a j ha hj hn1
  simp only [ne_eq, hn1, not_false_eq_true, if_true] at et
  generalize idx (toInt (mesh.neighbours a j)) = k at k1 k2 k3 et ⊢
  rw [k2] at et
  have hone : ∀ x, x < mesh.nNodes → s.nodeStatus x ≠ .FROZEN → phi x ≠ 0 := by
    intro x hx hnf h0
    exact hnf (hinv.1.2.2 x hx (by rw [h0]; simp))
  by_cases hf : s.nodeStatus k = .FROZEN
  · simp only [hf, not_true_eq_false, if_false] at et
    by_cases hn2 : toInt (mesh.neighbours k j) = -1
    · simp only [hn2, not_true_eq_false, if_false] at et
      subst et
      exact ⟨hinv, fun _ => Iff.rfl, fun _ h => h, fun _ => Or.inl hf⟩
    obtain ⟨m1, m2, _⟩ := plane_neighbour C mesh hm phi hp k j k1 hj hn2
    simp only [hn2, not_false_eq_true, if_true] at et
    generalize idx (toInt (mesh.neighbours k j)) = m at m1 m2 et
    rw [m2] at et
    by_cases ht : s.nodeStatus m = .TRIAL
    · simp only [ht, if_true] at et
      have hnf : s.nodeStatus m ≠ .FROZEN := by rw [ht]; decide
      have hd : updateNode C mesh s m = phi m :=
        plane_stencil C hC he0 he1 mesh hm phi hp s hinv.1 m m1 hnf (hinv.2.2.1 m m1 ht)
      rw [hd] at et
      simp only [hone m m1 hnf, not_false_eq_true, if_true] at et
      subst et
      exact ⟨plane_set mesh phi _ (plane_write mesh phi s hinv m) m m1 ht,
        fun _ => Iff.rfl, fun _ h => h, fun _ => Or.inl hf⟩
    · simp only [ht, if_false] at et
      subst et
      exact ⟨hinv, fun _ => Iff.rfl, fun _ h => h, fun _ => Or.inl hf⟩
  · simp only [hf, not_false_eq_true, if_true] at et
    have hex : ∃ j, j < mesh.nNodes ∧ s.nodeStatus j = .FROZEN ∧ |phi k| ≤ |phi j| + 1 :=
      ⟨a, ha, haf, k3⟩
    have hd : updateNode C mesh s k = phi k :=
      plane_stencil C hC he0 he1 mesh hm phi hp s hinv.1 k k1 hf hex
    rw [hd] at et
    simp only [hone k k1 hf, not_false_eq_true, if_true] at et
    by_cases ht : s.nodeStatus k = .TRIAL
    · simp only [ht, if_true] at et
      subst et
      exact ⟨plane_set mesh phi _ (plane_write mesh phi s hinv k) k k1 ht,
        fun _ => Iff.rfl, fun _ h => h, fun _ => Or.inr ht⟩
    · simp only [ht, if_false] at et
      have hnone : s.nodeStatus k = .NONE := by
        have := hinv.2.1 k k1
        revert this hf ht
        cases s.nodeStatus k <;> simp
      simp only [hnone, if_true] at et
      subst et
      refine ⟨plane_push mesh phi _ (plane_write mesh phi s hinv k) k k1 hnone hex, ?_, ?_, ?_⟩
      · intro i
        show Function.update s.nodeStatus k .TRIAL i = .FROZEN ↔ _
        by_cases h : i = k
        · subst h; simp [hnone]
        · rw [Function.update_noteq h]
      · intro i hi
        show Function.update s.nodeStatus k .TRIAL i = .TRIAL
        by_cases h : i = k
        · subst h; simp
        · rw [Function.update_noteq h]; exact hi
      · intro _
        right
        show Function.update s.nodeStatus k .TRIAL k = .TRIAL
        simp
theorem planeStep_trans {mesh : Mesh} {phi : Nat → α} {s t u : FastMarchingMethod α}
    (h1 : PlaneStep mesh phi s t) (h2 : PlaneStep mesh phi t u) : PlaneStep mesh phi s u :=
  ⟨h2.1, fun i => (h2.2.1 i).trans (h1.2.1 i), fun i h => h2.2.2 i (h1.2.2 i h)⟩

theorem planeStep_reached {mesh : Mesh} {phi : Nat → α} {s t : FastMarchingMethod α}
    (h : PlaneStep mesh phi s t) (x : Nat)
    (hx : s.nodeStatus x = .FROZEN ∨ s.nodeStatus x = .TRIAL) :
    t.nodeStatus x = .FROZEN ∨ t.nodeStatus x = .TRIAL := by
  rcases hx with hx | hx
  · exact Or.inl ((h.2.1 x).2 hx)
  · exact Or.inr (h.2.2 x hx)

/-- The four neighbour updates of `solve` from one FROZEN node of a planar
field. -/
theorem plane_relax_node (C : Numerics α) (hC : C.Exact) (he0 : 0 ≤ C.doubleEpsilon)
    (he1 : C.doubleEpsilon < 1) (mesh : Mesh) (hm : mesh.Valid) (phi : Nat → α)
    (hp : Planar C mesh phi) (a : Nat) (ha : a < mesh.nNodes)
    (s : FastMarchingMethod α) (hinv : PlaneInv mesh phi s) (haf : s.nodeStatus a = .FROZEN) :
    PlaneStep mesh phi s ((List.range 4).foldl (relax C mesh a) s) ∧
    ∀ j, j < 4 → toInt (mesh.neighbours a j) ≠ -1 →
      ((List.range 4).foldl (relax C mesh a) s).nodeStatus (idx (toInt (mesh.neighbours a j)))
          = .FROZEN ∨
      ((List.range 4).foldl (relax C mesh a) s).nodeStatus (idx (toInt (mesh.neighbours a j)))
          = .TRIAL := by
  have hr : List.range 4 = [0, 1, 2, 3] := by decide
  rw [hr]
  simp only [List.foldl_cons, List.foldl_nil]
  obtain ⟨a1, a2, a3, a4⟩ := plane_relax C hC he0 he1 mesh hm phi hp a 0 ha (by norm_num) s hinv haf
  have s1 : PlaneStep mesh phi s (relax C mesh a s 0) := ⟨a1, a2, a3⟩
  obtain ⟨b1, b2, b3, b4⟩ := plane_relax C hC he0 he1 mesh hm phi hp a 1 ha (by norm_num) _ a1
    ((a2 a).2 haf)
  have s2 : PlaneStep mesh phi (relax C mesh a s 0) (relax C mesh a (relax C mesh a s 0) 1) :=
    ⟨b1, b2, b3⟩
  obtain ⟨c1, c2, c3, c4⟩ := plane_relax C hC he0 he1 mesh hm phi hp a 2 ha (by norm_num) _ b1
    ((b2 a).2 ((a2 a).2 haf))
  have s3 : PlaneStep mesh phi (relax C mesh a (relax C mesh a s 0) 1)
      (relax C mesh a (relax C mesh a (relax C mesh a s 0) 1) 2) := ⟨c1, c2, c3⟩
  obtain ⟨d1, d2, d3, d4⟩ := plane_relax C hC he0 he1 mesh hm phi hp a 3 ha (by norm_num) _ c1
    ((c2 a).2 ((b2 a).2 ((a2 a).2 haf)))
  have s4 : PlaneStep mesh phi (relax C mesh a (relax C mesh a (relax C mesh a s 0) 1) 2)
      (relax C mesh a (relax C mesh a (relax C mesh a (relax C mesh a s 0) 1) 2) 3) :=
    ⟨d1, d2, d3⟩
  refine ⟨planeStep_trans (planeStep_trans (planeStep_trans s1 s2) s3) s4, ?_⟩
  intro j hj hn
  interval_cases j
  · exact planeStep_reached s4 _ (planeStep_reached s3 _ (planeStep_reached s2 _ (a4 hn)))
  · exact planeStep_reached s4 _ (planeStep_reached s3 _ (b4 hn))
  · exact planeStep_reached s4 _ (c4 hn)
  · exact d4 hn

/-- The loop over the nodes frozen in one pass of `solve` on a planar field:
the invariant is kept, nothing is frozen, and every neighbour of a node of the
list is FROZEN or TRIAL afterwards. -/
theorem plane_relaxAll (C : Numerics α) (hC : C.Exact) (he0 : 0 ≤ C.doubleEpsilon)
    (he1 : C.doubleEpsilon < 1) (mesh : Mesh) (hm : mesh.Valid) (phi : Nat → α)
    (hp : Planar C mesh phi) (tf : List Nat) :
    ∀ s : FastMarchingMethod α, PlaneInv mesh phi s →
      (∀ a ∈ tf, a < mesh.nNodes ∧ s.nodeStatus a = .FROZEN) →
      PlaneStep mesh phi s (relaxAll C mesh tf s) ∧
      ∀ a ∈ tf, ∀ j, j < 4 → toInt (mesh.neighbours a j) ≠ -1 →
        (relaxAll C mesh tf s).nodeStatus (idx (toInt (mesh.neighbours a j))) = .FROZEN ∨
        (relaxAll C mesh tf s).nodeStatus (idx (toInt (mesh.neighbours a j))) = .TRIAL := by
  induction tf with
  | nil =>
    intro s hinv _
    exact ⟨⟨hinv, fun _ => Iff.rfl, fun _ h => h⟩, fun a ha => absurd ha (List.not_mem_nil a)⟩
  | cons a l ih =>
    intro s hinv h
    obtain ⟨ha, haf⟩ := h a (List.mem_cons_self _ _)
    obtain ⟨n1, n2⟩ := plane_relax_node C hC he0 he1 mesh hm phi hp a ha s hinv haf
    have hl : ∀ b ∈ l, b < mesh.nNodes ∧
        ((List.range 4).foldl (relax C mesh a) s).nodeStatus b = .FROZEN := by
      intro b hb
      obtain ⟨hb1, hb2⟩ := h b (List.mem_cons_of_mem _ hb)
      exact ⟨hb1, (n1.2.1 b).2 hb2⟩
    obtain ⟨r1, r2⟩ := ih _ n1.1 hl
    have e : relaxAll C mesh (a :: l) s =
        relaxAll C mesh l ((List.range 4).foldl (relax C mesh a) s) := by
      unfold relaxAll
      rw [List.foldl_cons]
    rw [e]
    refine ⟨planeStep_trans n1 r1, ?_⟩
    intro b hb j hj hn
    rcases List.mem_cons.1 hb with hba | hbl
    · subst hba
      exact planeStep_reached r1 _ (n2 j hj hn)
    · exact r2 b hbl j hj hn
/-- The neighbour of a node at least one unit from the zero level of a planar
field that lies towards the zero level. -/
theorem plane_toward (C : Numerics α) (mesh : Mesh) (hm : mesh.Valid) (phi : Nat → α)
    (hp : Planar C mesh phi) (i : Nat) (hi : i < mesh.nNodes) (h1 : 1 ≤ |phi i|) :
    ∃ x j ji, x < mesh.nNodes ∧ j < 4 ∧ ji < 4 ∧ |phi x| = |phi i| - 1 ∧
      toInt (mesh.neighbours x j) ≠ -1 ∧ idx (toInt (mesh.neighbours x j)) = i ∧
      toInt (mesh.neighbours i ji) ≠ -1 ∧ idx (toInt (mesh.neighbours i ji)) = x := by
  obtain ⟨q0, q1, p0, p1, _, _, r0, r1⟩ := hp.2.2 i hi
  rcases le_abs'.1 h1 with hneg | hpos
  · have hin : toInt (mesh.neighbours i 1) ≠ -1 := fun h => by
      have := q1 h; linarith
    obtain ⟨tn, _⟩ := (neighbour_cases mesh hm i 1 hi (by norm_num)).resolve_left hin
    refine ⟨_, 0, 1, tn, by norm_num, by norm_num, ?_, (r1 hin).1, (r1 hin).2, hin, rfl⟩
    rw [p1 hin, abs_of_nonpos (by linarith), abs_of_nonpos (by linarith)]
    ring
  · have hin : toInt (mesh.neighbours i 0) ≠ -1 := fun h => by
      have := q0 h; linarith
    obtain ⟨tn, _⟩ := (neighbour_cases mesh hm i 0 hi (by norm_num)).resolve_left hin
    refine ⟨_, 1, 0, tn, by norm_num, by norm_num, ?_, (r0 hin).1, (r0 hin).2, hin, rfl⟩
    rw [p0 hin, abs_of_nonneg (by linarith), abs_of_nonneg (by linarith)]

/-- The start of the pops. -/
theorem planePopped_refl (mesh : Mesh) (phi : Nat → α) (k : α) (s : FastMarchingMethod α)
    (hinv : PlaneInv mesh phi s) : PlanePopped mesh phi k s s [] :=
  ⟨hinv.1.1, fun _ => Or.inl rfl, fun a ha => absurd ha (List.not_mem_nil a), hinv.2.2.2.1,
    hinv.2.2.2.2.1, fun _ h => h, hinv.2.2.2.2.2.2⟩

/-- One pop of an entry of key `k`, followed by the freezing of the node. -/
theorem planePopped_step (mesh : Mesh) (phi : Nat → α) (k : α) (s u : FastMarchingMethod α)
    (tf : List Nat) (hinv : PlaneInv mesh phi s) (hps : PlanePopped mesh phi k s u tf)
    (hne : u.heap.empty = false) (hpeek : u.heap.peek = k) :
    ∃ u', freeze mesh (popHeap u).1 tf (popHeap u).2.1 = .ok (u', tf ++ [(popHeap u).2.1]) ∧
      PlanePopped mesh phi k s u' (tf ++ [(popHeap u).2.1]) := by
  obtain ⟨c1, c2, c3, c4, c5, c6, c7⟩ := hps
  obtain ⟨e, hmem, hmin, p1, p2, p3, p4, p5, p6, hfr⟩ := pop_freeze mesh u tf hne c4
  have hfz := freeze_plain mesh (popHeap u).1 tf (popHeap u).2.1 c7
  obtain ⟨g1, g2, g3, g4, g5, g6, g7, g8, g9⟩ := hfr _ _ hfz
  refine ⟨_, hfz, ?_⟩
  have hes : e ∈ s.heap.entries := c6 e hmem
  have hke : |phi e.address| = k := by
    rw [← hinv.2.2.2.2.2.1 e hes, ← p3, hpeek]
  have hst : s.nodeStatus e.address = .TRIAL := by
    rcases c2 e.address with h | h
    · rw [← h]; exact p5
    · rw [h.1] at p5; exact absurd p5 (by decide)
  refine ⟨fun i hi => c1 i hi, ?_, ?_, g7, g8 c5, ?_, c7⟩
  · intro i
    rw [g4]
    by_cases h : i = e.address
    · subst h
      right
      refine ⟨by simp, hst, hke, by rw [p1]; simp⟩
    · rw [Function.update_noteq h]
      rcases c2 i with h2 | h2
      · exact Or.inl h2
      · exact Or.inr ⟨h2.1, h2.2.1, h2.2.2.1, List.mem_append_left _ h2.2.2.2⟩
  · intro a ha
    rw [g4]
    rw [p1] at ha
    rcases List.mem_append.1 ha with h | h
    · obtain ⟨a1, a2⟩ := c3 a h
      refine ⟨a1, ?_⟩
      by_cases hae : a = e.address
      · subst hae; simp
      · rw [Function.update_noteq hae]; exact a2
    · simp only [List.mem_singleton] at h
      subst h
      exact ⟨p4, by simp⟩
  · intro x hx
    apply c6
    have : x ∈ (popHeap u).1.heap.entries := hx
    unfold popHeap Heap.pop at this
    obtain ⟨e', he', _⟩ := Heap.top_spec u.heap hne
    rw [he'] at this
    exact (List.mem_filter.1 this).1

/-- The loop that pops the ties, on a planar field. -/
theorem planePopped_ties (mesh : Mesh) (phi : Nat → α) (k : α) (s : FastMarchingMethod α)
    (hinv : PlaneInv mesh phi s) (n : Nat) :
    ∀ (u : FastMarchingMethod α) (tf : List Nat), PlanePopped mesh phi k s u tf →
      ∀ v tf', popTies mesh k n (u, tf) = .ok (v, tf') → PlanePopped mesh phi k s v tf' := by
  induction n with
  | zero =>
    intro u tf hps v tf' h
    simp only [popTies, Outcome.ok.injEq, Prod.mk.injEq] at h
    obtain ⟨h1, h2⟩ := h
    subst h1 h2
    exact hps
  | succ n ih =>
    intro u tf hps v tf' h
    unfold popTies at h
    by_cases hc : (!u.heap.empty && k == u.heap.peek) = true
    · simp only [hc, if_true] at h
      simp only [Bool.and_eq_true, Bool.not_eq_true', beq_iff_eq] at hc
      obtain ⟨u', hf, hps'⟩ := planePopped_step mesh phi k s u tf hinv hps hc.1 hc.2.symm
      rw [hf] at h
      simp only [Outcome.bind] at h
      exact ih u' _ hps' v tf' h
    · simp only [hc, if_false, Bool.false_eq_true, Outcome.ok.injEq, Prod.mk.injEq] at h
      obtain ⟨h1, h2⟩ := h
      subst h1 h2
      exact hps
/-- The state at the end of the pops of one pass of `solve` on a planar
field: the invariant holds, and the nodes that were FROZEN or TRIAL still
are. -/
theorem planePopped_inv (mesh : Mesh) (phi : Nat → α) (k : α) (s v : FastMarchingMethod α)
    (tf : List Nat) (hinv : PlaneInv mesh phi s) (hfull : PlaneFull mesh phi s)
    (hk : ∀ x ∈ s.heap.entries, k ≤ x.key) (hps : PlanePopped mesh phi k s v tf)
    (hend : v.heap.empty = true ∨ k ≠ v.heap.peek) :
    PlaneInv mesh phi v ∧
    (∀ i, v.nodeStatus i = .FROZEN → s.nodeStatus i = .FROZEN ∨ i ∈ tf) ∧
    (∀ i, s.nodeStatus i = .FROZEN ∨ s.nodeStatus i = .TRIAL →
      v.nodeStatus i = .FROZEN ∨ v.nodeStatus i = .TRIAL) := by
  obtain ⟨⟨l1, l2, l3⟩, h2, h3, h4, h5, h6, h7⟩ := hinv
  obtain ⟨c1, c2, c3, c4, c5, c6, c7⟩ := hps
  have hkeep : ∀ i, s.nodeStatus i = .FROZEN → v.nodeStatus i = .FROZEN := by
    intro i hi
    rcases c2 i with h | h
    · rw [h]; exact hi
    · exact h.1
  have star : ∀ j, j < mesh.nNodes → s.nodeStatus j = .TRIAL → |phi j| = k →
      v.nodeStatus j = .FROZEN := by
    intro j hj hjt hjk
    rcases c2 j with h | h
    · exfalso
      rw [hjt] at h
      obtain ⟨e', he', hea⟩ := c5 j hj h
      have hne : v.heap.empty = false := by
        unfold Heap.empty
        cases hl : v.heap.entries with
        | nil => rw [hl] at he'; simp at he'
        | cons a l => rfl
      obtain ⟨top, htop, hmem, hmin⟩ := Heap.top_spec v.heap hne
      have hpk := Heap.peek_spec v.heap top htop
      rcases hend with he | he
      · rw [hne] at he; simp at he
      · apply he
        rw [hpk]
        apply le_antisymm (hk top (c6 top hmem))
        have := hmin e' he'
        rw [h6 e' (c6 e' he'), hea, hjk] at this
        exact this
    · exact h.1
  refine ⟨⟨⟨c1, ?_, fun i hi hlt => hkeep i (l3 i hi hlt)⟩, ?_, ?_, c4, c5,
    fun e he => h6 e (c6 e he), c7⟩, ?_, ?_⟩
  · intro i j hi hj hf hle
    by_cases hjs : s.nodeStatus j = .FROZEN
    · exact hkeep j hjs
    rcases c2 i with h | h
    · rw [h] at hf
      exact absurd (l2 i j hi hj hf hle) hjs
    · obtain ⟨_, hit, hik, _⟩ := h
      obtain ⟨j0, j1, j2, j3⟩ := h3 i hi hit
      have hjt : s.nodeStatus j = .TRIAL := by
        rcases hfull j j0 hj j1 j2 (le_trans hle j3) with h | h
        · exact absurd h hjs
        · exact h
      obtain ⟨e', he', hea⟩ := h5 j hj hjt
      have hkj : k ≤ |phi j| := by
        have := hk e' he'
        rw [h6 e' he', hea] at this
        exact this
      exact star j hj hjt (le_antisymm (by rw [← hik]; exact hle) hkj)
  · intro i hi
    rcases c2 i with h | h
    · rw [h]; exact h2 i hi
    · rw [h.1]; decide
  · intro i hi hit
    rcases c2 i with h | h
    · rw [h] at hit
      obtain ⟨j0, j1, j2, j3⟩ := h3 i hi hit
      exact ⟨j0, j1, hkeep j0 j2, j3⟩
    · rw [h.1] at hit; exact absurd hit (by decide)
  · intro i hi
    rcases c2 i with h | h
    · rw [h] at hi; exact Or.inl hi
    · exact Or.inr h.2.2.2
  · intro i hi
    rcases c2 i with h | h
    · rw [h]; exact hi
    · exact Or.inl h.1

/-- One pass of the main loop of `solve` on a planar field keeps the
invariant and leaves every node at most one unit beyond a FROZEN node FROZEN
or TRIAL. -/
theorem plane_round (C : Numerics α) (hC : C.Exact) (he0 : 0 ≤ C.doubleEpsilon)
    (he1 : C.doubleEpsilon < 1) (mesh : Mesh) (hm : mesh.Valid) (phi : Nat → α)
    (hp : Planar C mesh phi) (s t : FastMarchingMethod α) (hinv : PlaneInv mesh phi s)
    (hfull : PlaneFull mesh phi s) (hne : s.heap.empty = false)
    (ht : solveRound C mesh s = .ok t) :
    PlaneInv mesh phi t ∧ PlaneFull mesh phi t := by
  obtain ⟨e, hmem, hmin, p1, p2, p3, p4, p5, p6, _⟩ := pop_freeze mesh s [] hne hinv.2.2.2.1
  obtain ⟨u1, hf, hps1⟩ := planePopped_step mesh phi (popHeap s).2.2 s s [] hinv
    (planePopped_refl mesh phi _ s hinv) hne (by rw [p2, p3])
  unfold solveRound at ht
  simp only at ht
  rw [hf] at ht
  simp only [Outcome.bind] at ht
  rcases hpt : popTies mesh (popHeap s).2.2 (popHeap s).1.heap.entries.length
      (u1, [] ++ [(popHeap s).2.1]) with ⟨v, tfv⟩ | _ | _ | _
  · rw [hpt] at ht
    simp only [Outcome.bind, Outcome.ok.injEq] at ht
    have hps := planePopped_ties mesh phi (popHeap s).2.2 s hinv _ u1 _ hps1 v tfv hpt
    have hu1 : u1.heap = (popHeap s).1.heap := by
      have := freeze_plain mesh (popHeap s).1 [] (popHeap s).2.1 hinv.2.2.2.2.2.2
      rw [this] at hf
      simp only [Outcome.ok.injEq, Prod.mk.injEq] at hf
      rw [← hf.1]
    have hend := ((popTies_spec mesh (popHeap s).2.2 (popHeap s).1.heap.entries.length u1 _
      hps1.2.2.2.1).2 v tfv hpt).2.2.2.2.2.2.2.2.2 (by rw [hu1])
    have hk : ∀ x ∈ s.heap.entries, (popHeap s).2.2 ≤ x.key := by
      intro x hx; rw [p2]; exact hmin x hx
    obtain ⟨vinv, vfr, vkeep⟩ := planePopped_inv mesh phi _ s v tfv hinv hfull hk hps hend
    obtain ⟨⟨tinv, tfz, ttr⟩, treach⟩ := plane_relaxAll C hC he0 he1 mesh hm phi hp tfv v vinv
      hps.2.2.1
    rw [ht] at tinv tfz ttr treach
    have tstep : PlaneStep mesh phi v t := ⟨tinv, tfz, ttr⟩
    refine ⟨tinv, ?_⟩
    intro i j hi hj hjf hle
    by_cases hiv : v.nodeStatus i = .FROZEN
    · exact Or.inl ((tfz i).2 hiv)
    have h1 : 1 ≤ |phi i| := by
      by_contra h
      exact hiv (vinv.1.2.2 i hi (not_le.1 h))
    obtain ⟨x, jx, _, hx, hjx, _, hxa, hxn, hxi, _, _⟩ := plane_toward C mesh hm phi hp i hi h1
    have hxf : v.nodeStatus x = .FROZEN :=
      vinv.1.2.1 j x hj hx ((tfz j).1 hjf) (by rw [hxa]; linarith)
    rcases vfr x hxf with hxs | hxt
    · apply planeStep_reached tstep
      apply vkeep
      exact hfull i x hi hx hxs (by rw [hxa]; linarith)
    · have := treach x hxt jx hjx hxn
      rw [hxi] at this
      exact this
  all_goals (rw [hpt] at ht; simp [Outcome.bind] at ht)

/-- The main loop of `solve` on a planar field keeps the invariant. -/
theorem plane_solve (C : Numerics α) (hC : C.Exact) (he0 : 0 ≤ C.doubleEpsilon)
    (he1 : C.doubleEpsilon < 1) (mesh : Mesh) (hm : mesh.Valid) (phi : Nat → α)
    (hp : Planar C mesh phi) (fuel : Nat) :
    ∀ s : FastMarchingMethod α, PlaneInv mesh phi s → PlaneFull mesh phi s →
      ∀ t, solve C mesh fuel s = .ok t → PlaneInv mesh phi t := by
  induction fuel with
  | zero =>
    intro s hinv _ t ht
    unfold solve at ht
    split_ifs at ht
    simp only [Outcome.ok.injEq] at ht
    subst ht
    exact hinv
  | succ n ih =>
    intro s hinv hfull t ht
    unfold solve at ht
    split_ifs at ht with he
    · simp only [Outcome.ok.injEq] at ht
      subst ht
      exact hinv
    · have hne : s.heap.empty = false := by simpa using he
      rcases hu : solveRound C mesh s with u | _ | _ | _
      · rw [hu] at ht
        simp only [Outcome.bind] at ht
        obtain ⟨r1, r2⟩ := plane_round C hC he0 he1 mesh hm phi hp s u hinv hfull hne hu
        exact ih u r1 r2 t ht
      all_goals (rw [hu] at ht; simp [Outcome.bind] at ht)
/-- The crossing fractions of a node of a planar field. -/
theorem plane_fraction (C : Numerics α) (mesh : Mesh) (hm : mesh.Valid) (phi : Nat → α)
    (hp : Planar C mesh phi) (cp : Nat → α) (hcp : ∀ k, k < mesh.nNodes → cp k = phi k)
    (k : Nat) (hk : k < mesh.nNodes) :
    crossingFraction mesh cp k 0 = (if 0 < phi k ∧ phi k < 1 then some (phi k) else none) ∧
    crossingFraction mesh cp k 1 = (if phi k < 0 ∧ -1 < phi k then some (-phi k) else none) ∧
    crossingFraction mesh cp k 2 = none ∧ crossingFraction mesh cp k 3 = none := by
  obtain ⟨q0, q1, p0, p1, p2, p3, _⟩ := hp.2.2 k hk
  have hval : ∀ j, j < 4 → toInt (mesh.neighbours k j) ≠ -1 →
      cp (idx (toInt (mesh.neighbours k j))) = phi (idx (toInt (mesh.neighbours k j))) :=
    fun j hj hn => hcp _ ((neighbour_cases mesh hm k j hk hj).resolve_left hn).1
  unfold crossingFraction OppositeSign
  refine ⟨?_, ?_, ?_, ?_⟩
  · by_cases hn : toInt (mesh.neighbours k 0) = -1
    · rw [if_neg (fun h => h.1 hn), if_neg (fun h => by have := q0 hn; linarith [h.1])]
    · rw [hcp k hk, hval 0 (by norm_num) hn, p0 hn]
      by_cases hc : 0 < phi k ∧ phi k < 1
      · rw [if_pos ⟨hn, Or.inr ⟨hc.1, by linarith [hc.2]⟩⟩, if_pos hc]
        congr 1
        rw [show phi k - (phi k - 1) = 1 by ring, div_one]
      · rw [if_neg, if_neg hc]
        rintro ⟨_, h | h⟩
        · linarith [h.1, h.2]
        · exact hc ⟨h.1, by linarith [h.2]⟩
  · by_cases hn : toInt (mesh.neighbours k 1) = -1
    · rw [if_neg (fun h => h.1 hn), if_neg (fun h => by have := q1 hn; linarith [h.1])]
    · rw [hcp k hk, hval 1 (by norm_num) hn, p1 hn]
      by_cases hc : phi k < 0 ∧ -1 < phi k
      · rw [if_pos ⟨hn, Or.inl ⟨hc.1, by linarith [hc.2]⟩⟩, if_pos hc]
        congr 1
        rw [show phi k - (phi k + 1) = -1 by ring, div_neg, div_one]
      · rw [if_neg, if_neg hc]
        rintro ⟨_, h | h⟩
        · exact hc ⟨h.1, by linarith [h.2]⟩
        · linarith [h.1, h.2]
  · rw [if_neg]
    rintro ⟨hn, h⟩
    rw [hcp k hk, hval 2 (by norm_num) hn, p2 hn] at h
    rcases h with h | h <;> linarith [h.1, h.2]
  · rw [if_neg]
    rintro ⟨hn, h⟩
    rw [hcp k hk, hval 3 (by norm_num) hn, p3 hn] at h
    rcases h with h | h <;> linarith [h.1, h.2]

/-- The state left by `initialiseFrozen` on a planar field: distances and
snapshot are the field, the nodes less than one unit from the zero level are
FROZEN and the others are NONE. -/
theorem plane_frozen (C : Numerics α) (hC : C.Exact) (mesh : Mesh) (hm : mesh.Valid)
    (phi : Nat → α) (hp : Planar C mesh phi) :
    ∃ s1, initialiseFrozen C mesh (loadedState phi) = .ok s1 ∧
      (∀ k, k < mesh.nNodes → s1.signedDistance k = phi k ∧ s1.signedDistanceCopy k = phi k) ∧
      (∀ k, k < mesh.nNodes → s1.nodeStatus k = if |phi k| < 1 then .FROZEN else .NONE) ∧
      s1.isVelocity = false := by
  obtain ⟨r, hbp, he⟩ := initialiseFrozen_eq C mesh (loadedState phi)
  obtain ⟨z1, _, z3, _, _, _, z7, _, z9, z10⟩ := zeroPass_spec mesh (loadedState phi)
  obtain ⟨b1, b2, _, _, _, _, b7, b8, _, b10⟩ := hbp
  generalize (zeroPass mesh (loadedState phi)).1 = z at *
  have hcp : ∀ k, k < mesh.nNodes → z.signedDistanceCopy k = phi k := fun k hk => by
    rw [z7 k, if_pos hk]; rfl
  have hzs : ∀ k, k < mesh.nNodes → z.nodeStatus k = if phi k = 0 then .FROZEN else .NONE := by
    intro k hk
    rw [z9 k]
    by_cases h0 : phi k = 0
    · rw [if_pos ⟨hk, fun h => FMM_NodeStatus.noConfusion h, h0⟩, if_pos h0]
    · rw [if_neg (fun h => h0 h.2.2), if_neg h0]; rfl
  have hbord : ∀ k, k < mesh.nNodes →
      (IsBorder mesh z k ↔ phi k ≠ 0 ∧ |phi k| < 1) := by
    intro k hk
    obtain ⟨f0, f1, f2, f3⟩ := plane_fraction C mesh hm phi hp _ hcp k hk
    unfold IsBorder
    rw [isBorder_iff, hasCrossing_iff, hzs k hk]
    have e0 : (axisFraction mesh z.signedDistanceCopy k 0).isSome = true ↔
        (0 < phi k ∧ phi k < 1) ∨ (phi k < 0 ∧ -1 < phi k) := by
      unfold axisFraction
      simp only [Nat.mul_zero, Nat.zero_add, List.filterMap_cons, List.filterMap_nil, f0, f1]
      by_cases c0 : 0 < phi k ∧ phi k < 1 <;> by_cases c1 : phi k < 0 ∧ -1 < phi k <;>
        simp [c0, c1, smallest]
    have e1 : (axisFraction mesh z.signedDistanceCopy k 1).isSome = true ↔ False := by
      unfold axisFraction
      simp [f2, f3, smallest]
    rw [e0, e1]
    constructor
    · rintro ⟨_, (h | h) | h⟩
      · exact ⟨ne_of_gt h.1, abs_lt.2 ⟨by linarith [h.1], h.2⟩⟩
      · exact ⟨ne_of_lt h.1, abs_lt.2 ⟨h.2, by linarith [h.1]⟩⟩
      · exact absurd h id
    · rintro ⟨h0, hlt⟩
      rw [if_neg h0]
      refine ⟨rfl, Or.inl ?_⟩
      rcases lt_or_gt_of_ne h0 with h | h
      · exact Or.inr ⟨h, (abs_lt.1 hlt).1⟩
      · exact Or.inl ⟨h, (abs_lt.1 hlt).2⟩
  have h0 : r.2 > 0 := by
    rcases Nat.eq_zero_or_pos r.2 with h | h
    · exfalso
      obtain ⟨i0, hi0, hlt⟩ := hp.2.1
      obtain ⟨hz0, hnb⟩ := b10.1 h
      by_cases hphi : phi i0 = 0
      · exact (z10.1 hz0) i0 hi0 ⟨fun h => FMM_NodeStatus.noConfusion h, hphi⟩
      · exact hnb i0 hi0 ((hbord i0 hi0).2 ⟨hphi, hlt⟩)
    · exact h
  refine ⟨r.1, by rw [he]; simp [h0], fun k hk => ⟨?_, by rw [b2]; exact hcp k hk⟩, ?_,
    by rw [b1, z3]; rfl⟩
  · rw [b8 k]
    by_cases hb : IsBorder mesh z k
    · rw [if_pos ⟨hk, hb⟩]
      obtain ⟨hne0, hlt⟩ := (hbord k hk).1 hb
      obtain ⟨f0, f1, f2, f3⟩ := plane_fraction C mesh hm phi hp _ hcp k hk
      unfold borderDistance
      rw [distSum_eq, hcp k hk]
      rcases lt_or_gt_of_ne hne0 with h | h
      · have c1 : phi k < 0 ∧ -1 < phi k := ⟨h, (abs_lt.1 hlt).1⟩
        have c0 : ¬ (0 < phi k ∧ phi k < 1) := fun hc => by linarith [hc.1]
        rw [if_pos c1] at f1
        rw [if_neg c0] at f0
        rw [inverseSquare_single mesh _ k 1 (by norm_num) _ f1 (fun j hj hj1 => by
          interval_cases j
          · exact f0
          · exact absurd rfl hj1
          · exact f2
          · exact f3), if_pos h]
        rw [sqrt_unique C hC _ (-phi k) (by linarith)]
        · ring
        · have : phi k ≠ 0 := hne0
          field_simp
          ring
      · have c0 : 0 < phi k ∧ phi k < 1 := ⟨h, (abs_lt.1 hlt).2⟩
        have c1 : ¬ (phi k < 0 ∧ -1 < phi k) := fun hc => by linarith [hc.1]
        rw [if_pos c0] at f0
        rw [if_neg c1] at f1
        rw [inverseSquare_single mesh _ k 0 (by norm_num) _ f0 (fun j hj hj0 => by
          interval_cases j
          · exact absurd rfl hj0
          · exact f1
          · exact f2
          · exact f3), if_neg (by linarith)]
        rw [sqrt_unique C hC _ (phi k) (by linarith)]
        have : phi k ≠ 0 := hne0
        field_simp
        ring
    · rw [if_neg (fun h => hb h.2), z1]
      rfl
  · intro k hk
    rw [b7 k]
    by_cases hb : IsBorder mesh z k
    · rw [if_pos ⟨hk, hb⟩, if_pos ((hbord k hk).1 hb).2]
    · rw [if_neg (fun h => hb h.2), hzs k hk]
      by_cases hphi : phi k = 0
      · rw [if_pos hphi, if_pos (by rw [hphi]; simp)]
      · rw [if_neg hphi, if_neg (fun hlt => hb ((hbord k hk).2 ⟨hphi, hlt⟩))]
/-- The state in which `solve` starts on a planar field: the invariant of the
main loop holds, and the band next to the FROZEN nodes is TRIAL. -/
theorem plane_initial (C : Numerics α) (hC : C.Exact) (he0 : 0 ≤ C.doubleEpsilon)
    (he1 : C.doubleEpsilon < 1) (mesh : Mesh) (hm : mesh.Valid) (phi : Nat → α)
    (hp : Planar C mesh phi) :
    ∃ s1, initialiseFrozen C mesh (loadedState phi) = .ok s1 ∧
      PlaneInv mesh phi (initialiseTrial C mesh (initialiseHeap mesh s1)) ∧
      PlaneFull mesh phi (initialiseTrial C mesh (initialiseHeap mesh s1)) := by
  obtain ⟨s1, e1, hd, hst, hv⟩ := plane_frozen C hC mesh hm phi hp
  refine ⟨s1, e1, ?_⟩
  obtain ⟨i1, i2, i3, i4, i5, _⟩ := initialiseHeap_inv mesh s1
  obtain ⟨k1, _, _, k4⟩ := initialiseTrial_relaxes C mesh (initialiseHeap mesh s1)
  obtain ⟨_, a2, a3⟩ := k1 i1
  obtain ⟨⟨t1, _, t3, t4, t5⟩, _⟩ := initialiseTrial_spec C mesh s1
  have hcopy : (initialiseHeap mesh s1).signedDistanceCopy = s1.signedDistanceCopy := rfl
  have hnt : ∀ i, i < mesh.nNodes → s1.nodeStatus i ≠ .TRIAL := by
    intro i hi
    rw [hst i hi]
    split_ifs <;> decide
  have hlev : PlaneLevel mesh phi (initialiseHeap mesh s1) := by
    refine ⟨fun i hi => ⟨by rw [i4]; exact (hd i hi).1, by rw [hcopy]; exact (hd i hi).2⟩, ?_, ?_⟩
    · intro i j hi hj hf hle
      rw [i3] at hf ⊢
      rw [hst i hi] at hf
      rw [hst j hj]
      by_cases hlt : |phi i| < 1
      · rw [if_pos (lt_of_le_of_lt hle hlt)]
      · rw [if_neg hlt] at hf
        exact absurd hf (by decide)
    · intro i hi hlt
      rw [i3, hst i hi, if_pos hlt]
  generalize initialiseHeap mesh s1 = h at *
  generalize initialiseTrial C mesh h = r at *
  have hfz : ∀ k, k < mesh.nNodes → (h.nodeStatus k = .FROZEN ↔ |phi k| < 1) := by
    intro k hk
    rw [i3, hst k hk]
    by_cases hlt : |phi k| < 1
    · simp [hlt]
    · simp [hlt]
  have hnone : ∀ k, k < mesh.nNodes → ¬ |phi k| < 1 → h.nodeStatus k = .NONE := by
    intro k hk hlt
    rw [i3, hst k hk, if_neg hlt]
  have hup : ∀ k, k < mesh.nNodes → h.nodeStatus k = .NONE → HasFrozenNeighbour mesh h k →
      updateNode C mesh h k = phi k ∧
      ∃ j, j < mesh.nNodes ∧ h.nodeStatus j = .FROZEN ∧ |phi k| ≤ |phi j| + 1 := by
    intro k hk hn ⟨j, hj, hnb, hf⟩
    obtain ⟨n1, _, _, n4⟩ := plane_neighbour C mesh hm phi hp k j hk hj hnb
    have hex : ∃ j, j < mesh.nNodes ∧ h.nodeStatus j = .FROZEN ∧ |phi k| ≤ |phi j| + 1 :=
      ⟨_, n1, hf, n4⟩
    exact ⟨plane_stencil C hC he0 he1 mesh hm phi hp h hlev k hk
      (by rw [hn]; decide) hex, hex⟩
  have hfr : ∀ k, r.nodeStatus k = .FROZEN ↔ h.nodeStatus k = .FROZEN := by
    intro k
    rw [t3 k]
    by_cases hc : k < mesh.nNodes ∧ h.nodeStatus k = .NONE ∧ HasFrozenNeighbour mesh h k
    · rw [if_pos hc, hc.2.1]
      constructor <;> intro hh <;> exact absurd hh (by decide)
    · rw [if_neg hc]
  refine ⟨⟨⟨fun i hi => ⟨?_, by rw [t1]; exact (hlev.1 i hi).2⟩, ?_, ?_⟩, ?_, ?_, a2, a3 (i2 hnt),
    ?_, by rw [k4, i5, hv]⟩, ?_⟩
  · rw [t4 i]
    by_cases hc : i < mesh.nNodes ∧ h.nodeStatus i = .NONE ∧ HasFrozenNeighbour mesh h i
    · rw [if_pos hc]
      exact (hup i hi hc.2.1 hc.2.2).1
    · rw [if_neg hc]
      exact (hlev.1 i hi).1
  · intro i j hi hj hf hle
    rw [hfr] at hf ⊢
    exact hlev.2.1 i j hi hj hf hle
  · intro i hi hlt
    rw [hfr]
    exact hlev.2.2 i hi hlt
  · intro i hi
    rw [t3 i]
    split_ifs
    · decide
    · rw [i3, hst i hi]
      split_ifs <;> decide
  · intro i hi htr
    rw [t3 i] at htr
    by_cases hc : i < mesh.nNodes ∧ h.nodeStatus i = .NONE ∧ HasFrozenNeighbour mesh h i
    · obtain ⟨_, j, hj, hf, hle⟩ := hup i hi hc.2.1 hc.2.2
      exact ⟨j, hj, (hfr j).2 hf, hle⟩
    · rw [if_neg hc] at htr
      exact absurd htr (by rw [i3]; exact hnt i hi)
  · intro e he
    have hmem : e.key ∈ (r.heap.entries.filter (fun x => decide (x.address = e.address))).map
        (fun x => x.key) :=
      List.mem_map.2 ⟨e, List.mem_filter.2 ⟨he, by simp⟩, rfl⟩
    rw [t5 e.address] at hmem
    by_cases hc : e.address < mesh.nNodes ∧ h.nodeStatus e.address = .NONE ∧
        HasFrozenNeighbour mesh h e.address
    · rw [if_pos hc, List.mem_singleton] at hmem
      rw [hmem, (hup _ hc.1 hc.2.1 hc.2.2).1]
    · rw [if_neg hc] at hmem
      exact absurd hmem (List.not_mem_nil _)
  · intro i j hi hj hf hle
    have hj1 : |phi j| < 1 := (hfz j hj).1 ((hfr j).1 hf)
    by_cases hlt : |phi i| < 1
    · exact Or.inl ((hfr i).2 ((hfz i hi).2 hlt))
    · right
      obtain ⟨x, _, ji, hx, _, hji, hxe, _, _, hnb, hix⟩ :=
        plane_toward C mesh hm phi hp i hi (not_lt.1 hlt)
      rw [t3 i, if_pos]
      refine ⟨hi, hnone i hi hlt, ji, hji, hnb, ?_⟩
      rw [hix]
      exact (hfz x hx).2 (by rw [hxe]; linarith)

/-- On a planar field `march` returns, and it returns the field. -/
theorem plane_march (C : Numerics α) (hC : C.Exact) (he0 : 0 ≤ C.doubleEpsilon)
    (he1 : C.doubleEpsilon < 1) (mesh : Mesh) (hm : mesh.Valid) (phi : Nat → α)
    (hp : Planar C mesh phi) (fuel : Nat) (hfuel : mesh.nNodes ≤ fuel) :
    (march C mesh fuel FastMarchingMethod.new phi).holds
      (fun t => ∀ i, i < mesh.nNodes → t.signedDistance i = phi i) := by
  rw [march_loaded]
  obtain ⟨s1, e1, hinv, hfull⟩ := plane_initial C hC he0 he1 mesh hm phi hp
  obtain ⟨m1, m2, _⟩ := marchBody_spec C mesh hm fuel hfuel (loadedState phi)
  have hclean : (marchBody C mesh fuel (loadedState phi)).clean false := by
    rcases m2 with hnf | hcl
    · rw [m1.1 hnf] at e1; exact absurd e1 (by simp)
    · exact hcl
  apply holds_of_clean_false _ _ hclean
  intro t ht
  unfold marchBody at ht
  rw [e1] at ht
  simp only [Outcome.bind] at ht
  exact fun i hi => ((plane_solve C hC he0 he1 mesh hm phi hp fuel _ hinv hfull t ht).1.1 i hi).1
/-- The `unsigned int` entry `v` of a neighbour list, read as `int` and used as
a subscript, is `v` again when it is below `2 ^ 31`. -/
theorem toInt_small (v : Nat) (hv : v < 2 ^ 31) : toInt v ≠ -1 ∧ idx (toInt v) = v := by
  have e1 : v % 2 ^ 32 = v := Nat.mod_eq_of_lt (by omega)
  have e2 : toInt v = (v : Int) := by
    unfold toInt; rw [e1, if_pos hv]
  rw [e2]
  refine ⟨by omega, ?_⟩
  unfold idx; omega

/-- A number between 0 and `w` has a natural number less than one unit away. -/
theorem column_near (c : α) (hc0 : 0 < c) (w : Nat) (hcw : c < w) :
    ∃ y : Nat, y < w ∧ (y : α) ≤ c ∧ c < y + 1 := by
  induction w with
  | zero =>
    exfalso
    rw [Nat.cast_zero] at hcw
    exact lt_asymm hc0 hcw
  | succ n ih =>
    by_cases h : c < n
    · obtain ⟨y, hy, h1, h2⟩ := ih h
      exact ⟨y, Nat.lt_succ_of_lt hy, h1, h2⟩
    · refine ⟨n, Nat.lt_succ_self n, not_lt.1 h, ?_⟩
      rw [Nat.cast_succ] at hcw
      exact hcw

/-- The columns of the neighbours of a node of the grid. -/
theorem column_steps (w i : Nat) :
    (i % (w + 1) ≠ 0 → (i - 1) % (w + 1) + 1 = i % (w + 1)) ∧
    (i % (w + 1) ≠ w → (i + 1) % (w + 1) = i % (w + 1) + 1) ∧
    (i / (w + 1) ≠ 0 → (i - (w + 1)) % (w + 1) = i % (w + 1)) ∧
    (i + (w + 1)) % (w + 1) = i % (w + 1) := by
  have hlt : i % (w + 1) < w + 1 := Nat.mod_lt _ (Nat.succ_pos w)
  have hdm : (w + 1) * (i / (w + 1)) + i % (w + 1) = i := Nat.div_add_mod i (w + 1)
  refine ⟨fun h0 => ?_, fun hw => ?_, fun hd => ?_, Nat.add_mod_right i (w + 1)⟩
  · have e : i - 1 = (w + 1) * (i / (w + 1)) + (i % (w + 1) - 1) := by omega
    rw [e, Nat.mul_add_mod, Nat.mod_eq_of_lt (by omega)]
    omega
  · have e : i + 1 = (w + 1) * (i / (w + 1)) + (i % (w + 1) + 1) := by omega
    rw [e, Nat.mul_add_mod, Nat.mod_eq_of_lt (by omega)]
  · have hge : w + 1 ≤ i := by
      by_contra hlt2
      exact hd (Nat.div_eq_of_lt (not_le.1 hlt2))
    have e : i = (i - (w + 1)) + (w + 1) := by omega
    conv_rhs => rw [e, Nat.add_mod_right]

/-- The field `x - c` on a grid whose width exceeds `c > 0` is planar along the
first axis. -/
theorem grid_planar (C : Numerics α) (w h : Nat) (hsize : (w + 1) * (h + 1) < 2 ^ 31) (c : α)
    (hc0 : 0 < c) (hcw : c < w) (hmax : (w : α) ≤ C.maxDouble) :
    Planar C (gridMesh noNeighbour w h) (planeField w c) := by
  have hn : (gridMesh noNeighbour w h).nNodes = (w + 1) * (h + 1) := rfl
  have hcol : ∀ i : Nat, ((i % (w + 1) : Nat) : α) ≤ w := fun i =>
    Nat.cast_le.2 (Nat.lt_succ_iff.1 (Nat.mod_lt _ (Nat.succ_pos w)))
  refine ⟨fun i _ => ?_, ?_, fun i hi => ?_⟩
  · show ((i % (w + 1) : Nat) : α) - c < C.maxDouble
    linarith [hcol i]
  · obtain ⟨y, hy, h1, h2⟩ := column_near c hc0 w hcw
    refine ⟨y, ?_, ?_⟩
    · rw [hn]
      calc y < w + 1 := Nat.lt_succ_of_lt hy
        _ ≤ (w + 1) * (h + 1) := Nat.le_mul_of_pos_right _ (Nat.succ_pos h)
    · show |((y % (w + 1) : Nat) : α) - c| < 1
      rw [Nat.mod_eq_of_lt (Nat.lt_succ_of_lt hy), abs_lt]
      constructor <;> linarith
  · rw [hn] at hi
    obtain ⟨c0, c1, c2, c3⟩ := column_steps w i
    have e0 : (gridMesh noNeighbour w h).neighbours i 0 =
        if i % (w + 1) = 0 then noNeighbour else i - 1 := rfl
    have e1 : (gridMesh noNeighbour w h).neighbours i 1 =
        if i % (w + 1) = w then noNeighbour else i + 1 := rfl
    have e2 : (gridMesh noNeighbour w h).neighbours i 2 =
        if i / (w + 1) = 0 then noNeighbour else i - (w + 1) := rfl
    have e3 : (gridMesh noNeighbour w h).neighbours i 3 =
        if i / (w + 1) = h then noNeighbour else i + (w + 1) := rfl
    have hv := (gridMesh_valid w h hsize).2 i hi
    have hin : ∀ j, j < 4 → toInt ((gridMesh noNeighbour w h).neighbours i j) ≠ -1 →
        (gridMesh noNeighbour w h).neighbours i j < 2 ^ 31 := by
      intro j hj hne
      rcases hv j hj with hh | hh
      · rw [hh] at hne
        exact absurd toInt_noNeighbour hne
      · exact lt_trans hh hsize
    have hleft : toInt ((gridMesh noNeighbour w h).neighbours i 0) ≠ -1 →
        i % (w + 1) ≠ 0 ∧ idx (toInt ((gridMesh noNeighbour w h).neighbours i 0)) = i - 1 := by
      intro hne
      have hc : i % (w + 1) ≠ 0 := fun hc => by
        rw [e0, if_pos hc] at hne
        exact hne toInt_noNeighbour
      have := (toInt_small _ (hin 0 (by norm_num) hne)).2
      rw [e0, if_neg hc] at this
      rw [e0, if_neg hc]
      exact ⟨hc, this⟩
    have hright : toInt ((gridMesh noNeighbour w h).neighbours i 1) ≠ -1 →
        i % (w + 1) ≠ w ∧ idx (toInt ((gridMesh noNeighbour w h).neighbours i 1)) = i + 1 := by
      intro hne
      have hc : i % (w + 1) ≠ w := fun hc => by
        rw [e1, if_pos hc] at hne
        exact hne toInt_noNeighbour
      have := (toInt_small _ (hin 1 (by norm_num) hne)).2
      rw [e1, if_neg hc] at this
      rw [e1, if_neg hc]
      exact ⟨hc, this⟩
    refine ⟨fun hm1 => ?_, fun hm1 => ?_, fun hne => ?_, fun hne => ?_, fun hne => ?_,
      fun hne => ?_, fun hne => ?_, fun hne => ?_⟩
    · have hc : i % (w + 1) = 0 := by
        by_contra hc
        rw [e0, if_neg hc] at hm1
        exact (toInt_small _ (by omega)).1 hm1
      show ((i % (w + 1) : Nat) : α) - c < 0
      rw [hc, Nat.cast_zero]
      linarith
    · have hc : i % (w + 1) = w := by
        by_contra hc
        have hlt : i + 1 < 2 ^ 31 := by
          rcases hv 1 (by norm_num) with hh | hh
          · rw [e1, if_neg hc] at hh
            unfold noNeighbour at hh
            omega
          · rw [e1, if_neg hc] at hh
            exact lt_trans hh hsize
        rw [e1, if_neg hc] at hm1
        exact (toInt_small _ hlt).1 hm1
      show 0 < ((i % (w + 1) : Nat) : α) - c
      rw [hc]
      linarith
    · obtain ⟨hc, hidx⟩ := hleft hne
      rw [hidx]
      show (((i - 1) % (w + 1) : Nat) : α) - c = ((i % (w + 1) : Nat) : α) - c - 1
      rw [← c0 hc, Nat.cast_add, Nat.cast_one]
      ring
    · obtain ⟨hc, hidx⟩ := hright hne
      rw [hidx]
      show (((i + 1) % (w + 1) : Nat) : α) - c = ((i % (w + 1) : Nat) : α) - c + 1
      rw [c1 hc, Nat.cast_add, Nat.cast_one]
      ring
    · have hc : i / (w + 1) ≠ 0 := fun hc => by
        rw [e2, if_pos hc] at hne
        exact hne toInt_noNeighbour
      have := (toInt_small _ (hin 2 (by norm_num) hne)).2
      rw [e2, if_neg hc] at this
      rw [e2, if_neg hc, this]
      show (((i - (w + 1)) % (w + 1) : Nat) : α) - c = ((i % (w + 1) : Nat) : α) - c
      rw [c2 hc]
    · have hc : i / (w + 1) ≠ h := fun hc => by
        rw [e3, if_pos hc] at hne
        exact hne toInt_noNeighbour
      have := (toInt_small _ (hin 3 (by norm_num) hne)).2
      rw [e3, if_neg hc] at this
      rw [e3, if_neg hc, this]
      show (((i + (w + 1)) % (w + 1) : Nat) : α) - c = ((i % (w + 1) : Nat) : α) - c
      rw [c3]
    · obtain ⟨hc, hidx⟩ := hleft hne
      rw [hidx]
      have hcol1 : (i - 1) % (w + 1) ≠ w := by
        have := c0 hc
        have hlt : i % (w + 1) < w + 1 := Nat.mod_lt _ (Nat.succ_pos w)
        omega
      have hi0 : 0 < i := by
        rcases Nat.eq_zero_or_pos i with hz | hz
        · rw [hz] at hc
          exact absurd (Nat.zero_mod _) hc
        · exact hz
      have eq : (gridMesh noNeighbour w h).neighbours (i - 1) 1 = i := by
        show (if (i - 1) % (w + 1) = w then noNeighbour else i - 1 + 1) = i
        rw [if_neg hcol1]
        omega
      rw [eq]
      exact toInt_small i (by omega)
    · obtain ⟨hc, hidx⟩ := hright hne
      rw [hidx]
      have hcol1 : (i + 1) % (w + 1) ≠ 0 := by
        rw [c1 hc]
        omega
      have eq : (gridMesh noNeighbour w h).neighbours (i + 1) 0 = i := by
        show (if (i + 1) % (w + 1) = 0 then noNeighbour else i + 1 - 1) = i
        rw [if_neg hcol1]
        omega
      rw [eq]
      exact toInt_small i (by omega)

/-- C21 (the planar case): in exact arithmetic, `march` on a fresh solver
reproduces the axis-aligned planar field `distance(x, y) = x - c` on every grid
whose width exceeds `c > 0`. The square root is exact, `doubleEpsilon` lies in
`[0, 1)`, `maxDouble` is at least the width, the grid has fewer than `2 ^ 31`
nodes and the main loop has fuel for one pass per node: then `march` returns,
and the distance it leaves at every node of the grid is the value of the input
field at that node. -/
theorem march_reproduces_plane (C : Numerics α) (hC : C.Exact) (he0 : 0 ≤ C.doubleEpsilon)
    (he1 : C.doubleEpsilon < 1) (w h : Nat) (hsize : (w + 1) * (h + 1) < 2 ^ 31) (c : α)
    (hc0 : 0 < c) (hcw : c < w) (hmax : (w : α) ≤ C.maxDouble) (fuel : Nat)
    (hfuel : (w + 1) * (h + 1) ≤ fuel) :
    ∃ t, march C (gridMesh noNeighbour w h) fuel FastMarchingMethod.new (planeField w c) = .ok t ∧
      ∀ i, i < (w + 1) * (h + 1) → t.signedDistance i = planeField w c i :=
  holds_ok _ _ (plane_march C hC he0 he1 (gridMesh noNeighbour w h) (gridMesh_valid w h hsize)
    (planeField w c) (grid_planar C w h hsize c hc0 hcw hmax) fuel hfuel)

/-- The planar case on the grid of 4 x 3 nodes, for `c = 3 / 2`, over the real
numbers. -/
theorem march_reproduces_plane_witness :
    ∃ t, march (⟨Real.sqrt, 2 ^ 1023, 1 / 2 ^ 52⟩ : Numerics ℝ) (gridMesh noNeighbour 3 2) 12
        FastMarchingMethod.new (planeField 3 (3 / 2 : ℝ)) = .ok t ∧
      ∀ i, i < (3 + 1) * (2 + 1) → t.signedDistance i = planeField 3 (3 / 2 : ℝ) i :=
  march_reproduces_plane _ (exact_real _ _) (by norm_num) (by norm_num) 3 2 (by norm_num)
    (3 / 2) (by norm_num) (by norm_num) (by norm_num) 12 (by norm_num)
/-- C21 (counterexample). On the grid of 2 x 2 nodes, `march` on a fresh solver
does not reproduce the signed distance to the line `3 x + 4 y = 1 / 2`: node 1
enters with its distance `1/2` to the line and leaves with `5/6`, its distance
to the crossing along the x axis. Nor does `march` reproduce a field that
`march` itself has returned: the input `1, -2/3, -1/4, -1` gives
`12/25, -2/5, -1/5, -1`, and on that field as input node 1 leaves with `-5/11`.
(Every square root taken for the values named here is that of the square of a
rational number, so it is exact.) -/
theorem march_changes_field :
    ((List.range 4).map obliqueField = [-1 / 10, 1 / 2, 7 / 10, 13 / 10] ∧
      (march bisectNumerics (gridMesh noNeighbour 1 1) 4 FastMarchingMethod.new
        obliqueField).holds
        (fun t => t.signedDistance 1 = 5 / 6 ∧ t.signedDistance 1 ≠ obliqueField 1)) ∧
    (march bisectNumerics (gridMesh noNeighbour 1 1) 4 FastMarchingMethod.new
      (fieldOf [1, -2 / 3, -1 / 4, -1])).holds
      (fun t => ∀ i, i < 4 → t.signedDistance i = fieldOf marchedField i) ∧
    (march bisectNumerics (gridMesh noNeighbour 1 1) 4 FastMarchingMethod.new
      (fieldOf marchedField)).holds
      (fun t => t.signedDistance 1 = -5 / 11 ∧ t.signedDistance 1 ≠ fieldOf marchedField 1) := by
  refine ⟨⟨by decide!, by decide!⟩, by decide!, by decide!⟩

end Proofs

end SLSM
